import Mathlib

/-!
Rim weighting (raking) engine: `hypercube.go`, `weighting.go`

A shallow embedding of the raking engine of `go-rim-weighting` and the
properties of it that the specification states.

Numbers.

A Go `float64` is modelled by `Flt`: an exact rational, or one of the IEEE-754
special values `+Inf`, `-Inf`, `NaN`.  Finite arithmetic is exact (rounding,
overflow and underflow are not modelled); the special values arise exactly as
in IEEE-754 from a division by zero and propagate as they do there, so the
control flow of the program (every comparison with `NaN` is false) is the one
of the source.  Negative zero is identified with zero: in this program a
divisor is never a negative zero (every divisor is a sum started at `0.0`, a
product of non-negative factors, or a quotient of such), so the identification
loses nothing.

`math.Sqrt x` is kept exactly as its radicand (`Sqrt`), and the only test the
program makes on it, `math.Sqrt x <= t`, is decided on the radicand.

Go `int` values (indices, counters, block sizes) are natural numbers; the
iteration limit is an integer, as a configuration may hold a negative one.

Maps.

A Go map is an association list with pairwise distinct keys, kept in insertion
order.  `for k, v := range m` visits the keys of the list in order and reads the
value the map holds for each key.
-/

namespace Weighting

/-! ## Exact floating point values -/

/-- A float64 value: an exact rational or an IEEE special. -/
inductive Flt where
  | fin (q : ℚ)
  | pinf
  | ninf
  | nan
deriving DecidableEq

namespace Flt

/-- Conversion `float64(n)` of a non-negative Go int. -/
def ofNat (n : Nat) : Flt := fin (n : ℚ)

/-- The result of `x / 0` or `x * Inf` by the sign of the finite operand `x`. -/
def bySign (q : ℚ) (pos neg : Flt) : Flt :=
  if 0 < q then pos else if q < 0 then neg else nan

/-- Float addition `a + b`. -/
def add : Flt → Flt → Flt
  | fin a, fin b => fin (a + b)
  | fin _, pinf => pinf
  | fin _, ninf => ninf
  | pinf, fin _ => pinf
  | pinf, pinf => pinf
  | ninf, fin _ => ninf
  | ninf, ninf => ninf
  | _, _ => nan

/-- Float negation. -/
def neg : Flt → Flt
  | fin a => fin (-a)
  | pinf => ninf
  | ninf => pinf
  | nan => nan

/-- Float subtraction `a - b`. -/
def sub (a b : Flt) : Flt := add a (neg b)

/-- Float multiplication `a * b`. -/
def mul : Flt → Flt → Flt
  | fin a, fin b => fin (a * b)
  | fin a, pinf => bySign a pinf ninf
  | fin a, ninf => bySign a ninf pinf
  | pinf, fin b => bySign b pinf ninf
  | ninf, fin b => bySign b ninf pinf
  | pinf, pinf => pinf
  | ninf, ninf => pinf
  | pinf, ninf => ninf
  | ninf, pinf => ninf
  | _, _ => nan

/-- Float division `a / b`; a zero divisor is a positive zero. -/
def div : Flt → Flt → Flt
  | fin a, fin b => if b = 0 then bySign a pinf ninf else fin (a / b)
  | fin _, pinf => fin 0
  | fin _, ninf => fin 0
  | pinf, fin b => if 0 ≤ b then pinf else ninf
  | ninf, fin b => if 0 ≤ b then ninf else pinf
  | _, _ => nan

/-- The call `math.Pow(x, 2.0)`. -/
def pow2 : Flt → Flt
  | fin a => fin (a * a)
  | pinf => pinf
  | ninf => pinf
  | nan => nan

/-- Float comparison `a < b` (false when an operand is NaN). -/
def lt : Flt → Flt → Bool
  | fin a, fin b => decide (a < b)
  | fin _, pinf => true
  | ninf, fin _ => true
  | ninf, pinf => true
  | _, _ => false

/-- Float comparison `a > b`. -/
def gt (a b : Flt) : Bool := lt b a

/-- Whether the value is a real number. -/
def isFin : Flt → Bool
  | fin _ => true
  | _ => false

instance : Add Flt := ⟨add⟩
instance : Sub Flt := ⟨sub⟩
instance : Mul Flt := ⟨mul⟩
instance : Div Flt := ⟨div⟩

end Flt

/-- The value `math.Sqrt x`, kept exactly by its radicand `x`. -/
structure Sqrt where
  radicand : Flt
deriving DecidableEq

/-- The test `math.Sqrt x <= t` for a finite `t`: the root of a negative
number, of `-Inf` and of `NaN` is `NaN`, the root of `+Inf` is `+Inf`. -/
def Sqrt.le (s : Sqrt) (t : ℚ) : Bool :=
  match s.radicand with
  | Flt.fin q => decide (0 ≤ q) && decide (0 ≤ t) && decide (q ≤ t * t)
  | _ => false

/-! ## Maps as association lists -/

/-- Lookup `m[k]` with its `found` flag. -/
def mapGet? {α β : Type} [DecidableEq α] : List (α × β) → α → Option β
  | [], _ => none
  | (k', v) :: m, k => if k' = k then some v else mapGet? m k

/-- Assignment `m[k] = v`: replaces the entry of `k`, or adds one. -/
def mapSet {α β : Type} [DecidableEq α] : List (α × β) → α → β → List (α × β)
  | [], k, v => [(k, v)]
  | (k', v') :: m, k, v => if k' = k then (k', v) :: m else (k', v') :: mapSet m k v

/-- The keys of a map, in the order a `range` loop of the model visits them. -/
def mapKeys {α β : Type} (m : List (α × β)) : List α := m.map Prod.fst

/-! ## Data model (`weighting.go`) -/

def defaultWeight : Flt := Flt.fin 1
def defaultAdjustment : Flt := Flt.fin 10
def defaultWeightColumn : String := "weight"
def defaultMaxIterations : Int := 50
def defaultUpperWeightCap : ℚ := 5
def defaultLowerWeightCap : ℚ := 3 / 10
def defaultRootMeanSquareError : ℚ := 1 / 1000000

structure Options where
  WeightColumn : String := ""
  MaxIterations : Int := 0
  UpperWeightCap : ℚ := 0
  LowerWeightCap : ℚ := 0
  RootMeanSquareError : ℚ := 0
  Columns : List String := []
  GroupColumn : String := ""
  GoalGroupValue : String := ""
  WorkGroupValue : String := ""
deriving DecidableEq

def NewDefaultOptions : Options :=
  { WeightColumn := defaultWeightColumn
    MaxIterations := defaultMaxIterations
    UpperWeightCap := defaultUpperWeightCap
    LowerWeightCap := defaultLowerWeightCap
    RootMeanSquareError := defaultRootMeanSquareError }

structure Response where
  RespondentID : String
  Values : List (String × String)
deriving DecidableEq

/-- The read `r.Values[col]`: the empty string when the key is absent. -/
def Response.get (r : Response) (col : String) : String :=
  (mapGet? r.Values col).getD ""

structure DimensionValue where
  Index : Nat := 0
  Initial : Nat := 0
  GoalSum : Flt := Flt.fin 0
  WorkSum : Flt := Flt.fin 0
  Ratio : Flt := Flt.fin 0
  Rmse : Flt := Flt.fin 0
  Rmsn : Nat := 0
  Weight : Flt := Flt.fin 0
deriving DecidableEq

structure Dimension where
  Size : Nat := 0
  Initial : Nat := 0
  BlockSize : Nat := 0
  GoalSum : Flt := Flt.fin 0
  WorkSum : Flt := Flt.fin 0
  Rmse : Flt := Flt.fin 0
  Rmsn : Nat := 0
  Values : List (String × DimensionValue) := []
deriving DecidableEq

def Dimension.Adjustment (d : Dimension) : Flt :=
  if Flt.gt d.WorkSum (Flt.fin 0) then d.GoalSum / d.WorkSum else defaultAdjustment

def NewDimension : Dimension := {}

def NewDimensionValue (index : Nat) : DimensionValue :=
  { Index := index, Weight := defaultWeight }

structure Stats where
  GoalRows : Nat := 0
  WorkRows : Nat := 0
  Iterations : Nat := 0
  Rmse : Sqrt := ⟨Flt.fin 0⟩
  AverageWeight : Flt := Flt.fin 0
  DesignEffect : Flt := Flt.fin 0
  EffectiveBaseSize : Flt := Flt.fin 0
  Curbed : Flt := Flt.fin 0
  MinWeight : Flt := Flt.fin 0
  MaxWeight : Flt := Flt.fin 0
  CsvData : String := ""
deriving DecidableEq

structure Result where
  Weights : List (String × Flt)
  Stats : Stats
deriving DecidableEq

/-- The two ways `Weight` fails (both built with `fmt.Errorf` in the source). -/
inductive WeightError where
  | invalidGroupValue (value : String)
  | invalidValue (value column : String)
deriving DecidableEq

/-! ## The engine (`hypercube.go`) -/

structure HyperCube where
  Dimensions : List (String × Dimension) := []
  Stats : Stats := {}
  Initspace : List Flt := []
  Workspace : List Flt := []
  DimValues : List (String × List (String × List Nat)) := []
  WorkRows : List (String × List (String × String)) := []
  Options : Options
deriving DecidableEq

/-- The dereference `hc.Dimensions[col]`. -/
def getDim (dims : List (String × Dimension)) (col : String) : Dimension :=
  (mapGet? dims col).getD NewDimension

/-- The dereference `dim.Values[val]`. -/
def getVal (vals : List (String × DimensionValue)) (val : String) : DimensionValue :=
  (mapGet? vals val).getD {}

def NewGroupedWeighter (ops : Options) : HyperCube :=
  { Options := ops
    Dimensions := ops.Columns.foldl (fun dims c => mapSet dims c NewDimension) []
    DimValues := []
    Stats := { AverageWeight := defaultWeight, MinWeight := defaultWeight,
               MaxWeight := defaultWeight } }

/-- The placeholder `hc.v` for value translations. -/
def v (value : String) : String := value

/-- The body of the loop of `analyzeDimensionsFromResponse` once the dimension
of the column is found: a new value takes the next ordinal. -/
def registerValue (dim : Dimension) (val : String) : Dimension :=
  match mapGet? dim.Values val with
  | some _ => dim
  | none =>
    { dim with Values := mapSet dim.Values val (NewDimensionValue dim.Size)
               Size := dim.Size + 1 }

def analyzeDimensionsFromResponse (hc : HyperCube) (r : Response) : HyperCube :=
  (mapKeys r.Values).foldl
    (fun hc col =>
      match mapGet? hc.Dimensions col with
      | none => hc
      | some dim =>
        { hc with Dimensions := mapSet hc.Dimensions col (registerValue dim (r.get col)) })
    hc

/-- The loop of `configureBlockSize` over the configured columns, from the
running block size. -/
def blockSizes : List String → List (String × Dimension) → Nat →
    List (String × Dimension) × Nat
  | [], dims, blockSize => (dims, blockSize)
  | col :: cols, dims, blockSize =>
    let dim := getDim dims col
    blockSizes cols (mapSet dims col { dim with BlockSize := blockSize })
      (blockSize * dim.Size)

def configureBlockSize (hc : HyperCube) : HyperCube :=
  let res := blockSizes hc.Options.Columns hc.Dimensions 1
  { hc with Dimensions := res.1
            Workspace := List.replicate res.2 (Flt.fin 0)
            WorkRows := [] }

/-- The first loop of `addRow` over the configured columns: the sums of the
values of the row and, for a work row, its cell index. -/
def addRowColumns (isWork : Bool) (r : Response) :
    List String → List (String × Dimension) → Nat →
    Except WeightError (List (String × Dimension) × Nat)
  | [], dims, index => .ok (dims, index)
  | col :: cols, dims, index =>
    let val := v (r.get col)
    let dim := getDim dims col
    match mapGet? dim.Values val with
    | none => .error (.invalidValue val col)
    | some dval =>
      if isWork then
        let dval1 := { dval with Initial := dval.Initial + 1
                                 WorkSum := dval.WorkSum + Flt.fin 1 }
        let dim1 := { dim with Values := mapSet dim.Values val dval1
                               Initial := dim.Initial + 1 }
        addRowColumns isWork r cols (mapSet dims col dim1)
          (index + dval.Index * dim.BlockSize)
      else
        let dval1 := { dval with GoalSum := dval.GoalSum + Flt.fin 1 }
        let dim1 := { dim with Values := mapSet dim.Values val dval1 }
        addRowColumns isWork r cols (mapSet dims col dim1) index

/-- Insertion `set[index] = true` into a set of offsets. -/
def setInsert (s : List Nat) (index : Nat) : List Nat :=
  if index ∈ s then s else s ++ [index]

/-- The second loop of `addRow` for a work row: the membership sets and the
stored raw values of the respondent. -/
def addRowMembership (r : Response) (index : Nat) :
    List String → List (String × List (String × List Nat)) → List (String × String) →
    List (String × List (String × List Nat)) × List (String × String)
  | [], dimValues, target => (dimValues, target)
  | col :: cols, dimValues, target =>
    let byVal := (mapGet? dimValues col).getD []
    let val := v (r.get col)
    let cells := (mapGet? byVal val).getD []
    addRowMembership r index cols
      (mapSet dimValues col (mapSet byVal val (setInsert cells index)))
      (mapSet target col (v (r.get col)))

/-- The body of `addRow` once the group of the row is known. -/
def addRowBody (hc : HyperCube) (r : Response) (isWork : Bool) :
    Except WeightError HyperCube :=
  match addRowColumns isWork r hc.Options.Columns hc.Dimensions 0 with
  | .error e => .error e
  | .ok (dims, index) =>
    if isWork then
      let res := addRowMembership r index hc.Options.Columns hc.DimValues []
      .ok { hc with
            Dimensions := dims
            Stats := { hc.Stats with WorkRows := hc.Stats.WorkRows + 1 }
            Workspace :=
              hc.Workspace.set index (hc.Workspace.getD index (Flt.fin 0) + Flt.fin 1)
            DimValues := res.1
            WorkRows := mapSet hc.WorkRows r.RespondentID res.2 }
    else
      .ok { hc with
            Dimensions := dims
            Stats := { hc.Stats with GoalRows := hc.Stats.GoalRows + 1 } }

def addRow (hc : HyperCube) (r : Response) : Except WeightError HyperCube :=
  let group := r.get hc.Options.GroupColumn
  if group = hc.Options.GoalGroupValue then addRowBody hc r false
  else if group = hc.Options.WorkGroupValue then addRowBody hc r true
  else .error (.invalidGroupValue group)

def curbWeight (ops : Options) (weight : Flt) : Flt × Bool :=
  if Flt.lt weight (Flt.fin ops.LowerWeightCap) then (Flt.fin ops.LowerWeightCap, true)
  else if Flt.gt weight (Flt.fin ops.UpperWeightCap) then (Flt.fin ops.UpperWeightCap, true)
  else (weight, false)


/-- The sum of the cube cells of a membership set, from `0.0`. -/
def sumCells (ws : List Flt) (dv : List Nat) : Flt :=
  dv.foldl (fun s i => s + ws.getD i (Flt.fin 0)) (Flt.fin 0)

/-- The recompute pass of `rakeDimensions` for one column: the loop over the
values `ks` of the column, from the running totals. -/
def recomputePass (ops : Options) (ws : List Flt) (byVal : List (String × List Nat)) :
    List String → List (String × DimensionValue) → Flt → Flt →
    List (String × DimensionValue) × Flt × Flt
  | [], vals, totalGoalSum, totalWorkSum => (vals, totalGoalSum, totalWorkSum)
  | k :: ks, vals, totalGoalSum, totalWorkSum =>
    match mapGet? byVal k with
    | none => recomputePass ops ws byVal ks vals totalGoalSum totalWorkSum
    | some dv =>
      let data := getVal vals k
      let newWorkSum := sumCells ws dv
      let data1 := { data with WorkSum := newWorkSum }
      let data2 :=
        { data1 with Weight := (curbWeight ops (data1.GoalSum / data1.WorkSum)).1 }
      recomputePass ops ws byVal ks (mapSet vals k data2)
        (totalGoalSum + data2.GoalSum) (totalWorkSum + data2.WorkSum)

/-- The floor of the apply pass. -/
def cellFloor : ℚ := 1 / 100000

/-- The inner loop of the apply pass over the cells of one membership set. -/
def scaleCells (weight : Flt) : List Nat → List Flt → Flt → List Flt × Flt
  | [], ws, newWorkSum => (ws, newWorkSum)
  | i :: is, ws, newWorkSum =>
    let c := ws.getD i (Flt.fin 0)
    let c1 := if Flt.lt c (Flt.fin cellFloor) then Flt.fin cellFloor else c
    let c2 := c1 * weight
    scaleCells weight is (ws.set i c2) (newWorkSum + c2)

/-- The apply pass of `rakeDimensions` for one column: the loop over the
values `ks` of the column. -/
def applyPass (ops : Options) (byVal : List (String × List Nat)) (dimAdjust : Flt) :
    List String → List Flt → Dimension → Flt → Nat → List Flt × Dimension × Flt × Nat
  | [], ws, dim, rmse, rmsn => (ws, dim, rmse, rmsn)
  | k :: ks, ws, dim, rmse, rmsn =>
    match mapGet? byVal k with
    | none => applyPass ops byVal dimAdjust ks ws dim rmse rmsn
    | some dv =>
      let data := getVal dim.Values k
      let res := scaleCells data.Weight dv ws (Flt.fin 0)
      let data1 := { data with WorkSum := res.2 / dimAdjust }
      let data2 :=
        { data1 with Weight := (curbWeight ops (data1.GoalSum / data1.WorkSum)).1 }
      let d2 := Flt.pow2 (data2.GoalSum - data2.WorkSum)
      let data3 := { data2 with Rmse := data2.Rmse + d2, Rmsn := data2.Rmsn + 1 }
      let dim1 := { dim with Values := mapSet dim.Values k data3
                             Rmse := dim.Rmse + d2
                             Rmsn := dim.Rmsn + 1 }
      applyPass ops byVal dimAdjust ks res.1 dim1 (rmse + d2) (rmsn + 1)

/-- The state of one sweep of the raking loop: the engine and the locals
`dimAdjust`, `rmse`, `rmsn`. -/
structure Sweep where
  hc : HyperCube
  dimAdjust : Flt
  rmse : Flt
  rmsn : Nat

/-- The body of the loop over the configured columns in `rakeDimensions`. -/
def rakeColumn (st : Sweep) (c : String) : Sweep :=
  let dim := getDim st.hc.Dimensions c
  let byVal := (mapGet? st.hc.DimValues c).getD []
  let rec1 := recomputePass st.hc.Options st.hc.Workspace byVal (mapKeys dim.Values)
    dim.Values (Flt.fin 0) (Flt.fin 0)
  let dim1 := { dim with Values := rec1.1, GoalSum := rec1.2.1, WorkSum := rec1.2.2 }
  let dimAdjust := st.dimAdjust * dim1.Adjustment
  let app := applyPass st.hc.Options byVal dimAdjust (mapKeys dim1.Values)
    st.hc.Workspace dim1 st.rmse st.rmsn
  { hc := { st.hc with Dimensions := mapSet st.hc.Dimensions c app.2.1, Workspace := app.1 }
    dimAdjust := dimAdjust
    rmse := app.2.2.1
    rmsn := app.2.2.2 }

/-- One iteration of the raking loop, up to the convergence test. -/
def rakeIteration (hc : HyperCube) : HyperCube :=
  let hc0 := { hc with Stats := { hc.Stats with MinWeight := defaultWeight
                                                MaxWeight := defaultWeight } }
  let st := hc.Options.Columns.foldl rakeColumn
    { hc := hc0, dimAdjust := Flt.fin 1, rmse := Flt.fin 0, rmsn := 0 }
  { st.hc with Stats := { st.hc.Stats with
                          Iterations := st.hc.Stats.Iterations + 1
                          Rmse := ⟨st.rmse / Flt.ofNat st.rmsn⟩ } }

/-- The test that ends the raking loop. -/
def converged (hc : HyperCube) : Bool :=
  hc.Stats.Rmse.le hc.Options.RootMeanSquareError

/-- The raking loop with `n` iterations left before `iter` reaches
`MaxIterations`. -/
def rakeLoop : Nat → HyperCube → HyperCube
  | 0, hc => hc
  | n + 1, hc =>
    let hc1 := rakeIteration hc
    if converged hc1 then hc1 else rakeLoop n hc1

def rowIndex (hc : HyperCube) (res : List (String × String)) : Nat :=
  hc.Options.Columns.foldl
    (fun index c =>
      let val := v ((mapGet? res c).getD "")
      let dim := getDim hc.Dimensions c
      index + (getVal dim.Values val).Index * dim.BlockSize)
    0

/-- The method `weight`: the flags, the weight, and the engine with the
observed extremes updated. -/
def weight (hc : HyperCube) (responseID : String) : Bool × Bool × Flt × HyperCube :=
  match mapGet? hc.WorkRows responseID with
  | none => (false, false, defaultWeight, hc)
  | some target =>
    let index := rowIndex hc target
    let weight := (hc.Workspace.getD index (Flt.fin 0) * Flt.ofNat hc.Stats.WorkRows) /
      (hc.Initspace.getD index (Flt.fin 0) * Flt.ofNat hc.Stats.GoalRows)
    let stats1 := if Flt.lt weight hc.Stats.MinWeight
      then { hc.Stats with MinWeight := weight } else hc.Stats
    let stats2 := if Flt.gt weight stats1.MaxWeight
      then { stats1 with MaxWeight := weight } else stats1
    let res := curbWeight hc.Options weight
    (true, res.2, res.1, { hc with Stats := stats2 })

/-- The loop of `getWeights` over the respondents `rids` of the registry. -/
def getWeightsLoop : List String → HyperCube → List (String × Flt) →
    List (String × Flt) × HyperCube
  | [], hc, results => (results, hc)
  | rid :: rids, hc, results =>
    let w := weight hc rid
    getWeightsLoop rids w.2.2.2 (mapSet results rid w.2.2.1)

def getWeights (hc : HyperCube) : List (String × Flt) × HyperCube :=
  getWeightsLoop (mapKeys hc.WorkRows) hc []

def getStats (hc : HyperCube) : Stats := hc.Stats

/-- The first loop of `setEffectiveBaseSize`: every work sum back to zero. -/
def resetWorkSums (cols : List String) (dims : List (String × Dimension)) :
    List (String × Dimension) :=
  cols.foldl
    (fun dims col =>
      let dim := getDim dims col
      mapSet dims col
        { dim with WorkSum := Flt.fin 0
                   Values := dim.Values.map
                     (fun kv => (kv.1, { kv.2 with WorkSum := Flt.fin 0 })) })
    dims

/-- The loop over the columns inside the second loop of `setEffectiveBaseSize`. -/
def addWeightToSums (target : List (String × String)) (weight : Flt)
    (cols : List String) (dims : List (String × Dimension)) : List (String × Dimension) :=
  cols.foldl
    (fun dims col =>
      let value := (mapGet? target col).getD ""
      let dim := getDim dims col
      let dim1 := { dim with WorkSum := dim.WorkSum + weight }
      let dv := getVal dim1.Values value
      mapSet dims col
        { dim1 with Values := mapSet dim1.Values value { dv with WorkSum := dv.WorkSum + weight } })
    dims

/-- The locals of `setEffectiveBaseSize`. -/
structure Totals where
  hc : HyperCube
  totalCount : Nat := 0
  curbedCount : Nat := 0
  totalSum : Flt := Flt.fin 0
  totalSum2 : Flt := Flt.fin 0

/-- The body of the second loop of `setEffectiveBaseSize`. -/
def accumulateRow (t : Totals) (rid : String) : Totals :=
  let target := (mapGet? t.hc.WorkRows rid).getD []
  let w := weight t.hc rid
  let hc1 := w.2.2.2
  let dims := addWeightToSums target w.2.2.1 hc1.Options.Columns hc1.Dimensions
  let hc2 := { hc1 with Dimensions := dims }
  if w.1 then
    { hc := hc2
      totalCount := t.totalCount + 1
      curbedCount := if w.2.1 then t.curbedCount + 1 else t.curbedCount
      totalSum := t.totalSum + w.2.2.1
      totalSum2 := t.totalSum2 + Flt.pow2 w.2.2.1 }
  else { t with hc := hc2 }

def setEffectiveBaseSize (hc : HyperCube) : HyperCube :=
  let hc0 := { hc with Dimensions := resetWorkSums hc.Options.Columns hc.Dimensions }
  let t := (mapKeys hc0.WorkRows).foldl accumulateRow { hc := hc0 }
  let grandSum := t.totalSum + Flt.ofNat t.hc.Stats.GoalRows
  let grandSum2 := t.totalSum2 + Flt.ofNat t.hc.Stats.GoalRows
  let grandCount := t.totalCount + t.hc.Stats.GoalRows
  { t.hc with Stats := { t.hc.Stats with
      AverageWeight := t.totalSum / Flt.ofNat t.totalCount
      DesignEffect := Flt.ofNat grandCount * (grandSum2 / Flt.pow2 grandSum)
      EffectiveBaseSize := Flt.pow2 t.totalSum / t.totalSum2
      Curbed := (Flt.fin 100 * Flt.ofNat t.curbedCount) / Flt.ofNat t.totalCount } }

/-- The first two statements of `rakeDimensions`: `Initspace` becomes a copy of
the cube. -/
def snapshot (hc : HyperCube) : HyperCube :=
  { hc with Initspace := hc.Workspace }

def rakeDimensions (hc : HyperCube) : HyperCube :=
  let hc0 := snapshot hc
  setEffectiveBaseSize (rakeLoop hc0.Options.MaxIterations.toNat hc0)

/-- The second loop of `Weight`: `addRow` on every response, stopping at the
first error. -/
def addRows : List Response → HyperCube → Except WeightError HyperCube
  | [], hc => .ok hc
  | r :: rs, hc =>
    match addRow hc r with
    | .error e => .error e
    | .ok hc1 => addRows rs hc1

/-- The discovery pass and the block sizes: `Weight` up to its second loop. -/
def discover (hc : HyperCube) (responses : List Response) : HyperCube :=
  configureBlockSize (responses.foldl analyzeDimensionsFromResponse hc)

/-- The engine after `rakeDimensions`, or the error of `addRow`. -/
def run (hc : HyperCube) (responses : List Response) : Except WeightError HyperCube :=
  match addRows responses (discover hc responses) with
  | .error e => .error e
  | .ok hc1 => .ok (rakeDimensions hc1)

/-- The method `Weight`: the result (its `Stats` is the engine's record, read
after `getWeights` ran) or the error. -/
def Weight (hc : HyperCube) (responses : List Response) : Except WeightError Result :=
  match run hc responses with
  | .error e => .error e
  | .ok hc1 =>
    let res := getWeights hc1
    .ok { Weights := res.1, Stats := getStats res.2 }


deriving instance DecidableEq for Except

/-! ## The classification of a row -/

/-- The row takes the first case of the switch of `addRow`: a goal row. -/
def isGoalRow (ops : Options) (r : Response) : Bool :=
  decide (r.get ops.GroupColumn = ops.GoalGroupValue)

/-- The row takes the second case of the switch of `addRow`: a work row. -/
def isWorkRow (ops : Options) (r : Response) : Bool :=
  decide (r.get ops.GroupColumn ≠ ops.GoalGroupValue) &&
    decide (r.get ops.GroupColumn = ops.WorkGroupValue)

/-! ## The engine under an arbitrary visiting order of its maps

Go visits the keys of a map in an unspecified order that may change from one
`range` statement to the next.  The program ranges over the values of a response
(`analyzeDimensionsFromResponse`), over `Dimension.Values` (both passes of
`rakeDimensions`), over a membership set `DimValues[c][k]` (the inner loops of
both passes) and over the registry `WorkRows` (`setEffectiveBaseSize`,
`getWeights`).  A `Schedule` fixes, for every execution of such a statement, the
order in which the keys are visited; the functions below are the functions above
with the keys visited in that order.  (The one other `range` over a map, the
reset of the work sums in `setEffectiveBaseSize`, writes the same constant to
every entry and is kept as it is.) -/

/-- A visiting order for every `range` over a map: over the values of a response
(by the position of the response), over the values of a column (by iteration
count, column and pass: `false` for the recompute pass, `true` for the apply
pass), over the cells of a membership set (by iteration count, column, pass and
value) and over the registry (by the loop: `false` in `setEffectiveBaseSize`,
`true` in `getWeights`). -/
structure Schedule where
  fields : Nat → List String → List String
  values : Nat → String → Bool → List String → List String
  cells : Nat → String → Bool → String → List Nat → List Nat
  rows : Bool → List String → List String

/-- The schedule only reorders: every order it gives is a permutation of the
keys. -/
def Schedule.Valid (s : Schedule) : Prop :=
  (∀ n l, (s.fields n l).Perm l) ∧
  (∀ n c b l, (s.values n c b l).Perm l) ∧ (∀ n c b k l, (s.cells n c b k l).Perm l) ∧
  (∀ b l, (s.rows b l).Perm l)

/-- The schedule of the model above: every map is visited in the order of its
list. -/
def inOrder : Schedule :=
  { fields := fun _ l => l
    values := fun _ _ _ l => l
    cells := fun _ _ _ _ l => l
    rows := fun _ l => l }

/-- The schedule that visits every map in the reverse order of its list. -/
def reverseOrder : Schedule :=
  { fields := fun _ l => l.reverse
    values := fun _ _ _ l => l.reverse
    cells := fun _ _ _ _ l => l.reverse
    rows := fun _ l => l.reverse }

/-- The schedule that visits the values of a column in the reverse order of the
list, and every other map in the order of its list. -/
def reverseValues : Schedule :=
  { inOrder with values := fun _ _ _ l => l.reverse }

/-- The method `analyzeDimensionsFromResponse` for the response at position `n`,
under a schedule. -/
def analyzeS (s : Schedule) (n : Nat) (hc : HyperCube) (r : Response) : HyperCube :=
  (s.fields n (mapKeys r.Values)).foldl
    (fun hc col =>
      match mapGet? hc.Dimensions col with
      | none => hc
      | some dim =>
        { hc with Dimensions := mapSet hc.Dimensions col (registerValue dim (r.get col)) })
    hc

/-- The first loop of `Weight` from the position `n`, under a schedule. -/
def analyzeAllS (s : Schedule) : Nat → List Response → HyperCube → HyperCube
  | _, [], hc => hc
  | n, r :: rs, hc => analyzeAllS s (n + 1) rs (analyzeS s n hc r)

/-- The discovery pass and the block sizes, `discover`, under a schedule. -/
def discoverS (s : Schedule) (hc : HyperCube) (responses : List Response) : HyperCube :=
  configureBlockSize (analyzeAllS s 0 responses hc)

/-- The membership sets of a column with the cells of each set in the order
`f` gives. -/
def permuteSets (f : String → List Nat → List Nat) (byVal : List (String × List Nat)) :
    List (String × List Nat) :=
  byVal.map (fun kv => (kv.1, f kv.1 kv.2))

/-- The body of the loop over the columns, `rakeColumn`, under a schedule. -/
def rakeColumnS (s : Schedule) (st : Sweep) (c : String) : Sweep :=
  let it := st.hc.Stats.Iterations
  let dim := getDim st.hc.Dimensions c
  let byVal := (mapGet? st.hc.DimValues c).getD []
  let rec1 := recomputePass st.hc.Options st.hc.Workspace
    (permuteSets (s.cells it c false) byVal) (s.values it c false (mapKeys dim.Values))
    dim.Values (Flt.fin 0) (Flt.fin 0)
  let dim1 := { dim with Values := rec1.1, GoalSum := rec1.2.1, WorkSum := rec1.2.2 }
  let dimAdjust := st.dimAdjust * dim1.Adjustment
  let app := applyPass st.hc.Options (permuteSets (s.cells it c true) byVal) dimAdjust
    (s.values it c true (mapKeys dim1.Values)) st.hc.Workspace dim1 st.rmse st.rmsn
  { hc := { st.hc with Dimensions := mapSet st.hc.Dimensions c app.2.1, Workspace := app.1 }
    dimAdjust := dimAdjust
    rmse := app.2.2.1
    rmsn := app.2.2.2 }

/-- One iteration of the raking loop, `rakeIteration`, under a schedule. -/
def rakeIterationS (s : Schedule) (hc : HyperCube) : HyperCube :=
  let hc0 := { hc with Stats := { hc.Stats with MinWeight := defaultWeight
                                                MaxWeight := defaultWeight } }
  let st := hc.Options.Columns.foldl (rakeColumnS s)
    { hc := hc0, dimAdjust := Flt.fin 1, rmse := Flt.fin 0, rmsn := 0 }
  { st.hc with Stats := { st.hc.Stats with
                          Iterations := st.hc.Stats.Iterations + 1
                          Rmse := ⟨st.rmse / Flt.ofNat st.rmsn⟩ } }

/-- The raking loop, `rakeLoop`, under a schedule. -/
def rakeLoopS (s : Schedule) : Nat → HyperCube → HyperCube
  | 0, hc => hc
  | n + 1, hc =>
    let hc1 := rakeIterationS s hc
    if converged hc1 then hc1 else rakeLoopS s n hc1

/-- The statistics pass, `setEffectiveBaseSize`, under a schedule. -/
def setEffectiveBaseSizeS (s : Schedule) (hc : HyperCube) : HyperCube :=
  let hc0 := { hc with Dimensions := resetWorkSums hc.Options.Columns hc.Dimensions }
  let t := (s.rows false (mapKeys hc0.WorkRows)).foldl accumulateRow { hc := hc0 }
  let grandSum := t.totalSum + Flt.ofNat t.hc.Stats.GoalRows
  let grandSum2 := t.totalSum2 + Flt.ofNat t.hc.Stats.GoalRows
  let grandCount := t.totalCount + t.hc.Stats.GoalRows
  { t.hc with Stats := { t.hc.Stats with
      AverageWeight := t.totalSum / Flt.ofNat t.totalCount
      DesignEffect := Flt.ofNat grandCount * (grandSum2 / Flt.pow2 grandSum)
      EffectiveBaseSize := Flt.pow2 t.totalSum / t.totalSum2
      Curbed := (Flt.fin 100 * Flt.ofNat t.curbedCount) / Flt.ofNat t.totalCount } }

/-- The method `rakeDimensions` under a schedule. -/
def rakeDimensionsS (s : Schedule) (hc : HyperCube) : HyperCube :=
  let hc0 := snapshot hc
  setEffectiveBaseSizeS s (rakeLoopS s hc0.Options.MaxIterations.toNat hc0)

/-- The method `getWeights` under a schedule. -/
def getWeightsS (s : Schedule) (hc : HyperCube) : List (String × Flt) × HyperCube :=
  getWeightsLoop (s.rows true (mapKeys hc.WorkRows)) hc []

/-- The method `Weight` under a schedule. -/
def WeightS (s : Schedule) (hc : HyperCube) (responses : List Response) :
    Except WeightError Result :=
  match addRows responses (discoverS s hc responses) with
  | .error e => .error e
  | .ok hc1 =>
    let res := getWeightsS s (rakeDimensionsS s hc1)
    .ok { Weights := res.1, Stats := getStats res.2 }

/-! ## Notions the statements use -/

/-- Two dimension maps index the cube alike: every column has the same size,
block size and values (in the same order) in both, and every value the same
ordinal in both. -/
def sameIndexing (dims dims1 : List (String × Dimension)) : Prop :=
  ∀ col, (getDim dims col).Size = (getDim dims1 col).Size ∧
    (getDim dims col).BlockSize = (getDim dims1 col).BlockSize ∧
    mapKeys (getDim dims col).Values = mapKeys (getDim dims1 col).Values ∧
    ∀ val, (mapGet? (getDim dims col).Values val).map DimensionValue.Index =
      (mapGet? (getDim dims1 col).Values val).map DimensionValue.Index

/-- The ordinals of a dimension are below its size and pairwise distinct. -/
def RegOK (dim : Dimension) : Prop :=
  (∀ val dv, mapGet? dim.Values val = some dv → dv.Index < dim.Size) ∧
  (∀ val val1 dv dv1, mapGet? dim.Values val = some dv → mapGet? dim.Values val1 = some dv1 →
    dv.Index = dv1.Index → val = val1)

/-- The ordinal the dimension map gives the value `val` of the column `c`. -/
def digit (dims : List (String × Dimension)) (c val : String) : Nat :=
  (getVal (getDim dims c).Values val).Index

/-- The cell of a row: the sum over the columns of ordinal times block size. -/
def cellIndex (dims : List (String × Dimension)) (cols : List String) (r : Response) : Nat :=
  (cols.map (fun c => digit dims c (r.get c) * (getDim dims c).BlockSize)).sum

/-- The block sizes of the columns are the strides of a mixed-radix number
whose lowest stride is `b`. -/
def radixOK (dims : List (String × Dimension)) : List String → Nat → Prop
  | [], _ => True
  | c :: cs, b => (getDim dims c).BlockSize = b ∧ radixOK dims cs (b * (getDim dims c).Size)

/-- The product of the sizes of the columns. -/
def cubeSize (dims : List (String × Dimension)) (cols : List String) : Nat :=
  (cols.map (fun c => (getDim dims c).Size)).prod

/-- The read `hc.DimValues[c][k]` with its `found` flag. -/
def cells (dimValues : List (String × List (String × List Nat))) (c k : String) :
    Option (List Nat) :=
  mapGet? ((mapGet? dimValues c).getD []) k

/-- The group value of the row is neither the goal nor the work value. -/
def invalidGroup (ops : Options) (r : Response) : Prop :=
  r.get ops.GroupColumn ≠ ops.GoalGroupValue ∧ r.get ops.GroupColumn ≠ ops.WorkGroupValue

/-- The value of the row for the column `col` (the empty string when the row
has no such key) is not registered in the dimension of `col`. -/
def unregistered (dims : List (String × Dimension)) (r : Response) (col : String) : Prop :=
  mapGet? (getDim dims col).Values (r.get col) = none

/-- Every value of every configured column has goal sum 1 and a membership set
of one cell, which holds 1: each value is carried by one work row and one goal
row, and no two work rows share a cell. -/
def Balanced (hc : HyperCube) : Prop :=
  ∀ c ∈ hc.Options.Columns, ∀ k ∈ mapKeys (getDim hc.Dimensions c).Values,
    (getVal (getDim hc.Dimensions c).Values k).GoalSum = Flt.fin 1 ∧
    ∃ i, cells hc.DimValues c k = some [i] ∧ hc.Workspace.getD i (Flt.fin 0) = Flt.fin 1 ∧
      i < hc.Workspace.length

/-- Two engine states hold the same cube and the same data for the derivation
of the weights; they may differ in the sums and statistics `rakeDimensions`
rewrites. -/
def sameCube (hc hc1 : HyperCube) : Prop :=
  hc.Options = hc1.Options ∧ hc.WorkRows = hc1.WorkRows ∧ hc.Workspace = hc1.Workspace ∧
  hc.Initspace = hc1.Initspace ∧ hc.DimValues = hc1.DimValues ∧
  sameIndexing hc.Dimensions hc1.Dimensions ∧
  hc.Stats.WorkRows = hc1.Stats.WorkRows ∧ hc.Stats.GoalRows = hc1.Stats.GoalRows ∧
  hc.Stats.Iterations = hc1.Stats.Iterations ∧ hc.Stats.Rmse = hc1.Stats.Rmse

/-- The stored values of every respondent of the registry are registered values
of their columns. -/
def RegistryOK (hc : HyperCube) : Prop :=
  ∀ id target, mapGet? hc.WorkRows id = some target →
    ∀ c ∈ hc.Options.Columns,
      (mapGet? target c).getD "" ∈ mapKeys (getDim hc.Dimensions c).Values

/-- Every value a response has for a configured column is carried by exactly one
work row and by exactly one goal row. -/
def onePerValue (ops : Options) (responses : List Response) : Prop :=
  ∀ c ∈ ops.Columns, ∀ r ∈ responses,
    responses.countP (fun r1 => isWorkRow ops r1 && decide (r1.get c = r.get c)) = 1 ∧
    responses.countP (fun r1 => isGoalRow ops r1 && decide (r1.get c = r.get c)) = 1

instance (ops : Options) (responses : List Response) : Decidable (onePerValue ops responses) := by
  unfold onePerValue
  infer_instance

/-- Two engine states agree on everything the raking loop leaves alone: the
options, the registry, the snapshot, the membership sets, the indexing, the row
counts and the size of the cube. -/
def sameFrame (hc hc1 : HyperCube) : Prop :=
  hc.Options = hc1.Options ∧ hc.WorkRows = hc1.WorkRows ∧ hc.Initspace = hc1.Initspace ∧
  hc.DimValues = hc1.DimValues ∧ sameIndexing hc.Dimensions hc1.Dimensions ∧
  hc.Stats.WorkRows = hc1.Stats.WorkRows ∧ hc.Stats.GoalRows = hc1.Stats.GoalRows ∧
  hc.Workspace.length = hc1.Workspace.length

/-- The final weight the method `weight` gives a respondent. -/
def weightOf (hc : HyperCube) (rid : String) : Flt := (weight hc rid).2.2.1

/-- A float sum accumulated from `init` in list order. -/
def fltSum (l : List Flt) (init : Flt) : Flt := l.foldl (fun s x => s + x) init

/-- A cube over the single column `c`: every value `k` of the column has goal
sum `g k`, and either no membership set or the set of the one cell its ordinal
selects, which holds `a k`. -/
def OneColumn (hc : HyperCube) (c : String) (a g : String → ℚ) : Prop :=
  hc.Options.Columns = [c] ∧ RegOK (getDim hc.Dimensions c) ∧
  (mapKeys (getDim hc.Dimensions c).Values).Nodup ∧
  ∀ k ∈ mapKeys (getDim hc.Dimensions c).Values,
    (getVal (getDim hc.Dimensions c).Values k).GoalSum = Flt.fin (g k) ∧
    (cells hc.DimValues c k = none ∨
      (cells hc.DimValues c k = some [digit hc.Dimensions c k] ∧
        hc.Workspace.getD (digit hc.Dimensions c k) (Flt.fin 0) = Flt.fin (a k) ∧
        digit hc.Dimensions c k < hc.Workspace.length))

/-- The number of work rows with the value `k` in the column `c`. -/
def workCount (ops : Options) (rs : List Response) (c k : String) : Nat :=
  rs.countP (fun r => isWorkRow ops r && decide (r.get c = k))

/-- The number of goal rows with the value `k` in the column `c`. -/
def goalCount (ops : Options) (rs : List Response) (c k : String) : Nat :=
  rs.countP (fun r => isGoalRow ops r && decide (r.get c = k))

/-! ## The loops over maps, one key at a time -/

/-- One cell of the inner loop of the apply pass (the body of `scaleCells`). -/
def cellStep (weight : Flt) (z : List Flt × Flt) (i : Nat) : List Flt × Flt :=
  let c := z.1.getD i (Flt.fin 0)
  let c1 := if Flt.lt c (Flt.fin cellFloor) then Flt.fin cellFloor else c
  let c2 := c1 * weight
  (z.1.set i c2, z.2 + c2)

/-- One value of the recompute pass (the body of `recomputePass`). -/
def recStep (ops : Options) (ws : List Flt) (byVal : List (String × List Nat))
    (z : List (String × DimensionValue) × Flt × Flt) (k : String) :
    List (String × DimensionValue) × Flt × Flt :=
  match mapGet? byVal k with
  | none => z
  | some dv =>
    let data := getVal z.1 k
    let newWorkSum := sumCells ws dv
    let data1 := { data with WorkSum := newWorkSum }
    let data2 :=
      { data1 with Weight := (curbWeight ops (data1.GoalSum / data1.WorkSum)).1 }
    (mapSet z.1 k data2, z.2.1 + data2.GoalSum, z.2.2 + data2.WorkSum)

/-- One value of the apply pass (the body of `applyPass`). -/
def appStep (ops : Options) (byVal : List (String × List Nat)) (dimAdjust : Flt)
    (z : List Flt × Dimension × Flt × Nat) (k : String) : List Flt × Dimension × Flt × Nat :=
  match mapGet? byVal k with
  | none => z
  | some dv =>
    let data := getVal z.2.1.Values k
    let res := scaleCells data.Weight dv z.1 (Flt.fin 0)
    let data1 := { data with WorkSum := res.2 / dimAdjust }
    let data2 :=
      { data1 with Weight := (curbWeight ops (data1.GoalSum / data1.WorkSum)).1 }
    let d2 := Flt.pow2 (data2.GoalSum - data2.WorkSum)
    let data3 := { data2 with Rmse := data2.Rmse + d2, Rmsn := data2.Rmsn + 1 }
    let dim1 := { z.2.1 with Values := mapSet z.2.1.Values k data3
                             Rmse := z.2.1.Rmse + d2
                             Rmsn := z.2.1.Rmsn + 1 }
    (res.1, dim1, z.2.2.1 + d2, z.2.2.2 + 1)

/-- The membership sets of two different values of a column share no cell. -/
def SetsDisjoint (dimValues : List (String × List (String × List Nat))) : Prop :=
  ∀ c x y dvx dvy, x ≠ y → cells dimValues c x = some dvx → cells dimValues c y = some dvy →
    ∀ i ∈ dvx, i ∉ dvy

/-- The membership sets `byVal1` are the sets `byVal` up to the order of the
cells of each set. -/
def sameSets (byVal1 byVal : List (String × List Nat)) : Prop :=
  ∀ k, (mapGet? byVal1 k = none ∧ mapGet? byVal k = none) ∨
    ∃ dv1 dv, mapGet? byVal1 k = some dv1 ∧ mapGet? byVal k = some dv ∧ dv1.Perm dv

/-! ## Further notions the statements use -/

/-- The raw (pre-cap) weight of a respondent of the registry: the formula of the
method `weight` at the cell of the stored values of the respondent. -/
def rawWeight (hc : HyperCube) (rid : String) : Flt :=
  let index := rowIndex hc ((mapGet? hc.WorkRows rid).getD [])
  (hc.Workspace.getD index (Flt.fin 0) * Flt.ofNat hc.Stats.WorkRows) /
    (hc.Initspace.getD index (Flt.fin 0) * Flt.ofNat hc.Stats.GoalRows)

/-- The update of `Stats.MinWeight` by one observed weight. -/
def lowest (m w : Flt) : Flt := if Flt.lt w m then w else m

/-- The update of `Stats.MaxWeight` by one observed weight. -/
def highest (m w : Flt) : Flt := if Flt.gt w m then w else m

/-- The values the column `c` takes in the responses, in the order of the
responses: the value of every response that has an entry for `c`. -/
def carried (responses : List Response) (c : String) : List String :=
  (responses.filter (fun r => decide (c ∈ mapKeys r.Values))).map (fun r => r.get c)

/-- A value joins the values seen so far at the end, unless it is among them. -/
def insertNew (seen : List String) (x : String) : List String :=
  if x ∈ seen then seen else seen ++ [x]

/-- The distinct values of a list in the order of their first occurrence. -/
def firstSeen (l : List String) : List String := l.foldl insertNew []

/-- The ordinals of the values of a dimension, in the order of its list. -/
def ordinals (dim : Dimension) : List Nat := dim.Values.map (fun kv => kv.2.Index)

/-- The number of work rows whose cell is `i`. -/
def occupancy (ops : Options) (dims : List (String × Dimension)) (rs : List Response)
    (i : Nat) : Nat :=
  rs.countP (fun r => isWorkRow ops r && decide (cellIndex dims ops.Columns r = i))

/-- The row `r1` has the value of `r` in every column of `cols`. -/
def sameCombination (cols : List String) (r r1 : Response) : Bool :=
  decide (∀ c ∈ cols, r1.get c = r.get c)

/-- The state at the start of a sweep of the raking loop: the locals of the
iteration and the reset of the observed extremes. -/
def sweepStart (hc : HyperCube) : Sweep :=
  { hc := { hc with Stats := { hc.Stats with MinWeight := defaultWeight
                                             MaxWeight := defaultWeight } }
    dimAdjust := Flt.fin 1, rmse := Flt.fin 0, rmsn := 0 }

/-- The dimension of the column `c` after the recompute pass of the column, in
the sweep state `st` (the `dim1` of `rakeColumn`). -/
def recomputed (st : Sweep) (c : String) : Dimension :=
  let dim := getDim st.hc.Dimensions c
  let byVal := (mapGet? st.hc.DimValues c).getD []
  let rec1 := recomputePass st.hc.Options st.hc.Workspace byVal (mapKeys dim.Values)
    dim.Values (Flt.fin 0) (Flt.fin 0)
  { dim with Values := rec1.1, GoalSum := rec1.2.1, WorkSum := rec1.2.2 }

/-- The values of the column `c` that have a membership set: the values some
work row carries. -/
def valuesWithCells (hc : HyperCube) (c : String) (ks : List String) : List String :=
  ks.filter (fun k => (cells hc.DimValues c k).isSome)

/-- The weight `Result.Weights` holds for a respondent (zero when it has none). -/
def finalWeight (res : Result) (id : String) : Flt :=
  (mapGet? res.Weights id).getD (Flt.fin 0)

/-- The raw value the registry stores for the respondent `rid` and the column
`c` (`hc.WorkRows[rid][c]`). -/
def storedValue (hc : HyperCube) (rid c : String) : String :=
  (mapGet? ((mapGet? hc.WorkRows rid).getD []) c).getD ""

/-- The new value of a cell of a membership set in the apply pass: the cell,
raised to the floor `0.00001` if it is below, times the weight of the value. -/
def rescale (weight c : Flt) : Flt :=
  (if Flt.lt c (Flt.fin cellFloor) then Flt.fin cellFloor else c) * weight

/-! ## Concrete inputs -/

/-- One column `D1`, group column `G`, goal `1`, work `2`, default limits. -/
def ops1 : Options :=
  { NewDefaultOptions with
    Columns := ["D1"], GroupColumn := "G", GoalGroupValue := "1", WorkGroupValue := "2" }

/-- One work respondent `a` and one goal respondent `b`, both with `D1 = x`. -/
def rs1 : List Response :=
  [⟨"a", [("D1", "x"), ("G", "2")]⟩, ⟨"b", [("D1", "x"), ("G", "1")]⟩]

/-- The result of `Weight` on `ops1` and `rs1`. -/
def res1 : Result :=
  { Weights := [("a", Flt.fin 1)]
    Stats := { GoalRows := 1, WorkRows := 1, Iterations := 1, AverageWeight := Flt.fin 1,
               DesignEffect := Flt.fin 1, EffectiveBaseSize := Flt.fin 1,
               MinWeight := Flt.fin 1, MaxWeight := Flt.fin 1 } }

/-- The result of `Weight` on `ops1` and the empty response list: the loop runs
to the iteration limit, each time with `0.0 / float64(0)` as mean square. -/
def resEmpty : Result :=
  { Weights := []
    Stats := { Iterations := 50, Rmse := ⟨Flt.nan⟩, AverageWeight := Flt.nan,
               DesignEffect := Flt.nan, EffectiveBaseSize := Flt.nan, Curbed := Flt.nan,
               MinWeight := Flt.fin 1, MaxWeight := Flt.fin 1 } }

/-- Two work respondents `a`, `c` and one goal respondent `b`, all with
`D1 = x`. -/
def rs2 : List Response :=
  [⟨"a", [("D1", "x"), ("G", "2")]⟩, ⟨"c", [("D1", "x"), ("G", "2")]⟩,
   ⟨"b", [("D1", "x"), ("G", "1")]⟩]

/-- The result of `Weight` on `ops1` and `rs2`. -/
def res2 : Result :=
  { Weights := [("a", Flt.fin 1), ("c", Flt.fin 1)]
    Stats := { GoalRows := 1, WorkRows := 2, Iterations := 2, AverageWeight := Flt.fin 1,
               DesignEffect := Flt.fin 1, EffectiveBaseSize := Flt.fin 2,
               MinWeight := Flt.fin 1, MaxWeight := Flt.fin 1 } }

/-- The engine after the ingestion of `rs2` under `ops1`. -/
def ingested2 : HyperCube :=
  match addRows rs2 (discover (NewGroupedWeighter ops1) rs2) with
  | .ok hc => hc
  | .error _ => NewGroupedWeighter ops1

/-- Two binary columns `A`, `B` in this order, one iteration. -/
def opsAB : Options :=
  { NewDefaultOptions with
    Columns := ["A", "B"], GroupColumn := "G", GoalGroupValue := "1", WorkGroupValue := "2"
    MaxIterations := 1 }

/-- The configuration `opsAB` with its columns in the other order. -/
def opsBA : Options := { opsAB with Columns := ["B", "A"] }

/-- A response with identifier `id`, values `a`, `b` and group `g`. -/
def rowAB (id a b g : String) : Response := ⟨id, [("A", a), ("B", b), ("G", g)]⟩

/-- Work rows (a1,b1), (a1,b2), (a2,b1) and goal rows (a1,b1), (a2,b2), (a2,b2). -/
def rs7 : List Response :=
  [rowAB "w1" "a1" "b1" "2", rowAB "w2" "a1" "b2" "2", rowAB "w3" "a2" "b1" "2",
   rowAB "g1" "a1" "b1" "1", rowAB "g2" "a2" "b2" "1", rowAB "g3" "a2" "b2" "1"]

/-- The statistics of `Weight` on `rs7`, the same for both column orders. -/
def stats7 : Stats :=
  { GoalRows := 3, WorkRows := 3, Iterations := 1, AverageWeight := Flt.fin (31 / 30),
    DesignEffect := Flt.fin (4638 / 3721), EffectiveBaseSize := Flt.fin (961 / 473),
    Curbed := Flt.fin (100 / 3), MinWeight := Flt.fin (1 / 5), MaxWeight := Flt.fin 2 }

/-- The result of `Weight` on `opsAB` and `rs7`. -/
def res7AB : Result :=
  { Weights := [("w1", Flt.fin (3 / 10)), ("w2", Flt.fin 2), ("w3", Flt.fin (4 / 5))]
    Stats := stats7 }

/-- The result of `Weight` on `opsBA` and `rs7`. -/
def res7BA : Result :=
  { Weights := [("w1", Flt.fin (3 / 10)), ("w2", Flt.fin (4 / 5)), ("w3", Flt.fin 2)]
    Stats := stats7 }

/-- The configuration `ops1` with the work value equal to the goal value. -/
def ops9 : Options := { ops1 with WorkGroupValue := "1" }

/-- One response, of group `1`. -/
def rs9 : List Response := [⟨"a", [("D1", "x"), ("G", "1")]⟩]

/-- The result of `Weight` on `ops9` and `rs9`: the row is a goal row. -/
def res9 : Result :=
  { Weights := []
    Stats := { GoalRows := 1, WorkRows := 0, Iterations := 50, Rmse := ⟨Flt.nan⟩,
               AverageWeight := Flt.nan, DesignEffect := Flt.fin 1,
               EffectiveBaseSize := Flt.nan, Curbed := Flt.nan,
               MinWeight := Flt.fin 1, MaxWeight := Flt.fin 1 } }

/-- A configuration that names the column `A` twice. -/
def opsAAB : Options :=
  { NewDefaultOptions with
    Columns := ["A", "A", "B"], GroupColumn := "G", GoalGroupValue := "1", WorkGroupValue := "2"
    MaxIterations := 2, RootMeanSquareError := 1 }

/-- Three work rows, two of which share a cell of the cube of `opsAAB` while
differing in `A`, and three goal rows. -/
def rsAAB : List Response :=
  [rowAB "w0" "x0" "y0" "2", rowAB "w1" "x1" "y0" "2", rowAB "w2" "x0" "y1" "2",
   rowAB "g1" "x0" "y0" "1", rowAB "g2" "x1" "y1" "1", rowAB "g3" "x1" "y0" "1"]

/-- The engine after the ingestion of `rs7` under `opsAB`. -/
def ingested7 : HyperCube :=
  match addRows rs7 (discover (NewGroupedWeighter opsAB) rs7) with
  | .ok hc => hc
  | .error _ => NewGroupedWeighter opsAB

/-- One work respondent `a` with `D1 = x`, one goal respondent with `D1 = x`
and one with `D1 = y`, a value no work respondent has. -/
def rsXY : List Response :=
  [⟨"a", [("D1", "x"), ("G", "2")]⟩, ⟨"b", [("D1", "x"), ("G", "1")]⟩,
   ⟨"c", [("D1", "y"), ("G", "1")]⟩]

/-- The engine after the ingestion of `rsXY` under `ops1`. -/
def ingestedXY : HyperCube :=
  match addRows rsXY (discover (NewGroupedWeighter ops1) rsXY) with
  | .ok hc => hc
  | .error _ => NewGroupedWeighter ops1


/-! ## Maps: basic facts -/

theorem mapGet?_mapSet_same {α β : Type} [DecidableEq α] (m : List (α × β)) (k : α) (b : β) :
    mapGet? (mapSet m k b) k = some b := by
  induction m with
  | nil => simp [mapSet, mapGet?]
  | cons p m ih =>
    obtain ⟨k', b'⟩ := p
    by_cases h : k' = k
    · simp [mapSet, mapGet?, h]
    · simp [mapSet, mapGet?, h, ih]

theorem mapGet?_mapSet_ne {α β : Type} [DecidableEq α] (m : List (α × β)) {k k' : α} (b : β)
    (h : k ≠ k') : mapGet? (mapSet m k b) k' = mapGet? m k' := by
  induction m with
  | nil => simp [mapSet, mapGet?, h]
  | cons p m ih =>
    obtain ⟨k1, b1⟩ := p
    by_cases h1 : k1 = k
    · subst h1
      simp [mapSet, mapGet?, h]
    · by_cases h2 : k1 = k'
      · subst h2
        simp [mapSet, mapGet?, h1]
      · simp [mapSet, mapGet?, h1, h2, ih]

theorem mem_mapSet {α β : Type} [DecidableEq α] (m : List (α × β)) (k : α) (b : β)
    (p : α × β) (hp : p ∈ mapSet m k b) : p = (k, b) ∨ p ∈ m := by
  induction m with
  | nil => simpa [mapSet] using hp
  | cons p1 m ih =>
    obtain ⟨k1, b1⟩ := p1
    by_cases h1 : k1 = k
    · subst h1
      simp only [mapSet, if_true, List.mem_cons] at hp
      rcases hp with hp | hp
      · exact Or.inl hp
      · exact Or.inr (List.mem_cons_of_mem _ hp)
    · simp only [mapSet, h1, if_false, List.mem_cons] at hp
      rcases hp with hp | hp
      · exact Or.inr (by simp [hp])
      · rcases ih hp with h | h
        · exact Or.inl h
        · exact Or.inr (List.mem_cons_of_mem _ h)

theorem mem_mapKeys_mapSet {α β : Type} [DecidableEq α] (m : List (α × β)) (k k' : α) (b : β) :
    k' ∈ mapKeys (mapSet m k b) ↔ k' = k ∨ k' ∈ mapKeys m := by
  induction m with
  | nil => simp [mapSet, mapKeys]
  | cons p1 m ih =>
    obtain ⟨k1, b1⟩ := p1
    by_cases h1 : k1 = k
    · subst h1
      simp [mapSet, mapKeys]
    · simp only [mapKeys] at ih
      simp only [mapSet, h1, if_false, mapKeys, List.map_cons, List.mem_cons, ih]
      tauto

theorem mapGet?_isSome_iff {α β : Type} [DecidableEq α] (m : List (α × β)) (k : α) :
    (mapGet? m k).isSome ↔ k ∈ mapKeys m := by
  induction m with
  | nil => simp [mapGet?, mapKeys]
  | cons p1 m ih =>
    obtain ⟨k1, b1⟩ := p1
    by_cases h1 : k1 = k
    · simp [mapGet?, mapKeys, h1]
    · simp only [mapKeys] at ih
      simp [mapGet?, mapKeys, h1, ih, Ne.symm h1]

theorem mapGet?_eq_none_iff {α β : Type} [DecidableEq α] (m : List (α × β)) (k : α) :
    mapGet? m k = none ↔ k ∉ mapKeys m := by
  rw [← mapGet?_isSome_iff]
  cases mapGet? m k <;> simp

/-! ## Capping -/

theorem curbWeight_range (ops : Options) (w : Flt)
    (hcap : ops.LowerWeightCap ≤ ops.UpperWeightCap) (hn : (curbWeight ops w).1 ≠ Flt.nan) :
    ∃ q, (curbWeight ops w).1 = Flt.fin q ∧ ops.LowerWeightCap ≤ q ∧ q ≤ ops.UpperWeightCap := by
  unfold curbWeight at hn ⊢
  cases w with
  | fin a =>
    by_cases h1 : a < ops.LowerWeightCap
    · exact ⟨ops.LowerWeightCap, by simp [Flt.lt, h1], le_refl _, hcap⟩
    · by_cases h2 : ops.UpperWeightCap < a
      · exact ⟨ops.UpperWeightCap, by simp [Flt.lt, Flt.gt, h1, h2], hcap, le_refl _⟩
      · exact ⟨a, by simp [Flt.lt, Flt.gt, h1, h2], not_lt.mp h1, not_lt.mp h2⟩
  | pinf => exact ⟨ops.UpperWeightCap, by simp [Flt.lt, Flt.gt], hcap, le_refl _⟩
  | ninf => exact ⟨ops.LowerWeightCap, by simp [Flt.lt], le_refl _, hcap⟩
  | nan => simp [Flt.lt, Flt.gt] at hn

theorem weight_Options (hc : HyperCube) (rid : String) :
    (weight hc rid).2.2.2.Options = hc.Options := by
  unfold weight
  cases mapGet? hc.WorkRows rid <;> rfl

theorem weight_WorkRows (hc : HyperCube) (rid : String) :
    (weight hc rid).2.2.2.WorkRows = hc.WorkRows := by
  unfold weight
  cases mapGet? hc.WorkRows rid <;> rfl

theorem weight_found (hc : HyperCube) (rid : String) (h : rid ∈ mapKeys hc.WorkRows) :
    ∃ w, (weight hc rid).2.2.1 = (curbWeight hc.Options w).1 := by
  have := (mapGet?_isSome_iff hc.WorkRows rid).2 h
  unfold weight
  cases hg : mapGet? hc.WorkRows rid with
  | none => simp [hg] at this
  | some target => exact ⟨_, rfl⟩

/-- Every entry `getWeights` writes is a capped weight. -/
theorem getWeightsLoop_curbed (rids : List String) (hc : HyperCube)
    (results : List (String × Flt))
    (hr : ∀ rid ∈ rids, rid ∈ mapKeys hc.WorkRows)
    (hres : ∀ p ∈ results, ∃ w, p.2 = (curbWeight hc.Options w).1) :
    ∀ p ∈ (getWeightsLoop rids hc results).1, ∃ w, p.2 = (curbWeight hc.Options w).1 := by
  induction rids generalizing hc results with
  | nil => simpa [getWeightsLoop] using hres
  | cons rid rids ih =>
    intro p hp
    simp only [getWeightsLoop] at hp
    have key := ih (weight hc rid).2.2.2 (mapSet results rid (weight hc rid).2.2.1)
      (by
        intro r hr'
        rw [weight_WorkRows]
        exact hr r (List.mem_cons_of_mem _ hr'))
      (by
        intro p' hp'
        rw [weight_Options]
        rcases mem_mapSet _ _ _ _ hp' with h | h
        · obtain ⟨w, hw⟩ := weight_found hc rid (hr rid (List.mem_cons_self _ _))
          exact ⟨w, by rw [h]; exact hw⟩
        · exact hres p' h)
      p hp
    rw [weight_Options] at key
    exact key




/-! ## Frame facts: what each step leaves alone -/

theorem foldl_preserves {σ α β : Type} (f : σ → α → σ) (g : σ → β)
    (hf : ∀ s a, g (f s a) = g s) (l : List α) (s : σ) : g (l.foldl f s) = g s := by
  induction l generalizing s with
  | nil => rfl
  | cons a l ih => simp only [List.foldl_cons, ih, hf]

theorem analyze_Options (hc : HyperCube) (r : Response) :
    (analyzeDimensionsFromResponse hc r).Options = hc.Options := by
  unfold analyzeDimensionsFromResponse
  apply foldl_preserves
  intro s a
  cases mapGet? s.Dimensions a <;> rfl

theorem discover_Options (hc : HyperCube) (rs : List Response) :
    (discover hc rs).Options = hc.Options := by
  unfold discover configureBlockSize
  exact foldl_preserves _ HyperCube.Options analyze_Options rs hc

theorem addRowBody_Options {hc hc1 : HyperCube} {r : Response} {isWork : Bool}
    (h : addRowBody hc r isWork = .ok hc1) : hc1.Options = hc.Options := by
  unfold addRowBody at h
  split at h
  · cases h
  · split at h <;> (cases h; rfl)

theorem addRow_Options {hc hc1 : HyperCube} {r : Response} (h : addRow hc r = .ok hc1) :
    hc1.Options = hc.Options := by
  simp only [addRow] at h
  split at h
  · exact addRowBody_Options h
  · split at h
    · exact addRowBody_Options h
    · cases h

theorem addRows_Options {rs : List Response} {hc hc1 : HyperCube}
    (h : addRows rs hc = .ok hc1) : hc1.Options = hc.Options := by
  induction rs generalizing hc with
  | nil => simp only [addRows] at h; cases h; rfl
  | cons r rs ih =>
    simp only [addRows] at h
    split at h
    · cases h
    · rename_i hc2 h2
      rw [ih h, addRow_Options h2]

theorem rakeColumns_Options (cols : List String) (st : Sweep) :
    (cols.foldl rakeColumn st).hc.Options = st.hc.Options :=
  foldl_preserves rakeColumn (fun s => s.hc.Options) (fun _ _ => rfl) cols st

theorem rakeIteration_Options (hc : HyperCube) : (rakeIteration hc).Options = hc.Options := by
  unfold rakeIteration
  exact rakeColumns_Options _ _

theorem rakeLoop_Options (n : Nat) (hc : HyperCube) : (rakeLoop n hc).Options = hc.Options := by
  induction n generalizing hc with
  | zero => rfl
  | succ n ih =>
    simp only [rakeLoop]
    split
    · exact rakeIteration_Options hc
    · rw [ih, rakeIteration_Options]

theorem accumulateRow_Options (t : Totals) (rid : String) :
    (accumulateRow t rid).hc.Options = t.hc.Options := by
  simp only [accumulateRow]
  split <;> exact weight_Options _ _

theorem setEffectiveBaseSize_Options (hc : HyperCube) :
    (setEffectiveBaseSize hc).Options = hc.Options := by
  unfold setEffectiveBaseSize
  exact foldl_preserves accumulateRow (fun t => t.hc.Options) accumulateRow_Options _ _

theorem rakeDimensions_Options (hc : HyperCube) : (rakeDimensions hc).Options = hc.Options := by
  unfold rakeDimensions
  rw [setEffectiveBaseSize_Options, rakeLoop_Options]
  rfl

theorem run_Options {hc hc1 : HyperCube} {rs : List Response} (h : run hc rs = .ok hc1) :
    hc1.Options = hc.Options := by
  unfold run at h
  split at h
  · cases h
  · rename_i hc2 h2
    cases h
    rw [rakeDimensions_Options, addRows_Options h2, discover_Options]

/-- A successful `Weight` is `getWeights` on the engine `run` leaves. -/
theorem Weight_ok {hc : HyperCube} {rs : List Response} {res : Result}
    (h : Weight hc rs = .ok res) :
    ∃ hc1, run hc rs = .ok hc1 ∧ res.Weights = (getWeights hc1).1 ∧
      res.Stats = (getWeights hc1).2.Stats := by
  unfold Weight at h
  split at h
  · cases h
  · rename_i hc1 h1
    cases h
    exact ⟨hc1, h1, rfl, rfl⟩

theorem addRow_ok_cases {hc hc1 : HyperCube} {r : Response} (h : addRow hc r = .ok hc1) :
    (isGoalRow hc.Options r = true ∧ addRowBody hc r false = .ok hc1) ∨
    (isWorkRow hc.Options r = true ∧ addRowBody hc r true = .ok hc1) := by
  simp only [addRow] at h
  split at h
  · rename_i hg
    exact Or.inl ⟨by simp [isGoalRow, hg], h⟩
  · rename_i hg
    split at h
    · rename_i hw
      refine Or.inr ⟨?_, h⟩
      simp only [isWorkRow, Bool.and_eq_true, decide_eq_true_eq]
      exact ⟨hg, hw⟩
    · cases h

theorem addRowBody_goal {hc hc1 : HyperCube} {r : Response}
    (h : addRowBody hc r false = .ok hc1) :
    ∃ dims index, addRowColumns false r hc.Options.Columns hc.Dimensions 0 = .ok (dims, index) ∧
      hc1 = { hc with Dimensions := dims
                      Stats := { hc.Stats with GoalRows := hc.Stats.GoalRows + 1 } } := by
  unfold addRowBody at h
  split at h
  · cases h
  · rename_i dims index hcol
    simp only [Bool.false_eq_true, if_false] at h
    cases h
    exact ⟨dims, index, hcol, rfl⟩

theorem addRowBody_work {hc hc1 : HyperCube} {r : Response}
    (h : addRowBody hc r true = .ok hc1) :
    ∃ dims index, addRowColumns true r hc.Options.Columns hc.Dimensions 0 = .ok (dims, index) ∧
      hc1 = { hc with
              Dimensions := dims
              Stats := { hc.Stats with WorkRows := hc.Stats.WorkRows + 1 }
              Workspace :=
                hc.Workspace.set index (hc.Workspace.getD index (Flt.fin 0) + Flt.fin 1)
              DimValues := (addRowMembership r index hc.Options.Columns hc.DimValues []).1
              WorkRows := mapSet hc.WorkRows r.RespondentID
                (addRowMembership r index hc.Options.Columns hc.DimValues []).2 } := by
  unfold addRowBody at h
  split at h
  · cases h
  · rename_i dims index hcol
    simp only [if_true] at h
    cases h
    exact ⟨dims, index, hcol, rfl⟩

theorem isGoalRow_not_isWorkRow {ops : Options} {r : Response} (h : isGoalRow ops r = true) :
    isWorkRow ops r = false := by
  simp only [isGoalRow, decide_eq_true_eq] at h
  simp [isWorkRow, h]

/-! ## The work-row registry -/

theorem addRow_WorkRows_keys {hc hc1 : HyperCube} {r : Response} (h : addRow hc r = .ok hc1)
    (id : String) :
    id ∈ mapKeys hc1.WorkRows ↔
      id ∈ mapKeys hc.WorkRows ∨ (isWorkRow hc.Options r = true ∧ r.RespondentID = id) := by
  rcases addRow_ok_cases h with ⟨hg, hb⟩ | ⟨hw, hb⟩
  · obtain ⟨dims, index, _, rfl⟩ := addRowBody_goal hb
    simp [isGoalRow_not_isWorkRow hg]
  · obtain ⟨dims, index, _, rfl⟩ := addRowBody_work hb
    simp only [mem_mapKeys_mapSet, hw, true_and]
    constructor
    · rintro (h1 | h1)
      · exact Or.inr h1.symm
      · exact Or.inl h1
    · rintro (h1 | h1)
      · exact Or.inr h1
      · exact Or.inl h1.symm

theorem addRows_WorkRows_keys {rs : List Response} {hc hc1 : HyperCube}
    (h : addRows rs hc = .ok hc1) (id : String) :
    id ∈ mapKeys hc1.WorkRows ↔
      id ∈ mapKeys hc.WorkRows ∨
        ∃ r ∈ rs, isWorkRow hc.Options r = true ∧ r.RespondentID = id := by
  induction rs generalizing hc with
  | nil => simp only [addRows] at h; cases h; simp
  | cons r rs ih =>
    simp only [addRows] at h
    split at h
    · cases h
    · rename_i hc2 h2
      rw [ih h, addRow_WorkRows_keys h2, addRow_Options h2]
      simp only [List.mem_cons, exists_eq_or_imp]
      tauto

theorem rakeColumns_WorkRows (cols : List String) (st : Sweep) :
    (cols.foldl rakeColumn st).hc.WorkRows = st.hc.WorkRows :=
  foldl_preserves rakeColumn (fun s => s.hc.WorkRows) (fun _ _ => rfl) cols st

theorem rakeIteration_WorkRows (hc : HyperCube) :
    (rakeIteration hc).WorkRows = hc.WorkRows := by
  unfold rakeIteration
  exact rakeColumns_WorkRows _ _

theorem rakeLoop_WorkRows (n : Nat) (hc : HyperCube) :
    (rakeLoop n hc).WorkRows = hc.WorkRows := by
  induction n generalizing hc with
  | zero => rfl
  | succ n ih =>
    simp only [rakeLoop]
    split
    · exact rakeIteration_WorkRows hc
    · rw [ih, rakeIteration_WorkRows]

theorem accumulateRow_WorkRows (t : Totals) (rid : String) :
    (accumulateRow t rid).hc.WorkRows = t.hc.WorkRows := by
  simp only [accumulateRow]
  split <;> exact weight_WorkRows _ _

theorem setEffectiveBaseSize_WorkRows (hc : HyperCube) :
    (setEffectiveBaseSize hc).WorkRows = hc.WorkRows := by
  unfold setEffectiveBaseSize
  exact foldl_preserves accumulateRow (fun t => t.hc.WorkRows) accumulateRow_WorkRows _ _

theorem rakeDimensions_WorkRows (hc : HyperCube) :
    (rakeDimensions hc).WorkRows = hc.WorkRows := by
  unfold rakeDimensions
  rw [setEffectiveBaseSize_WorkRows, rakeLoop_WorkRows]
  rfl

theorem NewGroupedWeighter_Options (ops : Options) :
    (NewGroupedWeighter ops).Options = ops := rfl

/-- The `run` of an engine, split at the end of ingestion. -/
theorem run_ok {hc hc1 : HyperCube} {rs : List Response} (h : run hc rs = .ok hc1) :
    ∃ hc0, addRows rs (discover hc rs) = .ok hc0 ∧ hc1 = rakeDimensions hc0 := by
  unfold run at h
  split at h
  · cases h
  · rename_i hc2 h2
    cases h
    exact ⟨hc2, h2, rfl⟩

theorem getWeightsLoop_keys (rids : List String) (hc : HyperCube)
    (results : List (String × Flt)) (id : String) :
    id ∈ mapKeys (getWeightsLoop rids hc results).1 ↔ id ∈ rids ∨ id ∈ mapKeys results := by
  induction rids generalizing hc results with
  | nil => simp [getWeightsLoop]
  | cons rid rids ih =>
    simp only [getWeightsLoop, ih, mem_mapKeys_mapSet, List.mem_cons]
    tauto

/-- C2. For a response list with pairwise distinct respondent identifiers on
which `Weight` succeeds, the keys of `Result.Weights` are exactly the
identifiers of the responses the engine takes as work rows, and no identifier of
a goal row is a key. -/
theorem weights_keys_are_work_respondents (ops : Options) (responses : List Response)
    (res : Result)
    (hid : (responses.map Response.RespondentID).Nodup)
    (hok : Weight (NewGroupedWeighter ops) responses = .ok res) :
    (∀ id, id ∈ mapKeys res.Weights ↔
      ∃ r ∈ responses, isWorkRow ops r = true ∧ r.RespondentID = id) ∧
    (∀ r ∈ responses, isGoalRow ops r = true → r.RespondentID ∉ mapKeys res.Weights) := by
  obtain ⟨hc1, hrun, hw, _⟩ := Weight_ok hok
  obtain ⟨hc0, hadd, rfl⟩ := run_ok hrun
  have hkeys : ∀ id, id ∈ mapKeys res.Weights ↔
      ∃ r ∈ responses, isWorkRow ops r = true ∧ r.RespondentID = id := by
    intro id
    rw [hw, getWeights, getWeightsLoop_keys, rakeDimensions_WorkRows,
      addRows_WorkRows_keys hadd, discover_Options]
    have h0 : (discover (NewGroupedWeighter ops) responses).WorkRows = [] := rfl
    rw [h0, NewGroupedWeighter_Options]
    simp [mapKeys]
  refine ⟨hkeys, ?_⟩
  intro r hr hg hmem
  obtain ⟨r', hr', hw', hid'⟩ := (hkeys _).1 hmem
  have heq : r' = r := List.inj_on_of_nodup_map hid hr' hr hid'
  subst heq
  rw [isGoalRow_not_isWorkRow hg] at hw'
  cases hw'

theorem weights_keys_are_work_respondents_witness :
    (∀ id, id ∈ mapKeys res1.Weights ↔
      ∃ r ∈ rs1, isWorkRow ops1 r = true ∧ r.RespondentID = id) ∧
    (∀ r ∈ rs1, isGoalRow ops1 r = true → r.RespondentID ∉ mapKeys res1.Weights) :=
  weights_keys_are_work_respondents ops1 rs1 res1 (by decide!) (by decide!)

/-! ## Ingestion keeps the indexing -/

theorem sameIndexing_refl (dims : List (String × Dimension)) : sameIndexing dims dims :=
  fun _ => ⟨rfl, rfl, rfl, fun _ => rfl⟩

theorem sameIndexing_trans {d1 d2 d3 : List (String × Dimension)}
    (h12 : sameIndexing d1 d2) (h23 : sameIndexing d2 d3) : sameIndexing d1 d3 := by
  intro col
  obtain ⟨a1, b1, k1, c1⟩ := h12 col
  obtain ⟨a2, b2, k2, c2⟩ := h23 col
  exact ⟨a1.trans a2, b1.trans b2, k1.trans k2, fun val => (c1 val).trans (c2 val)⟩

theorem sameIndexing_symm {d1 d2 : List (String × Dimension)}
    (h : sameIndexing d1 d2) : sameIndexing d2 d1 := by
  intro col
  obtain ⟨a1, b1, k1, c1⟩ := h col
  exact ⟨a1.symm, b1.symm, k1.symm, fun val => (c1 val).symm⟩

theorem getDim_mapSet_same (dims : List (String × Dimension)) (col : String) (d : Dimension) :
    getDim (mapSet dims col d) col = d := by
  simp [getDim, mapGet?_mapSet_same]

theorem getDim_mapSet_ne (dims : List (String × Dimension)) {col col1 : String}
    (d : Dimension) (h : col ≠ col1) : getDim (mapSet dims col d) col1 = getDim dims col1 := by
  simp [getDim, mapGet?_mapSet_ne _ _ h]

/-- Replacing the dimension of a column by one with the same size, block size
and ordinals keeps the indexing. -/
theorem sameIndexing_mapSet (dims : List (String × Dimension)) (col : String) (d : Dimension)
    (hs : d.Size = (getDim dims col).Size) (hb : d.BlockSize = (getDim dims col).BlockSize)
    (hk : mapKeys d.Values = mapKeys (getDim dims col).Values)
    (hv : ∀ val, (mapGet? d.Values val).map DimensionValue.Index =
      (mapGet? (getDim dims col).Values val).map DimensionValue.Index) :
    sameIndexing dims (mapSet dims col d) := by
  intro col1
  by_cases h : col = col1
  · subst h
    rw [getDim_mapSet_same]
    exact ⟨hs.symm, hb.symm, hk.symm, fun val => (hv val).symm⟩
  · rw [getDim_mapSet_ne _ _ h]
    exact ⟨rfl, rfl, rfl, fun _ => rfl⟩

theorem mapKeys_mapSet_of_get {α β : Type} [DecidableEq α] (m : List (α × β)) (k : α)
    (b b1 : β) (hget : mapGet? m k = some b) : mapKeys (mapSet m k b1) = mapKeys m := by
  induction m with
  | nil => simp [mapGet?] at hget
  | cons p m ih =>
    obtain ⟨k1, b2⟩ := p
    by_cases h : k1 = k
    · simp [mapSet, mapKeys, h]
    · simp only [mapGet?, h, if_false] at hget
      simp only [mapKeys] at ih
      simp [mapSet, mapKeys, h, ih hget]

/-- Rewriting the record of a registered value without touching its ordinal
keeps every ordinal of the map. -/
theorem map_Index_mapSet (vals : List (String × DimensionValue)) (val : String)
    (dval dval1 : DimensionValue) (hget : mapGet? vals val = some dval)
    (hidx : dval1.Index = dval.Index) (val1 : String) :
    (mapGet? (mapSet vals val dval1) val1).map DimensionValue.Index =
      (mapGet? vals val1).map DimensionValue.Index := by
  by_cases h : val = val1
  · subst h
    rw [mapGet?_mapSet_same, hget]
    simp [hidx]
  · rw [mapGet?_mapSet_ne _ _ h]

theorem addRowColumns_sameIndexing (isWork : Bool) (r : Response) (cols : List String)
    (dims : List (String × Dimension)) (index : Nat)
    (dims1 : List (String × Dimension)) (index1 : Nat)
    (h : addRowColumns isWork r cols dims index = .ok (dims1, index1)) :
    sameIndexing dims dims1 := by
  induction cols generalizing dims index with
  | nil =>
    simp only [addRowColumns] at h
    cases h
    exact sameIndexing_refl _
  | cons col cols ih =>
    simp only [addRowColumns] at h
    split at h
    · cases h
    · rename_i dval hget
      split at h
      · refine sameIndexing_trans ?_ (ih _ _ h)
        exact sameIndexing_mapSet dims col _ rfl rfl
          (mapKeys_mapSet_of_get _ _ dval _ hget)
          (fun val1 => map_Index_mapSet _ _ dval _ hget (by rfl) val1)
      · refine sameIndexing_trans ?_ (ih _ _ h)
        exact sameIndexing_mapSet dims col _ rfl rfl
          (mapKeys_mapSet_of_get _ _ dval _ hget)
          (fun val1 => map_Index_mapSet _ _ dval _ hget (by rfl) val1)

theorem unregistered_congr {d1 d2 : List (String × Dimension)} (h : sameIndexing d1 d2)
    (r : Response) (col : String) : unregistered d1 r col ↔ unregistered d2 r col := by
  have := (h col).2.2.2 (r.get col)
  unfold unregistered
  cases h1 : mapGet? (getDim d1 col).Values (r.get col) <;>
    cases h2 : mapGet? (getDim d2 col).Values (r.get col) <;> simp [h1, h2] at this ⊢

theorem addRowColumns_error_iff (isWork : Bool) (r : Response) (cols : List String)
    (dims : List (String × Dimension)) (index : Nat) :
    (∃ e, addRowColumns isWork r cols dims index = .error e) ↔
      ∃ col ∈ cols, unregistered dims r col := by
  induction cols generalizing dims index with
  | nil => simp [addRowColumns]
  | cons col cols ih =>
    simp only [addRowColumns, v, List.mem_cons, exists_eq_or_imp]
    cases hget : mapGet? (getDim dims col).Values (r.get col) with
    | none => simp [unregistered, hget]
    | some dval =>
      have hcol : ¬ unregistered dims r col := by simp [unregistered, hget]
      simp only [hcol, false_or]
      cases isWork with
      | true =>
        simp only [if_true]
        rw [ih]
        have hs : sameIndexing dims (mapSet dims col
            { getDim dims col with
              Values := mapSet (getDim dims col).Values (r.get col)
                { dval with Initial := dval.Initial + 1, WorkSum := dval.WorkSum + Flt.fin 1 }
              Initial := (getDim dims col).Initial + 1 }) :=
          sameIndexing_mapSet dims col _ rfl rfl
            (mapKeys_mapSet_of_get _ _ dval _ hget)
            (fun val1 => map_Index_mapSet _ _ dval _ hget (by rfl) val1)
        constructor
        · rintro ⟨c, hc, hu⟩
          exact ⟨c, hc, (unregistered_congr hs r c).2 hu⟩
        · rintro ⟨c, hc, hu⟩
          exact ⟨c, hc, (unregistered_congr hs r c).1 hu⟩
      | false =>
        simp only [Bool.false_eq_true, if_false]
        rw [ih]
        have hs : sameIndexing dims (mapSet dims col
            { getDim dims col with
              Values := mapSet (getDim dims col).Values (r.get col)
                { dval with GoalSum := dval.GoalSum + Flt.fin 1 } }) :=
          sameIndexing_mapSet dims col _ rfl rfl
            (mapKeys_mapSet_of_get _ _ dval _ hget)
            (fun val1 => map_Index_mapSet _ _ dval _ hget (by rfl) val1)
        constructor
        · rintro ⟨c, hc, hu⟩
          exact ⟨c, hc, (unregistered_congr hs r c).2 hu⟩
        · rintro ⟨c, hc, hu⟩
          exact ⟨c, hc, (unregistered_congr hs r c).1 hu⟩

theorem except_error_or_ok {ε α : Type} (x : Except ε α) :
    (∃ e, x = .error e) ∨ (∃ a, x = .ok a) := by
  cases x with
  | error e => exact Or.inl ⟨e, rfl⟩
  | ok a => exact Or.inr ⟨a, rfl⟩

theorem addRowBody_error_iff (hc : HyperCube) (r : Response) (isWork : Bool) :
    (∃ e, addRowBody hc r isWork = .error e) ↔
      ∃ col ∈ hc.Options.Columns, unregistered hc.Dimensions r col := by
  rw [← addRowColumns_error_iff isWork r hc.Options.Columns hc.Dimensions 0]
  unfold addRowBody
  cases hcol : addRowColumns isWork r hc.Options.Columns hc.Dimensions 0 with
  | error e => simp
  | ok p =>
    obtain ⟨dims, index⟩ := p
    cases isWork <;> simp

theorem addRow_error_iff (hc : HyperCube) (r : Response) :
    (∃ e, addRow hc r = .error e) ↔
      invalidGroup hc.Options r ∨
        ∃ col ∈ hc.Options.Columns, unregistered hc.Dimensions r col := by
  simp only [addRow, invalidGroup]
  split
  · rename_i hg
    rw [addRowBody_error_iff]
    simp [hg]
  · rename_i hg
    split
    · rename_i hw
      rw [addRowBody_error_iff]
      simp [hw]
    · rename_i hw
      simp [hg, hw]

theorem addRow_sameIndexing {hc hc1 : HyperCube} {r : Response} (h : addRow hc r = .ok hc1) :
    sameIndexing hc.Dimensions hc1.Dimensions := by
  rcases addRow_ok_cases h with ⟨_, hb⟩ | ⟨_, hb⟩
  · obtain ⟨dims, index, hcol, rfl⟩ := addRowBody_goal hb
    exact addRowColumns_sameIndexing _ _ _ _ _ _ _ hcol
  · obtain ⟨dims, index, hcol, rfl⟩ := addRowBody_work hb
    exact addRowColumns_sameIndexing _ _ _ _ _ _ _ hcol

theorem addRows_sameIndexing {rs : List Response} {hc hc1 : HyperCube}
    (h : addRows rs hc = .ok hc1) : sameIndexing hc.Dimensions hc1.Dimensions := by
  induction rs generalizing hc with
  | nil => simp only [addRows] at h; cases h; exact sameIndexing_refl _
  | cons r rs ih =>
    simp only [addRows] at h
    split at h
    · cases h
    · rename_i hc2 h2
      exact sameIndexing_trans (addRow_sameIndexing h2) (ih h)

theorem addRows_error_iff (rs : List Response) (hc : HyperCube) :
    (∃ e, addRows rs hc = .error e) ↔
      ∃ r ∈ rs, invalidGroup hc.Options r ∨
        ∃ col ∈ hc.Options.Columns, unregistered hc.Dimensions r col := by
  induction rs generalizing hc with
  | nil => simp [addRows]
  | cons r rs ih =>
    simp only [addRows, List.mem_cons, exists_eq_or_imp]
    cases h2 : addRow hc r with
    | error e =>
      have := (addRow_error_iff hc r).1 ⟨e, h2⟩
      simp [this]
    | ok hc2 =>
      have hno : ¬ (invalidGroup hc.Options r ∨
          ∃ col ∈ hc.Options.Columns, unregistered hc.Dimensions r col) := by
        intro hbad
        obtain ⟨e, he⟩ := (addRow_error_iff hc r).2 hbad
        rw [h2] at he
        cases he
      simp only [hno, false_or]
      rw [ih, addRow_Options h2]
      have hs := addRow_sameIndexing h2
      constructor
      · rintro ⟨r1, hr1, hbad⟩
        refine ⟨r1, hr1, hbad.imp id ?_⟩
        rintro ⟨c, hc', hu⟩
        exact ⟨c, hc', (unregistered_congr hs r1 c).2 hu⟩
      · rintro ⟨r1, hr1, hbad⟩
        refine ⟨r1, hr1, hbad.imp id ?_⟩
        rintro ⟨c, hc', hu⟩
        exact ⟨c, hc', (unregistered_congr hs r1 c).1 hu⟩

theorem Weight_error_iff_addRows (hc : HyperCube) (rs : List Response) :
    (∃ e, Weight hc rs = .error e) ↔ ∃ e, addRows rs (discover hc rs) = .error e := by
  unfold Weight run
  cases addRows rs (discover hc rs) <;> simp

theorem foldl_invariant {σ α : Type} (P : σ → Prop) (f : σ → α → σ) (l : List α) (s : σ)
    (h0 : P s) (hstep : ∀ s a, a ∈ l → P s → P (f s a)) : P (l.foldl f s) := by
  induction l generalizing s with
  | nil => exact h0
  | cons a l ih =>
    simp only [List.foldl_cons]
    exact ih _ (hstep s a (List.mem_cons_self _ _) h0)
      (fun s1 a1 ha1 hs1 => hstep s1 a1 (List.mem_cons_of_mem _ ha1) hs1)

theorem getDim_of_get {dims : List (String × Dimension)} {col : String} {dim : Dimension}
    (h : mapGet? dims col = some dim) : getDim dims col = dim := by
  simp [getDim, h]

theorem RegOK_NewDimension : RegOK NewDimension := by
  constructor
  · intro val dv h
    simp [NewDimension, mapGet?] at h
  · intro val val1 dv dv1 h
    simp [NewDimension, mapGet?] at h

theorem registerValue_RegOK (dim : Dimension) (val : String) (h : RegOK dim) :
    RegOK (registerValue dim val) := by
  unfold registerValue
  cases hget : mapGet? dim.Values val with
  | some dv => exact h
  | none =>
    obtain ⟨hlt, hinj⟩ := h
    have key : ∀ k dv, mapGet? (mapSet dim.Values val (NewDimensionValue dim.Size)) k = some dv →
        (k = val ∧ dv.Index = dim.Size) ∨ (k ≠ val ∧ mapGet? dim.Values k = some dv) := by
      intro k dv hk
      by_cases hkv : val = k
      · subst hkv
        rw [mapGet?_mapSet_same] at hk
        cases hk
        exact Or.inl ⟨rfl, rfl⟩
      · rw [mapGet?_mapSet_ne _ _ hkv] at hk
        exact Or.inr ⟨fun h => hkv h.symm, hk⟩
    constructor
    · intro k dv hk
      rcases key k dv hk with ⟨_, hi⟩ | ⟨_, hg⟩
      · simp only [hi]; omega
      · have := hlt k dv hg
        simp only; omega
    · intro k k1 dv dv1 hk hk1 hidx
      rcases key k dv hk with ⟨e, hi⟩ | ⟨_, hg⟩
      · rcases key k1 dv1 hk1 with ⟨e1, _⟩ | ⟨_, hg1⟩
        · rw [e, e1]
        · have := hlt k1 dv1 hg1
          omega
      · rcases key k1 dv1 hk1 with ⟨_, hi1⟩ | ⟨_, hg1⟩
        · have := hlt k dv hg
          omega
        · exact hinj k k1 dv dv1 hg hg1 hidx

theorem registerValue_keys (dim : Dimension) (val k : String) :
    k ∈ mapKeys (registerValue dim val).Values ↔ k = val ∨ k ∈ mapKeys dim.Values := by
  unfold registerValue
  cases hget : mapGet? dim.Values val with
  | some dv =>
    have : val ∈ mapKeys dim.Values := (mapGet?_isSome_iff _ _).1 (by simp [hget])
    constructor
    · exact Or.inr
    · rintro (h | h)
      · rw [h]; exact this
      · exact h
  | none => exact mem_mapKeys_mapSet _ _ _ _

theorem registerValue_registered (dim : Dimension) (val : String) :
    val ∈ mapKeys (registerValue dim val).Values :=
  (registerValue_keys dim val val).2 (Or.inl rfl)

/-- One step of the loop of `analyzeDimensionsFromResponse` seen through
`getDim`. -/
theorem analyze_step_getDim (dims : List (String × Dimension)) (col : String) (dim : Dimension)
    (val c : String) (h : mapGet? dims col = some dim) :
    getDim (mapSet dims col (registerValue dim val)) c =
      if col = c then registerValue (getDim dims c) val else getDim dims c := by
  by_cases hc : col = c
  · subst hc
    simp [getDim_mapSet_same, getDim_of_get h]
  · simp [getDim_mapSet_ne _ _ hc, hc]

theorem analyze_RegOK (hc : HyperCube) (r : Response)
    (h : ∀ c, RegOK (getDim hc.Dimensions c)) :
    ∀ c, RegOK (getDim (analyzeDimensionsFromResponse hc r).Dimensions c) := by
  unfold analyzeDimensionsFromResponse
  refine foldl_invariant (fun s : HyperCube => ∀ c, RegOK (getDim s.Dimensions c)) _ _ _ h ?_
  intro s col _ hs c
  cases hget : mapGet? s.Dimensions col with
  | none => exact hs c
  | some dim =>
    simp only [analyze_step_getDim _ _ _ _ _ hget]
    split
    · exact registerValue_RegOK _ _ (hs c)
    · exact hs c

theorem analyze_carried (rs : List Response) (hc : HyperCube) (r : Response) (hr : r ∈ rs)
    (h : ∀ c k, k ∈ mapKeys (getDim hc.Dimensions c).Values → ∃ r1 ∈ rs, r1.get c = k) :
    ∀ c k, k ∈ mapKeys (getDim (analyzeDimensionsFromResponse hc r).Dimensions c).Values →
      ∃ r1 ∈ rs, r1.get c = k := by
  unfold analyzeDimensionsFromResponse
  refine foldl_invariant
    (fun s : HyperCube =>
      ∀ c k, k ∈ mapKeys (getDim s.Dimensions c).Values → ∃ r1 ∈ rs, r1.get c = k)
    _ _ _ h ?_
  intro s col _ hs c k
  cases hget : mapGet? s.Dimensions col with
  | none => exact hs c k
  | some dim =>
    simp only [analyze_step_getDim _ _ _ _ _ hget]
    split
    · rename_i hcol
      subst hcol
      rw [registerValue_keys]
      rintro (hk | hk)
      · exact ⟨r, hr, hk.symm⟩
      · exact hs _ k hk
    · exact hs c k

theorem getDim_nil (c : String) : getDim [] c = NewDimension := rfl

theorem getDim_NewGroupedWeighter (ops : Options) (c : String) :
    getDim (NewGroupedWeighter ops).Dimensions c = NewDimension := by
  have h : ∀ (cols : List String) (dims : List (String × Dimension)),
      (∀ c, getDim dims c = NewDimension) →
      ∀ c, getDim (cols.foldl (fun dims c => mapSet dims c NewDimension) dims) c
        = NewDimension := by
    intro cols
    induction cols with
    | nil => intro dims hd c; exact hd c
    | cons col cols ih =>
      intro dims hd c
      simp only [List.foldl_cons]
      apply ih
      intro c1
      by_cases hc : col = c1
      · subst hc; exact getDim_mapSet_same _ _ _
      · rw [getDim_mapSet_ne _ _ hc]; exact hd c1
  exact h ops.Columns [] getDim_nil c

/-! ### `configureBlockSize` -/

theorem blockSizes_untouched (cols : List String) (dims : List (String × Dimension)) (b : Nat)
    (c : String) (hc : c ∉ cols) : getDim (blockSizes cols dims b).1 c = getDim dims c := by
  induction cols generalizing dims b with
  | nil => rfl
  | cons col cols ih =>
    simp only [blockSizes]
    rw [ih _ _ (fun h => hc (List.mem_cons_of_mem _ h))]
    exact getDim_mapSet_ne _ _ (fun h => hc (h ▸ List.mem_cons_self _ _))

theorem blockSizes_frame (cols : List String) (dims : List (String × Dimension)) (b : Nat)
    (c : String) :
    (getDim (blockSizes cols dims b).1 c).Values = (getDim dims c).Values ∧
      (getDim (blockSizes cols dims b).1 c).Size = (getDim dims c).Size := by
  induction cols generalizing dims b with
  | nil => exact ⟨rfl, rfl⟩
  | cons col cols ih =>
    simp only [blockSizes]
    obtain ⟨h1, h2⟩ := ih (mapSet dims col { getDim dims col with BlockSize := b })
      (b * (getDim dims col).Size)
    rw [h1, h2]
    by_cases hc : col = c
    · subst hc
      rw [getDim_mapSet_same]
      exact ⟨rfl, rfl⟩
    · rw [getDim_mapSet_ne _ _ hc]
      exact ⟨rfl, rfl⟩

theorem radixOK_congr (d1 d2 : List (String × Dimension)) (cols : List String) (b : Nat)
    (h : ∀ c ∈ cols, (getDim d1 c).BlockSize = (getDim d2 c).BlockSize ∧
      (getDim d1 c).Size = (getDim d2 c).Size)
    (h1 : radixOK d1 cols b) : radixOK d2 cols b := by
  induction cols generalizing b with
  | nil => trivial
  | cons c cols ih =>
    obtain ⟨hb, hs⟩ := h c (List.mem_cons_self _ _)
    obtain ⟨e1, e2⟩ := h1
    refine ⟨hb ▸ e1, ?_⟩
    rw [← hs]
    exact ih _ (fun c1 hc1 => h c1 (List.mem_cons_of_mem _ hc1)) e2

theorem cubeSize_congr (d1 d2 : List (String × Dimension)) (cols : List String)
    (h : ∀ c ∈ cols, (getDim d1 c).Size = (getDim d2 c).Size) :
    cubeSize d1 cols = cubeSize d2 cols := by
  unfold cubeSize
  congr 1
  exact List.map_congr_left h

theorem blockSizes_radix (cols : List String) (dims : List (String × Dimension)) (b : Nat)
    (hnd : cols.Nodup) :
    radixOK (blockSizes cols dims b).1 cols b ∧
      (blockSizes cols dims b).2 = b * cubeSize dims cols := by
  induction cols generalizing dims b with
  | nil => simp [blockSizes, radixOK, cubeSize]
  | cons col cols ih =>
    obtain ⟨hnot, hnd1⟩ := List.nodup_cons.1 hnd
    simp only [blockSizes]
    obtain ⟨h1, h2⟩ := ih (mapSet dims col { getDim dims col with BlockSize := b })
      (b * (getDim dims col).Size) hnd1
    have hsize : (getDim (blockSizes cols
        (mapSet dims col { getDim dims col with BlockSize := b })
        (b * (getDim dims col).Size)).1 col).Size = (getDim dims col).Size := by
      rw [(blockSizes_frame _ _ _ _).2, getDim_mapSet_same]
    refine ⟨⟨?_, ?_⟩, ?_⟩
    · rw [blockSizes_untouched _ _ _ _ hnot, getDim_mapSet_same]
    · rw [hsize]
      exact h1
    · rw [h2]
      have : cubeSize (mapSet dims col { getDim dims col with BlockSize := b }) cols
          = cubeSize dims cols := by
        apply cubeSize_congr
        intro c hc
        have hne : col ≠ c := fun h => hnot (h ▸ hc)
        rw [getDim_mapSet_ne _ _ hne]
      rw [this]
      simp only [cubeSize, List.map_cons, List.prod_cons]
      ring

/-! ## Mixed-radix cell indices -/

theorem radix_dvd (dims : List (String × Dimension)) (d : String → Nat) (cols : List String)
    (b : Nat) (h : radixOK dims cols b) :
    b ∣ (cols.map (fun c => d c * (getDim dims c).BlockSize)).sum := by
  induction cols generalizing b with
  | nil => simp
  | cons c cols ih =>
    obtain ⟨hb, hrest⟩ := h
    simp only [List.map_cons, List.sum_cons, hb]
    apply Dvd.dvd.add
    · exact Dvd.intro_left _ rfl
    · exact Dvd.dvd.trans (Dvd.intro _ rfl) (ih _ hrest)

theorem radix_bound (dims : List (String × Dimension)) (d : String → Nat) (cols : List String)
    (b : Nat) (h : radixOK dims cols b) (hd : ∀ c ∈ cols, d c < (getDim dims c).Size) :
    (cols.map (fun c => d c * (getDim dims c).BlockSize)).sum + b ≤ b * cubeSize dims cols := by
  induction cols generalizing b with
  | nil => simp [cubeSize]
  | cons c cols ih =>
    obtain ⟨hb, hrest⟩ := h
    have h1 := ih _ hrest (fun c1 hc1 => hd c1 (List.mem_cons_of_mem _ hc1))
    have h2 := hd c (List.mem_cons_self _ _)
    simp only [cubeSize] at h1
    simp only [List.map_cons, List.sum_cons, hb, cubeSize, List.prod_cons]
    have h3 : d c * b + b ≤ (getDim dims c).Size * b := by
      have : d c + 1 ≤ (getDim dims c).Size := h2
      calc d c * b + b = (d c + 1) * b := by ring
        _ ≤ (getDim dims c).Size * b := Nat.mul_le_mul_right _ this
    calc d c * b + (cols.map (fun c => d c * (getDim dims c).BlockSize)).sum + b
        = (cols.map (fun c => d c * (getDim dims c).BlockSize)).sum + (d c * b + b) := by ring
      _ ≤ (cols.map (fun c => d c * (getDim dims c).BlockSize)).sum
            + b * (getDim dims c).Size := by
          have : (getDim dims c).Size * b = b * (getDim dims c).Size := Nat.mul_comm _ _
          omega
      _ ≤ b * (getDim dims c).Size * (cols.map (fun c => (getDim dims c).Size)).prod := h1
      _ = b * ((getDim dims c).Size * (cols.map (fun c => (getDim dims c).Size)).prod) := by
          ring

theorem radix_inj (dims : List (String × Dimension)) (d d1 : String → Nat)
    (cols : List String) (b : Nat) (h : radixOK dims cols b) (hb : 0 < b)
    (hd : ∀ c ∈ cols, d c < (getDim dims c).Size)
    (hd1 : ∀ c ∈ cols, d1 c < (getDim dims c).Size)
    (heq : (cols.map (fun c => d c * (getDim dims c).BlockSize)).sum =
      (cols.map (fun c => d1 c * (getDim dims c).BlockSize)).sum) :
    ∀ c ∈ cols, d c = d1 c := by
  induction cols generalizing b with
  | nil => intro c hc; cases hc
  | cons c cols ih =>
    obtain ⟨hbs, hrest⟩ := h
    have hs := hd c (List.mem_cons_self _ _)
    have hs1 := hd1 c (List.mem_cons_self _ _)
    obtain ⟨t, ht⟩ := radix_dvd dims d cols _ hrest
    obtain ⟨t1, ht1⟩ := radix_dvd dims d1 cols _ hrest
    simp only [List.map_cons, List.sum_cons, hbs] at heq
    rw [ht, ht1] at heq
    have e1 : b * (d c + (getDim dims c).Size * t) = b * (d1 c + (getDim dims c).Size * t1) := by
      calc b * (d c + (getDim dims c).Size * t) = d c * b + b * (getDim dims c).Size * t := by
            ring
        _ = d1 c * b + b * (getDim dims c).Size * t1 := heq
        _ = b * (d1 c + (getDim dims c).Size * t1) := by ring
    have e2 := Nat.eq_of_mul_eq_mul_left hb e1
    have e3 : d c = d1 c := by
      have m1 : (d c + (getDim dims c).Size * t) % (getDim dims c).Size = d c := by
        rw [Nat.add_mul_mod_self_left]; exact Nat.mod_eq_of_lt hs
      have m2 : (d1 c + (getDim dims c).Size * t1) % (getDim dims c).Size = d1 c := by
        rw [Nat.add_mul_mod_self_left]; exact Nat.mod_eq_of_lt hs1
      rw [← m1, ← m2, e2]
    intro c1 hc1
    rcases List.mem_cons.1 hc1 with rfl | hmem
    · exact e3
    · have hpos : 0 < b * (getDim dims c).Size := Nat.mul_pos hb (by omega)
      refine ih _ hrest hpos (fun c2 hc2 => hd c2 (List.mem_cons_of_mem _ hc2))
        (fun c2 hc2 => hd1 c2 (List.mem_cons_of_mem _ hc2)) ?_ c1 hmem
      rw [e3] at heq
      rw [ht, ht1]
      omega

theorem radixOK_of_sameIndexing {d1 d2 : List (String × Dimension)} (h : sameIndexing d1 d2)
    (cols : List String) (b : Nat) (h1 : radixOK d1 cols b) : radixOK d2 cols b :=
  radixOK_congr d1 d2 cols b (fun c _ => ⟨(h c).2.1, (h c).1⟩) h1

theorem digit_congr {d1 d2 : List (String × Dimension)} (h : sameIndexing d1 d2)
    (c val : String) : digit d1 c val = digit d2 c val := by
  have := (h c).2.2.2 val
  unfold digit getVal
  cases h1 : mapGet? (getDim d1 c).Values val <;>
    cases h2 : mapGet? (getDim d2 c).Values val <;> simp [h1, h2] at this ⊢
  exact this

theorem cellIndex_congr {d1 d2 : List (String × Dimension)} (h : sameIndexing d1 d2)
    (cols : List String) (r : Response) : cellIndex d1 cols r = cellIndex d2 cols r := by
  unfold cellIndex
  congr 1
  apply List.map_congr_left
  intro c _
  rw [digit_congr h, (h c).2.1]

theorem RegOK_of_sameIndexing {d1 d2 : List (String × Dimension)} (h : sameIndexing d1 d2)
    (c : String) (h1 : RegOK (getDim d1 c)) : RegOK (getDim d2 c) := by
  obtain ⟨hs, _, _, hv⟩ := h c
  obtain ⟨hlt, hinj⟩ := h1
  have back : ∀ val dv, mapGet? (getDim d2 c).Values val = some dv →
      ∃ dv1, mapGet? (getDim d1 c).Values val = some dv1 ∧ dv1.Index = dv.Index := by
    intro val dv hget
    have := hv val
    rw [hget] at this
    cases h1 : mapGet? (getDim d1 c).Values val with
    | none => simp [h1] at this
    | some dv1 =>
      rw [h1] at this
      exact ⟨dv1, rfl, by simpa using this⟩
  constructor
  · intro val dv hget
    obtain ⟨dv1, hg1, hi⟩ := back val dv hget
    have := hlt val dv1 hg1
    omega
  · intro val val1 dv dv1 hget hget1 hidx
    obtain ⟨e, hg, hi⟩ := back val dv hget
    obtain ⟨e1, hg1, hi1⟩ := back val1 dv1 hget1
    exact hinj val val1 e e1 hg hg1 (by omega)

/-- The ordinal of a registered value is below the size of its dimension. -/
theorem digit_lt (dims : List (String × Dimension)) (c val : String)
    (hreg : RegOK (getDim dims c)) (hval : val ∈ mapKeys (getDim dims c).Values) :
    digit dims c val < (getDim dims c).Size := by
  have := (mapGet?_isSome_iff _ _).2 hval
  cases hget : mapGet? (getDim dims c).Values val with
  | none => simp [hget] at this
  | some dv =>
    have h1 := hreg.1 val dv hget
    simpa [digit, getVal, hget] using h1

/-- Two registered values of a column with the same ordinal are equal. -/
theorem digit_inj (dims : List (String × Dimension)) (c val val1 : String)
    (hreg : RegOK (getDim dims c)) (hval : val ∈ mapKeys (getDim dims c).Values)
    (hval1 : val1 ∈ mapKeys (getDim dims c).Values)
    (h : digit dims c val = digit dims c val1) : val = val1 := by
  have h1 := (mapGet?_isSome_iff _ _).2 hval
  have h2 := (mapGet?_isSome_iff _ _).2 hval1
  cases hget : mapGet? (getDim dims c).Values val with
  | none => simp [hget] at h1
  | some dv =>
    cases hget1 : mapGet? (getDim dims c).Values val1 with
    | none => simp [hget1] at h2
    | some dv1 =>
      refine hreg.2 val val1 dv dv1 hget hget1 ?_
      simpa [digit, getVal, hget, hget1] using h

/-- The cell of a row whose values are all registered lies inside the cube. -/
theorem cellIndex_lt (dims : List (String × Dimension)) (cols : List String) (r : Response)
    (hrad : radixOK dims cols 1) (hreg : ∀ c, RegOK (getDim dims c))
    (hval : ∀ c ∈ cols, r.get c ∈ mapKeys (getDim dims c).Values) :
    cellIndex dims cols r < cubeSize dims cols := by
  have := radix_bound dims (fun c => digit dims c (r.get c)) cols 1 hrad
    (fun c hc => digit_lt dims c _ (hreg c) (hval c hc))
  unfold cellIndex
  simp only at this
  omega

/-- Two rows with registered values and the same cell agree on every column. -/
theorem cellIndex_inj (dims : List (String × Dimension)) (cols : List String)
    (r r1 : Response) (hrad : radixOK dims cols 1) (hreg : ∀ c, RegOK (getDim dims c))
    (hval : ∀ c ∈ cols, r.get c ∈ mapKeys (getDim dims c).Values)
    (hval1 : ∀ c ∈ cols, r1.get c ∈ mapKeys (getDim dims c).Values)
    (h : cellIndex dims cols r = cellIndex dims cols r1) :
    ∀ c ∈ cols, r.get c = r1.get c := by
  intro c hc
  have := radix_inj dims (fun c => digit dims c (r.get c)) (fun c => digit dims c (r1.get c))
    cols 1 hrad Nat.one_pos
    (fun c hc => digit_lt dims c _ (hreg c) (hval c hc))
    (fun c hc => digit_lt dims c _ (hreg c) (hval1 c hc)) h c hc
  exact digit_inj dims c _ _ (hreg c) (hval c hc) (hval1 c hc) this

/-! ## Ingestion: what `addRow` writes -/

theorem addRowColumns_index (isWork : Bool) (r : Response) (cols : List String)
    (dims : List (String × Dimension)) (index : Nat)
    (dims1 : List (String × Dimension)) (index1 : Nat)
    (h : addRowColumns isWork r cols dims index = .ok (dims1, index1)) :
    index1 = index + (if isWork then cellIndex dims cols r else 0) := by
  induction cols generalizing dims index with
  | nil =>
    simp only [addRowColumns] at h
    cases h
    cases isWork <;> simp [cellIndex]
  | cons col cols ih =>
    simp only [addRowColumns, v] at h
    split at h
    · cases h
    · rename_i dval hget
      split at h
      · rename_i hw
        have hs := sameIndexing_mapSet dims col
          { getDim dims col with
            Values := mapSet (getDim dims col).Values (r.get col)
              { dval with Initial := dval.Initial + 1, WorkSum := dval.WorkSum + Flt.fin 1 }
            Initial := (getDim dims col).Initial + 1 } rfl rfl
          (mapKeys_mapSet_of_get _ _ dval _ hget)
          (fun val1 => map_Index_mapSet _ _ dval _ hget (by rfl) val1)
        rw [ih _ _ h]
        have e1 := cellIndex_congr hs cols r
        have e2 : dval.Index = digit dims col (r.get col) := by simp [digit, getVal, hget]
        simp only [hw, if_true, cellIndex, List.map_cons, List.sum_cons] at e1 ⊢
        rw [← e1, e2]
        omega
      · rename_i hw
        rw [ih _ _ h]
        simp [hw]

theorem getD_set (l : List Flt) (i j : Nat) (a d : Flt) :
    (l.set i a).getD j d = if i = j ∧ i < l.length then a else l.getD j d := by
  simp only [List.getD_eq_getElem?_getD, List.getElem?_set]
  by_cases h : i = j
  · subst h
    by_cases hl : i < l.length
    · simp [hl]
    · simp [hl, List.getElem?_eq_none (not_lt.mp hl)]
  · simp [h]

/-- The statistics after ingestion: only the two row counts move. -/
theorem addRows_Stats {rs : List Response} {hc hc1 : HyperCube}
    (h : addRows rs hc = .ok hc1) :
    hc1.Stats = { hc.Stats with
      WorkRows := hc.Stats.WorkRows + rs.countP (isWorkRow hc.Options)
      GoalRows := hc.Stats.GoalRows + rs.countP (isGoalRow hc.Options) } := by
  induction rs generalizing hc with
  | nil => simp only [addRows] at h; cases h; rfl
  | cons r rs ih =>
    simp only [addRows] at h
    split at h
    · cases h
    · rename_i hc2 h2
      rw [ih h, addRow_Options h2]
      rcases addRow_ok_cases h2 with ⟨hg, hb⟩ | ⟨hw, hb⟩
      · obtain ⟨dims, index, _, rfl⟩ := addRowBody_goal hb
        simp only [List.countP_cons, hg, isGoalRow_not_isWorkRow hg, if_true]
        simp only [Bool.false_eq_true, if_false, Nat.add_zero]
        congr 1
        omega
      · obtain ⟨dims, index, _, rfl⟩ := addRowBody_work hb
        have hg : isGoalRow hc.Options r = false := by
          cases hgr : isGoalRow hc.Options r with
          | false => rfl
          | true => rw [isGoalRow_not_isWorkRow hgr] at hw; cases hw
        simp only [List.countP_cons, hg, hw, if_true]
        simp only [Bool.false_eq_true, if_false, Nat.add_zero]
        congr 1
        omega

/-- The cube after ingestion: every cell counts the work rows that fall in it. -/
theorem addRows_Workspace {rs : List Response} {hc hc1 : HyperCube}
    (h : addRows rs hc = .ok hc1)
    (hlt : ∀ r ∈ rs, isWorkRow hc.Options r = true →
      cellIndex hc.Dimensions hc.Options.Columns r < hc.Workspace.length) :
    hc1.Workspace.length = hc.Workspace.length ∧
    ∀ i q, hc.Workspace.getD i (Flt.fin 0) = Flt.fin q →
      hc1.Workspace.getD i (Flt.fin 0) = Flt.fin (q + (rs.countP (fun r =>
        isWorkRow hc.Options r && decide (cellIndex hc.Dimensions hc.Options.Columns r = i)) :
          ℕ)) := by
  induction rs generalizing hc with
  | nil => simp only [addRows] at h; cases h; simp
  | cons r rs ih =>
    simp only [addRows] at h
    split at h
    · cases h
    · rename_i hc2 h2
      have hops := addRow_Options h2
      have hsame := addRow_sameIndexing h2
      have hci : ∀ r1, cellIndex hc2.Dimensions hc.Options.Columns r1 =
          cellIndex hc.Dimensions hc.Options.Columns r1 :=
        fun r1 => (cellIndex_congr hsame _ r1).symm
      rcases addRow_ok_cases h2 with ⟨hg, hb⟩ | ⟨hw, hb⟩
      · obtain ⟨dims, index, _, e⟩ := addRowBody_goal hb
        have hws : hc2.Workspace = hc.Workspace := by rw [e]
        obtain ⟨hl, hv⟩ := ih h (by
          intro r1 hr1 hw1
          rw [hops, hci, hws]
          rw [hops] at hw1
          exact hlt r1 (List.mem_cons_of_mem _ hr1) hw1)
        refine ⟨by rw [hl, hws], ?_⟩
        intro i q hq
        rw [hv i q (by rw [hws]; exact hq)]
        simp only [List.countP_cons, isGoalRow_not_isWorkRow hg, hops, hci, Bool.false_and]
        simp
      · obtain ⟨dims, index, hcol, e⟩ := addRowBody_work hb
        have hidx := addRowColumns_index _ _ _ _ _ _ _ hcol
        simp only [if_true, Nat.zero_add] at hidx
        have hws : hc2.Workspace = hc.Workspace.set index
            (hc.Workspace.getD index (Flt.fin 0) + Flt.fin 1) := by rw [e]
        have hil : index < hc.Workspace.length := by
          rw [hidx]; exact hlt r (List.mem_cons_self _ _) hw
        obtain ⟨hl, hv⟩ := ih h (by
          intro r1 hr1 hw1
          rw [hops, hci, hws, List.length_set]
          rw [hops] at hw1
          exact hlt r1 (List.mem_cons_of_mem _ hr1) hw1)
        refine ⟨by rw [hl, hws, List.length_set], ?_⟩
        intro i q hq
        by_cases hi : index = i
        · subst hi
          rw [hv index (q + 1) (by
            rw [hws, getD_set]
            simp only [hil, and_self, if_true, hq]
            rfl)]
          simp only [List.countP_cons, hw, hops, hci, hidx, Bool.true_and, decide_True,
            if_true]
          push_cast
          congr 1
          ring
        · rw [hv i q (by
            rw [hws, getD_set]
            simp only [hi, false_and, if_false]
            exact hq)]
          have hne : ¬ cellIndex hc.Dimensions hc.Options.Columns r = i := by
            rw [← hidx]; exact hi
          simp only [List.countP_cons, hw, hops, hci, hne, Bool.true_and, decide_False]
          simp

/-! ### Membership sets -/

theorem mem_setInsert (s : List Nat) (index i : Nat) :
    i ∈ setInsert s index ↔ i ∈ s ∨ i = index := by
  unfold setInsert
  split
  · rename_i h
    constructor
    · exact Or.inl
    · rintro (h1 | h1)
      · exact h1
      · rw [h1]; exact h
  · simp

theorem nodup_setInsert (s : List Nat) (index : Nat) (h : s.Nodup) :
    (setInsert s index).Nodup := by
  unfold setInsert
  split
  · exact h
  · rename_i hn
    rw [List.nodup_append]
    refine ⟨h, List.nodup_singleton _, ?_⟩
    intro a ha hb
    simp only [List.mem_singleton] at hb
    exact hn (hb ▸ ha)

theorem cells_mapSet (dv : List (String × List (String × List Nat))) (col val c k : String)
    (s : List Nat) :
    cells (mapSet dv col (mapSet ((mapGet? dv col).getD []) val s)) c k =
      if col = c ∧ val = k then some s else cells dv c k := by
  unfold cells
  by_cases hc : col = c
  · subst hc
    rw [mapGet?_mapSet_same]
    by_cases hk : val = k
    · subst hk
      simp [mapGet?_mapSet_same]
    · simp [mapGet?_mapSet_ne _ _ hk, hk]
  · rw [mapGet?_mapSet_ne _ _ hc]
    simp [hc]

theorem addRowMembership_cells (r : Response) (index : Nat) (cols : List String)
    (dv : List (String × List (String × List Nat))) (target : List (String × String))
    (c k : String) :
    (∀ i, i ∈ (cells (addRowMembership r index cols dv target).1 c k).getD [] ↔
      i ∈ (cells dv c k).getD [] ∨ (c ∈ cols ∧ r.get c = k ∧ i = index)) ∧
    ((cells (addRowMembership r index cols dv target).1 c k).isSome ↔
      (cells dv c k).isSome ∨ (c ∈ cols ∧ r.get c = k)) ∧
    (((cells dv c k).getD []).Nodup →
      ((cells (addRowMembership r index cols dv target).1 c k).getD []).Nodup) := by
  induction cols generalizing dv target with
  | nil => simp [addRowMembership]
  | cons col cols ih =>
    simp only [addRowMembership, v]
    obtain ⟨h1, h2, h3⟩ := ih
      (mapSet dv col (mapSet ((mapGet? dv col).getD []) (r.get col)
        (setInsert ((mapGet? ((mapGet? dv col).getD []) (r.get col)).getD []) index)))
      (mapSet target col (r.get col))
    have hc := cells_mapSet dv col (r.get col) c k
      (setInsert ((mapGet? ((mapGet? dv col).getD []) (r.get col)).getD []) index)
    by_cases hck : col = c ∧ r.get col = k
    · obtain ⟨rfl, rfl⟩ := hck
      simp only [and_self, if_true] at hc
      refine ⟨?_, ?_, ?_⟩
      · intro i
        rw [h1 i, hc]
        simp only [Option.getD_some, mem_setInsert, List.mem_cons, true_or, true_and, cells]
        tauto
      · rw [h2, hc]
        simp
      · intro hnd
        apply h3
        rw [hc]
        exact nodup_setInsert _ _ hnd
    · simp only [hck, if_false] at hc
      have hmem : (c ∈ col :: cols ∧ r.get c = k) ↔ (c ∈ cols ∧ r.get c = k) := by
        constructor
        · rintro ⟨hm, hk⟩
          rcases List.mem_cons.1 hm with rfl | hm
          · exact absurd ⟨rfl, hk⟩ hck
          · exact ⟨hm, hk⟩
        · rintro ⟨hm, hk⟩
          exact ⟨List.mem_cons_of_mem _ hm, hk⟩
      refine ⟨?_, ?_, ?_⟩
      · intro i
        rw [h1 i, hc]
        constructor
        · rintro (h | ⟨hm, hk, hi⟩)
          · exact Or.inl h
          · exact Or.inr ⟨List.mem_cons_of_mem _ hm, hk, hi⟩
        · rintro (h | ⟨hm, hk, hi⟩)
          · exact Or.inl h
          · exact Or.inr ⟨(hmem.1 ⟨hm, hk⟩).1, hk, hi⟩
      · rw [h2, hc, hmem]
      · intro hnd
        apply h3
        rw [hc]
        exact hnd

theorem addRowMembership_target (r : Response) (index : Nat) (cols : List String)
    (dv : List (String × List (String × List Nat))) (target : List (String × String))
    (c : String) :
    mapGet? (addRowMembership r index cols dv target).2 c =
      if c ∈ cols then some (r.get c) else mapGet? target c := by
  induction cols generalizing dv target with
  | nil => simp [addRowMembership]
  | cons col cols ih =>
    simp only [addRowMembership, v]
    rw [ih]
    by_cases hc : c ∈ cols
    · simp [hc]
    · by_cases hcol : col = c
      · subst hcol
        simp [hc, mapGet?_mapSet_same]
      · have : ¬ c = col := fun h => hcol h.symm
        simp [hc, this, mapGet?_mapSet_ne _ _ hcol]

/-- The membership sets after ingestion: the set of a value of a configured
column holds the cells of the work rows that carry the value. -/
theorem addRows_cells {rs : List Response} {hc hc1 : HyperCube}
    (h : addRows rs hc = .ok hc1) (c k : String) :
    (∀ i, i ∈ (cells hc1.DimValues c k).getD [] ↔
      i ∈ (cells hc.DimValues c k).getD [] ∨
        (c ∈ hc.Options.Columns ∧ ∃ r ∈ rs, isWorkRow hc.Options r = true ∧ r.get c = k ∧
          cellIndex hc.Dimensions hc.Options.Columns r = i)) ∧
    ((cells hc1.DimValues c k).isSome ↔
      (cells hc.DimValues c k).isSome ∨
        (c ∈ hc.Options.Columns ∧ ∃ r ∈ rs, isWorkRow hc.Options r = true ∧ r.get c = k)) ∧
    (((cells hc.DimValues c k).getD []).Nodup → ((cells hc1.DimValues c k).getD []).Nodup) := by
  induction rs generalizing hc with
  | nil => simp only [addRows] at h; cases h; simp
  | cons r rs ih =>
    simp only [addRows] at h
    split at h
    · cases h
    · rename_i hc2 h2
      have hops := addRow_Options h2
      have hsame := addRow_sameIndexing h2
      have hci : ∀ r1, cellIndex hc2.Dimensions hc.Options.Columns r1 =
          cellIndex hc.Dimensions hc.Options.Columns r1 :=
        fun r1 => (cellIndex_congr hsame _ r1).symm
      obtain ⟨h1, h2', h3⟩ := ih h
      simp only [hops, hci] at h1 h2'
      rcases addRow_ok_cases h2 with ⟨hg, hb⟩ | ⟨hw, hb⟩
      · obtain ⟨dims, index, _, e⟩ := addRowBody_goal hb
        have hdv : hc2.DimValues = hc.DimValues := by rw [e]
        have hnw := isGoalRow_not_isWorkRow hg
        rw [hdv] at h1 h2' h3
        refine ⟨?_, ?_, h3⟩
        · intro i
          rw [h1 i]
          simp only [List.mem_cons, exists_eq_or_imp, hnw, Bool.false_eq_true, false_and,
            false_or]
        · rw [h2']
          simp only [List.mem_cons, exists_eq_or_imp, hnw, Bool.false_eq_true, false_and,
            false_or]
      · obtain ⟨dims, index, hcol, e⟩ := addRowBody_work hb
        have hidx := addRowColumns_index _ _ _ _ _ _ _ hcol
        simp only [if_true, Nat.zero_add] at hidx
        have hdv : hc2.DimValues =
            (addRowMembership r index hc.Options.Columns hc.DimValues []).1 := by rw [e]
        obtain ⟨m1, m2, m3⟩ := addRowMembership_cells r index hc.Options.Columns hc.DimValues
          [] c k
        rw [hdv] at h1 h2' h3
        refine ⟨?_, ?_, fun hnd => h3 (m3 hnd)⟩
        · intro i
          rw [h1 i, m1 i]
          simp only [List.mem_cons, exists_eq_or_imp, hw, true_and, ← hidx]
          constructor
          · rintro ((h | ⟨hm, hk, hi⟩) | ⟨hm, hr⟩)
            · exact Or.inl h
            · exact Or.inr ⟨hm, Or.inl ⟨hk, hi.symm⟩⟩
            · exact Or.inr ⟨hm, Or.inr hr⟩
          · rintro (h | ⟨hm, ⟨hk, hi⟩ | hr⟩)
            · exact Or.inl (Or.inl h)
            · exact Or.inl (Or.inr ⟨hm, hk, hi.symm⟩)
            · exact Or.inr ⟨hm, hr⟩
        · rw [h2', m2]
          simp only [List.mem_cons, exists_eq_or_imp, hw, true_and]
          constructor
          · rintro ((h | ⟨hm, hk⟩) | ⟨hm, hr⟩)
            · exact Or.inl h
            · exact Or.inr ⟨hm, Or.inl hk⟩
            · exact Or.inr ⟨hm, Or.inr hr⟩
          · rintro (h | ⟨hm, hk | hr⟩)
            · exact Or.inl (Or.inl h)
            · exact Or.inl (Or.inr ⟨hm, hk⟩)
            · exact Or.inr ⟨hm, hr⟩

/-! ### The work-row registry and `rowIndex` -/

theorem addRows_registry {rs : List Response} {hc hc1 : HyperCube}
    (h : addRows rs hc = .ok hc1) (id : String) (target : List (String × String))
    (ht : mapGet? hc1.WorkRows id = some target) :
    mapGet? hc.WorkRows id = some target ∨
      ∃ r ∈ rs, isWorkRow hc.Options r = true ∧ r.RespondentID = id ∧
        ∀ c ∈ hc.Options.Columns, mapGet? target c = some (r.get c) := by
  induction rs generalizing hc with
  | nil => simp only [addRows] at h; cases h; exact Or.inl ht
  | cons r rs ih =>
    simp only [addRows] at h
    split at h
    · cases h
    · rename_i hc2 h2
      have hops := addRow_Options h2
      rcases ih h with h3 | ⟨r1, hr1, hw1, hid1, ht1⟩
      · rcases addRow_ok_cases h2 with ⟨hg, hb⟩ | ⟨hw, hb⟩
        · obtain ⟨dims, index, _, e⟩ := addRowBody_goal hb
          rw [e] at h3
          exact Or.inl h3
        · obtain ⟨dims, index, hcol, e⟩ := addRowBody_work hb
          rw [e] at h3
          simp only at h3
          by_cases hid : r.RespondentID = id
          · rw [hid, mapGet?_mapSet_same] at h3
            cases h3
            refine Or.inr ⟨r, List.mem_cons_self _ _, hw, hid, ?_⟩
            intro c hc'
            rw [addRowMembership_target]
            simp [hc']
          · rw [mapGet?_mapSet_ne _ _ hid] at h3
            exact Or.inl h3
      · rw [hops] at hw1 ht1
        exact Or.inr ⟨r1, List.mem_cons_of_mem _ hr1, hw1, hid1, ht1⟩

theorem foldl_add_eq_sum {α : Type} (f : α → Nat) (l : List α) (init : Nat) :
    l.foldl (fun a c => a + f c) init = init + (l.map f).sum := by
  induction l generalizing init with
  | nil => simp
  | cons a l ih => simp only [List.foldl_cons, ih, List.map_cons, List.sum_cons]; omega

/-- The method `rowIndex` on the stored values of a row gives the cell of the
row. -/
theorem rowIndex_eq_cellIndex (hc : HyperCube) (target : List (String × String))
    (r : Response) (ht : ∀ c ∈ hc.Options.Columns, mapGet? target c = some (r.get c)) :
    rowIndex hc target = cellIndex hc.Dimensions hc.Options.Columns r := by
  unfold rowIndex cellIndex
  rw [foldl_add_eq_sum (fun c => (getVal (getDim hc.Dimensions c).Values
    (v ((mapGet? target c).getD ""))).Index * (getDim hc.Dimensions c).BlockSize)]
  rw [Nat.zero_add]
  congr 1
  apply List.map_congr_left
  intro c hc'
  simp [ht c hc', v, digit]

/-! ### Goal sums -/

theorem fin_add_fin (a b : ℚ) : Flt.fin a + Flt.fin b = Flt.fin (a + b) := rfl

theorem fin_mul_fin (a b : ℚ) : Flt.fin a * Flt.fin b = Flt.fin (a * b) := rfl

theorem fin_sub_fin (a b : ℚ) : Flt.fin a - Flt.fin b = Flt.fin (a - b) := by
  show Flt.add (Flt.fin a) (Flt.neg (Flt.fin b)) = _
  simp [Flt.add, Flt.neg, sub_eq_add_neg]

theorem fin_div_fin (a b : ℚ) (hb : b ≠ 0) : Flt.fin a / Flt.fin b = Flt.fin (a / b) := by
  show Flt.div (Flt.fin a) (Flt.fin b) = _
  simp [Flt.div, hb]

theorem getVal_mapSet (vals : List (String × DimensionValue)) (val k : String)
    (d : DimensionValue) :
    getVal (mapSet vals val d) k = if val = k then d else getVal vals k := by
  unfold getVal
  by_cases h : val = k
  · subst h
    simp [mapGet?_mapSet_same]
  · simp [mapGet?_mapSet_ne _ _ h, h]

theorem getVal_of_get {vals : List (String × DimensionValue)} {val : String}
    {d : DimensionValue} (h : mapGet? vals val = some d) : getVal vals val = d := by
  simp [getVal, h]

theorem addRowColumns_GoalSum (isWork : Bool) (r : Response) (cols : List String)
    (dims : List (String × Dimension)) (index : Nat)
    (dims1 : List (String × Dimension)) (index1 : Nat)
    (h : addRowColumns isWork r cols dims index = .ok (dims1, index1))
    (c k : String) (q : ℚ) (hq : (getVal (getDim dims c).Values k).GoalSum = Flt.fin q) :
    (getVal (getDim dims1 c).Values k).GoalSum =
      Flt.fin (q + (if isWork = false ∧ r.get c = k then (cols.count c : ℕ) else (0 : ℕ))) := by
  induction cols generalizing dims index q with
  | nil =>
    simp only [addRowColumns] at h
    cases h
    simp [hq]
  | cons col cols ih =>
    simp only [addRowColumns, v] at h
    split at h
    · cases h
    · rename_i dval hget
      split at h
      · rename_i hw
        have hstep : (getVal (getDim (mapSet dims col
            { getDim dims col with
              Values := mapSet (getDim dims col).Values (r.get col)
                { dval with Initial := dval.Initial + 1, WorkSum := dval.WorkSum + Flt.fin 1 }
              Initial := (getDim dims col).Initial + 1 }) c).Values k).GoalSum = Flt.fin q := by
          by_cases hc : col = c
          · subst hc
            rw [getDim_mapSet_same]
            simp only [getVal_mapSet]
            split
            · rename_i hk
              subst hk
              rw [← hq, getVal_of_get hget]
            · exact hq
          · rw [getDim_mapSet_ne _ _ hc]
            exact hq
        rw [ih _ _ h q hstep]
        simp [hw]
      · rename_i hw
        have hw' : isWork = false := by cases isWork <;> simp_all
        by_cases hck : col = c ∧ r.get col = k
        · obtain ⟨rfl, rfl⟩ := hck
          have hstep : (getVal (getDim (mapSet dims col
              { getDim dims col with
                Values := mapSet (getDim dims col).Values (r.get col)
                  { dval with GoalSum := dval.GoalSum + Flt.fin 1 } }) col).Values
                (r.get col)).GoalSum = Flt.fin (q + 1) := by
            rw [getDim_mapSet_same]
            simp only [getVal_mapSet, if_true]
            rw [getVal_of_get hget] at hq
            rw [hq, fin_add_fin]
          rw [ih _ _ h (q + 1) hstep]
          simp only [hw', and_self, if_true, List.count_cons_self]
          push_cast
          congr 1
          ring
        · have hstep : (getVal (getDim (mapSet dims col
              { getDim dims col with
                Values := mapSet (getDim dims col).Values (r.get col)
                  { dval with GoalSum := dval.GoalSum + Flt.fin 1 } }) c).Values k).GoalSum
                = Flt.fin q := by
            by_cases hc : col = c
            · subst hc
              rw [getDim_mapSet_same]
              simp only [getVal_mapSet]
              have hk : ¬ r.get col = k := fun hk => hck ⟨rfl, hk⟩
              simp only [hk, if_false]
              exact hq
            · rw [getDim_mapSet_ne _ _ hc]
              exact hq
          rw [ih _ _ h q hstep]
          by_cases hk : r.get c = k
          · have hc : ¬ col = c := fun hc => hck ⟨hc, hc ▸ hk⟩
            have hc' : ¬ c = col := fun h => hc h.symm
            simp [hw', hk, List.count_cons, hc]
          · simp [hk]

/-- The goal sum of a value of a configured column after ingestion counts the
goal rows that carry the value. -/
theorem addRows_GoalSum {rs : List Response} {hc hc1 : HyperCube}
    (h : addRows rs hc = .ok hc1) (hnd : hc.Options.Columns.Nodup)
    (c k : String) (hc' : c ∈ hc.Options.Columns) (q : ℚ)
    (hq : (getVal (getDim hc.Dimensions c).Values k).GoalSum = Flt.fin q) :
    (getVal (getDim hc1.Dimensions c).Values k).GoalSum =
      Flt.fin (q + (rs.countP (fun r => isGoalRow hc.Options r && decide (r.get c = k)) : ℕ)) := by
  induction rs generalizing hc q with
  | nil => simp only [addRows] at h; cases h; simp [hq]
  | cons r rs ih =>
    simp only [addRows] at h
    split at h
    · cases h
    · rename_i hc2 h2
      have hops := addRow_Options h2
      have hcount : hc.Options.Columns.count c = 1 := List.count_eq_one_of_mem hnd hc'
      rcases addRow_ok_cases h2 with ⟨hg, hb⟩ | ⟨hw, hb⟩
      · obtain ⟨dims, index, hcol, e⟩ := addRowBody_goal hb
        have h3 := addRowColumns_GoalSum _ _ _ _ _ _ _ hcol c k q hq
        have hd : hc2.Dimensions = dims := by rw [e]
        rw [← hd] at h3
        rw [ih h (hops ▸ hnd) (hops ▸ hc') _ h3, hops]
        simp only [List.countP_cons, hg, Bool.true_and, hcount, true_and]
        by_cases hk : r.get c = k
        · simp only [hk, if_true, decide_True]
          push_cast
          congr 1
          ring
        · simp [hk]
      · obtain ⟨dims, index, hcol, e⟩ := addRowBody_work hb
        have h3 := addRowColumns_GoalSum _ _ _ _ _ _ _ hcol c k q hq
        have hd : hc2.Dimensions = dims := by rw [e]
        rw [← hd] at h3
        have hg : isGoalRow hc.Options r = false := by
          cases hgr : isGoalRow hc.Options r with
          | false => rfl
          | true => rw [isGoalRow_not_isWorkRow hgr] at hw; cases hw
        rw [ih h (hops ▸ hnd) (hops ▸ hc') _ h3, hops]
        simp [List.countP_cons, hg]

/-! ## One sweep of the raking loop on a balanced cube -/

theorem curbWeight_one (ops : Options) (hlo : ops.LowerWeightCap ≤ 1)
    (hhi : 1 ≤ ops.UpperWeightCap) : curbWeight ops (Flt.fin 1) = (Flt.fin 1, false) := by
  unfold curbWeight
  simp [Flt.lt, Flt.gt, not_lt.mpr hlo, not_lt.mpr hhi]

theorem set_getD_self (l : List Flt) (i : Nat) (a d : Flt) (hi : i < l.length)
    (h : l.getD i d = a) : l.set i a = l := by
  apply List.ext_getElem
  · simp
  · intro n h1 h2
    rw [List.getElem_set]
    split
    · rename_i hin
      subst hin
      rw [List.getD_eq_getElem _ _ hi] at h
      exact h.symm
    · rfl

theorem sumCells_singleton (ws : List Flt) (i : Nat) (h : ws.getD i (Flt.fin 0) = Flt.fin 1) :
    sumCells ws [i] = Flt.fin 1 := by
  simp only [sumCells, List.foldl_cons, List.foldl_nil, h, fin_add_fin]
  norm_num

theorem recomputePass_balanced (ops : Options) (hlo : ops.LowerWeightCap ≤ 1)
    (hhi : 1 ≤ ops.UpperWeightCap) (ws : List Flt) (byVal : List (String × List Nat))
    (ks : List String) (vals : List (String × DimensionValue)) (g w : ℚ)
    (hk : ∀ k ∈ ks, k ∈ mapKeys vals ∧ (getVal vals k).GoalSum = Flt.fin 1 ∧
      ∃ i, mapGet? byVal k = some [i] ∧ ws.getD i (Flt.fin 0) = Flt.fin 1) :
    ∃ vals1, recomputePass ops ws byVal ks vals (Flt.fin g) (Flt.fin w) =
        (vals1, Flt.fin (g + ks.length), Flt.fin (w + ks.length)) ∧
      mapKeys vals1 = mapKeys vals ∧
      (∀ k, (mapGet? vals1 k).map DimensionValue.Index =
        (mapGet? vals k).map DimensionValue.Index) ∧
      (∀ k, (getVal vals1 k).GoalSum = (getVal vals k).GoalSum) ∧
      (∀ k, (k ∈ ks ∨ (getVal vals k).Weight = Flt.fin 1) →
        (getVal vals1 k).Weight = Flt.fin 1) := by
  induction ks generalizing vals g w with
  | nil => exact ⟨vals, by simp [recomputePass], rfl, fun _ => rfl, fun _ => rfl, by simp⟩
  | cons k ks ih =>
    obtain ⟨hmem, hgoal, i, hbv, hws⟩ := hk k (List.mem_cons_self _ _)
    obtain ⟨dv, hget⟩ := Option.isSome_iff_exists.1 ((mapGet?_isSome_iff _ _).2 hmem)
    have hdv : getVal vals k = dv := getVal_of_get hget
    rw [hdv] at hgoal
    have hdiv : Flt.fin 1 / Flt.fin 1 = Flt.fin 1 := by
      rw [fin_div_fin _ _ one_ne_zero]; norm_num
    have hstep : recomputePass ops ws byVal (k :: ks) vals (Flt.fin g) (Flt.fin w) =
        recomputePass ops ws byVal ks
          (mapSet vals k { dv with WorkSum := Flt.fin 1, Weight := Flt.fin 1 })
          (Flt.fin (g + 1)) (Flt.fin (w + 1)) := by
      simp only [recomputePass, hbv, sumCells_singleton ws i hws, hdv, hgoal, hdiv,
        curbWeight_one ops hlo hhi, fin_add_fin]
    rw [hstep]
    obtain ⟨vals1, h1, h2, h3, h4, h5⟩ := ih
      (mapSet vals k { dv with WorkSum := Flt.fin 1, Weight := Flt.fin 1 }) (g + 1) (w + 1)
      (by
        intro k1 hk1
        obtain ⟨hm1, hg1, hi1⟩ := hk k1 (List.mem_cons_of_mem _ hk1)
        refine ⟨?_, ?_, hi1⟩
        · rw [mapKeys_mapSet_of_get _ _ dv _ hget]; exact hm1
        · rw [getVal_mapSet]
          split
          · exact hgoal
          · exact hg1)
    refine ⟨vals1, ?_, ?_, ?_, ?_, ?_⟩
    · rw [h1]
      simp only [List.length_cons]
      push_cast
      congr 2 <;> ring_nf
    · rw [h2, mapKeys_mapSet_of_get _ _ dv _ hget]
    · intro k1
      rw [h3 k1]
      exact map_Index_mapSet _ _ dv _ hget (by rfl) k1
    · intro k1
      rw [h4 k1, getVal_mapSet]
      split
      · rename_i hkk; subst hkk; rw [hdv]
      · rfl
    · intro k1 hk1
      apply h5
      by_cases hkk : k = k1
      · right
        rw [getVal_mapSet, if_pos hkk]
      · rcases hk1 with hk1 | hk1
        · rcases List.mem_cons.1 hk1 with rfl | hk1
          · exact absurd rfl hkk
          · exact Or.inl hk1
        · right
          rw [getVal_mapSet, if_neg hkk]
          exact hk1

theorem scaleCells_one (ws : List Flt) (i : Nat) (h : ws.getD i (Flt.fin 0) = Flt.fin 1)
    (hi : i < ws.length) : scaleCells (Flt.fin 1) [i] ws (Flt.fin 0) = (ws, Flt.fin 1) := by
  have hlt : Flt.lt (Flt.fin 1) (Flt.fin cellFloor) = false := by
    simp [Flt.lt, cellFloor]
    norm_num
  have h1 : ws.set i (Flt.fin 1) = ws := set_getD_self ws i _ _ hi h
  simp only [scaleCells, h, hlt, Bool.false_eq_true, if_false, fin_mul_fin, fin_add_fin]
  norm_num
  exact h1

theorem applyPass_balanced (ops : Options) (hlo : ops.LowerWeightCap ≤ 1)
    (hhi : 1 ≤ ops.UpperWeightCap) (byVal : List (String × List Nat))
    (ks : List String) (ws : List Flt) (dim : Dimension) (e : ℚ) (rmsn : Nat)
    (hk : ∀ k ∈ ks, k ∈ mapKeys dim.Values ∧ (getVal dim.Values k).GoalSum = Flt.fin 1 ∧
      (getVal dim.Values k).Weight = Flt.fin 1 ∧
      ∃ i, mapGet? byVal k = some [i] ∧ ws.getD i (Flt.fin 0) = Flt.fin 1 ∧ i < ws.length) :
    ∃ dim1, applyPass ops byVal (Flt.fin 1) ks ws dim (Flt.fin e) rmsn =
        (ws, dim1, Flt.fin e, rmsn + ks.length) ∧
      dim1.Size = dim.Size ∧ dim1.BlockSize = dim.BlockSize ∧
      mapKeys dim1.Values = mapKeys dim.Values ∧
      (∀ k, (mapGet? dim1.Values k).map DimensionValue.Index =
        (mapGet? dim.Values k).map DimensionValue.Index) ∧
      (∀ k, (getVal dim1.Values k).GoalSum = (getVal dim.Values k).GoalSum) := by
  induction ks generalizing dim e rmsn with
  | nil => exact ⟨dim, by simp [applyPass], rfl, rfl, rfl, fun _ => rfl, fun _ => rfl⟩
  | cons k ks ih =>
    obtain ⟨hmem, hgoal, hwt, i, hbv, hws, hil⟩ := hk k (List.mem_cons_self _ _)
    obtain ⟨dv, hget⟩ := Option.isSome_iff_exists.1 ((mapGet?_isSome_iff _ _).2 hmem)
    have hdv : getVal dim.Values k = dv := getVal_of_get hget
    rw [hdv] at hgoal hwt
    have hdiv : Flt.fin 1 / Flt.fin 1 = Flt.fin 1 := by
      rw [fin_div_fin _ _ one_ne_zero]; norm_num
    have hd2 : Flt.pow2 (Flt.fin 1 - Flt.fin 1) = Flt.fin 0 := by
      rw [fin_sub_fin]; simp [Flt.pow2]
    have hstep : applyPass ops byVal (Flt.fin 1) (k :: ks) ws dim (Flt.fin e) rmsn =
        applyPass ops byVal (Flt.fin 1) ks ws
          { dim with
            Values := mapSet dim.Values k
              { dv with WorkSum := Flt.fin 1, Weight := Flt.fin 1
                        Rmse := dv.Rmse + Flt.fin 0, Rmsn := dv.Rmsn + 1 }
            Rmse := dim.Rmse + Flt.fin 0
            Rmsn := dim.Rmsn + 1 } (Flt.fin (e + 0)) (rmsn + 1) := by
      simp only [applyPass, hbv, hdv, hwt, scaleCells_one ws i hws hil, hgoal, hdiv,
        curbWeight_one ops hlo hhi, hd2, fin_add_fin]
    rw [hstep]
    obtain ⟨dim1, h1, h2, h3, h4, h5, h6⟩ := ih
      { dim with
        Values := mapSet dim.Values k
          { dv with WorkSum := Flt.fin 1, Weight := Flt.fin 1
                    Rmse := dv.Rmse + Flt.fin 0, Rmsn := dv.Rmsn + 1 }
        Rmse := dim.Rmse + Flt.fin 0
        Rmsn := dim.Rmsn + 1 } (e + 0) (rmsn + 1)
      (by
        intro k1 hk1
        obtain ⟨hm1, hg1, hw1, hi1⟩ := hk k1 (List.mem_cons_of_mem _ hk1)
        refine ⟨?_, ?_, ?_, hi1⟩
        · simp only
          rw [mapKeys_mapSet_of_get _ _ dv _ hget]; exact hm1
        · simp only
          rw [getVal_mapSet]
          split
          · exact hgoal
          · exact hg1
        · simp only
          rw [getVal_mapSet]
          split
          · rfl
          · exact hw1)
    refine ⟨dim1, ?_, h2, h3, ?_, ?_, ?_⟩
    · rw [h1]
      simp only [List.length_cons, add_zero]
      congr 3
      omega
    · rw [h4]
      exact mapKeys_mapSet_of_get _ _ dv _ hget
    · intro k1
      rw [h5 k1]
      exact map_Index_mapSet _ _ dv _ hget (by rfl) k1
    · intro k1
      rw [h6 k1]
      simp only
      rw [getVal_mapSet]
      split
      · rename_i hkk; subst hkk; rw [hdv]
      · rfl

theorem sameCube_refl (hc : HyperCube) : sameCube hc hc :=
  ⟨rfl, rfl, rfl, rfl, rfl, sameIndexing_refl _, rfl, rfl, rfl, rfl⟩

theorem sameCube_trans {a b c : HyperCube} (h1 : sameCube a b) (h2 : sameCube b c) :
    sameCube a c := by
  obtain ⟨a1, a2, a3, a4, a5, a6, a7, a8, a9, a10⟩ := h1
  obtain ⟨b1, b2, b3, b4, b5, b6, b7, b8, b9, b10⟩ := h2
  exact ⟨a1.trans b1, a2.trans b2, a3.trans b3, a4.trans b4, a5.trans b5,
    sameIndexing_trans a6 b6, a7.trans b7, a8.trans b8, a9.trans b9, a10.trans b10⟩

theorem Balanced_of_same {hc hc1 : HyperCube} (h : Balanced hc)
    (hops : hc1.Options = hc.Options) (hws : hc1.Workspace = hc.Workspace)
    (hdv : hc1.DimValues = hc.DimValues)
    (hkeys : ∀ c, mapKeys (getDim hc1.Dimensions c).Values =
      mapKeys (getDim hc.Dimensions c).Values)
    (hgoal : ∀ c k, (getVal (getDim hc1.Dimensions c).Values k).GoalSum =
      (getVal (getDim hc.Dimensions c).Values k).GoalSum) :
    Balanced hc1 := by
  intro c hc' k hk
  rw [hops] at hc'
  rw [hkeys] at hk
  rw [hgoal, hws, hdv]
  exact h c hc' k hk

theorem rakeColumn_balanced (st : Sweep) (c : String) (e : ℚ)
    (hlo : st.hc.Options.LowerWeightCap ≤ 1) (hhi : 1 ≤ st.hc.Options.UpperWeightCap)
    (hbal : Balanced st.hc) (hc : c ∈ st.hc.Options.Columns)
    (hne : mapKeys (getDim st.hc.Dimensions c).Values ≠ [])
    (hadj : st.dimAdjust = Flt.fin 1) (hr : st.rmse = Flt.fin e) :
    Balanced (rakeColumn st c).hc ∧ sameCube st.hc (rakeColumn st c).hc ∧
      (rakeColumn st c).dimAdjust = Flt.fin 1 ∧ (rakeColumn st c).rmse = Flt.fin e ∧
      st.rmsn < (rakeColumn st c).rmsn := by
  have hcells : ∀ k ∈ mapKeys (getDim st.hc.Dimensions c).Values,
      (getVal (getDim st.hc.Dimensions c).Values k).GoalSum = Flt.fin 1 ∧
      ∃ i, mapGet? ((mapGet? st.hc.DimValues c).getD []) k = some [i] ∧
        st.hc.Workspace.getD i (Flt.fin 0) = Flt.fin 1 ∧ i < st.hc.Workspace.length :=
    fun k hk => hbal c hc k hk
  obtain ⟨vals1, r1, r2, r3, r4, r5⟩ := recomputePass_balanced st.hc.Options hlo hhi
    st.hc.Workspace ((mapGet? st.hc.DimValues c).getD [])
    (mapKeys (getDim st.hc.Dimensions c).Values) (getDim st.hc.Dimensions c).Values 0 0
    (fun k hk => ⟨hk, (hcells k hk).1, (hcells k hk).2.imp (fun i hi => ⟨hi.1, hi.2.1⟩)⟩)
  have hlen : 0 < (mapKeys (getDim st.hc.Dimensions c).Values).length :=
    List.length_pos.2 hne
  have hn : (0 : ℚ) < 0 + ((mapKeys (getDim st.hc.Dimensions c).Values).length : ℚ) := by
    have : (0 : ℚ) < ((mapKeys (getDim st.hc.Dimensions c).Values).length : ℚ) := by
      exact_mod_cast hlen
    linarith
  have hAdj : Dimension.Adjustment
      { getDim st.hc.Dimensions c with
        Values := vals1
        GoalSum := Flt.fin (0 + ((mapKeys (getDim st.hc.Dimensions c).Values).length : ℚ))
        WorkSum := Flt.fin (0 + ((mapKeys (getDim st.hc.Dimensions c).Values).length : ℚ)) }
      = Flt.fin 1 := by
    simp only [Dimension.Adjustment, Flt.gt, Flt.lt, hn, decide_True, if_true]
    rw [fin_div_fin _ _ (ne_of_gt hn), div_self (ne_of_gt hn)]
  obtain ⟨dim2, a1, a2, a3, a4, a5, a6⟩ := applyPass_balanced st.hc.Options hlo hhi
    ((mapGet? st.hc.DimValues c).getD []) (mapKeys vals1) st.hc.Workspace
    { getDim st.hc.Dimensions c with
      Values := vals1
      GoalSum := Flt.fin (0 + ((mapKeys (getDim st.hc.Dimensions c).Values).length : ℚ))
      WorkSum := Flt.fin (0 + ((mapKeys (getDim st.hc.Dimensions c).Values).length : ℚ)) }
    e st.rmsn
    (by
      intro k hk
      have hk' : k ∈ mapKeys (getDim st.hc.Dimensions c).Values := r2 ▸ hk
      refine ⟨hk, ?_, ?_, (hcells k hk').2⟩
      · simp only
        rw [r4]; exact (hcells k hk').1
      · exact r5 k (Or.inl hk'))
  have hrake : rakeColumn st c =
      { hc := { st.hc with Dimensions := mapSet st.hc.Dimensions c dim2 }
        dimAdjust := Flt.fin 1
        rmse := Flt.fin e
        rmsn := st.rmsn + (mapKeys vals1).length } := by
    simp only [rakeColumn, r1, hAdj, hadj, hr, fin_mul_fin, mul_one, a1]
  rw [hrake]
  have hsame : sameIndexing st.hc.Dimensions (mapSet st.hc.Dimensions c dim2) :=
    sameIndexing_mapSet _ _ _ a2 a3 (a4.trans r2) (fun k => (a5 k).trans (r3 k))
  refine ⟨?_, ⟨rfl, rfl, rfl, rfl, rfl, hsame, rfl, rfl, rfl, rfl⟩, rfl, rfl, ?_⟩
  · refine Balanced_of_same hbal rfl rfl rfl (fun c1 => ((hsame c1).2.2.1).symm) ?_
    intro c1 k
    simp only
    by_cases hcc : c = c1
    · subst hcc
      rw [getDim_mapSet_same, a6 k]
      simp only
      exact r4 k
    · rw [getDim_mapSet_ne _ _ hcc]
  · simp only
    rw [r2]
    omega

theorem rakeColumns_balanced (cols : List String) (st : Sweep) (e : ℚ)
    (hlo : st.hc.Options.LowerWeightCap ≤ 1) (hhi : 1 ≤ st.hc.Options.UpperWeightCap)
    (hbal : Balanced st.hc) (hc : ∀ c ∈ cols, c ∈ st.hc.Options.Columns)
    (hne : ∀ c ∈ cols, mapKeys (getDim st.hc.Dimensions c).Values ≠ [])
    (hadj : st.dimAdjust = Flt.fin 1) (hr : st.rmse = Flt.fin e) :
    Balanced (cols.foldl rakeColumn st).hc ∧ sameCube st.hc (cols.foldl rakeColumn st).hc ∧
      (cols.foldl rakeColumn st).rmse = Flt.fin e ∧
      st.rmsn + cols.length ≤ (cols.foldl rakeColumn st).rmsn := by
  induction cols generalizing st with
  | nil => exact ⟨hbal, sameCube_refl _, hr, Nat.le_refl _⟩
  | cons c cols ih =>
    obtain ⟨b1, b2, b3, b4, b5⟩ := rakeColumn_balanced st c e hlo hhi hbal
      (hc c (List.mem_cons_self _ _)) (hne c (List.mem_cons_self _ _)) hadj hr
    have hops : (rakeColumn st c).hc.Options = st.hc.Options := rfl
    obtain ⟨i1, i2, i3, i4⟩ := ih (rakeColumn st c) (hops ▸ hlo) (hops ▸ hhi) b1
      (fun c1 hc1 => hops ▸ hc c1 (List.mem_cons_of_mem _ hc1))
      (fun c1 hc1 => by
        rw [← (b2.2.2.2.2.2.1 c1).2.2.1]
        exact hne c1 (List.mem_cons_of_mem _ hc1))
      b3 b4
    simp only [List.foldl_cons, List.length_cons]
    exact ⟨i1, sameCube_trans b2 i2, i3, by omega⟩

/-- On a balanced cube one iteration of the raking loop leaves the cube as it
is and ends with a root-mean-square error of zero. -/
theorem rakeIteration_balanced (hc : HyperCube)
    (hlo : hc.Options.LowerWeightCap ≤ 1) (hhi : 1 ≤ hc.Options.UpperWeightCap)
    (hbal : Balanced hc) (hcols : hc.Options.Columns ≠ [])
    (hne : ∀ c ∈ hc.Options.Columns, mapKeys (getDim hc.Dimensions c).Values ≠ []) :
    (rakeIteration hc).Stats.Iterations = hc.Stats.Iterations + 1 ∧
      (rakeIteration hc).Stats.Rmse = ⟨Flt.fin 0⟩ ∧
      (rakeIteration hc).Workspace = hc.Workspace ∧
      (rakeIteration hc).Initspace = hc.Initspace ∧
      (rakeIteration hc).WorkRows = hc.WorkRows ∧
      (rakeIteration hc).Options = hc.Options ∧
      sameIndexing hc.Dimensions (rakeIteration hc).Dimensions ∧
      (rakeIteration hc).Stats.WorkRows = hc.Stats.WorkRows ∧
      (rakeIteration hc).Stats.GoalRows = hc.Stats.GoalRows := by
  obtain ⟨_, h2, h3, h4⟩ := rakeColumns_balanced hc.Options.Columns
    { hc := { hc with Stats := { hc.Stats with MinWeight := defaultWeight
                                               MaxWeight := defaultWeight } }
      dimAdjust := Flt.fin 1, rmse := Flt.fin 0, rmsn := 0 } 0 hlo hhi hbal
    (fun _ h => h) hne rfl rfl
  obtain ⟨s1, s2, s3, s4, s5, s6, s7, s8, s9, s10⟩ := h2
  have hpos : 0 < hc.Options.Columns.length := List.length_pos.2 hcols
  simp only [Nat.zero_add] at h4
  have hrm : (hc.Options.Columns.foldl rakeColumn
      { hc := { hc with Stats := { hc.Stats with MinWeight := defaultWeight
                                                 MaxWeight := defaultWeight } }
        dimAdjust := Flt.fin 1, rmse := Flt.fin 0, rmsn := 0 }).rmsn ≠ 0 :=
    Nat.pos_iff_ne_zero.1 (lt_of_lt_of_le hpos h4)
  unfold rakeIteration
  refine ⟨?_, ?_, s3.symm, s4.symm, s2.symm, s1.symm, s6, s7.symm, s8.symm⟩
  · simp only
    rw [← s9]
  · simp only
    rw [h3, Flt.ofNat, fin_div_fin _ _ (by exact_mod_cast hrm), zero_div]

/-! ## The derivation of the weights reads the cube only -/

theorem sameCube_symm {a b : HyperCube} (h : sameCube a b) : sameCube b a := by
  obtain ⟨a1, a2, a3, a4, a5, a6, a7, a8, a9, a10⟩ := h
  exact ⟨a1.symm, a2.symm, a3.symm, a4.symm, a5.symm, sameIndexing_symm a6, a7.symm,
    a8.symm, a9.symm, a10.symm⟩

theorem RegistryOK_of_sameCube {a b : HyperCube} (h : sameCube a b) (ha : RegistryOK a) :
    RegistryOK b := by
  obtain ⟨a1, a2, _, _, _, a6, _⟩ := h
  intro id target ht c hc
  rw [← a2] at ht
  rw [← a1] at hc
  rw [← (a6 c).2.2.1]
  exact ha id target ht c hc

theorem rowIndex_congr {a b : HyperCube} (h : sameCube a b) (target : List (String × String)) :
    rowIndex a target = rowIndex b target := by
  obtain ⟨a1, _, _, _, _, a6, _⟩ := h
  unfold rowIndex
  rw [a1]
  congr 1
  funext index c
  have := digit_congr a6 c (v ((mapGet? target c).getD ""))
  simp only [digit] at this
  simp only [this, (a6 c).2.1]

theorem weight_sameCube (hc : HyperCube) (rid : String) :
    sameCube hc (weight hc rid).2.2.2 := by
  unfold weight
  cases mapGet? hc.WorkRows rid with
  | none => exact sameCube_refl _
  | some target =>
    refine ⟨rfl, rfl, rfl, rfl, rfl, sameIndexing_refl _, ?_, ?_, ?_, ?_⟩ <;>
    · simp only
      split <;> split <;> rfl

theorem weight_congr {a b : HyperCube} (h : sameCube a b) (rid : String) :
    (weight a rid).1 = (weight b rid).1 ∧ (weight a rid).2.1 = (weight b rid).2.1 ∧
      (weight a rid).2.2.1 = (weight b rid).2.2.1 := by
  have hri := rowIndex_congr h
  obtain ⟨a1, a2, a3, a4, _, _, a7, a8, _⟩ := h
  unfold weight
  rw [a2]
  cases mapGet? b.WorkRows rid with
  | none => exact ⟨rfl, rfl, rfl⟩
  | some target =>
    simp only [hri, a1, a3, a4, a7, a8, and_self]

theorem mapGet?_map_snd {β : Type} (f : β → β) (m : List (String × β)) (k : String) :
    mapGet? (m.map (fun kv => (kv.1, f kv.2))) k = (mapGet? m k).map f := by
  induction m with
  | nil => rfl
  | cons p m ih =>
    obtain ⟨k1, b⟩ := p
    by_cases h : k1 = k
    · simp [mapGet?, h]
    · simp [mapGet?, h, ih]

theorem resetWorkSums_sameIndexing (cols : List String) (dims : List (String × Dimension)) :
    sameIndexing dims (resetWorkSums cols dims) := by
  unfold resetWorkSums
  induction cols generalizing dims with
  | nil => exact sameIndexing_refl _
  | cons col cols ih =>
    simp only [List.foldl_cons]
    refine sameIndexing_trans ?_ (ih _)
    refine sameIndexing_mapSet dims col _ rfl rfl ?_ ?_
    · simp [mapKeys, Function.comp_def]
    · intro val
      simp only
      rw [mapGet?_map_snd (fun d : DimensionValue => { d with WorkSum := Flt.fin 0 })]
      cases mapGet? (getDim dims col).Values val <;> rfl

theorem addWeightToSums_sameIndexing (target : List (String × String)) (w : Flt)
    (cols : List String) (dims : List (String × Dimension))
    (hreg : ∀ c ∈ cols, (mapGet? target c).getD "" ∈ mapKeys (getDim dims c).Values) :
    sameIndexing dims (addWeightToSums target w cols dims) := by
  unfold addWeightToSums
  induction cols generalizing dims with
  | nil => exact sameIndexing_refl _
  | cons col cols ih =>
    simp only [List.foldl_cons]
    have hmem := hreg col (List.mem_cons_self _ _)
    obtain ⟨dv, hget⟩ := Option.isSome_iff_exists.1 ((mapGet?_isSome_iff _ _).2 hmem)
    have hstep : sameIndexing dims (mapSet dims col
        { getDim dims col with
          WorkSum := (getDim dims col).WorkSum + w
          Values := mapSet (getDim dims col).Values ((mapGet? target col).getD "")
            { getVal (getDim dims col).Values ((mapGet? target col).getD "") with
              WorkSum := (getVal (getDim dims col).Values
                ((mapGet? target col).getD "")).WorkSum + w } }) := by
      refine sameIndexing_mapSet dims col _ rfl rfl ?_ ?_
      · exact mapKeys_mapSet_of_get _ _ dv _ hget
      · intro val
        refine map_Index_mapSet _ _ dv _ hget ?_ val
        simp only
        rw [getVal_of_get hget]
    refine sameIndexing_trans hstep (ih _ ?_)
    intro c hc
    rw [← (hstep c).2.2.1]
    exact hreg c (List.mem_cons_of_mem _ hc)

theorem accumulateRow_sameCube (t : Totals) (rid : String) (hreg : RegistryOK t.hc)
    (hrid : rid ∈ mapKeys t.hc.WorkRows) : sameCube t.hc (accumulateRow t rid).hc := by
  obtain ⟨target, hget⟩ := Option.isSome_iff_exists.1 ((mapGet?_isSome_iff _ _).2 hrid)
  have hw := weight_sameCube t.hc rid
  have hreg1 : ∀ c ∈ (weight t.hc rid).2.2.2.Options.Columns,
      (mapGet? target c).getD "" ∈ mapKeys (getDim (weight t.hc rid).2.2.2.Dimensions c).Values :=
    fun c hc => RegistryOK_of_sameCube hw hreg rid target (hw.2.1 ▸ hget) c hc
  have hsi := addWeightToSums_sameIndexing target (weight t.hc rid).2.2.1 _ _ hreg1
  have h2 : sameCube (weight t.hc rid).2.2.2
      { (weight t.hc rid).2.2.2 with
        Dimensions := addWeightToSums target (weight t.hc rid).2.2.1
          (weight t.hc rid).2.2.2.Options.Columns (weight t.hc rid).2.2.2.Dimensions } :=
    ⟨rfl, rfl, rfl, rfl, rfl, hsi, rfl, rfl, rfl, rfl⟩
  have h3 := sameCube_trans hw h2
  simp only [accumulateRow, hget, Option.getD_some]
  split <;> exact h3

theorem accumulateRows_sameCube (rids : List String) (t : Totals) (hreg : RegistryOK t.hc)
    (hrid : ∀ rid ∈ rids, rid ∈ mapKeys t.hc.WorkRows) :
    sameCube t.hc (rids.foldl accumulateRow t).hc := by
  induction rids generalizing t with
  | nil => exact sameCube_refl _
  | cons rid rids ih =>
    simp only [List.foldl_cons]
    have h1 := accumulateRow_sameCube t rid hreg (hrid rid (List.mem_cons_self _ _))
    refine sameCube_trans h1 (ih _ (RegistryOK_of_sameCube h1 hreg) ?_)
    intro r hr
    rw [← h1.2.1]
    exact hrid r (List.mem_cons_of_mem _ hr)

/-- The statistics pass `setEffectiveBaseSize` leaves the cube, the registry and
the indexing as they are. -/
theorem setEffectiveBaseSize_sameCube (hc : HyperCube) (hreg : RegistryOK hc) :
    sameCube hc (setEffectiveBaseSize hc) := by
  have h0 : sameCube hc
      { hc with Dimensions := resetWorkSums hc.Options.Columns hc.Dimensions } :=
    ⟨rfl, rfl, rfl, rfl, rfl, resetWorkSums_sameIndexing _ _, rfl, rfl, rfl, rfl⟩
  have h1 := accumulateRows_sameCube (mapKeys hc.WorkRows)
    { hc := { hc with Dimensions := resetWorkSums hc.Options.Columns hc.Dimensions } }
    (RegistryOK_of_sameCube h0 hreg) (fun _ h => h)
  have h2 := sameCube_trans h0 h1
  obtain ⟨a1, a2, a3, a4, a5, a6, a7, a8, a9, a10⟩ := h2
  unfold setEffectiveBaseSize
  exact ⟨a1, a2, a3, a4, a5, a6, a7, a8, a9, a10⟩

/-- Every entry `getWeights` writes is the weight the method `weight` gives on
the engine `getWeights` started from. -/
theorem getWeightsLoop_entries (rids : List String) (hc : HyperCube)
    (results : List (String × Flt)) :
    (∀ p ∈ (getWeightsLoop rids hc results).1,
      p ∈ results ∨ (p.1 ∈ rids ∧ p.2 = (weight hc p.1).2.2.1)) ∧
    sameCube hc (getWeightsLoop rids hc results).2 := by
  induction rids generalizing hc results with
  | nil => exact ⟨fun p hp => Or.inl hp, sameCube_refl _⟩
  | cons rid rids ih =>
    simp only [getWeightsLoop]
    have hw := weight_sameCube hc rid
    obtain ⟨h1, h2⟩ := ih (weight hc rid).2.2.2 (mapSet results rid (weight hc rid).2.2.1)
    refine ⟨?_, sameCube_trans hw h2⟩
    intro p hp
    rcases h1 p hp with h | ⟨hm, hv⟩
    · rcases mem_mapSet _ _ _ _ h with h | h
      · right
        rw [h]
        exact ⟨List.mem_cons_self _ _, rfl⟩
      · exact Or.inl h
    · right
      refine ⟨List.mem_cons_of_mem _ hm, ?_⟩
      rw [hv]
      exact ((weight_congr hw p.1).2.2).symm

/-! ## The engine after the discovery pass -/

theorem analyze_frame (hc : HyperCube) (r : Response) :
    (analyzeDimensionsFromResponse hc r).DimValues = hc.DimValues ∧
    (analyzeDimensionsFromResponse hc r).Stats = hc.Stats ∧
    (analyzeDimensionsFromResponse hc r).Initspace = hc.Initspace := by
  unfold analyzeDimensionsFromResponse
  refine foldl_invariant (fun s : HyperCube =>
    s.DimValues = hc.DimValues ∧ s.Stats = hc.Stats ∧ s.Initspace = hc.Initspace) _ _ _
    ⟨rfl, rfl, rfl⟩ ?_
  intro s col _ hs
  cases mapGet? s.Dimensions col <;> exact hs

theorem discover_frame (ops : Options) (rs : List Response) :
    (discover (NewGroupedWeighter ops) rs).DimValues = [] ∧
    (discover (NewGroupedWeighter ops) rs).WorkRows = [] ∧
    (discover (NewGroupedWeighter ops) rs).Stats.WorkRows = 0 ∧
    (discover (NewGroupedWeighter ops) rs).Stats.GoalRows = 0 ∧
    (discover (NewGroupedWeighter ops) rs).Stats.Iterations = 0 := by
  have h := foldl_invariant (fun s : HyperCube => s.DimValues = [] ∧ s.Stats.WorkRows = 0 ∧
      s.Stats.GoalRows = 0 ∧ s.Stats.Iterations = 0)
    analyzeDimensionsFromResponse rs (NewGroupedWeighter ops) ⟨rfl, rfl, rfl, rfl⟩
    (by
      intro s r _ hs
      obtain ⟨h1, h2, _⟩ := analyze_frame s r
      rw [h1, h2]
      exact hs)
  exact ⟨h.1, rfl, h.2.1, h.2.2.1, h.2.2.2⟩

theorem discover_getDim (hc : HyperCube) (rs : List Response) (c : String) :
    (getDim (discover hc rs).Dimensions c).Values =
      (getDim (rs.foldl analyzeDimensionsFromResponse hc).Dimensions c).Values ∧
    (getDim (discover hc rs).Dimensions c).Size =
      (getDim (rs.foldl analyzeDimensionsFromResponse hc).Dimensions c).Size := by
  unfold discover configureBlockSize
  exact blockSizes_frame _ _ _ _

theorem RegOK_congr {d d1 : Dimension} (hv : d1.Values = d.Values) (hs : d1.Size = d.Size)
    (h : RegOK d) : RegOK d1 := by
  unfold RegOK at *
  rw [hv, hs]
  exact h

theorem discover_RegOK (ops : Options) (rs : List Response) (c : String) :
    RegOK (getDim (discover (NewGroupedWeighter ops) rs).Dimensions c) := by
  obtain ⟨hv, hs⟩ := discover_getDim (NewGroupedWeighter ops) rs c
  refine RegOK_congr hv hs ?_
  refine foldl_invariant (fun s : HyperCube => ∀ c, RegOK (getDim s.Dimensions c))
    analyzeDimensionsFromResponse rs (NewGroupedWeighter ops) ?_ ?_ c
  · intro c1
    rw [getDim_NewGroupedWeighter]
    exact RegOK_NewDimension
  · intro s r _ hs1
    exact analyze_RegOK s r hs1

/-- Every value the discovery pass registers for a column is the value of some
response for that column. -/
theorem discover_carried (ops : Options) (rs : List Response) (c k : String)
    (hk : k ∈ mapKeys (getDim (discover (NewGroupedWeighter ops) rs).Dimensions c).Values) :
    ∃ r ∈ rs, r.get c = k := by
  rw [(discover_getDim (NewGroupedWeighter ops) rs c).1] at hk
  refine foldl_invariant (fun s : HyperCube =>
      ∀ c k, k ∈ mapKeys (getDim s.Dimensions c).Values → ∃ r ∈ rs, r.get c = k)
    analyzeDimensionsFromResponse rs (NewGroupedWeighter ops) ?_ ?_ c k hk
  · intro c1 k1 hk1
    rw [getDim_NewGroupedWeighter] at hk1
    simp [NewDimension, mapKeys] at hk1
  · intro s r hr hs1
    exact analyze_carried rs s r hr hs1

theorem getVal_registerValue_GoalSum (dim : Dimension) (val k : String)
    (h : (getVal dim.Values k).GoalSum = Flt.fin 0) :
    (getVal (registerValue dim val).Values k).GoalSum = Flt.fin 0 := by
  unfold registerValue
  cases hget : mapGet? dim.Values val with
  | some dv => exact h
  | none =>
    simp only
    rw [getVal_mapSet]
    split
    · rfl
    · exact h

theorem discover_GoalSum (ops : Options) (rs : List Response) (c k : String) :
    (getVal (getDim (discover (NewGroupedWeighter ops) rs).Dimensions c).Values k).GoalSum =
      Flt.fin 0 := by
  rw [(discover_getDim (NewGroupedWeighter ops) rs c).1]
  refine foldl_invariant (fun s : HyperCube =>
      ∀ c k, (getVal (getDim s.Dimensions c).Values k).GoalSum = Flt.fin 0)
    analyzeDimensionsFromResponse rs (NewGroupedWeighter ops) ?_ ?_ c k
  · intro c1 k1
    rw [getDim_NewGroupedWeighter]
    rfl
  · intro s r _ hs1
    unfold analyzeDimensionsFromResponse
    refine foldl_invariant (fun s : HyperCube =>
      ∀ c k, (getVal (getDim s.Dimensions c).Values k).GoalSum = Flt.fin 0) _ _ _ hs1 ?_
    intro s2 col _ hs2 c1 k1
    cases hget : mapGet? s2.Dimensions col with
    | none => exact hs2 c1 k1
    | some dim =>
      simp only [analyze_step_getDim _ _ _ _ _ hget]
      split
      · exact getVal_registerValue_GoalSum _ _ _ (hs2 c1 k1)
      · exact hs2 c1 k1

/-- With pairwise distinct columns the block sizes after `configureBlockSize`
are mixed-radix strides and the cube has one zero cell per combination. -/
theorem discover_radix (ops : Options) (rs : List Response) (hnd : ops.Columns.Nodup) :
    radixOK (discover (NewGroupedWeighter ops) rs).Dimensions ops.Columns 1 ∧
    (discover (NewGroupedWeighter ops) rs).Workspace =
      List.replicate (cubeSize (discover (NewGroupedWeighter ops) rs).Dimensions ops.Columns)
        (Flt.fin 0) := by
  have hops : (rs.foldl analyzeDimensionsFromResponse (NewGroupedWeighter ops)).Options = ops :=
    foldl_preserves _ HyperCube.Options analyze_Options rs _
  obtain ⟨h1, h2⟩ := blockSizes_radix ops.Columns
    (rs.foldl analyzeDimensionsFromResponse (NewGroupedWeighter ops)).Dimensions 1 hnd
  have hcs : cubeSize (discover (NewGroupedWeighter ops) rs).Dimensions ops.Columns =
      cubeSize (rs.foldl analyzeDimensionsFromResponse (NewGroupedWeighter ops)).Dimensions
        ops.Columns :=
    cubeSize_congr _ _ _ (fun c _ => (discover_getDim _ rs c).2)
  constructor
  · simp only [discover, configureBlockSize, hops]
    exact h1
  · rw [hcs]
    simp only [discover, configureBlockSize, hops, h2, Nat.one_mul]

/-- On a successful run every value of every response is registered. -/
theorem registered_of_ok (ops : Options) (rs : List Response) (hc0 : HyperCube)
    (h : addRows rs (discover (NewGroupedWeighter ops) rs) = .ok hc0) :
    ∀ r ∈ rs, ∀ c ∈ ops.Columns,
      r.get c ∈ mapKeys (getDim (discover (NewGroupedWeighter ops) rs).Dimensions c).Values := by
  intro r hr c hc
  by_contra hcon
  have herr := (addRows_error_iff rs (discover (NewGroupedWeighter ops) rs)).2
    ⟨r, hr, Or.inr ⟨c, by rw [discover_Options]; exact hc,
      (mapGet?_eq_none_iff _ _).2 hcon⟩⟩
  obtain ⟨e, he⟩ := herr
  rw [h] at he
  cases he

/-! ## One work row and one goal row per value -/

theorem countP_eq_one_unique {α : Type} (p : α → Bool) (l : List α) (h : l.countP p = 1)
    (a b : α) (ha : a ∈ l) (hb : b ∈ l) (hpa : p a = true) (hpb : p b = true) : a = b := by
  induction l with
  | nil => cases ha
  | cons x l ih =>
    rw [List.countP_cons] at h
    by_cases hx : p x = true
    · simp only [hx, if_true] at h
      have h0 : l.countP p = 0 := by omega
      rw [List.countP_eq_zero] at h0
      rcases List.mem_cons.1 ha with rfl | ha'
      · rcases List.mem_cons.1 hb with rfl | hb'
        · rfl
        · exact absurd hpb (h0 b hb')
      · exact absurd hpa (h0 a ha')
    · simp only [hx, if_false, Nat.add_zero] at h
      rcases List.mem_cons.1 ha with rfl | ha'
      · exact absurd hpa hx
      · rcases List.mem_cons.1 hb with rfl | hb'
        · exact absurd hpb hx
        · exact ih h ha' hb'

theorem exists_of_countP_eq_one {α : Type} (p : α → Bool) (l : List α) (h : l.countP p = 1) :
    ∃ a ∈ l, p a = true := by
  have : 0 < l.countP p := by omega
  exact List.countP_pos_iff.1 this

theorem nodup_singleton_of_mem {l : List Nat} {i : Nat} (hnd : l.Nodup)
    (h : ∀ x, x ∈ l ↔ x = i) : l = [i] := by
  have hp : l.Perm [i] :=
    (List.perm_ext_iff_of_nodup hnd (List.nodup_singleton i)).2 (fun x => by simp [h x])
  exact List.perm_singleton.1 hp

/-- The number of work rows equals the number of goal rows when every value of
some column is carried by exactly one row of each group. -/
theorem work_count_eq_goal_count (ops : Options) (rs : List Response) (c : String)
    (hc : c ∈ ops.Columns) (hone : onePerValue ops rs) :
    rs.countP (isWorkRow ops) = rs.countP (isGoalRow ops) := by
  have key : ∀ (p : Response → Bool),
      (∀ r ∈ rs, rs.countP (fun r1 => p r1 && decide (r1.get c = r.get c)) = 1) →
      ((rs.filter p).map (fun r => r.get c)).Nodup ∧
      ∀ a, a ∈ (rs.filter p).map (fun r => r.get c) ↔ ∃ r ∈ rs, r.get c = a := by
    intro p hp
    constructor
    · rw [List.nodup_iff_count_le_one]
      intro a
      rw [List.count_eq_countP, List.countP_map, List.countP_filter]
      by_cases hex : ∃ r ∈ rs, r.get c = a
      · obtain ⟨r, hr, hra⟩ := hex
        have := hp r hr
        rw [hra] at this
        have heq : rs.countP (fun r1 => ((fun x => x == a) ∘ fun r => r.get c) r1 && p r1) =
            rs.countP (fun r1 => p r1 && decide (r1.get c = a)) := by
          apply List.countP_congr
          intro x _
          simp only [Function.comp, beq_iff_eq, Bool.and_eq_true, decide_eq_true_eq]
          tauto
        rw [heq, this]
      · have : rs.countP (fun r1 => ((fun x => x == a) ∘ fun r => r.get c) r1 && p r1) = 0 := by
          rw [List.countP_eq_zero]
          intro r hr hcon
          simp only [Function.comp, beq_iff_eq, Bool.and_eq_true] at hcon
          exact hex ⟨r, hr, hcon.1⟩
        rw [this]
        exact Nat.zero_le _
    · intro a
      simp only [List.mem_map, List.mem_filter]
      constructor
      · rintro ⟨r, ⟨hr, _⟩, hra⟩
        exact ⟨r, hr, hra⟩
      · rintro ⟨r, hr, hra⟩
        obtain ⟨r1, hr1, hp1⟩ := exists_of_countP_eq_one _ rs (hp r hr)
        simp only [Bool.and_eq_true, decide_eq_true_eq] at hp1
        exact ⟨r1, ⟨hr1, hp1.1⟩, hp1.2.trans hra⟩
  obtain ⟨w1, w2⟩ := key (isWorkRow ops) (fun r hr => (hone c hc r hr).1)
  obtain ⟨g1, g2⟩ := key (isGoalRow ops) (fun r hr => (hone c hc r hr).2)
  have hperm : ((rs.filter (isWorkRow ops)).map (fun r => r.get c)).Perm
      ((rs.filter (isGoalRow ops)).map (fun r => r.get c)) :=
    (List.perm_ext_iff_of_nodup w1 g1).2 (fun a => by rw [w2, g2])
  have := hperm.length_eq
  simp only [List.length_map] at this
  rw [List.countP_eq_length_filter, List.countP_eq_length_filter]
  exact this

theorem getD_replicate (n i : Nat) (a : Flt) : (List.replicate n a).getD i a = a := by
  rw [List.getD_eq_getElem?_getD]
  by_cases h : i < n
  · simp [List.getElem?_replicate, h]
  · simp [List.getElem?_replicate, h]

/-- The facts about the engine after ingestion that the balanced case uses. -/
theorem ingest_balanced (ops : Options) (rs : List Response) (hc0 : HyperCube)
    (hnd : ops.Columns.Nodup) (hone : onePerValue ops rs)
    (hadd : addRows rs (discover (NewGroupedWeighter ops) rs) = .ok hc0) :
    Balanced hc0 ∧
    ∀ c ∈ ops.Columns, ∀ r ∈ rs, isWorkRow ops r = true →
      hc0.Workspace.getD
        (cellIndex (discover (NewGroupedWeighter ops) rs).Dimensions ops.Columns r)
        (Flt.fin 0) = Flt.fin 1 := by
  have hDops : (discover (NewGroupedWeighter ops) rs).Options = ops :=
    discover_Options _ _
  have hops0 : hc0.Options = ops := (addRows_Options hadd).trans hDops
  have hreg := registered_of_ok ops rs hc0 hadd
  obtain ⟨hrad, hws⟩ := discover_radix ops rs hnd
  have hRegOK := discover_RegOK ops rs
  have hsame := addRows_sameIndexing hadd
  obtain ⟨hfDV, _, _, _, _⟩ := discover_frame ops rs
  have hlt : ∀ r ∈ rs, cellIndex (discover (NewGroupedWeighter ops) rs).Dimensions
      ops.Columns r < (discover (NewGroupedWeighter ops) rs).Workspace.length := by
    intro r hr
    rw [hws, List.length_replicate]
    exact cellIndex_lt _ _ r hrad hRegOK (hreg r hr)
  obtain ⟨hlen, hcell⟩ := addRows_Workspace hadd
    (by intro r hr _; rw [hDops]; exact hlt r hr)
  rw [hDops] at hcell
  have hzero : ∀ i, (discover (NewGroupedWeighter ops) rs).Workspace.getD i (Flt.fin 0) =
      Flt.fin 0 := by
    intro i
    rw [hws]
    exact getD_replicate _ _ _
  -- a work row is alone in its cell
  have hcount : ∀ c ∈ ops.Columns, ∀ r ∈ rs, isWorkRow ops r = true →
      rs.countP (fun r1 => isWorkRow ops r1 &&
        decide (cellIndex (discover (NewGroupedWeighter ops) rs).Dimensions ops.Columns r1 =
          cellIndex (discover (NewGroupedWeighter ops) rs).Dimensions ops.Columns r)) = 1 := by
    intro c hc r hr hw
    apply le_antisymm
    · rw [← (hone c hc r hr).1]
      apply List.countP_mono_left
      intro x hx hpx
      simp only [Bool.and_eq_true, decide_eq_true_eq] at hpx ⊢
      exact ⟨hpx.1, cellIndex_inj _ _ x r hrad hRegOK (hreg x hx) (hreg r hr) hpx.2 c hc⟩
    · apply List.countP_pos_iff.2
      exact ⟨r, hr, by simp [hw]⟩
  have hwork : ∀ c ∈ ops.Columns, ∀ r ∈ rs, isWorkRow ops r = true →
      hc0.Workspace.getD
        (cellIndex (discover (NewGroupedWeighter ops) rs).Dimensions ops.Columns r)
        (Flt.fin 0) = Flt.fin 1 := by
    intro c hc r hr hw
    rw [hcell _ 0 (hzero _), hcount c hc r hr hw]
    norm_num
  refine ⟨?_, hwork⟩
  intro c hc k hk
  rw [hops0] at hc
  rw [← (hsame c).2.2.1] at hk
  obtain ⟨r, hr, hrk⟩ := discover_carried ops rs c k hk
  subst hrk
  obtain ⟨hw1, hg1⟩ := hone c hc r hr
  obtain ⟨rw, hrw, hprw⟩ := exists_of_countP_eq_one _ rs hw1
  simp only [Bool.and_eq_true, decide_eq_true_eq] at hprw
  obtain ⟨hrww, hrwk⟩ := hprw
  refine ⟨?_, cellIndex (discover (NewGroupedWeighter ops) rs).Dimensions ops.Columns rw,
    ?_, hwork c hc rw hrw hrww, ?_⟩
  · have hnd' : (discover (NewGroupedWeighter ops) rs).Options.Columns.Nodup := by
      rw [hDops]; exact hnd
    have hc' : c ∈ (discover (NewGroupedWeighter ops) rs).Options.Columns := by
      rw [hDops]; exact hc
    have := addRows_GoalSum hadd hnd' c (r.get c) hc' 0
      (discover_GoalSum ops rs c (r.get c))
    rw [this, hDops, hg1]
    norm_num
  · obtain ⟨m1, m2, m3⟩ := addRows_cells hadd c (r.get c)
    rw [hDops] at m1 m2
    have hnone : cells (discover (NewGroupedWeighter ops) rs).DimValues c (r.get c) = none := by
      rw [hfDV]; rfl
    rw [hnone] at m1 m2 m3
    have hsome : (cells hc0.DimValues c (r.get c)).isSome = true :=
      m2.2 (Or.inr ⟨hc, rw, hrw, hrww, hrwk⟩)
    obtain ⟨l, hl⟩ := Option.isSome_iff_exists.1 hsome
    rw [hl] at m1 m3
    simp only [Option.getD_some, Option.getD_none, List.not_mem_nil, false_or] at m1
    have hlnd : l.Nodup := m3 List.nodup_nil
    rw [hl]
    congr 1
    apply nodup_singleton_of_mem hlnd
    intro x
    rw [m1 x]
    constructor
    · rintro ⟨_, r1, hr1, hw1', hk1, hx⟩
      have : r1 = rw := countP_eq_one_unique _ rs hw1 r1 rw hr1 hrw
        (by simp [hw1', hk1]) (by simp [hrww, hrwk])
      rw [← hx, this]
    · intro hx
      exact ⟨hc, rw, hrw, hrww, hrwk, hx.symm⟩
  · rw [hlen]
    exact hlt rw hrw

theorem rakeLoop_converged (n : Nat) (hc : HyperCube) (hn : 0 < n)
    (h : converged (rakeIteration hc) = true) : rakeLoop n hc = rakeIteration hc := by
  cases n with
  | zero => cases hn
  | succ n => simp only [rakeLoop, h, if_true]

theorem mapGet?_mem {α β : Type} [DecidableEq α] (m : List (α × β)) (k : α) (b : β)
    (h : mapGet? m k = some b) : (k, b) ∈ m := by
  induction m with
  | nil => simp [mapGet?] at h
  | cons p m ih =>
    obtain ⟨k1, b1⟩ := p
    by_cases hk : k1 = k
    · simp only [mapGet?, hk, if_true, Option.some.injEq] at h
      simp [hk, h]
    · simp only [mapGet?, hk, if_false] at h
      exact List.mem_cons_of_mem _ (ih h)

theorem weight_value (hc : HyperCube) (rid : String) (target : List (String × String))
    (h : mapGet? hc.WorkRows rid = some target) :
    (weight hc rid).2.2.1 = (curbWeight hc.Options
      ((hc.Workspace.getD (rowIndex hc target) (Flt.fin 0) * Flt.ofNat hc.Stats.WorkRows) /
        (hc.Initspace.getD (rowIndex hc target) (Flt.fin 0) *
          Flt.ofNat hc.Stats.GoalRows))).1 := by
  simp only [weight, h]

/-- After ingestion from a fresh engine the stored values of the registry are
registered values. -/
theorem ingest_RegistryOK (ops : Options) (rs : List Response) (hc0 : HyperCube)
    (hadd : addRows rs (discover (NewGroupedWeighter ops) rs) = .ok hc0) :
    RegistryOK hc0 ∧
    ∀ id target, mapGet? hc0.WorkRows id = some target →
      ∃ r ∈ rs, isWorkRow ops r = true ∧ r.RespondentID = id ∧
        ∀ c ∈ ops.Columns, mapGet? target c = some (r.get c) := by
  have hDops : (discover (NewGroupedWeighter ops) rs).Options = ops :=
    discover_Options _ _
  have hops0 : hc0.Options = ops := (addRows_Options hadd).trans hDops
  have hreg := registered_of_ok ops rs hc0 hadd
  have hsame := addRows_sameIndexing hadd
  have key : ∀ id target, mapGet? hc0.WorkRows id = some target →
      ∃ r ∈ rs, isWorkRow ops r = true ∧ r.RespondentID = id ∧
        ∀ c ∈ ops.Columns, mapGet? target c = some (r.get c) := by
    intro id target ht
    rcases addRows_registry hadd id target ht with h | h
    · rw [(discover_frame ops rs).2.1] at h
      simp [mapGet?] at h
    · rw [hDops] at h
      exact h
  refine ⟨?_, key⟩
  intro id target ht c hc
  obtain ⟨r, hr, _, _, htc⟩ := key id target ht
  rw [hops0] at hc
  rw [htc c hc, Option.getD_some, ← (hsame c).2.2.1]
  exact hreg r hr c hc

theorem sameFrame_refl (hc : HyperCube) : sameFrame hc hc :=
  ⟨rfl, rfl, rfl, rfl, sameIndexing_refl _, rfl, rfl, rfl⟩

theorem sameFrame_trans {a b c : HyperCube} (h1 : sameFrame a b) (h2 : sameFrame b c) :
    sameFrame a c := by
  obtain ⟨a1, a2, a3, a4, a5, a6, a7, a8⟩ := h1
  obtain ⟨b1, b2, b3, b4, b5, b6, b7, b8⟩ := h2
  exact ⟨a1.trans b1, a2.trans b2, a3.trans b3, a4.trans b4, sameIndexing_trans a5 b5,
    a6.trans b6, a7.trans b7, a8.trans b8⟩

theorem recomputePass_frame (ops : Options) (ws : List Flt) (byVal : List (String × List Nat))
    (ks : List String) (vals : List (String × DimensionValue)) (g w : Flt)
    (hks : ∀ k ∈ ks, k ∈ mapKeys vals) :
    mapKeys (recomputePass ops ws byVal ks vals g w).1 = mapKeys vals ∧
    (∀ k, (mapGet? (recomputePass ops ws byVal ks vals g w).1 k).map DimensionValue.Index =
      (mapGet? vals k).map DimensionValue.Index) ∧
    (∀ k, (getVal (recomputePass ops ws byVal ks vals g w).1 k).GoalSum =
      (getVal vals k).GoalSum) := by
  induction ks generalizing vals g w with
  | nil => exact ⟨rfl, fun _ => rfl, fun _ => rfl⟩
  | cons k ks ih =>
    simp only [recomputePass]
    have hk := hks k (List.mem_cons_self _ _)
    obtain ⟨dv, hget⟩ := Option.isSome_iff_exists.1 ((mapGet?_isSome_iff _ _).2 hk)
    cases hbv : mapGet? byVal k with
    | none => exact ih vals g w (fun k1 hk1 => hks k1 (List.mem_cons_of_mem _ hk1))
    | some dvs =>
      simp only
      have hkeys := mapKeys_mapSet_of_get vals k dv
        { getVal vals k with
          WorkSum := sumCells ws dvs
          Weight := (curbWeight ops ((getVal vals k).GoalSum / sumCells ws dvs)).1 } hget
      obtain ⟨h1, h2, h3⟩ := ih
        (mapSet vals k
          { getVal vals k with
            WorkSum := sumCells ws dvs
            Weight := (curbWeight ops ((getVal vals k).GoalSum / sumCells ws dvs)).1 })
        (g + (getVal vals k).GoalSum) (w + sumCells ws dvs)
        (fun k1 hk1 => by rw [hkeys]; exact hks k1 (List.mem_cons_of_mem _ hk1))
      refine ⟨h1.trans hkeys, ?_, ?_⟩
      · intro k1
        rw [h2 k1]
        refine map_Index_mapSet _ _ dv _ hget ?_ k1
        simp only
        rw [getVal_of_get hget]
      · intro k1
        rw [h3 k1, getVal_mapSet]
        split
        · rename_i hkk; subst hkk; rfl
        · rfl

theorem scaleCells_length (weight : Flt) (dv : List Nat) (ws : List Flt) (s : Flt) :
    (scaleCells weight dv ws s).1.length = ws.length := by
  induction dv generalizing ws s with
  | nil => rfl
  | cons i dv ih =>
    simp only [scaleCells]
    rw [ih, List.length_set]

theorem applyPass_frame (ops : Options) (byVal : List (String × List Nat)) (dimAdjust : Flt)
    (ks : List String) (ws : List Flt) (dim : Dimension) (rmse : Flt) (rmsn : Nat)
    (hks : ∀ k ∈ ks, k ∈ mapKeys dim.Values) :
    (applyPass ops byVal dimAdjust ks ws dim rmse rmsn).1.length = ws.length ∧
    (applyPass ops byVal dimAdjust ks ws dim rmse rmsn).2.1.Size = dim.Size ∧
    (applyPass ops byVal dimAdjust ks ws dim rmse rmsn).2.1.BlockSize = dim.BlockSize ∧
    mapKeys (applyPass ops byVal dimAdjust ks ws dim rmse rmsn).2.1.Values =
      mapKeys dim.Values ∧
    (∀ k, (mapGet? (applyPass ops byVal dimAdjust ks ws dim rmse rmsn).2.1.Values k).map
        DimensionValue.Index = (mapGet? dim.Values k).map DimensionValue.Index) ∧
    (∀ k, (getVal (applyPass ops byVal dimAdjust ks ws dim rmse rmsn).2.1.Values k).GoalSum =
      (getVal dim.Values k).GoalSum) := by
  induction ks generalizing ws dim rmse rmsn with
  | nil => exact ⟨rfl, rfl, rfl, rfl, fun _ => rfl, fun _ => rfl⟩
  | cons k ks ih =>
    simp only [applyPass]
    have hk := hks k (List.mem_cons_self _ _)
    obtain ⟨dv, hget⟩ := Option.isSome_iff_exists.1 ((mapGet?_isSome_iff _ _).2 hk)
    cases hbv : mapGet? byVal k with
    | none => exact ih ws dim rmse rmsn (fun k1 hk1 => hks k1 (List.mem_cons_of_mem _ hk1))
    | some dvs =>
      simp only
      generalize hd3 : ({ getVal dim.Values k with
          WorkSum := (scaleCells (getVal dim.Values k).Weight dvs ws (Flt.fin 0)).2 / dimAdjust
          Weight := (curbWeight ops ((getVal dim.Values k).GoalSum /
            ((scaleCells (getVal dim.Values k).Weight dvs ws (Flt.fin 0)).2 / dimAdjust))).1
          Rmse := (getVal dim.Values k).Rmse + Flt.pow2 ((getVal dim.Values k).GoalSum -
            (scaleCells (getVal dim.Values k).Weight dvs ws (Flt.fin 0)).2 / dimAdjust)
          Rmsn := (getVal dim.Values k).Rmsn + 1 } : DimensionValue) = d3
      have hd3i : d3.Index = dv.Index := by rw [← hd3]; simp only; rw [getVal_of_get hget]
      have hd3g : d3.GoalSum = dv.GoalSum := by rw [← hd3]; simp only; rw [getVal_of_get hget]
      have hkeys := mapKeys_mapSet_of_get dim.Values k dv d3 hget
      obtain ⟨h1, h2, h3, h4, h5, h6⟩ := ih
        (scaleCells (getVal dim.Values k).Weight dvs ws (Flt.fin 0)).1
        { dim with
          Values := mapSet dim.Values k d3
          Rmse := dim.Rmse + Flt.pow2 ((getVal dim.Values k).GoalSum -
            (scaleCells (getVal dim.Values k).Weight dvs ws (Flt.fin 0)).2 / dimAdjust)
          Rmsn := dim.Rmsn + 1 }
        (rmse + Flt.pow2 ((getVal dim.Values k).GoalSum -
            (scaleCells (getVal dim.Values k).Weight dvs ws (Flt.fin 0)).2 / dimAdjust))
        (rmsn + 1)
        (fun k1 hk1 => by
          simp only
          rw [hkeys]; exact hks k1 (List.mem_cons_of_mem _ hk1))
      refine ⟨?_, h2, h3, h4.trans hkeys, ?_, ?_⟩
      · rw [h1, scaleCells_length]
      · intro k1
        rw [h5 k1]
        exact map_Index_mapSet _ _ dv _ hget hd3i k1
      · intro k1
        rw [h6 k1]
        simp only
        rw [getVal_mapSet]
        split
        · rename_i hkk; subst hkk; rw [hd3g, getVal_of_get hget]
        · rfl

theorem rakeColumn_frame (st : Sweep) (c : String) :
    sameFrame st.hc (rakeColumn st c).hc ∧ (rakeColumn st c).hc.Stats = st.hc.Stats ∧
    (∀ c1 k, (getVal (getDim (rakeColumn st c).hc.Dimensions c1).Values k).GoalSum =
      (getVal (getDim st.hc.Dimensions c1).Values k).GoalSum) := by
  obtain ⟨r1, r2, r3⟩ := recomputePass_frame st.hc.Options st.hc.Workspace
    ((mapGet? st.hc.DimValues c).getD []) (mapKeys (getDim st.hc.Dimensions c).Values)
    (getDim st.hc.Dimensions c).Values (Flt.fin 0) (Flt.fin 0) (fun _ h => h)
  generalize hrec : recomputePass st.hc.Options st.hc.Workspace
    ((mapGet? st.hc.DimValues c).getD []) (mapKeys (getDim st.hc.Dimensions c).Values)
    (getDim st.hc.Dimensions c).Values (Flt.fin 0) (Flt.fin 0) = rec1 at r1 r2 r3
  generalize hdim1 : ({ getDim st.hc.Dimensions c with
    Values := rec1.1, GoalSum := rec1.2.1, WorkSum := rec1.2.2 } : Dimension) = dim1
  have d1v : dim1.Values = rec1.1 := by rw [← hdim1]
  have d1s : dim1.Size = (getDim st.hc.Dimensions c).Size := by rw [← hdim1]
  have d1b : dim1.BlockSize = (getDim st.hc.Dimensions c).BlockSize := by rw [← hdim1]
  obtain ⟨a1, a2, a3, a4, a5, a6⟩ := applyPass_frame st.hc.Options
    ((mapGet? st.hc.DimValues c).getD []) (st.dimAdjust * dim1.Adjustment)
    (mapKeys dim1.Values) st.hc.Workspace dim1 st.rmse st.rmsn (fun _ h => h)
  have hrake : (rakeColumn st c).hc =
      { st.hc with
        Dimensions := mapSet st.hc.Dimensions c
          (applyPass st.hc.Options ((mapGet? st.hc.DimValues c).getD [])
            (st.dimAdjust * dim1.Adjustment) (mapKeys dim1.Values) st.hc.Workspace dim1
            st.rmse st.rmsn).2.1
        Workspace := (applyPass st.hc.Options ((mapGet? st.hc.DimValues c).getD [])
            (st.dimAdjust * dim1.Adjustment) (mapKeys dim1.Values) st.hc.Workspace dim1
            st.rmse st.rmsn).1 } := by
    subst hdim1
    subst hrec
    rfl
  rw [hrake]
  have hsame : sameIndexing st.hc.Dimensions (mapSet st.hc.Dimensions c
      (applyPass st.hc.Options ((mapGet? st.hc.DimValues c).getD [])
        (st.dimAdjust * dim1.Adjustment) (mapKeys dim1.Values) st.hc.Workspace dim1
        st.rmse st.rmsn).2.1) :=
    sameIndexing_mapSet _ _ _ (a2.trans d1s) (a3.trans d1b) (a4.trans (d1v ▸ r1))
      (fun k => (a5 k).trans (d1v ▸ r2 k))
  refine ⟨⟨rfl, rfl, rfl, rfl, hsame, rfl, rfl, a1.symm⟩, rfl, ?_⟩
  intro c1 k
  simp only
  by_cases hcc : c = c1
  · subst hcc
    rw [getDim_mapSet_same, a6 k, d1v, r3 k]
  · rw [getDim_mapSet_ne _ _ hcc]

theorem rakeColumns_frame (cols : List String) (st : Sweep) :
    sameFrame st.hc (cols.foldl rakeColumn st).hc ∧
      (cols.foldl rakeColumn st).hc.Stats = st.hc.Stats := by
  induction cols generalizing st with
  | nil => exact ⟨sameFrame_refl _, rfl⟩
  | cons c cols ih =>
    simp only [List.foldl_cons]
    obtain ⟨h1, h2, _⟩ := rakeColumn_frame st c
    obtain ⟨i1, i2⟩ := ih (rakeColumn st c)
    exact ⟨sameFrame_trans h1 i1, i2.trans h2⟩

theorem rakeIteration_frame (hc : HyperCube) :
    sameFrame hc (rakeIteration hc) ∧
      (rakeIteration hc).Stats.Iterations = hc.Stats.Iterations + 1 := by
  obtain ⟨h1, h2⟩ := rakeColumns_frame hc.Options.Columns
    { hc := { hc with Stats := { hc.Stats with MinWeight := defaultWeight
                                               MaxWeight := defaultWeight } }
      dimAdjust := Flt.fin 1, rmse := Flt.fin 0, rmsn := 0 }
  obtain ⟨a1, a2, a3, a4, a5, a6, a7, a8⟩ := h1
  unfold rakeIteration
  refine ⟨⟨a1, a2, a3, a4, a5, ?_, ?_, a8⟩, ?_⟩
  · simp only; rw [h2]
  · simp only; rw [h2]
  · simp only; rw [h2]

theorem iterate_frame (j : Nat) (hc : HyperCube) :
    sameFrame hc (rakeIteration^[j] hc) ∧
      (rakeIteration^[j] hc).Stats.Iterations = hc.Stats.Iterations + j := by
  induction j generalizing hc with
  | zero => exact ⟨sameFrame_refl _, rfl⟩
  | succ j ih =>
    rw [Function.iterate_succ_apply]
    obtain ⟨h1, h2⟩ := rakeIteration_frame hc
    obtain ⟨i1, i2⟩ := ih (rakeIteration hc)
    exact ⟨sameFrame_trans h1 i1, by rw [i2, h2]; omega⟩

/-- The raking loop runs the body `k` times, where `k` is the first count from 1
at which the convergence test holds, or the limit. -/
theorem rakeLoop_spec (n : Nat) (hc : HyperCube) :
    ∃ k, k ≤ n ∧ rakeLoop n hc = rakeIteration^[k] hc ∧ (1 ≤ n → 1 ≤ k) ∧
      (k < n → converged (rakeIteration^[k] hc) = true) ∧
      ∀ j, 1 ≤ j → j < k → converged (rakeIteration^[j] hc) = false := by
  induction n generalizing hc with
  | zero => exact ⟨0, Nat.le_refl _, rfl, fun h => absurd h (by omega), fun h => absurd h (by omega),
      fun j h1 h2 => absurd h2 (by omega)⟩
  | succ n ih =>
    simp only [rakeLoop]
    by_cases hconv : converged (rakeIteration hc) = true
    · refine ⟨1, by omega, by simp [hconv], fun _ => Nat.le_refl _, fun _ => by simpa using hconv,
        fun j h1 h2 => absurd h2 (by omega)⟩
    · obtain ⟨k, hk, hloop, _, hlt, hfirst⟩ := ih (rakeIteration hc)
      refine ⟨k + 1, by omega, ?_, fun _ => by omega, ?_, ?_⟩
      · simp only [hconv, if_false, Bool.false_eq_true]
        rw [hloop, Function.iterate_succ_apply]
      · intro hk1
        rw [Function.iterate_succ_apply]
        exact hlt (by omega)
      · intro j h1 h2
        rw [show j = (j - 1) + 1 by omega, Function.iterate_succ_apply]
        by_cases hj : j - 1 = 0
        · rw [hj]
          simpa using hconv
        · exact hfirst (j - 1) (by omega) (by omega)

/-! ## The anatomy of a successful run -/

theorem RegistryOK_of_sameFrame {a b : HyperCube} (h : sameFrame a b) (ha : RegistryOK a) :
    RegistryOK b := by
  obtain ⟨a1, a2, _, _, a5, _⟩ := h
  intro id target ht c hc
  rw [← a2] at ht
  rw [← a1] at hc
  rw [← (a5 c).2.2.1]
  exact ha id target ht c hc

/-- A successful `Weight` on a fresh engine, step by step: ingestion gives
`hc0`; the loop runs the body `k` times from the snapshot of `hc0`, `k` being the
first count at which the convergence test holds or else the limit; the
statistics pass and `getWeights` leave the cube and the loop statistics as the
loop left them. -/
theorem Weight_anatomy (ops : Options) (rs : List Response) (res : Result)
    (hok : Weight (NewGroupedWeighter ops) rs = .ok res) :
    ∃ hc0 k, addRows rs (discover (NewGroupedWeighter ops) rs) = .ok hc0 ∧
      hc0.Options = ops ∧
      k ≤ ops.MaxIterations.toNat ∧ (1 ≤ ops.MaxIterations.toNat → 1 ≤ k) ∧
      (k < ops.MaxIterations.toNat → converged (rakeIteration^[k] (snapshot hc0)) = true) ∧
      (∀ j, 1 ≤ j → j < k → converged (rakeIteration^[j] (snapshot hc0)) = false) ∧
      sameFrame (snapshot hc0) (rakeIteration^[k] (snapshot hc0)) ∧
      (rakeIteration^[k] (snapshot hc0)).Stats.Iterations = k ∧
      RegistryOK (rakeIteration^[k] (snapshot hc0)) ∧
      rakeDimensions hc0 = setEffectiveBaseSize (rakeIteration^[k] (snapshot hc0)) ∧
      sameCube (rakeIteration^[k] (snapshot hc0)) (rakeDimensions hc0) ∧
      sameCube (rakeIteration^[k] (snapshot hc0)) (getWeights (rakeDimensions hc0)).2 ∧
      res.Weights = (getWeights (rakeDimensions hc0)).1 ∧
      res.Stats = (getWeights (rakeDimensions hc0)).2.Stats := by
  obtain ⟨hc1, hrun, hw, hst⟩ := Weight_ok hok
  obtain ⟨hc0, hadd, rfl⟩ := run_ok hrun
  have hops0 : hc0.Options = ops := (addRows_Options hadd).trans (discover_Options _ _)
  obtain ⟨hregOK, _⟩ := ingest_RegistryOK ops rs hc0 hadd
  have hstats := addRows_Stats hadd
  obtain ⟨_, _, _, _, hI0⟩ := discover_frame ops rs
  obtain ⟨k, hk, hloop, hk1, hconv, hfirst⟩ := rakeLoop_spec ops.MaxIterations.toNat (snapshot hc0)
  obtain ⟨hfr, hit⟩ := iterate_frame k (snapshot hc0)
  have hregS : RegistryOK (snapshot hc0) := hregOK
  have hregR := RegistryOK_of_sameFrame hfr hregS
  have hrd : rakeDimensions hc0 = setEffectiveBaseSize (rakeIteration^[k] (snapshot hc0)) := by
    rw [← hloop, ← hops0]; rfl
  have hscF := setEffectiveBaseSize_sameCube _ hregR
  have hscG := (getWeightsLoop_entries (mapKeys (rakeDimensions hc0).WorkRows)
    (rakeDimensions hc0) []).2
  refine ⟨hc0, k, hadd, hops0, hk, hk1, hconv, hfirst, hfr, ?_, hregR, hrd, ?_, ?_, hw, hst⟩
  · rw [hit]
    show hc0.Stats.Iterations + k = k
    rw [hstats]
    simp only [hI0, Nat.zero_add]
  · rw [hrd]; exact hscF
  · unfold getWeights
    rw [hrd] at hscG ⊢
    exact sameCube_trans hscF hscG

/-- C8. On a fresh engine with `MaxIterations ≥ 1` a successful run ends after
`Stats.Iterations` iterations of the loop body with
`1 ≤ Stats.Iterations ≤ MaxIterations`; `Stats.Rmse` is the error of that last
iteration; if the run ended before the limit that error passes the test
`Rmse ≤ RootMeanSquareError`, and no earlier iteration passed it. -/
theorem raking_loop_stops_at_first_convergence (ops : Options) (responses : List Response)
    (res : Result) (hc0 : HyperCube) (hmax : 1 ≤ ops.MaxIterations)
    (hadd : addRows responses (discover (NewGroupedWeighter ops) responses) = .ok hc0)
    (hok : Weight (NewGroupedWeighter ops) responses = .ok res) :
    1 ≤ res.Stats.Iterations ∧ (res.Stats.Iterations : ℤ) ≤ ops.MaxIterations ∧
    res.Stats.Rmse = (rakeIteration^[res.Stats.Iterations] (snapshot hc0)).Stats.Rmse ∧
    ((res.Stats.Iterations : ℤ) < ops.MaxIterations →
      res.Stats.Rmse.le ops.RootMeanSquareError = true) ∧
    ∀ j, 1 ≤ j → j < res.Stats.Iterations →
      (rakeIteration^[j] (snapshot hc0)).Stats.Rmse.le ops.RootMeanSquareError = false := by
  obtain ⟨hc0', k, hadd', hops0, hk, hk1, hconv, hfirst, hfr, hit, _, _, _, hscG, _, hst⟩ :=
    Weight_anatomy ops responses res hok
  rw [hadd] at hadd'
  cases hadd'
  have hiter : res.Stats.Iterations = k := by
    rw [hst, ← hscG.2.2.2.2.2.2.2.2.1, hit]
  have hrmse : res.Stats.Rmse = (rakeIteration^[k] (snapshot hc0)).Stats.Rmse := by
    rw [hst, ← hscG.2.2.2.2.2.2.2.2.2]
  have hthr : ∀ j, (rakeIteration^[j] (snapshot hc0)).Options.RootMeanSquareError =
      ops.RootMeanSquareError := by
    intro j
    rw [← (iterate_frame j (snapshot hc0)).1.1]
    show hc0.Options.RootMeanSquareError = _
    rw [hops0]
  rw [hiter]
  refine ⟨hk1 (by omega), by omega, hrmse, ?_, ?_⟩
  · intro hlt
    have := hconv (by omega)
    unfold converged at this
    rw [hthr] at this
    rw [hrmse]
    exact this
  · intro j h1 h2
    have := hfirst j h1 h2
    unfold converged at this
    rw [hthr] at this
    exact this

/-- C9 (amended). After a successful run on a fresh engine `Stats.WorkRows` is
the number of responses whose group value is the work value and not the goal
value, `Stats.GoalRows` is the number of responses whose group value is the goal
value, and the two add up to the number of responses. -/
theorem row_counts (ops : Options) (responses : List Response) (res : Result)
    (hok : Weight (NewGroupedWeighter ops) responses = .ok res) :
    res.Stats.WorkRows = responses.countP (fun r =>
      decide (r.get ops.GroupColumn = ops.WorkGroupValue ∧
        r.get ops.GroupColumn ≠ ops.GoalGroupValue)) ∧
    res.Stats.GoalRows = responses.countP (fun r =>
      decide (r.get ops.GroupColumn = ops.GoalGroupValue)) ∧
    res.Stats.WorkRows + res.Stats.GoalRows = responses.length := by
  obtain ⟨hc0, k, hadd, hops0, _, _, _, _, hfr, _, _, _, _, hscG, _, hst⟩ :=
    Weight_anatomy ops responses res hok
  have hstats := addRows_Stats hadd
  obtain ⟨_, _, hW0, hG0, _⟩ := discover_frame ops responses
  rw [discover_Options] at hstats
  have hW : res.Stats.WorkRows = responses.countP (isWorkRow ops) := by
    rw [hst, ← hscG.2.2.2.2.2.2.1, ← hfr.2.2.2.2.2.1]
    show hc0.Stats.WorkRows = _
    rw [hstats]
    simp only [hW0, Nat.zero_add, NewGroupedWeighter_Options]
  have hG : res.Stats.GoalRows = responses.countP (isGoalRow ops) := by
    rw [hst, ← hscG.2.2.2.2.2.2.2.1, ← hfr.2.2.2.2.2.2.1]
    show hc0.Stats.GoalRows = _
    rw [hstats]
    simp only [hG0, Nat.zero_add, NewGroupedWeighter_Options]
  have hvalid : ∀ r ∈ responses, ¬ invalidGroup ops r := by
    intro r hr hbad
    have hbad' : invalidGroup (discover (NewGroupedWeighter ops) responses).Options r := by
      rw [discover_Options]; exact hbad
    obtain ⟨e, he⟩ := (addRows_error_iff responses
      (discover (NewGroupedWeighter ops) responses)).2 ⟨r, hr, Or.inl hbad'⟩
    rw [hadd] at he
    cases he
  refine ⟨?_, ?_, ?_⟩
  · rw [hW]
    apply List.countP_congr
    intro r _
    simp only [isWorkRow, Bool.and_eq_true, decide_eq_true_eq]
    tauto
  · rw [hG]
    rfl
  · rw [hW, hG]
    have : ∀ (l : List Response), (∀ r ∈ l, ¬ invalidGroup ops r) →
        l.countP (isWorkRow ops) + l.countP (isGoalRow ops) = l.length := by
      intro l
      induction l with
      | nil => intro _; rfl
      | cons r l ih =>
        intro hl
        have h1 := ih (fun r1 hr1 => hl r1 (List.mem_cons_of_mem _ hr1))
        have h2 := hl r (List.mem_cons_self _ _)
        simp only [List.countP_cons, List.length_cons]
        by_cases hg : isGoalRow ops r = true
        · simp only [hg, isGoalRow_not_isWorkRow hg, if_true, Bool.false_eq_true, if_false]
          omega
        · have hw : isWorkRow ops r = true := by
            simp only [isGoalRow, decide_eq_true_eq] at hg
            simp only [isWorkRow, Bool.and_eq_true, decide_eq_true_eq]
            refine ⟨hg, ?_⟩
            by_contra hcon
            exact h2 ⟨hg, hcon⟩
          simp only [hg, hw, if_true, Bool.false_eq_true, if_false]
          omega
    exact this responses hvalid

theorem raking_loop_stops_at_first_convergence_witness :
    1 ≤ res2.Stats.Iterations ∧ (res2.Stats.Iterations : ℤ) ≤ ops1.MaxIterations ∧
    res2.Stats.Rmse = (rakeIteration^[res2.Stats.Iterations] (snapshot ingested2)).Stats.Rmse ∧
    ((res2.Stats.Iterations : ℤ) < ops1.MaxIterations →
      res2.Stats.Rmse.le ops1.RootMeanSquareError = true) ∧
    ∀ j, 1 ≤ j → j < res2.Stats.Iterations →
      (rakeIteration^[j] (snapshot ingested2)).Stats.Rmse.le ops1.RootMeanSquareError = false :=
  raking_loop_stops_at_first_convergence ops1 rs2 res2 ingested2 (by decide) (by decide!)
    (by decide!)

theorem row_counts_witness :
    res2.Stats.WorkRows = rs2.countP (fun r =>
      decide (r.get ops1.GroupColumn = ops1.WorkGroupValue ∧
        r.get ops1.GroupColumn ≠ ops1.GoalGroupValue)) ∧
    res2.Stats.GoalRows = rs2.countP (fun r =>
      decide (r.get ops1.GroupColumn = ops1.GoalGroupValue)) ∧
    res2.Stats.WorkRows + res2.Stats.GoalRows = rs2.length :=
  row_counts ops1 rs2 res2 (by decide!)

/-- C9, as stated, fails when the work value equals the goal value: the row is
taken by the goal case of the switch, so `Stats.WorkRows` is 0 although one
response has the work value in the group column. -/
theorem row_counts_fail_when_group_values_coincide :
    Weight (NewGroupedWeighter ops9) rs9 = .ok res9 ∧
      res9.Stats.WorkRows = 0 ∧
      rs9.countP (fun r => decide (r.get ops9.GroupColumn = ops9.WorkGroupValue)) = 1 := by
  refine ⟨by decide!, by decide, by decide!⟩

/-- C7. `Weight` is not invariant under a reordering of the columns: on the
response list `rs7` with one iteration the orders `[A, B]` and `[B, A]` give the
respondent `w2` the weights 2 and 4/5. -/
theorem column_order_changes_weights :
    ∃ (ops ops' : Options) (responses : List Response) (res res' : Result),
      ops' = { ops with Columns := ops'.Columns } ∧ ops'.Columns.Perm ops.Columns ∧
      Weight (NewGroupedWeighter ops) responses = .ok res ∧
      Weight (NewGroupedWeighter ops') responses = .ok res' ∧
      ∃ id, mapGet? res.Weights id ≠ mapGet? res'.Weights id :=
  ⟨opsAB, opsBA, rs7, res7AB, res7BA, by decide!, List.Perm.swap "A" "B" [], by decide!,
    by decide!, "w2", by decide!⟩

/-! ## The statistics pass -/

theorem mapSet_of_not_mem {α β : Type} [DecidableEq α] (m : List (α × β)) (k : α) (b : β)
    (h : k ∉ mapKeys m) : mapSet m k b = m ++ [(k, b)] := by
  induction m with
  | nil => rfl
  | cons p m ih =>
    obtain ⟨k1, b1⟩ := p
    have hne : ¬ k1 = k := fun e => h (by simp [mapKeys, e])
    have hm : k ∉ mapKeys m := fun e => h (by
      simp only [mapKeys, List.map_cons, List.mem_cons]
      exact Or.inr e)
    simp [mapSet, hne, ih hm]

theorem nodup_mapKeys_mapSet {α β : Type} [DecidableEq α] (m : List (α × β)) (k : α) (b : β)
    (h : (mapKeys m).Nodup) : (mapKeys (mapSet m k b)).Nodup := by
  by_cases hk : k ∈ mapKeys m
  · obtain ⟨b1, hb1⟩ := Option.isSome_iff_exists.1 ((mapGet?_isSome_iff _ _).2 hk)
    rw [mapKeys_mapSet_of_get m k b1 b hb1]
    exact h
  · rw [mapSet_of_not_mem m k b hk]
    simp only [mapKeys, List.map_append, List.map_cons, List.map_nil]
    rw [List.nodup_append]
    refine ⟨h, List.nodup_singleton _, ?_⟩
    intro a ha hb
    simp only [List.mem_singleton] at hb
    exact hk (hb ▸ ha)

theorem addRows_WorkRows_nodup {rs : List Response} {hc hc1 : HyperCube}
    (h : addRows rs hc = .ok hc1) (hnd : (mapKeys hc.WorkRows).Nodup) :
    (mapKeys hc1.WorkRows).Nodup := by
  induction rs generalizing hc with
  | nil => simp only [addRows] at h; cases h; exact hnd
  | cons r rs ih =>
    simp only [addRows] at h
    split at h
    · cases h
    · rename_i hc2 h2
      apply ih h
      rcases addRow_ok_cases h2 with ⟨_, hb⟩ | ⟨_, hb⟩
      · obtain ⟨dims, index, _, rfl⟩ := addRowBody_goal hb
        exact hnd
      · obtain ⟨dims, index, _, rfl⟩ := addRowBody_work hb
        exact nodup_mapKeys_mapSet _ _ _ hnd

theorem weight_weighted (hc : HyperCube) (rid : String) (h : rid ∈ mapKeys hc.WorkRows) :
    (weight hc rid).1 = true := by
  obtain ⟨target, ht⟩ := Option.isSome_iff_exists.1 ((mapGet?_isSome_iff _ _).2 h)
  simp only [weight, ht]

theorem weightOf_congr {a b : HyperCube} (h : sameCube a b) (rid : String) :
    weightOf a rid = weightOf b rid := (weight_congr h rid).2.2

/-- With pairwise distinct identifiers `getWeights` writes the weights of the
respondents in the order of the registry. -/
theorem getWeightsLoop_map (rids : List String) (hc : HyperCube)
    (results : List (String × Flt)) (hnd : rids.Nodup)
    (hdisj : ∀ r ∈ rids, r ∉ mapKeys results) :
    (getWeightsLoop rids hc results).1 =
      results ++ rids.map (fun rid => (rid, weightOf hc rid)) := by
  induction rids generalizing hc results with
  | nil => simp [getWeightsLoop]
  | cons rid rids ih =>
    obtain ⟨hnot, hnd1⟩ := List.nodup_cons.1 hnd
    simp only [getWeightsLoop]
    rw [mapSet_of_not_mem _ _ _ (hdisj rid (List.mem_cons_self _ _))]
    rw [ih _ _ hnd1 (by
      intro r hr hmem
      simp only [mapKeys, List.map_append, List.map_cons, List.map_nil, List.mem_append,
        List.mem_singleton] at hmem
      rcases hmem with hmem | hmem
      · exact hdisj r (List.mem_cons_of_mem _ hr) hmem
      · exact hnot (hmem ▸ hr))]
    simp only [List.map_cons, List.append_assoc, List.singleton_append]
    congr 2
    apply List.map_congr_left
    intro r _
    rw [weightOf_congr (weight_sameCube hc rid)]

theorem accumulateRows_totals (rids : List String) (t : Totals) (H : HyperCube)
    (hsc : sameCube H t.hc) (hreg : RegistryOK t.hc)
    (hrid : ∀ rid ∈ rids, rid ∈ mapKeys t.hc.WorkRows) :
    (rids.foldl accumulateRow t).totalSum = fltSum (rids.map (weightOf H)) t.totalSum ∧
    (rids.foldl accumulateRow t).totalSum2 =
      fltSum (rids.map (fun r => Flt.pow2 (weightOf H r))) t.totalSum2 ∧
    (rids.foldl accumulateRow t).totalCount = t.totalCount + rids.length ∧
    (rids.foldl accumulateRow t).hc.Stats.EffectiveBaseSize = t.hc.Stats.EffectiveBaseSize := by
  induction rids generalizing t with
  | nil => exact ⟨rfl, rfl, rfl, rfl⟩
  | cons rid rids ih =>
    simp only [List.foldl_cons, List.map_cons, fltSum, List.length_cons]
    have hmem := hrid rid (List.mem_cons_self _ _)
    have h1 := accumulateRow_sameCube t rid hreg hmem
    obtain ⟨i1, i2, i3, i4⟩ := ih (accumulateRow t rid) (sameCube_trans hsc h1)
      (RegistryOK_of_sameCube h1 hreg)
      (fun r hr => by rw [← h1.2.1]; exact hrid r (List.mem_cons_of_mem _ hr))
    have hw : (weight t.hc rid).1 = true := weight_weighted _ _ hmem
    have hwv : (weight t.hc rid).2.2.1 = weightOf H rid := (weightOf_congr hsc rid).symm
    have hE : (accumulateRow t rid).hc.Stats.EffectiveBaseSize =
        t.hc.Stats.EffectiveBaseSize := by
      simp only [accumulateRow, hw, if_true]
      unfold weight
      cases mapGet? t.hc.WorkRows rid with
      | none => rfl
      | some target =>
        simp only
        split <;> split <;> rfl
    have hS : (accumulateRow t rid).totalSum = t.totalSum + weightOf H rid := by
      simp only [accumulateRow, hw, if_true, hwv]
    have hS2 : (accumulateRow t rid).totalSum2 = t.totalSum2 + Flt.pow2 (weightOf H rid) := by
      simp only [accumulateRow, hw, if_true, hwv]
    have hC : (accumulateRow t rid).totalCount = t.totalCount + 1 := by
      simp only [accumulateRow, hw, if_true]
    refine ⟨?_, ?_, ?_, ?_⟩
    · rw [i1, hS]; rfl
    · rw [i2, hS2]; rfl
    · rw [i3, hC]; omega
    · rw [i4, hE]

theorem fltSum_fin (qs : List ℚ) (a : ℚ) :
    fltSum (qs.map Flt.fin) (Flt.fin a) = Flt.fin (a + qs.sum) := by
  induction qs generalizing a with
  | nil => simp [fltSum]
  | cons q qs ih =>
    simp only [fltSum, List.map_cons, List.foldl_cons, fin_add_fin, List.sum_cons] at ih ⊢
    rw [ih]
    congr 1
    ring

/-- The sum of squares bounds the square of the sum (Cauchy-Schwarz). -/
theorem sq_sum_le_length_mul_sum_sq (qs : List ℚ) :
    qs.sum ^ 2 ≤ (qs.length : ℚ) * (qs.map (fun q => q ^ 2)).sum := by
  induction qs with
  | nil => simp
  | cons x qs ih =>
    simp only [List.sum_cons, List.length_cons, List.map_cons]
    push_cast
    have hn : (0 : ℚ) ≤ (qs.length : ℚ) := Nat.cast_nonneg _
    have hQ : (0 : ℚ) ≤ (qs.map (fun q => q ^ 2)).sum := by
      apply List.sum_nonneg
      intro a ha
      obtain ⟨q, _, rfl⟩ := List.mem_map.1 ha
      positivity
    rcases Nat.eq_zero_or_pos qs.length with h0 | hpos
    · have : qs = [] := List.length_eq_zero.1 h0
      subst this
      simp
    · have hnpos : (0 : ℚ) < (qs.length : ℚ) := by exact_mod_cast hpos
      have key : (qs.length : ℚ) * (2 * x * qs.sum) ≤
          (qs.length : ℚ) * ((qs.length : ℚ) * x ^ 2 + (qs.map (fun q => q ^ 2)).sum) := by
        nlinarith [sq_nonneg ((qs.length : ℚ) * x - qs.sum)]
      have key2 := le_of_mul_le_mul_left key hnpos
      nlinarith

theorem sum_sq_pos (qs : List ℚ) (h : ∃ q ∈ qs, q ≠ 0) :
    0 < (qs.map (fun q => q ^ 2)).sum := by
  induction qs with
  | nil => obtain ⟨q, hq, _⟩ := h; cases hq
  | cons x qs ih =>
    simp only [List.map_cons, List.sum_cons]
    have hQ : (0 : ℚ) ≤ (qs.map (fun q => q ^ 2)).sum := by
      apply List.sum_nonneg
      intro a ha
      obtain ⟨q, _, rfl⟩ := List.mem_map.1 ha
      positivity
    by_cases hx : x = 0
    · obtain ⟨q, hq, hq0⟩ := h
      rcases List.mem_cons.1 hq with rfl | hq'
      · exact absurd hx hq0
      · have := ih ⟨q, hq', hq0⟩
        rw [hx]; simpa using this
    · have : 0 < x ^ 2 := by positivity
      linarith

theorem getWeightsLoop_EffectiveBaseSize (rids : List String) (hc : HyperCube)
    (results : List (String × Flt)) :
    (getWeightsLoop rids hc results).2.Stats.EffectiveBaseSize =
      hc.Stats.EffectiveBaseSize := by
  induction rids generalizing hc results with
  | nil => rfl
  | cons rid rids ih =>
    simp only [getWeightsLoop]
    rw [ih]
    unfold weight
    cases mapGet? hc.WorkRows rid with
    | none => rfl
    | some target =>
      simp only
      split <;> split <;> rfl

/-- The effective base size `setEffectiveBaseSize` stores: the square of the sum
of the final weights of the registry over the sum of their squares. -/
theorem setEffectiveBaseSize_EffectiveBaseSize (hc : HyperCube) (hreg : RegistryOK hc) :
    (setEffectiveBaseSize hc).Stats.EffectiveBaseSize =
      Flt.pow2 (fltSum ((mapKeys hc.WorkRows).map (weightOf hc)) (Flt.fin 0)) /
        fltSum ((mapKeys hc.WorkRows).map (fun r => Flt.pow2 (weightOf hc r))) (Flt.fin 0) := by
  have h0 : sameCube hc
      { hc with Dimensions := resetWorkSums hc.Options.Columns hc.Dimensions } :=
    ⟨rfl, rfl, rfl, rfl, rfl, resetWorkSums_sameIndexing _ _, rfl, rfl, rfl, rfl⟩
  obtain ⟨t1, t2, _, _⟩ := accumulateRows_totals (mapKeys hc.WorkRows)
    { hc := { hc with Dimensions := resetWorkSums hc.Options.Columns hc.Dimensions } } hc h0
    (RegistryOK_of_sameCube h0 hreg) (fun _ h => h)
  unfold setEffectiveBaseSize
  simp only
  rw [t1, t2]

/-- C10. After a successful run in which every final weight is a number and at
least one is not zero, `Stats.EffectiveBaseSize` is `(Σ w)² / Σ w²` over the
final weights `w` of the respondents of the registry (the entries of
`Result.Weights`), and it does not exceed the number of those respondents. -/
theorem effective_base_size_is_kish (ops : Options) (responses : List Response) (res : Result)
    (qs : List ℚ) (hok : Weight (NewGroupedWeighter ops) responses = .ok res)
    (hfin : res.Weights.map Prod.snd = qs.map Flt.fin) (hnz : ∃ q ∈ qs, q ≠ 0) :
    res.Stats.EffectiveBaseSize = Flt.fin (qs.sum ^ 2 / (qs.map (fun q => q ^ 2)).sum) ∧
      qs.sum ^ 2 / (qs.map (fun q => q ^ 2)).sum ≤ (res.Weights.length : ℚ) := by
  obtain ⟨hc0, k, hadd, hops0, _, _, _, _, hfr, _, hregR, hrd, hscF, hscG, hw, hst⟩ :=
    Weight_anatomy ops responses res hok
  have hnd0 : (mapKeys hc0.WorkRows).Nodup :=
    addRows_WorkRows_nodup hadd (by rw [(discover_frame ops responses).2.1]; exact List.nodup_nil)
  have hWR : (rakeDimensions hc0).WorkRows = hc0.WorkRows := rakeDimensions_WorkRows hc0
  have hWRR : (rakeIteration^[k] (snapshot hc0)).WorkRows = hc0.WorkRows := hfr.2.1.symm
  have hweights : res.Weights.map Prod.snd =
      (mapKeys hc0.WorkRows).map (weightOf (rakeIteration^[k] (snapshot hc0))) := by
    rw [hw, getWeights, getWeightsLoop_map _ _ _ (by rw [hWR]; exact hnd0) (by simp [mapKeys]),
      hWR]
    simp only [List.nil_append, List.map_map]
    apply List.map_congr_left
    intro r _
    simp only [Function.comp]
    exact (weightOf_congr hscF r).symm
  have hfin' : (mapKeys hc0.WorkRows).map (weightOf (rakeIteration^[k] (snapshot hc0))) =
      qs.map Flt.fin := hweights.symm.trans hfin
  have hlen : res.Weights.length = qs.length := by
    have := congrArg List.length hfin
    simpa using this
  have hpos := sum_sq_pos qs hnz
  have hEBS : res.Stats.EffectiveBaseSize =
      Flt.fin (qs.sum ^ 2 / (qs.map (fun q => q ^ 2)).sum) := by
    rw [hst, getWeights, getWeightsLoop_EffectiveBaseSize, hrd,
      setEffectiveBaseSize_EffectiveBaseSize _ hregR, hWRR]
    have h2 : (mapKeys hc0.WorkRows).map
        (fun r => Flt.pow2 (weightOf (rakeIteration^[k] (snapshot hc0)) r)) =
        (qs.map (fun q => q ^ 2)).map Flt.fin := by
      have : (mapKeys hc0.WorkRows).map
          (fun r => Flt.pow2 (weightOf (rakeIteration^[k] (snapshot hc0)) r)) =
          ((mapKeys hc0.WorkRows).map
            (weightOf (rakeIteration^[k] (snapshot hc0)))).map Flt.pow2 := by
        rw [List.map_map]; rfl
      rw [this, hfin', List.map_map, List.map_map]
      apply List.map_congr_left
      intro q _
      simp only [Function.comp, Flt.pow2]
      congr 1
      ring
    rw [hfin', h2, fltSum_fin, fltSum_fin]
    simp only [zero_add, Flt.pow2]
    rw [fin_div_fin _ _ (ne_of_gt hpos)]
    congr 2
    ring
  refine ⟨hEBS, ?_⟩
  rw [hlen, div_le_iff₀ hpos]
  exact sq_sum_le_length_mul_sum_sq qs

theorem effective_base_size_is_kish_witness :
    res7AB.Stats.EffectiveBaseSize =
        Flt.fin (([3 / 10, 2, 4 / 5] : List ℚ).sum ^ 2 /
          (([3 / 10, 2, 4 / 5] : List ℚ).map (fun q => q ^ 2)).sum) ∧
      ([3 / 10, 2, 4 / 5] : List ℚ).sum ^ 2 /
          (([3 / 10, 2, 4 / 5] : List ℚ).map (fun q => q ^ 2)).sum ≤
        (res7AB.Weights.length : ℚ) :=
  effective_base_size_is_kish opsAB rs7 res7AB [3 / 10, 2, 4 / 5] (by decide!) (by decide!)
    ⟨2, by simp, by norm_num⟩

/-! ## One sweep of the raking loop over a single column -/

theorem sumCells_singleton_fin (ws : List Flt) (i : Nat) (a : ℚ)
    (h : ws.getD i (Flt.fin 0) = Flt.fin a) : sumCells ws [i] = Flt.fin a := by
  simp only [sumCells, List.foldl_cons, List.foldl_nil, h, fin_add_fin, zero_add]

theorem recomputePass_single (ops : Options) (ws : List Flt)
    (byVal : List (String × List Nat)) (d : String → Nat) (a g : String → ℚ)
    (ks : List String) (vals : List (String × DimensionValue)) (tg tw : Flt)
    (hk : ∀ k ∈ ks, k ∈ mapKeys vals ∧ (getVal vals k).GoalSum = Flt.fin (g k) ∧
      (mapGet? byVal k = none ∨
        (mapGet? byVal k = some [d k] ∧ ws.getD (d k) (Flt.fin 0) = Flt.fin (a k)))) :
    ∀ k, ((k ∈ ks ∧ (mapGet? byVal k).isSome = true) ∨
        (getVal vals k).Weight = (curbWeight ops (Flt.fin (g k) / Flt.fin (a k))).1) →
      (getVal (recomputePass ops ws byVal ks vals tg tw).1 k).Weight =
        (curbWeight ops (Flt.fin (g k) / Flt.fin (a k))).1 := by
  induction ks generalizing vals tg tw with
  | nil =>
    intro k hk'
    rcases hk' with ⟨h, _⟩ | h
    · cases h
    · exact h
  | cons k0 ks ih =>
    obtain ⟨hmem, hgoal, hcell⟩ := hk k0 (List.mem_cons_self _ _)
    obtain ⟨dv, hget⟩ := Option.isSome_iff_exists.1 ((mapGet?_isSome_iff _ _).2 hmem)
    have hdv : getVal vals k0 = dv := getVal_of_get hget
    intro k hk'
    rcases hcell with hnone | ⟨hsome, hws⟩
    · simp only [recomputePass, hnone]
      apply ih vals tg tw (fun k1 hk1 => hk k1 (List.mem_cons_of_mem _ hk1))
      rcases hk' with ⟨h, hfound⟩ | h
      · rcases List.mem_cons.1 h with rfl | h
        · rw [hnone] at hfound; cases hfound
        · exact Or.inl ⟨h, hfound⟩
      · exact Or.inr h
    · simp only [recomputePass, hsome, sumCells_singleton_fin ws (d k0) (a k0) hws, hdv]
      apply ih
      · intro k1 hk1
        obtain ⟨hm1, hg1, hc1⟩ := hk k1 (List.mem_cons_of_mem _ hk1)
        refine ⟨?_, ?_, hc1⟩
        · rw [mapKeys_mapSet_of_get _ _ dv _ hget]; exact hm1
        · rw [getVal_mapSet]
          split
          · rename_i hkk; subst hkk; rw [← hdv]; exact hgoal
          · exact hg1
      · by_cases hkk : k0 = k
        · subst hkk
          right
          rw [getVal_mapSet, if_pos rfl]
          simp only
          rw [← hdv, hgoal]
        · rcases hk' with ⟨h, hfound⟩ | h
          · rcases List.mem_cons.1 h with rfl | h
            · exact absurd rfl hkk
            · exact Or.inl ⟨h, hfound⟩
          · right
            rw [getVal_mapSet, if_neg hkk]
            exact h

theorem scaleCells_singleton (ws : List Flt) (i : Nat) (a w : ℚ)
    (h : ws.getD i (Flt.fin 0) = Flt.fin a) (hfloor : cellFloor ≤ a) :
    (scaleCells (Flt.fin w) [i] ws (Flt.fin 0)).1 = ws.set i (Flt.fin (a * w)) := by
  have hlt : Flt.lt (Flt.fin a) (Flt.fin cellFloor) = false := by
    simp [Flt.lt, not_lt.mpr hfloor]
  simp only [scaleCells, h, hlt, Bool.false_eq_true, if_false, fin_mul_fin]

theorem applyPass_single (ops : Options) (byVal : List (String × List Nat)) (dimAdjust : Flt)
    (d : String → Nat) (a wq : String → ℚ)
    (ks : List String) (ws : List Flt) (dim : Dimension) (rmse : Flt) (rmsn : Nat)
    (hnd : ks.Nodup) (hinj : ∀ k ∈ ks, ∀ k1 ∈ ks, d k = d k1 → k = k1)
    (hk : ∀ k ∈ ks, k ∈ mapKeys dim.Values ∧
      (mapGet? byVal k = none ∨
        (mapGet? byVal k = some [d k] ∧ (getVal dim.Values k).Weight = Flt.fin (wq k) ∧
          ws.getD (d k) (Flt.fin 0) = Flt.fin (a k) ∧ d k < ws.length ∧ cellFloor ≤ a k))) :
    (∀ k ∈ ks, (mapGet? byVal k).isSome = true →
      (applyPass ops byVal dimAdjust ks ws dim rmse rmsn).1.getD (d k) (Flt.fin 0) =
        Flt.fin (a k * wq k)) ∧
    (∀ i, (∀ k ∈ ks, (mapGet? byVal k).isSome = true → d k ≠ i) →
      (applyPass ops byVal dimAdjust ks ws dim rmse rmsn).1.getD i (Flt.fin 0) =
        ws.getD i (Flt.fin 0)) := by
  induction ks generalizing ws dim rmse rmsn with
  | nil =>
    refine ⟨fun k hk' => ?_, fun i _ => rfl⟩
    cases hk'
  | cons k0 ks ih =>
    obtain ⟨hnot, hnd1⟩ := List.nodup_cons.1 hnd
    obtain ⟨hmem, hcell⟩ := hk k0 (List.mem_cons_self _ _)
    obtain ⟨dv, hget⟩ := Option.isSome_iff_exists.1 ((mapGet?_isSome_iff _ _).2 hmem)
    have hdv : getVal dim.Values k0 = dv := getVal_of_get hget
    have hinj1 : ∀ k ∈ ks, ∀ k1 ∈ ks, d k = d k1 → k = k1 :=
      fun k hk' k1 hk1 => hinj k (List.mem_cons_of_mem _ hk') k1 (List.mem_cons_of_mem _ hk1)
    rcases hcell with hnone | ⟨hsome, hwt, hws, hlt, hfloor⟩
    · simp only [applyPass, hnone]
      obtain ⟨i1, i2⟩ := ih ws dim rmse rmsn hnd1 hinj1
        (fun k1 hk1 => hk k1 (List.mem_cons_of_mem _ hk1))
      refine ⟨?_, ?_⟩
      · intro k hk' hfound
        rcases List.mem_cons.1 hk' with rfl | hk'
        · rw [hnone] at hfound; cases hfound
        · exact i1 k hk' hfound
      · intro i hi
        exact i2 i (fun k hk' hf => hi k (List.mem_cons_of_mem _ hk') hf)
    · simp only [applyPass, hsome]
      rw [hdv] at hwt
      simp only [hdv, hwt, scaleCells_singleton ws (d k0) (a k0) (wq k0) hws hfloor]
      generalize hd3 : ({ dv with
          WorkSum := (scaleCells (Flt.fin (wq k0)) [d k0] ws (Flt.fin 0)).2 / dimAdjust
          Weight := (curbWeight ops (dv.GoalSum /
            ((scaleCells (Flt.fin (wq k0)) [d k0] ws (Flt.fin 0)).2 / dimAdjust))).1
          Rmse := dv.Rmse + Flt.pow2 (dv.GoalSum -
            (scaleCells (Flt.fin (wq k0)) [d k0] ws (Flt.fin 0)).2 / dimAdjust)
          Rmsn := dv.Rmsn + 1 } : DimensionValue) = d3
      obtain ⟨i1, i2⟩ := ih (ws.set (d k0) (Flt.fin (a k0 * wq k0)))
        { dim with
          Values := mapSet dim.Values k0 d3
          Rmse := dim.Rmse + Flt.pow2 (dv.GoalSum -
            (scaleCells (Flt.fin (wq k0)) [d k0] ws (Flt.fin 0)).2 / dimAdjust)
          Rmsn := dim.Rmsn + 1 }
        (rmse + Flt.pow2 (dv.GoalSum -
            (scaleCells (Flt.fin (wq k0)) [d k0] ws (Flt.fin 0)).2 / dimAdjust))
        (rmsn + 1) hnd1 hinj1
        (by
          intro k1 hk1
          obtain ⟨hm1, hc1⟩ := hk k1 (List.mem_cons_of_mem _ hk1)
          have hne : k0 ≠ k1 := fun e => hnot (e ▸ hk1)
          refine ⟨?_, ?_⟩
          · simp only
            rw [mapKeys_mapSet_of_get _ _ dv _ hget]; exact hm1
          · rcases hc1 with h | ⟨h1, h2, h3, h4, h5⟩
            · exact Or.inl h
            · right
              have hdne : d k0 ≠ d k1 := fun e =>
                hne (hinj k0 (List.mem_cons_self _ _) k1 (List.mem_cons_of_mem _ hk1) e)
              refine ⟨h1, ?_, ?_, ?_, h5⟩
              · simp only
                rw [getVal_mapSet, if_neg hne]; exact h2
              · rw [getD_set]
                simp only [hdne, false_and, if_false]
                exact h3
              · rw [List.length_set]; exact h4)
      refine ⟨?_, ?_⟩
      · intro k hk' hfound
        rcases List.mem_cons.1 hk' with rfl | hk'
        · rw [i2 (d k) (fun k1 hk1 _ e =>
            hnot ((hinj k1 (List.mem_cons_of_mem _ hk1) k (List.mem_cons_self _ _) e) ▸ hk1))]
          rw [getD_set]
          simp only [hlt, and_self, if_true]
        · exact i1 k hk' hfound
      · intro i hi
        rw [i2 i (fun k hk' hf => hi k (List.mem_cons_of_mem _ hk') hf), getD_set]
        have : d k0 ≠ i := hi k0 (List.mem_cons_self _ _) (by rw [hsome]; rfl)
        simp only [this, false_and, if_false]

theorem curbWeight_in_range (ops : Options) (q : ℚ) (hlo : ops.LowerWeightCap ≤ q)
    (hhi : q ≤ ops.UpperWeightCap) : curbWeight ops (Flt.fin q) = (Flt.fin q, false) := by
  unfold curbWeight
  simp [Flt.lt, Flt.gt, not_lt.mpr hlo, not_lt.mpr hhi]

theorem cellFloor_pos : (0 : ℚ) < cellFloor := by
  unfold cellFloor
  norm_num

theorem OneColumn_congr {hc hc1 : HyperCube} {c : String} {a g : String → ℚ}
    (h : OneColumn hc c a g) (h1 : hc1.Options = hc.Options)
    (h2 : hc1.Dimensions = hc.Dimensions) (h3 : hc1.DimValues = hc.DimValues)
    (h4 : hc1.Workspace = hc.Workspace) : OneColumn hc1 c a g := by
  unfold OneColumn at *
  rw [h1, h2, h3, h4]
  exact h

theorem rakeColumn_oneColumn (st : Sweep) (c : String) (a g : String → ℚ)
    (h : OneColumn st.hc c a g)
    (hcond : ∀ k ∈ mapKeys (getDim st.hc.Dimensions c).Values,
      (cells st.hc.DimValues c k).isSome = true →
        cellFloor ≤ a k ∧ st.hc.Options.LowerWeightCap ≤ g k / a k ∧
          g k / a k ≤ st.hc.Options.UpperWeightCap) :
    OneColumn (rakeColumn st c).hc c g g := by
  obtain ⟨hcols, hreg, hnd, hkeys⟩ := h
  have hpre : ∀ k ∈ mapKeys (getDim st.hc.Dimensions c).Values,
      k ∈ mapKeys (getDim st.hc.Dimensions c).Values ∧
      (getVal (getDim st.hc.Dimensions c).Values k).GoalSum = Flt.fin (g k) ∧
      (mapGet? ((mapGet? st.hc.DimValues c).getD []) k = none ∨
        (mapGet? ((mapGet? st.hc.DimValues c).getD []) k = some [digit st.hc.Dimensions c k] ∧
          st.hc.Workspace.getD (digit st.hc.Dimensions c k) (Flt.fin 0) = Flt.fin (a k))) := by
    intro k hk
    obtain ⟨h1, h2⟩ := hkeys k hk
    refine ⟨hk, h1, ?_⟩
    rcases h2 with h2 | ⟨h2, h3, _⟩
    · exact Or.inl h2
    · exact Or.inr ⟨h2, h3⟩
  have hwt := recomputePass_single st.hc.Options st.hc.Workspace
    ((mapGet? st.hc.DimValues c).getD []) (digit st.hc.Dimensions c) a g
    (mapKeys (getDim st.hc.Dimensions c).Values) (getDim st.hc.Dimensions c).Values
    (Flt.fin 0) (Flt.fin 0) hpre
  obtain ⟨r1, r2, r3⟩ := recomputePass_frame st.hc.Options st.hc.Workspace
    ((mapGet? st.hc.DimValues c).getD []) (mapKeys (getDim st.hc.Dimensions c).Values)
    (getDim st.hc.Dimensions c).Values (Flt.fin 0) (Flt.fin 0) (fun _ h => h)
  generalize hrec : recomputePass st.hc.Options st.hc.Workspace
    ((mapGet? st.hc.DimValues c).getD []) (mapKeys (getDim st.hc.Dimensions c).Values)
    (getDim st.hc.Dimensions c).Values (Flt.fin 0) (Flt.fin 0) = rec1 at r1 r2 r3 hwt
  generalize hdim1 : ({ getDim st.hc.Dimensions c with
    Values := rec1.1, GoalSum := rec1.2.1, WorkSum := rec1.2.2 } : Dimension) = dim1
  have d1v : dim1.Values = rec1.1 := by rw [← hdim1]
  have d1s : dim1.Size = (getDim st.hc.Dimensions c).Size := by rw [← hdim1]
  have d1b : dim1.BlockSize = (getDim st.hc.Dimensions c).BlockSize := by rw [← hdim1]
  have hkd : mapKeys dim1.Values = mapKeys (getDim st.hc.Dimensions c).Values := by
    rw [d1v]; exact r1
  have hfound : ∀ k ∈ mapKeys (getDim st.hc.Dimensions c).Values,
      (cells st.hc.DimValues c k).isSome = true →
      cells st.hc.DimValues c k = some [digit st.hc.Dimensions c k] ∧
        st.hc.Workspace.getD (digit st.hc.Dimensions c k) (Flt.fin 0) = Flt.fin (a k) ∧
        digit st.hc.Dimensions c k < st.hc.Workspace.length := by
    intro k hk hs
    rcases (hkeys k hk).2 with h2 | h2
    · rw [h2] at hs; cases hs
    · exact h2
  have hinj : ∀ k ∈ mapKeys dim1.Values, ∀ k1 ∈ mapKeys dim1.Values,
      digit st.hc.Dimensions c k = digit st.hc.Dimensions c k1 → k = k1 := by
    intro k hk k1 hk1 e
    rw [hkd] at hk hk1
    exact digit_inj _ c k k1 hreg hk hk1 e
  obtain ⟨a1, a2, a3, a4, a5, a6⟩ := applyPass_frame st.hc.Options
    ((mapGet? st.hc.DimValues c).getD []) (st.dimAdjust * dim1.Adjustment)
    (mapKeys dim1.Values) st.hc.Workspace dim1 st.rmse st.rmsn (fun _ h => h)
  obtain ⟨s1, _⟩ := applyPass_single st.hc.Options
    ((mapGet? st.hc.DimValues c).getD []) (st.dimAdjust * dim1.Adjustment)
    (digit st.hc.Dimensions c) a (fun k => g k / a k)
    (mapKeys dim1.Values) st.hc.Workspace dim1 st.rmse st.rmsn (hkd ▸ hnd) hinj
    (by
      intro k hk
      refine ⟨hk, ?_⟩
      rw [hkd] at hk
      cases hs : cells st.hc.DimValues c k with
      | none => exact Or.inl hs
      | some l =>
        right
        have hs' : (cells st.hc.DimValues c k).isSome = true := by rw [hs]; rfl
        obtain ⟨f1, f2, f3⟩ := hfound k hk hs'
        obtain ⟨c1, c2, c3⟩ := hcond k hk hs'
        have hane : a k ≠ 0 := ne_of_gt (lt_of_lt_of_le cellFloor_pos c1)
        refine ⟨f1, ?_, f2, f3, c1⟩
        rw [d1v, hwt k (Or.inl ⟨hk, hs'⟩), fin_div_fin _ _ hane,
          curbWeight_in_range _ _ c2 c3])
  have hrake : (rakeColumn st c).hc =
      { st.hc with
        Dimensions := mapSet st.hc.Dimensions c
          (applyPass st.hc.Options ((mapGet? st.hc.DimValues c).getD [])
            (st.dimAdjust * dim1.Adjustment) (mapKeys dim1.Values) st.hc.Workspace dim1
            st.rmse st.rmsn).2.1
        Workspace := (applyPass st.hc.Options ((mapGet? st.hc.DimValues c).getD [])
            (st.dimAdjust * dim1.Adjustment) (mapKeys dim1.Values) st.hc.Workspace dim1
            st.rmse st.rmsn).1 } := by
    subst hdim1
    subst hrec
    rfl
  rw [hrake]
  have hsame : sameIndexing st.hc.Dimensions (mapSet st.hc.Dimensions c
      (applyPass st.hc.Options ((mapGet? st.hc.DimValues c).getD [])
        (st.dimAdjust * dim1.Adjustment) (mapKeys dim1.Values) st.hc.Workspace dim1
        st.rmse st.rmsn).2.1) :=
    sameIndexing_mapSet _ _ _ (a2.trans d1s) (a3.trans d1b) (a4.trans hkd)
      (fun k => (a5 k).trans (d1v ▸ r2 k))
  refine ⟨hcols, RegOK_of_sameIndexing hsame c hreg, ?_, ?_⟩
  · simp only
    rw [← (hsame c).2.2.1]
    exact hnd
  · intro k hk
    simp only at hk ⊢
    rw [← (hsame c).2.2.1] at hk
    rw [← digit_congr hsame c k]
    refine ⟨?_, ?_⟩
    · rw [getDim_mapSet_same, a6 k, d1v, r3 k]
      exact (hkeys k hk).1
    · cases hs : cells st.hc.DimValues c k with
      | none => exact Or.inl rfl
      | some l =>
        right
        have hs' : (cells st.hc.DimValues c k).isSome = true := by rw [hs]; rfl
        obtain ⟨f1, f2, f3⟩ := hfound k hk hs'
        obtain ⟨c1, _, _⟩ := hcond k hk hs'
        have hane : a k ≠ 0 := ne_of_gt (lt_of_lt_of_le cellFloor_pos c1)
        rw [hs] at f1
        refine ⟨f1, ?_, ?_⟩
        · rw [s1 k (hkd ▸ hk) hs']
          congr 1
          field_simp
        · rw [a1]; exact f3

/-- One iteration of the loop on a single-column cube whose value ratios
`g k / a k` are inside the caps: every occupied cell ends with the goal sum of
its value. -/
theorem rakeIteration_oneColumn (hc : HyperCube) (c : String) (a g : String → ℚ)
    (h : OneColumn hc c a g)
    (hcond : ∀ k ∈ mapKeys (getDim hc.Dimensions c).Values,
      (cells hc.DimValues c k).isSome = true →
        cellFloor ≤ a k ∧ hc.Options.LowerWeightCap ≤ g k / a k ∧
          g k / a k ≤ hc.Options.UpperWeightCap) :
    OneColumn (rakeIteration hc) c g g := by
  have h0 : OneColumn ({ hc := { hc with Stats := { hc.Stats with MinWeight := defaultWeight
                                                                  MaxWeight := defaultWeight } }
                         dimAdjust := Flt.fin 1, rmse := Flt.fin 0, rmsn := 0 } : Sweep).hc
      c a g := OneColumn_congr h rfl rfl rfl rfl
  have h1 := rakeColumn_oneColumn _ c a g h0 hcond
  have hcols : hc.Options.Columns = [c] := h.1
  refine OneColumn_congr h1 ?_ ?_ ?_ ?_ <;>
  · unfold rakeIteration
    simp only [hcols, List.foldl_cons, List.foldl_nil]

theorem iterate_oneColumn (j : Nat) (hc : HyperCube) (c : String) (a g : String → ℚ)
    (h : OneColumn hc c a g)
    (ha : ∀ k ∈ mapKeys (getDim hc.Dimensions c).Values,
      (cells hc.DimValues c k).isSome = true →
        cellFloor ≤ a k ∧ hc.Options.LowerWeightCap ≤ g k / a k ∧
          g k / a k ≤ hc.Options.UpperWeightCap)
    (hg : ∀ k ∈ mapKeys (getDim hc.Dimensions c).Values,
      (cells hc.DimValues c k).isSome = true →
        cellFloor ≤ g k ∧ hc.Options.LowerWeightCap ≤ g k / g k ∧
          g k / g k ≤ hc.Options.UpperWeightCap) :
    OneColumn (rakeIteration^[j + 1] hc) c g g := by
  induction j generalizing hc a with
  | zero => exact rakeIteration_oneColumn hc c a g h ha
  | succ j ih =>
    rw [Function.iterate_succ_apply]
    obtain ⟨⟨f1, _, _, f4, f5, _⟩, _⟩ := rakeIteration_frame hc
    have hg' : ∀ k ∈ mapKeys (getDim (rakeIteration hc).Dimensions c).Values,
        (cells (rakeIteration hc).DimValues c k).isSome = true →
          cellFloor ≤ g k ∧ (rakeIteration hc).Options.LowerWeightCap ≤ g k / g k ∧
            g k / g k ≤ (rakeIteration hc).Options.UpperWeightCap := by
      intro k hk hs
      rw [← (f5 c).2.2.1] at hk
      rw [← f4] at hs
      rw [← f1]
      exact hg k hk hs
    exact ih (rakeIteration hc) g (rakeIteration_oneColumn hc c a g h ha) hg' hg'

/-! ## Ingestion over a single column -/

theorem registerValue_keys_nodup (dim : Dimension) (val : String)
    (h : (mapKeys dim.Values).Nodup) : (mapKeys (registerValue dim val).Values).Nodup := by
  unfold registerValue
  cases mapGet? dim.Values val with
  | some dv => exact h
  | none => exact nodup_mapKeys_mapSet _ _ _ h

theorem discover_keys_nodup (ops : Options) (rs : List Response) (c : String) :
    (mapKeys (getDim (discover (NewGroupedWeighter ops) rs).Dimensions c).Values).Nodup := by
  rw [(discover_getDim (NewGroupedWeighter ops) rs c).1]
  refine foldl_invariant (fun s : HyperCube =>
      ∀ c, (mapKeys (getDim s.Dimensions c).Values).Nodup)
    analyzeDimensionsFromResponse rs (NewGroupedWeighter ops) ?_ ?_ c
  · intro c1
    rw [getDim_NewGroupedWeighter]
    exact List.nodup_nil
  · intro s r _ hs1
    unfold analyzeDimensionsFromResponse
    refine foldl_invariant (fun s : HyperCube =>
      ∀ c, (mapKeys (getDim s.Dimensions c).Values).Nodup) _ _ _ hs1 ?_
    intro s2 col _ hs2 c1
    cases hget : mapGet? s2.Dimensions col with
    | none => exact hs2 c1
    | some dim =>
      simp only [analyze_step_getDim _ _ _ _ _ hget]
      split
      · exact registerValue_keys_nodup _ _ (hs2 c1)
      · exact hs2 c1

theorem cellIndex_single (dims : List (String × Dimension)) (c : String) (r : Response)
    (hb : (getDim dims c).BlockSize = 1) : cellIndex dims [c] r = digit dims c (r.get c) := by
  simp [cellIndex, hb]

/-- After ingestion over a single column the cell of a value holds the number of
work rows that carry it, and its goal sum the number of goal rows. -/
theorem ingest_oneColumn (ops : Options) (rs : List Response) (hc0 : HyperCube) (c : String)
    (hcols : ops.Columns = [c])
    (hadd : addRows rs (discover (NewGroupedWeighter ops) rs) = .ok hc0) :
    OneColumn hc0 c (fun k => (workCount ops rs c k : ℚ)) (fun k => (goalCount ops rs c k : ℚ)) ∧
    (∀ k, (cells hc0.DimValues c k).isSome = true ↔ 0 < workCount ops rs c k) ∧
    (∀ r ∈ rs, cellIndex (discover (NewGroupedWeighter ops) rs).Dimensions ops.Columns r =
      digit hc0.Dimensions c (r.get c)) := by
  have hDops : (discover (NewGroupedWeighter ops) rs).Options = ops :=
    discover_Options _ _
  have hops0 : hc0.Options = ops := (addRows_Options hadd).trans hDops
  have hnd : ops.Columns.Nodup := by rw [hcols]; exact List.nodup_singleton c
  have hcmem : c ∈ ops.Columns := by rw [hcols]; exact List.mem_singleton_self c
  have hreg := registered_of_ok ops rs hc0 hadd
  obtain ⟨hrad, hws⟩ := discover_radix ops rs hnd
  have hRegOK := discover_RegOK ops rs
  have hsame := addRows_sameIndexing hadd
  obtain ⟨hfDV, _, _, _, _⟩ := discover_frame ops rs
  have hbs : (getDim (discover (NewGroupedWeighter ops) rs).Dimensions c).BlockSize = 1 := by
    rw [hcols] at hrad
    exact hrad.1
  have hci : ∀ r, cellIndex (discover (NewGroupedWeighter ops) rs).Dimensions ops.Columns r =
      digit (discover (NewGroupedWeighter ops) rs).Dimensions c (r.get c) := by
    intro r
    rw [hcols]
    exact cellIndex_single _ c r hbs
  have hlt : ∀ r ∈ rs, cellIndex (discover (NewGroupedWeighter ops) rs).Dimensions
      ops.Columns r < (discover (NewGroupedWeighter ops) rs).Workspace.length := by
    intro r hr
    rw [hws, List.length_replicate]
    exact cellIndex_lt _ _ r hrad hRegOK (hreg r hr)
  obtain ⟨hlen, hcell⟩ := addRows_Workspace hadd
    (by intro r hr _; rw [hDops]; exact hlt r hr)
  rw [hDops] at hcell
  have hzero : ∀ i, (discover (NewGroupedWeighter ops) rs).Workspace.getD i (Flt.fin 0) =
      Flt.fin 0 := by
    intro i
    rw [hws]
    exact getD_replicate _ _ _
  have hfoundiff : ∀ k, (cells hc0.DimValues c k).isSome = true ↔ 0 < workCount ops rs c k := by
    intro k
    obtain ⟨_, m2, _⟩ := addRows_cells hadd c k
    rw [hDops] at m2
    have hnone : cells (discover (NewGroupedWeighter ops) rs).DimValues c k = none := by
      rw [hfDV]; rfl
    rw [m2, hnone]
    simp only [Option.isSome_none, Bool.false_eq_true, false_or, hcmem, true_and, workCount,
      List.countP_pos_iff, Bool.and_eq_true, decide_eq_true_eq]
  refine ⟨⟨by rw [hops0]; exact hcols, RegOK_of_sameIndexing hsame c (hRegOK c), ?_, ?_⟩,
    hfoundiff, fun r _ => by rw [hci r, digit_congr hsame]⟩
  · rw [← (hsame c).2.2.1]
    exact discover_keys_nodup ops rs c
  · intro k hk
    rw [← (hsame c).2.2.1] at hk
    rw [← digit_congr hsame c k]
    refine ⟨?_, ?_⟩
    · have hnd' : (discover (NewGroupedWeighter ops) rs).Options.Columns.Nodup := by
        rw [hDops]; exact hnd
      have hc' : c ∈ (discover (NewGroupedWeighter ops) rs).Options.Columns := by
        rw [hDops]; exact hcmem
      have := addRows_GoalSum hadd hnd' c k hc' 0 (discover_GoalSum ops rs c k)
      rw [this, hDops, zero_add]
      rfl
    · cases hs : cells hc0.DimValues c k with
      | none => exact Or.inl rfl
      | some l =>
        right
        obtain ⟨m1, _, m3⟩ := addRows_cells hadd c k
        rw [hDops] at m1
        have hnone : cells (discover (NewGroupedWeighter ops) rs).DimValues c k = none := by
          rw [hfDV]; rfl
        rw [hnone, hs] at m1 m3
        simp only [Option.getD_some, Option.getD_none, List.not_mem_nil, false_or] at m1
        have hpos : 0 < workCount ops rs c k := (hfoundiff k).1 (by rw [hs]; rfl)
        obtain ⟨rw, hrw, hprw⟩ := List.countP_pos_iff.1 hpos
        simp only [Bool.and_eq_true, decide_eq_true_eq] at hprw
        have hlnd : l.Nodup := m3 List.nodup_nil
        refine ⟨?_, ?_, ?_⟩
        · congr 1
          apply nodup_singleton_of_mem hlnd
          intro x
          rw [m1 x]
          constructor
          · rintro ⟨_, r1, _, _, hk1, hx⟩
            rw [← hx, hci r1, hk1]
          · intro hx
            exact ⟨hcmem, rw, hrw, hprw.1, hprw.2, by rw [hci rw, hprw.2, hx]⟩
        · rw [hcell _ 0 (hzero _), zero_add]
          congr 2
          unfold workCount
          apply List.countP_congr
          intro r hr
          simp only [Bool.and_eq_true, decide_eq_true_eq, hci r]
          constructor
          · rintro ⟨h1, h2⟩
            exact ⟨h1, digit_inj _ c _ _ (hRegOK c) (hreg r hr c hcmem) hk h2⟩
          · rintro ⟨h1, h2⟩
            exact ⟨h1, by rw [h2]⟩
        · rw [hlen, ← hprw.2, ← hci rw]
          exact hlt rw hrw

/-! ## The closed form over a single column -/

/-- Over a single column, with `MaxIterations ≥ 1`, caps around 1 and, for every
value carried by a work row, at least one goal row and a ratio of goal rows to
work rows inside the caps: every entry of `Result.Weights` belongs to a work row
and is the capped ratio of the goal share of its value to its work share. -/
theorem oneColumn_entries (ops : Options) (rs : List Response) (res : Result) (c : String)
    (hcols : ops.Columns = [c]) (hmax : 1 ≤ ops.MaxIterations)
    (hlo : ops.LowerWeightCap ≤ 1) (hhi : 1 ≤ ops.UpperWeightCap)
    (hratio : ∀ r ∈ rs, isWorkRow ops r = true →
      1 ≤ goalCount ops rs c (r.get c) ∧
      ops.LowerWeightCap ≤ (goalCount ops rs c (r.get c) : ℚ) / (workCount ops rs c (r.get c) : ℚ) ∧
      (goalCount ops rs c (r.get c) : ℚ) / (workCount ops rs c (r.get c) : ℚ) ≤
        ops.UpperWeightCap)
    (hok : Weight (NewGroupedWeighter ops) rs = .ok res) :
    ∀ p ∈ res.Weights, ∃ r ∈ rs, isWorkRow ops r = true ∧ r.RespondentID = p.1 ∧
      p.2 = (curbWeight ops (Flt.fin
        (((goalCount ops rs c (r.get c) : ℚ) * (rs.countP (isWorkRow ops) : ℚ)) /
          ((workCount ops rs c (r.get c) : ℚ) * (rs.countP (isGoalRow ops) : ℚ))))).1 := by
  obtain ⟨hc0, k, hadd, hops0, _, hk1, _, _, hfr, _, hregR, hrd, hscF, hscG, hw, hst⟩ :=
    Weight_anatomy ops rs res hok
  have hkpos : 1 ≤ k := hk1 (by omega)
  obtain ⟨j, rfl⟩ : ∃ j, k = j + 1 := ⟨k - 1, by omega⟩
  obtain ⟨hone, hfound, hci⟩ := ingest_oneColumn ops rs hc0 c hcols hadd
  obtain ⟨_, hregistry⟩ := ingest_RegistryOK ops rs hc0 hadd
  have hreg := registered_of_ok ops rs hc0 hadd
  have hsame := addRows_sameIndexing hadd
  have hstats := addRows_Stats hadd
  obtain ⟨_, _, hW0, hG0, _⟩ := discover_frame ops rs
  rw [discover_Options, NewGroupedWeighter_Options] at hstats
  have hcmem : c ∈ ops.Columns := by rw [hcols]; exact List.mem_singleton_self c
  have honeS : OneColumn (snapshot hc0) c (fun k => (workCount ops rs c k : ℚ))
      (fun k => (goalCount ops rs c k : ℚ)) := OneColumn_congr hone rfl rfl rfl rfl
  -- the conditions on the occupied values
  have hvals : ∀ k, (cells hc0.DimValues c k).isSome = true →
      (1 : ℚ) ≤ (workCount ops rs c k : ℚ) ∧ (1 : ℚ) ≤ (goalCount ops rs c k : ℚ) ∧
      ops.LowerWeightCap ≤ (goalCount ops rs c k : ℚ) / (workCount ops rs c k : ℚ) ∧
      (goalCount ops rs c k : ℚ) / (workCount ops rs c k : ℚ) ≤ ops.UpperWeightCap := by
    intro k hs
    have hpos := (hfound k).1 hs
    obtain ⟨r, hr, hpr⟩ := List.countP_pos_iff.1 hpos
    simp only [Bool.and_eq_true, decide_eq_true_eq] at hpr
    obtain ⟨h1, h2, h3⟩ := hratio r hr hpr.1
    rw [hpr.2] at h1 h2 h3
    exact ⟨by exact_mod_cast hpos, by exact_mod_cast h1, h2, h3⟩
  have hfloor1 : cellFloor ≤ 1 := by unfold cellFloor; norm_num
  have hR : OneColumn (rakeIteration^[j + 1] (snapshot hc0)) c
      (fun k => (goalCount ops rs c k : ℚ)) (fun k => (goalCount ops rs c k : ℚ)) := by
    apply iterate_oneColumn j (snapshot hc0) c _ _ honeS
    · intro k _ hs
      obtain ⟨v1, _, v3, v4⟩ := hvals k hs
      exact ⟨le_trans hfloor1 v1, by rw [show (snapshot hc0).Options = ops from hops0]; exact v3,
        by rw [show (snapshot hc0).Options = ops from hops0]; exact v4⟩
    · intro k _ hs
      obtain ⟨_, v2, _, _⟩ := hvals k hs
      have hne : (goalCount ops rs c k : ℚ) ≠ 0 := by linarith
      rw [show (snapshot hc0).Options = ops from hops0, div_self hne]
      exact ⟨le_trans hfloor1 v2, hlo, hhi⟩
  obtain ⟨f1, f2, f3, f4, f5, f6, f7, _⟩ := hfr
  have hopsR : (rakeIteration^[j + 1] (snapshot hc0)).Options = ops := by
    rw [← f1]; exact hops0
  obtain ⟨hent, _⟩ := getWeightsLoop_entries
    (mapKeys (rakeDimensions hc0).WorkRows) (rakeDimensions hc0) []
  intro p hp
  rw [hw] at hp
  rcases hent p hp with h | ⟨hmem, hval⟩
  · cases h
  · rw [rakeDimensions_WorkRows] at hmem
    obtain ⟨target, ht⟩ := Option.isSome_iff_exists.1 ((mapGet?_isSome_iff _ _).2 hmem)
    obtain ⟨r, hr, hwr, hid, htc⟩ := hregistry p.1 target ht
    refine ⟨r, hr, hwr, hid, ?_⟩
    have hposw : 0 < workCount ops rs c (r.get c) :=
      List.countP_pos_iff.2 ⟨r, hr, by simp [hwr]⟩
    have hs : (cells hc0.DimValues c (r.get c)).isSome = true := (hfound _).2 hposw
    obtain ⟨v1, v2, _, _⟩ := hvals _ hs
    have hkey0 : r.get c ∈ mapKeys (getDim hc0.Dimensions c).Values := by
      rw [← (hsame c).2.2.1]; exact hreg r hr c hcmem
    -- the cell of the row before and after the loop
    have hinit : hc0.Workspace.getD (digit hc0.Dimensions c (r.get c)) (Flt.fin 0) =
        Flt.fin (workCount ops rs c (r.get c) : ℚ) := by
      rcases (hone.2.2.2 _ hkey0).2 with h | ⟨_, h, _⟩
      · rw [h] at hs; cases hs
      · exact h
    have hdig : digit (rakeIteration^[j + 1] (snapshot hc0)).Dimensions c (r.get c) =
        digit hc0.Dimensions c (r.get c) := (digit_congr f5 c _).symm
    have hfinal : (rakeIteration^[j + 1] (snapshot hc0)).Workspace.getD
        (digit hc0.Dimensions c (r.get c)) (Flt.fin 0) =
        Flt.fin (goalCount ops rs c (r.get c) : ℚ) := by
      have hkeyR : r.get c ∈
          mapKeys (getDim (rakeIteration^[j + 1] (snapshot hc0)).Dimensions c).Values := by
        rw [← (f5 c).2.2.1]; exact hkey0
      rcases (hR.2.2.2 _ hkeyR).2 with h | ⟨_, h, _⟩
      · rw [← f4] at h
        have h' : cells hc0.DimValues c (r.get c) = none := h
        rw [h'] at hs
        cases hs
      · rw [hdig] at h
        exact h
    have hidx : rowIndex (rakeIteration^[j + 1] (snapshot hc0)) target =
        digit hc0.Dimensions c (r.get c) := by
      rw [rowIndex_eq_cellIndex _ target r (by rw [hopsR]; exact htc), hopsR,
        ← cellIndex_congr (sameIndexing_trans hsame f5) _ r]
      exact hci r hr
    have hGle : goalCount ops rs c (r.get c) ≤ rs.countP (isGoalRow ops) := by
      unfold goalCount
      apply List.countP_mono_left
      intro x _ hx
      simp only [Bool.and_eq_true] at hx
      exact hx.1
    have hGne : ((workCount ops rs c (r.get c) : ℚ) * (rs.countP (isGoalRow ops) : ℚ)) ≠ 0 := by
      have h1 : (1 : ℚ) ≤ (rs.countP (isGoalRow ops) : ℚ) :=
        le_trans v2 (by exact_mod_cast hGle)
      have : (0 : ℚ) < (workCount ops rs c (r.get c) : ℚ) * (rs.countP (isGoalRow ops) : ℚ) :=
        mul_pos (by linarith) (by linarith)
      exact ne_of_gt this
    rw [hval, hrd, ← (weight_congr (setEffectiveBaseSize_sameCube _ hregR) p.1).2.2,
      weight_value _ p.1 target (by rw [← f2]; exact ht), hidx, hfinal, ← f3, hopsR, ← f6, ← f7]
    show (curbWeight ops ((Flt.fin _ * Flt.ofNat hc0.Stats.WorkRows) /
      (hc0.Workspace.getD _ (Flt.fin 0) * Flt.ofNat hc0.Stats.GoalRows))).1 = _
    rw [hinit, hstats]
    simp only [hW0, hG0, Nat.zero_add, Flt.ofNat, fin_mul_fin]
    rw [fin_div_fin _ _ hGne]

/-- C5 (amended). With a single configured column, `MaxIterations ≥ 1`, two work
rows and one goal row that all have the same value in that column, and caps
with `LowerWeightCap ≤ 1/2` and `1 ≤ UpperWeightCap`, `Weight` returns the
weight 1 for each of the two work respondents: the cell mass goes from 2 to 1,
and the weight is that ratio times `WorkRows / GoalRows = 2`. -/
theorem two_work_one_goal_weights (ops : Options) (c x : String) (responses : List Response)
    (res : Result) (hcols : ops.Columns = [c]) (hmax : 1 ≤ ops.MaxIterations)
    (hlo : ops.LowerWeightCap ≤ 1 / 2) (hhi : 1 ≤ ops.UpperWeightCap)
    (hx : ∀ r ∈ responses, r.get c = x)
    (hW : responses.countP (isWorkRow ops) = 2) (hG : responses.countP (isGoalRow ops) = 1)
    (hok : Weight (NewGroupedWeighter ops) responses = .ok res) :
    ∀ r ∈ responses, isWorkRow ops r = true →
      mapGet? res.Weights r.RespondentID = some (Flt.fin 1) := by
  have hwc : ∀ r ∈ responses, workCount ops responses c (r.get c) = 2 := by
    intro r hr
    rw [← hW]
    unfold workCount
    apply List.countP_congr
    intro r1 hr1
    simp [hx r hr, hx r1 hr1]
  have hgc : ∀ r ∈ responses, goalCount ops responses c (r.get c) = 1 := by
    intro r hr
    rw [← hG]
    unfold goalCount
    apply List.countP_congr
    intro r1 hr1
    simp [hx r hr, hx r1 hr1]
  have hent := oneColumn_entries ops responses res c hcols hmax (by linarith) hhi
    (by
      intro r hr _
      rw [hwc r hr, hgc r hr]
      refine ⟨Nat.le_refl _, ?_, ?_⟩
      · norm_num; linarith
      · norm_num; linarith)
    hok
  have hall : ∀ p ∈ res.Weights, p.2 = Flt.fin 1 := by
    intro p hp
    obtain ⟨r, hr, _, _, hv⟩ := hent p hp
    rw [hv, hwc r hr, hgc r hr, hW, hG]
    norm_num
    exact congrArg Prod.fst (curbWeight_one ops (by linarith) hhi)
  intro r hr hwr
  obtain ⟨hc1, hrun, hw, _⟩ := Weight_ok hok
  obtain ⟨hc0, hadd, rfl⟩ := run_ok hrun
  have hkey : r.RespondentID ∈ mapKeys res.Weights := by
    rw [hw, getWeights, getWeightsLoop_keys, rakeDimensions_WorkRows,
      addRows_WorkRows_keys hadd, discover_Options]
    exact Or.inl (Or.inr ⟨r, hr, hwr, rfl⟩)
  obtain ⟨b, hb⟩ := Option.isSome_iff_exists.1 ((mapGet?_isSome_iff _ _).2 hkey)
  have := hall _ (mapGet?_mem _ _ _ hb)
  simp only at this
  rw [hb, this]

theorem two_work_one_goal_weights_witness :
    mapGet? res2.Weights "a" = some (Flt.fin 1) ∧ mapGet? res2.Weights "c" = some (Flt.fin 1) :=
  have h := two_work_one_goal_weights ops1 "D1" "x" rs2 res2 (by decide) (by decide) (by decide!)
    (by decide!) (by decide!) (by decide!) (by decide!) (by decide!)
  ⟨h ⟨"a", [("D1", "x"), ("G", "2")]⟩ (by simp [rs2]) (by decide),
    h ⟨"c", [("D1", "x"), ("G", "2")]⟩ (by simp [rs2]) (by decide)⟩

/-- C5, as stated, fails: with the default caps 0.3 and 5.0 (which do not bind
at 0.5) and `MaxIterations = 50`, the two work respondents of `rs2` get the
weight 1, not 0.5. -/
theorem two_work_one_goal_weights_are_not_half :
    ops1.Columns = ["D1"] ∧ ops1.LowerWeightCap ≤ 1 / 2 ∧ 1 / 2 ≤ ops1.UpperWeightCap ∧
      ops1.MaxIterations = 50 ∧
      Weight (NewGroupedWeighter ops1) rs2 = .ok res2 ∧
      mapGet? res2.Weights "a" = some (Flt.fin 1) ∧
      mapGet? res2.Weights "c" = some (Flt.fin 1) ∧
      mapGet? res2.Weights "a" ≠ some (Flt.fin (1 / 2)) ∧
      mapGet? res2.Weights "c" ≠ some (Flt.fin (1 / 2)) := by
  refine ⟨by decide, by decide!, by decide!, by decide, by decide!, by decide!, by decide!,
    by decide!, by decide!⟩

/-! ## Independence of the visiting order of the maps -/

theorem flt_add_comm (a b : Flt) : a + b = b + a := by
  show Flt.add a b = Flt.add b a
  cases a <;> cases b <;> simp [Flt.add, add_comm]

theorem flt_add_assoc (a b c : Flt) : a + b + c = a + (b + c) := by
  show Flt.add (Flt.add a b) c = Flt.add a (Flt.add b c)
  cases a <;> cases b <;> cases c <;> simp [Flt.add, add_assoc]

theorem flt_add_right_comm (a b c : Flt) : a + b + c = a + c + b := by
  rw [flt_add_assoc, flt_add_comm b c, ← flt_add_assoc]

/-- A loop whose steps on different keys commute gives the same state in every
order of the keys. -/
theorem foldl_perm_of_comm {σ α : Type} (P : σ → Prop) (Q : α → Prop) (f : σ → α → σ)
    (hP : ∀ z x, P z → Q x → P (f z x))
    (hcomm : ∀ z x y, P z → Q x → Q y → x ≠ y → f (f z x) y = f (f z y) x)
    {l₁ l₂ : List α} (hp : l₁.Perm l₂) (hQ : ∀ x ∈ l₁, Q x) (z : σ) (hz : P z) :
    l₁.foldl f z = l₂.foldl f z := by
  induction hp generalizing z with
  | nil => rfl
  | cons x _ ih =>
    simp only [List.foldl_cons]
    exact ih (fun y hy => hQ y (List.mem_cons_of_mem _ hy)) _
      (hP z x hz (hQ x (List.mem_cons_self _ _)))
  | swap x y l =>
    simp only [List.foldl_cons]
    by_cases hxy : x = y
    · subst hxy; rfl
    · have hx : Q x := hQ x (List.mem_cons_of_mem _ (List.mem_cons_self _ _))
      have hy : Q y := hQ y (List.mem_cons_self _ _)
      rw [hcomm z y x hz hy hx (fun e => hxy e.symm)]
  | trans h1 _ ih1 ih2 =>
    exact (ih1 hQ z hz).trans (ih2 (fun x hx => hQ x (h1.mem_iff.2 hx)) z hz)

/-- The sum of the cells of a membership set does not depend on the order in
which the cells are visited. -/
theorem sumCells_perm (ws : List Flt) {dv dv1 : List Nat} (hp : dv.Perm dv1) :
    sumCells ws dv = sumCells ws dv1 := by
  unfold sumCells
  exact foldl_perm_of_comm (fun _ => True) (fun _ => True)
    (fun s i => s + ws.getD i (Flt.fin 0)) (fun _ _ _ _ => trivial)
    (fun z x y _ _ _ _ => flt_add_right_comm z _ _) hp (fun _ _ => trivial) _ trivial

theorem scaleCells_eq_foldl (weight : Flt) (dv : List Nat) (ws : List Flt) (s : Flt) :
    scaleCells weight dv ws s = dv.foldl (cellStep weight) (ws, s) := by
  induction dv generalizing ws s with
  | nil => rfl
  | cons i dv ih =>
    simp only [scaleCells, List.foldl_cons]
    rw [ih]
    rfl

theorem getD_set_ne (l : List Flt) {i j : Nat} (a d : Flt) (h : i ≠ j) :
    (l.set i a).getD j d = l.getD j d := by
  rw [getD_set]
  simp [h]

theorem cellStep_comm (weight : Flt) (z : List Flt × Flt) {i j : Nat} (h : i ≠ j) :
    cellStep weight (cellStep weight z i) j = cellStep weight (cellStep weight z j) i := by
  simp only [cellStep]
  rw [getD_set_ne _ _ _ h, getD_set_ne _ _ _ (fun e => h e.symm), List.set_comm _ _ _ h,
    flt_add_right_comm]

/-- The inner loop of the apply pass does not depend on the order in which the
cells of the membership set are visited. -/
theorem scaleCells_perm (weight : Flt) {dv dv1 : List Nat} (hp : dv.Perm dv1) (ws : List Flt)
    (s : Flt) : scaleCells weight dv ws s = scaleCells weight dv1 ws s := by
  rw [scaleCells_eq_foldl, scaleCells_eq_foldl]
  exact foldl_perm_of_comm (fun _ => True) (fun _ => True) (cellStep weight)
    (fun _ _ _ _ => trivial) (fun z x y _ _ _ hxy => cellStep_comm weight z hxy) hp (fun _ _ => trivial) _ trivial

/-- A cell outside the membership set is not touched by the inner loop of the
apply pass, and the loop does not read it. -/
theorem scaleCells_set_frame (weight : Flt) (dv : List Nat) (ws : List Flt) (s : Flt)
    (j : Nat) (a : Flt) (hj : j ∉ dv) :
    scaleCells weight dv (ws.set j a) s =
      ((scaleCells weight dv ws s).1.set j a, (scaleCells weight dv ws s).2) := by
  induction dv generalizing ws s with
  | nil => rfl
  | cons i dv ih =>
    have hij : j ≠ i := fun e => hj (by simp [e])
    have hjd : j ∉ dv := fun e => hj (List.mem_cons_of_mem _ e)
    simp only [scaleCells]
    rw [getD_set_ne _ _ _ hij, List.set_comm _ _ _ hij, ih _ _ hjd]

theorem scaleCells_getD_frame (weight : Flt) (dv : List Nat) (ws : List Flt) (s : Flt)
    (j : Nat) (hj : j ∉ dv) :
    (scaleCells weight dv ws s).1.getD j (Flt.fin 0) = ws.getD j (Flt.fin 0) := by
  induction dv generalizing ws s with
  | nil => rfl
  | cons i dv ih =>
    have hij : i ≠ j := fun e => hj (by simp [e])
    have hjd : j ∉ dv := fun e => hj (List.mem_cons_of_mem _ e)
    simp only [scaleCells]
    rw [ih _ _ hjd, getD_set_ne _ _ _ hij]

/-- The inner loops of the apply pass over two disjoint membership sets
commute. -/
theorem scaleCells_comm (wx wy : Flt) (dvx dvy : List Nat) (ws : List Flt) (s t : Flt)
    (hdisj : ∀ i ∈ dvx, i ∉ dvy) :
    scaleCells wy dvy (scaleCells wx dvx ws s).1 t =
      ((scaleCells wx dvx (scaleCells wy dvy ws t).1 s).1, (scaleCells wy dvy ws t).2) ∧
    (scaleCells wx dvx (scaleCells wy dvy ws t).1 s).2 = (scaleCells wx dvx ws s).2 := by
  induction dvx generalizing ws s with
  | nil => exact ⟨rfl, rfl⟩
  | cons i dvx ih =>
    have hi : i ∉ dvy := hdisj i (List.mem_cons_self _ _)
    have hd : ∀ j ∈ dvx, j ∉ dvy := fun j hjm => hdisj j (List.mem_cons_of_mem _ hjm)
    simp only [scaleCells]
    rw [scaleCells_getD_frame wy dvy ws t i hi]
    obtain ⟨h1, h2⟩ := ih (ws.set i
      ((if Flt.lt (ws.getD i (Flt.fin 0)) (Flt.fin cellFloor) then Flt.fin cellFloor
        else ws.getD i (Flt.fin 0)) * wx))
      (s + (if Flt.lt (ws.getD i (Flt.fin 0)) (Flt.fin cellFloor) then Flt.fin cellFloor
        else ws.getD i (Flt.fin 0)) * wx) hd
    rw [h1, scaleCells_set_frame wy dvy ws t i _ hi]
    refine ⟨rfl, ?_⟩
    rw [← h2, scaleCells_set_frame wy dvy ws t i _ hi]

theorem mapSet_comm {β : Type} (m : List (String × β)) {x y : String} (a b : β) (h : x ≠ y)
    (hx : x ∈ mapKeys m) : mapSet (mapSet m x a) y b = mapSet (mapSet m y b) x a := by
  induction m with
  | nil => simp [mapKeys] at hx
  | cons p m ih =>
    obtain ⟨k1, b1⟩ := p
    by_cases h1 : k1 = x
    · subst h1
      simp [mapSet, h]
    · by_cases h2 : k1 = y
      · subst h2
        simp [mapSet, h1]
      · have hx1 : x ∈ mapKeys m := by
          simp only [mapKeys, List.map_cons, List.mem_cons] at hx
          rcases hx with hx | hx
          · exact absurd hx.symm h1
          · exact hx
        simp [mapSet, h1, h2, ih hx1]

theorem recomputePass_eq_foldl (ops : Options) (ws : List Flt) (byVal : List (String × List Nat))
    (ks : List String) (vals : List (String × DimensionValue)) (g w : Flt) :
    recomputePass ops ws byVal ks vals g w = ks.foldl (recStep ops ws byVal) (vals, g, w) := by
  induction ks generalizing vals g w with
  | nil => rfl
  | cons k ks ih =>
    simp only [recomputePass, List.foldl_cons, recStep]
    cases mapGet? byVal k with
    | none => exact ih _ _ _
    | some dv => exact ih _ _ _

theorem applyPass_eq_foldl (ops : Options) (byVal : List (String × List Nat)) (dimAdjust : Flt)
    (ks : List String) (ws : List Flt) (dim : Dimension) (rmse : Flt) (rmsn : Nat) :
    applyPass ops byVal dimAdjust ks ws dim rmse rmsn =
      ks.foldl (appStep ops byVal dimAdjust) (ws, dim, rmse, rmsn) := by
  induction ks generalizing ws dim rmse rmsn with
  | nil => rfl
  | cons k ks ih =>
    simp only [applyPass, List.foldl_cons, appStep]
    cases mapGet? byVal k with
    | none => exact ih _ _ _ _
    | some dv => exact ih _ _ _ _

theorem mapGet?_permuteSets (f : String → List Nat → List Nat) (byVal : List (String × List Nat))
    (k : String) : mapGet? (permuteSets f byVal) k = (mapGet? byVal k).map (f k) := by
  induction byVal with
  | nil => rfl
  | cons p m ih =>
    obtain ⟨k1, b1⟩ := p
    by_cases h : k1 = k
    · subst h
      simp [permuteSets, mapGet?]
    · simp only [permuteSets] at ih
      simp [permuteSets, mapGet?, h, ih]

theorem sameSets_permuteSets (f : String → List Nat → List Nat)
    (hf : ∀ k l, (f k l).Perm l) (byVal : List (String × List Nat)) :
    sameSets (permuteSets f byVal) byVal := by
  intro k
  rw [mapGet?_permuteSets]
  cases h : mapGet? byVal k with
  | none => exact Or.inl ⟨rfl, rfl⟩
  | some dv => exact Or.inr ⟨f k dv, dv, rfl, rfl, hf k dv⟩

theorem recStep_sets (ops : Options) (ws : List Flt) {byVal1 byVal : List (String × List Nat)}
    (h : sameSets byVal1 byVal) : recStep ops ws byVal1 = recStep ops ws byVal := by
  funext z k
  rcases h k with ⟨h1, h2⟩ | ⟨dv1, dv, h1, h2, hp⟩
  · simp only [recStep, h1, h2]
  · simp only [recStep, h1, h2, sumCells_perm ws hp]

theorem appStep_sets (ops : Options) (dimAdjust : Flt) {byVal1 byVal : List (String × List Nat)}
    (h : sameSets byVal1 byVal) : appStep ops byVal1 dimAdjust = appStep ops byVal dimAdjust := by
  funext z k
  rcases h k with ⟨h1, h2⟩ | ⟨dv1, dv, h1, h2, hp⟩
  · simp only [appStep, h1, h2]
  · simp only [appStep, h1, h2, scaleCells_perm _ hp]

theorem recStep_keys (ops : Options) (ws : List Flt) (byVal : List (String × List Nat))
    (z : List (String × DimensionValue) × Flt × Flt) (k k1 : String)
    (h : k1 ∈ mapKeys z.1) : k1 ∈ mapKeys (recStep ops ws byVal z k).1 := by
  unfold recStep
  cases mapGet? byVal k with
  | none => exact h
  | some dv => exact (mem_mapKeys_mapSet _ _ _ _).2 (Or.inr h)

theorem recStep_comm (ops : Options) (ws : List Flt) (byVal : List (String × List Nat))
    (z : List (String × DimensionValue) × Flt × Flt) {x y : String} (hxy : x ≠ y)
    (hx : x ∈ mapKeys z.1) :
    recStep ops ws byVal (recStep ops ws byVal z x) y =
      recStep ops ws byVal (recStep ops ws byVal z y) x := by
  cases h1 : mapGet? byVal x with
  | none => simp only [recStep, h1]
  | some dvx =>
    cases h2 : mapGet? byVal y with
    | none => simp only [recStep, h1, h2]
    | some dvy =>
      simp only [recStep, h1, h2, getVal_mapSet, if_neg hxy, if_neg hxy.symm]
      rw [mapSet_comm _ _ _ hxy hx, flt_add_right_comm z.2.1, flt_add_right_comm z.2.2]

/-- The recompute pass does not depend on the order in which the values of the
column are visited, nor on the order of the cells of the membership sets. -/
theorem recomputePass_perm (ops : Options) (ws : List Flt)
    {byVal1 byVal : List (String × List Nat)} (hs : sameSets byVal1 byVal)
    {ks1 ks : List String} (hp : ks1.Perm ks) (vals : List (String × DimensionValue))
    (hks : ∀ k ∈ ks, k ∈ mapKeys vals) (g w : Flt) :
    recomputePass ops ws byVal1 ks1 vals g w = recomputePass ops ws byVal ks vals g w := by
  rw [recomputePass_eq_foldl, recomputePass_eq_foldl, recStep_sets ops ws hs]
  exact foldl_perm_of_comm
    (fun z : List (String × DimensionValue) × Flt × Flt => ∀ k ∈ ks, k ∈ mapKeys z.1)
    (fun k => k ∈ ks) (recStep ops ws byVal)
    (fun z x hz _ k hk => recStep_keys ops ws byVal z x k (hz k hk))
    (fun z x y hz hx _ hxy => recStep_comm ops ws byVal z hxy (hz x hx))
    hp (fun x hx => hp.mem_iff.1 hx) _ hks

theorem appStep_keys (ops : Options) (byVal : List (String × List Nat)) (dimAdjust : Flt)
    (z : List Flt × Dimension × Flt × Nat) (k k1 : String)
    (h : k1 ∈ mapKeys z.2.1.Values) :
    k1 ∈ mapKeys (appStep ops byVal dimAdjust z k).2.1.Values := by
  unfold appStep
  cases mapGet? byVal k with
  | none => exact h
  | some dv => exact (mem_mapKeys_mapSet _ _ _ _).2 (Or.inr h)

theorem appStep_comm (ops : Options) (byVal : List (String × List Nat)) (dimAdjust : Flt)
    (z : List Flt × Dimension × Flt × Nat) {x y : String} (hxy : x ≠ y)
    (hx : x ∈ mapKeys z.2.1.Values)
    (hdisj : ∀ dvx dvy, mapGet? byVal x = some dvx → mapGet? byVal y = some dvy →
      ∀ i ∈ dvx, i ∉ dvy) :
    appStep ops byVal dimAdjust (appStep ops byVal dimAdjust z x) y =
      appStep ops byVal dimAdjust (appStep ops byVal dimAdjust z y) x := by
  cases h1 : mapGet? byVal x with
  | none => simp only [appStep, h1]
  | some dvx =>
    cases h2 : mapGet? byVal y with
    | none => simp only [appStep, h1, h2]
    | some dvy =>
      obtain ⟨c1, c2⟩ := scaleCells_comm (getVal z.2.1.Values x).Weight
        (getVal z.2.1.Values y).Weight dvx dvy z.1 (Flt.fin 0) (Flt.fin 0) (hdisj dvx dvy h1 h2)
      simp only [appStep, h1, h2, getVal_mapSet, if_neg hxy, if_neg hxy.symm, c1, c2]
      rw [mapSet_comm _ _ _ hxy hx, flt_add_right_comm z.2.1.Rmse, flt_add_right_comm z.2.2.1]

/-- The apply pass does not depend on the order in which the values of the
column are visited, nor on the order of the cells of the membership sets, when
the sets of different values share no cell. -/
theorem applyPass_perm (ops : Options) {byVal1 byVal : List (String × List Nat)}
    (hs : sameSets byVal1 byVal) (dimAdjust : Flt) {ks1 ks : List String} (hp : ks1.Perm ks)
    (ws : List Flt) (dim : Dimension) (hks : ∀ k ∈ ks, k ∈ mapKeys dim.Values)
    (hdisj : ∀ x y dvx dvy, x ≠ y → mapGet? byVal x = some dvx → mapGet? byVal y = some dvy →
      ∀ i ∈ dvx, i ∉ dvy) (rmse : Flt) (rmsn : Nat) :
    applyPass ops byVal1 dimAdjust ks1 ws dim rmse rmsn =
      applyPass ops byVal dimAdjust ks ws dim rmse rmsn := by
  rw [applyPass_eq_foldl, applyPass_eq_foldl, appStep_sets ops dimAdjust hs]
  exact foldl_perm_of_comm
    (fun z : List Flt × Dimension × Flt × Nat => ∀ k ∈ ks, k ∈ mapKeys z.2.1.Values)
    (fun k => k ∈ ks) (appStep ops byVal dimAdjust)
    (fun z x hz _ k hk => appStep_keys ops byVal dimAdjust z x k (hz k hk))
    (fun z x y hz hx _ hxy => appStep_comm ops byVal dimAdjust z hxy (hz x hx)
      (fun dvx dvy => hdisj x y dvx dvy hxy))
    hp (fun x hx => hp.mem_iff.1 hx) _ hks

/-- One column of a sweep gives the same state under every schedule, when the
membership sets of different values share no cell. -/
theorem rakeColumnS_eq (s : Schedule) (hs : s.Valid) (st : Sweep) (c : String)
    (hd : SetsDisjoint st.hc.DimValues) : rakeColumnS s st c = rakeColumn st c := by
  obtain ⟨_, v1, v2, _⟩ := hs
  unfold rakeColumnS rakeColumn
  simp only
  have e1 := recomputePass_perm st.hc.Options st.hc.Workspace
    (sameSets_permuteSets (s.cells st.hc.Stats.Iterations c false)
      (v2 st.hc.Stats.Iterations c false) ((mapGet? st.hc.DimValues c).getD []))
    (v1 st.hc.Stats.Iterations c false (mapKeys (getDim st.hc.Dimensions c).Values))
    (getDim st.hc.Dimensions c).Values (fun _ h => h) (Flt.fin 0) (Flt.fin 0)
  rw [e1]
  have e2 := fun dimAdjust (vals : List (String × DimensionValue)) dim rmse rmsn hks =>
    applyPass_perm st.hc.Options
    (sameSets_permuteSets (s.cells st.hc.Stats.Iterations c true)
      (v2 st.hc.Stats.Iterations c true) ((mapGet? st.hc.DimValues c).getD []))
    dimAdjust (v1 st.hc.Stats.Iterations c true (mapKeys vals))
    st.hc.Workspace dim hks (fun x y dvx dvy hxy hx hy => hd c x y dvx dvy hxy hx hy) rmse rmsn
  rw [e2 _ (recomputePass st.hc.Options st.hc.Workspace ((mapGet? st.hc.DimValues c).getD [])
    (mapKeys (getDim st.hc.Dimensions c).Values) (getDim st.hc.Dimensions c).Values
    (Flt.fin 0) (Flt.fin 0)).1]
  exact fun _ h => h

theorem rakeColumnsS_eq (s : Schedule) (hs : s.Valid) (cols : List String) (st : Sweep)
    (hd : SetsDisjoint st.hc.DimValues) :
    cols.foldl (rakeColumnS s) st = cols.foldl rakeColumn st := by
  induction cols generalizing st with
  | nil => rfl
  | cons c cols ih =>
    simp only [List.foldl_cons]
    rw [rakeColumnS_eq s hs st c hd]
    apply ih
    rw [← (rakeColumn_frame st c).1.2.2.2.1]
    exact hd

/-- One iteration of the raking loop gives the same state under every
schedule. -/
theorem rakeIterationS_eq (s : Schedule) (hs : s.Valid) (hc : HyperCube)
    (hd : SetsDisjoint hc.DimValues) : rakeIterationS s hc = rakeIteration hc := by
  unfold rakeIterationS rakeIteration
  simp only
  rw [rakeColumnsS_eq s hs _ _ hd]

/-- The raking loop gives the same state under every schedule. -/
theorem rakeLoopS_eq (s : Schedule) (hs : s.Valid) (n : Nat) (hc : HyperCube)
    (hd : SetsDisjoint hc.DimValues) : rakeLoopS s n hc = rakeLoop n hc := by
  induction n generalizing hc with
  | zero => rfl
  | succ n ih =>
    simp only [rakeLoopS, rakeLoop]
    rw [rakeIterationS_eq s hs hc hd]
    split
    · rfl
    · apply ih
      rw [← (rakeIteration_frame hc).1.2.2.2.1]
      exact hd

/-- The discovery of one response does not depend on the order in which its
values are visited. -/
theorem analyzeS_eq (s : Schedule) (hs : s.Valid) (n : Nat) (hc : HyperCube) (r : Response) :
    analyzeS s n hc r = analyzeDimensionsFromResponse hc r := by
  unfold analyzeS analyzeDimensionsFromResponse
  refine foldl_perm_of_comm (fun _ => True) (fun _ => True) _ (fun _ _ _ _ => trivial) ?_
    (hs.1 n (mapKeys r.Values)) (fun _ _ => trivial) hc trivial
  intro z x y _ _ _ hxy
  cases h1 : mapGet? z.Dimensions x with
  | none =>
    simp only [h1]
    cases h2 : mapGet? z.Dimensions y with
    | none => simp only [h1]
    | some dy => simp only [mapGet?_mapSet_ne _ _ hxy.symm, h1]
  | some dx =>
    cases h2 : mapGet? z.Dimensions y with
    | none => simp only [h1, mapGet?_mapSet_ne _ _ hxy, h2]
    | some dy =>
      simp only [h1, mapGet?_mapSet_ne _ _ hxy, mapGet?_mapSet_ne _ _ hxy.symm, h2]
      rw [mapSet_comm _ _ _ hxy ((mapGet?_isSome_iff _ _).1 (by rw [h1]; rfl))]

theorem analyzeAllS_eq (s : Schedule) (hs : s.Valid) (n : Nat) (rs : List Response)
    (hc : HyperCube) : analyzeAllS s n rs hc = rs.foldl analyzeDimensionsFromResponse hc := by
  induction rs generalizing n hc with
  | nil => rfl
  | cons r rs ih =>
    simp only [analyzeAllS, List.foldl_cons]
    rw [analyzeS_eq s hs, ih]

theorem discoverS_eq (s : Schedule) (hs : s.Valid) (hc : HyperCube) (rs : List Response) :
    discoverS s hc rs = discover hc rs := by
  unfold discoverS discover
  rw [analyzeAllS_eq s hs]

/-- After ingestion with pairwise distinct columns the membership sets of two
different values of a column share no cell. -/
theorem ingest_setsDisjoint (ops : Options) (rs : List Response) (hc0 : HyperCube)
    (hnd : ops.Columns.Nodup)
    (hadd : addRows rs (discover (NewGroupedWeighter ops) rs) = .ok hc0) :
    SetsDisjoint hc0.DimValues := by
  have hDops : (discover (NewGroupedWeighter ops) rs).Options = ops :=
    discover_Options _ _
  have hreg := registered_of_ok ops rs hc0 hadd
  obtain ⟨hrad, _⟩ := discover_radix ops rs hnd
  have hRegOK := discover_RegOK ops rs
  obtain ⟨hfDV, _, _, _, _⟩ := discover_frame ops rs
  have hnone : ∀ c k, cells (discover (NewGroupedWeighter ops) rs).DimValues c k = none := by
    intro c k
    rw [hfDV]
    rfl
  intro c x y dvx dvy hxy hx hy i hix hiy
  obtain ⟨mx, _, _⟩ := addRows_cells hadd c x
  obtain ⟨my, _, _⟩ := addRows_cells hadd c y
  have hix1 := (mx i).1 (by rw [hx]; exact hix)
  have hiy1 := (my i).1 (by rw [hy]; exact hiy)
  rw [hnone, hDops] at hix1 hiy1
  rcases hix1 with h | ⟨hc, r, hr, _, hrx, hri⟩
  · simp at h
  rcases hiy1 with h | ⟨_, r1, hr1, _, hry, hri1⟩
  · simp at h
  have := cellIndex_inj _ _ r r1 hrad hRegOK (hreg r hr) (hreg r1 hr1) (hri.trans hri1.symm) c hc
  exact hxy (hrx.symm.trans (this.trans hry))

theorem setEffectiveBaseSizeS_sameCube (s : Schedule) (hs : s.Valid) (hc : HyperCube)
    (hreg : RegistryOK hc) : sameCube hc (setEffectiveBaseSizeS s hc) := by
  have h0 : sameCube hc
      { hc with Dimensions := resetWorkSums hc.Options.Columns hc.Dimensions } :=
    ⟨rfl, rfl, rfl, rfl, rfl, resetWorkSums_sameIndexing _ _, rfl, rfl, rfl, rfl⟩
  have h1 := accumulateRows_sameCube (s.rows false (mapKeys hc.WorkRows))
    { hc := { hc with Dimensions := resetWorkSums hc.Options.Columns hc.Dimensions } }
    (RegistryOK_of_sameCube h0 hreg) (fun _ h => (hs.2.2.2 false _).mem_iff.1 h)
  have h2 := sameCube_trans h0 h1
  obtain ⟨a1, a2, a3, a4, a5, a6, a7, a8, a9, a10⟩ := h2
  unfold setEffectiveBaseSizeS
  exact ⟨a1, a2, a3, a4, a5, a6, a7, a8, a9, a10⟩

theorem mapGet?_perm {β : Type} {m1 m2 : List (String × β)} (hp : m1.Perm m2)
    (hnd : (mapKeys m1).Nodup) (k : String) : mapGet? m1 k = mapGet? m2 k := by
  induction hp with
  | nil => rfl
  | cons p _ ih =>
    obtain ⟨k1, b1⟩ := p
    simp only [mapKeys, List.map_cons, List.nodup_cons] at hnd
    simp only [mapGet?]
    rw [ih hnd.2]
  | swap p q l =>
    obtain ⟨k1, b1⟩ := p
    obtain ⟨k2, b2⟩ := q
    simp only [mapKeys, List.map_cons, List.nodup_cons, List.mem_cons, not_or] at hnd
    have hne : k2 ≠ k1 := hnd.1.1
    simp only [mapGet?]
    by_cases h1 : k1 = k
    · have h2 : ¬ k2 = k := fun e => hne (e.trans h1.symm)
      simp [h1, h2]
    · simp [h1]
  | trans h1 _ ih1 ih2 =>
    exact (ih1 hnd).trans (ih2 ((h1.map Prod.fst).nodup_iff.1 hnd))

/-- A run under a schedule, once ingestion succeeded with pairwise distinct
columns: the raking loop ends in the state of the model, and the weights are
the weights the method `weight` gives on that state, written in the order in
which the registry is visited. -/
theorem WeightS_core (ops : Options) (rs : List Response) (s : Schedule) (hs : s.Valid)
    (hnd : ops.Columns.Nodup) (hc0 : HyperCube)
    (hadd : addRows rs (discover (NewGroupedWeighter ops) rs) = .ok hc0) :
    ∃ r, WeightS s (NewGroupedWeighter ops) rs = .ok r ∧
      r.Weights = (s.rows true (mapKeys hc0.WorkRows)).map
        (fun rid => (rid, weightOf (rakeLoop hc0.Options.MaxIterations.toNat (snapshot hc0)) rid)) ∧
      r.Stats.Iterations =
        (rakeLoop hc0.Options.MaxIterations.toNat (snapshot hc0)).Stats.Iterations ∧
      r.Stats.Rmse = (rakeLoop hc0.Options.MaxIterations.toNat (snapshot hc0)).Stats.Rmse := by
  have hdisj := ingest_setsDisjoint ops rs hc0 hnd hadd
  obtain ⟨hreg0, _⟩ := ingest_RegistryOK ops rs hc0 hadd
  have hregS : RegistryOK (snapshot hc0) := hreg0
  obtain ⟨k, _, hloop, _, _, _⟩ := rakeLoop_spec hc0.Options.MaxIterations.toNat (snapshot hc0)
  have hframe : sameFrame (snapshot hc0)
      (rakeLoop hc0.Options.MaxIterations.toNat (snapshot hc0)) := by
    rw [hloop]
    exact (iterate_frame k (snapshot hc0)).1
  have hregR := RegistryOK_of_sameFrame hframe hregS
  have hrake : rakeDimensionsS s hc0 =
      setEffectiveBaseSizeS s (rakeLoop hc0.Options.MaxIterations.toNat (snapshot hc0)) := by
    unfold rakeDimensionsS
    simp only
    rw [rakeLoopS_eq s hs _ (snapshot hc0) hdisj]
    rfl
  have hsc := setEffectiveBaseSizeS_sameCube s hs _ hregR
  rw [← hrake] at hsc
  have hwr : (rakeDimensionsS s hc0).WorkRows = hc0.WorkRows :=
    hsc.2.1.symm.trans hframe.2.1.symm
  have hkeys : (mapKeys hc0.WorkRows).Nodup := by
    refine addRows_WorkRows_nodup hadd ?_
    rw [(discover_frame ops rs).2.1]
    exact List.nodup_nil
  have hrnd : (s.rows true (mapKeys hc0.WorkRows)).Nodup :=
    (hs.2.2.2 true _).nodup_iff.2 hkeys
  have hW : (getWeightsS s (rakeDimensionsS s hc0)).1 =
      (s.rows true (mapKeys hc0.WorkRows)).map
        (fun rid => (rid, weightOf (rakeLoop hc0.Options.MaxIterations.toNat (snapshot hc0)) rid)) := by
    unfold getWeightsS
    rw [hwr, getWeightsLoop_map _ _ _ hrnd (fun _ _ h => by simp [mapKeys] at h), List.nil_append]
    apply List.map_congr_left
    intro rid _
    rw [weightOf_congr hsc rid]
  have hS := sameCube_trans hsc
    (getWeightsLoop_entries (s.rows true (mapKeys (rakeDimensionsS s hc0).WorkRows))
      (rakeDimensionsS s hc0) []).2
  refine ⟨{ Weights := (getWeightsS s (rakeDimensionsS s hc0)).1
            Stats := getStats (getWeightsS s (rakeDimensionsS s hc0)).2 }, ?_, hW, ?_, ?_⟩
  · unfold WeightS
    rw [discoverS_eq s hs, hadd]
  · exact hS.2.2.2.2.2.2.2.2.1.symm
  · exact hS.2.2.2.2.2.2.2.2.2.symm

theorem inOrder_valid : inOrder.Valid :=
  ⟨fun _ l => List.Perm.refl l, fun _ _ _ l => List.Perm.refl l,
    fun _ _ _ _ l => List.Perm.refl l, fun _ l => List.Perm.refl l⟩

theorem reverseOrder_valid : reverseOrder.Valid :=
  ⟨fun _ l => List.reverse_perm l, fun _ _ _ l => List.reverse_perm l,
    fun _ _ _ _ l => List.reverse_perm l, fun _ l => List.reverse_perm l⟩

theorem reverseValues_valid : reverseValues.Valid :=
  ⟨fun _ l => List.Perm.refl l, fun _ _ _ l => List.reverse_perm l,
    fun _ _ _ _ l => List.Perm.refl l, fun _ l => List.Perm.refl l⟩

theorem permuteSets_inOrder (byVal : List (String × List Nat)) :
    permuteSets (fun _ l => l) byVal = byVal := by
  unfold permuteSets
  induction byVal with
  | nil => rfl
  | cons p m ih => rw [List.map_cons, ih]

theorem analyzeAllS_inOrder (n : Nat) (rs : List Response) (hc : HyperCube) :
    analyzeAllS inOrder n rs hc = rs.foldl analyzeDimensionsFromResponse hc := by
  induction rs generalizing n hc with
  | nil => rfl
  | cons r rs ih =>
    simp only [analyzeAllS, List.foldl_cons]
    rw [ih]
    rfl

theorem rakeColumnS_inOrder : rakeColumnS inOrder = rakeColumn := by
  funext st c
  unfold rakeColumnS rakeColumn
  simp only [inOrder, permuteSets_inOrder]

theorem rakeLoopS_inOrder (n : Nat) (hc : HyperCube) : rakeLoopS inOrder n hc = rakeLoop n hc := by
  induction n generalizing hc with
  | zero => rfl
  | succ n ih =>
    have hit : rakeIterationS inOrder hc = rakeIteration hc := by
      unfold rakeIterationS rakeIteration
      rw [rakeColumnS_inOrder]
    simp only [rakeLoopS, rakeLoop]
    rw [hit]
    split
    · rfl
    · exact ih _

/-- The method `Weight` of the model is the run that visits every map in the
order of its list. -/
theorem WeightS_inOrder (hc : HyperCube) (rs : List Response) :
    WeightS inOrder hc rs = Weight hc rs := by
  have hd : discoverS inOrder hc rs = discover hc rs := by
    unfold discoverS discover
    rw [analyzeAllS_inOrder]
  have hr : ∀ hc1, rakeDimensionsS inOrder hc1 = rakeDimensions hc1 := by
    intro hc1
    unfold rakeDimensionsS rakeDimensions
    simp only
    rw [rakeLoopS_inOrder]
    rfl
  unfold WeightS Weight run
  rw [hd]
  cases addRows rs (discover hc rs) with
  | error e => rfl
  | ok hc1 =>
    simp only
    rw [hr]
    rfl

theorem WeightS_ingested (s : Schedule) (hs : s.Valid) (hc : HyperCube) (rs : List Response)
    (res : Result) (hok : WeightS s hc rs = .ok res) :
    ∃ hc0, addRows rs (discover hc rs) = .ok hc0 := by
  unfold WeightS at hok
  rw [discoverS_eq s hs] at hok
  cases h : addRows rs (discover hc rs) with
  | error e => rw [h] at hok; cases hok
  | ok hc0 => exact ⟨hc0, rfl⟩

theorem rawWeight_congr {a b : HyperCube} (h : sameCube a b) (rid : String) :
    rawWeight a rid = rawWeight b rid := by
  have hri := rowIndex_congr h
  obtain ⟨_, a2, a3, a4, _, _, a7, a8, _⟩ := h
  unfold rawWeight
  simp only [hri, a2, a3, a4, a7, a8]

theorem weight_extremes (hc : HyperCube) (rid : String) (h : rid ∈ mapKeys hc.WorkRows) :
    (weight hc rid).2.2.2.Stats.MinWeight = lowest hc.Stats.MinWeight (rawWeight hc rid) ∧
    (weight hc rid).2.2.2.Stats.MaxWeight = highest hc.Stats.MaxWeight (rawWeight hc rid) := by
  obtain ⟨target, hget⟩ := Option.isSome_iff_exists.1 ((mapGet?_isSome_iff _ _).2 h)
  unfold weight rawWeight lowest highest
  simp only [hget, Option.getD_some]
  constructor
  · split <;> split <;> rfl
  · split <;> split <;> simp_all

theorem accumulateRow_Stats (t : Totals) (rid : String) :
    (accumulateRow t rid).hc.Stats = (weight t.hc rid).2.2.2.Stats := by
  simp only [accumulateRow]
  split <;> rfl

theorem accumulateRows_extremes (rids : List String) (t : Totals) (hreg : RegistryOK t.hc)
    (hrid : ∀ rid ∈ rids, rid ∈ mapKeys t.hc.WorkRows) :
    (rids.foldl accumulateRow t).hc.Stats.MinWeight =
      (rids.map (rawWeight t.hc)).foldl lowest t.hc.Stats.MinWeight ∧
    (rids.foldl accumulateRow t).hc.Stats.MaxWeight =
      (rids.map (rawWeight t.hc)).foldl highest t.hc.Stats.MaxWeight := by
  induction rids generalizing t with
  | nil => exact ⟨rfl, rfl⟩
  | cons rid rids ih =>
    simp only [List.foldl_cons, List.map_cons]
    have hmem := hrid rid (List.mem_cons_self _ _)
    have h1 := accumulateRow_sameCube t rid hreg hmem
    obtain ⟨i1, i2⟩ := ih (accumulateRow t rid) (RegistryOK_of_sameCube h1 hreg) (by
      intro r hr
      rw [← h1.2.1]
      exact hrid r (List.mem_cons_of_mem _ hr))
    obtain ⟨w1, w2⟩ := weight_extremes t.hc rid hmem
    have hraw : rawWeight (accumulateRow t rid).hc = rawWeight t.hc :=
      funext (fun r => (rawWeight_congr h1 r).symm)
    rw [i1, i2, accumulateRow_Stats, w1, w2, hraw]
    exact ⟨rfl, rfl⟩

theorem getWeightsLoop_extremes (rids : List String) (hc : HyperCube)
    (results : List (String × Flt)) (hrid : ∀ rid ∈ rids, rid ∈ mapKeys hc.WorkRows) :
    (getWeightsLoop rids hc results).2.Stats.MinWeight =
      (rids.map (rawWeight hc)).foldl lowest hc.Stats.MinWeight ∧
    (getWeightsLoop rids hc results).2.Stats.MaxWeight =
      (rids.map (rawWeight hc)).foldl highest hc.Stats.MaxWeight := by
  induction rids generalizing hc results with
  | nil => exact ⟨rfl, rfl⟩
  | cons rid rids ih =>
    simp only [getWeightsLoop, List.foldl_cons, List.map_cons]
    have hmem := hrid rid (List.mem_cons_self _ _)
    have h1 := weight_sameCube hc rid
    obtain ⟨i1, i2⟩ := ih (weight hc rid).2.2.2 (mapSet results rid (weight hc rid).2.2.1) (by
      intro r hr
      rw [← h1.2.1]
      exact hrid r (List.mem_cons_of_mem _ hr))
    obtain ⟨w1, w2⟩ := weight_extremes hc rid hmem
    have hraw : rawWeight (weight hc rid).2.2.2 = rawWeight hc :=
      funext (fun r => (rawWeight_congr h1 r).symm)
    rw [i1, i2, w1, w2, hraw]
    exact ⟨rfl, rfl⟩

theorem rakeIteration_extremes (hc : HyperCube) :
    (rakeIteration hc).Stats.MinWeight = defaultWeight ∧
      (rakeIteration hc).Stats.MaxWeight = defaultWeight := by
  have h := (rakeColumns_frame hc.Options.Columns
    { hc := { hc with Stats := { hc.Stats with MinWeight := defaultWeight
                                               MaxWeight := defaultWeight } }
      dimAdjust := Flt.fin 1, rmse := Flt.fin 0, rmsn := 0 }).2
  unfold rakeIteration
  simp only
  rw [h]
  exact ⟨rfl, rfl⟩

theorem rakeLoop_extremes (n : Nat) (hc : HyperCube)
    (h : hc.Stats.MinWeight = defaultWeight ∧ hc.Stats.MaxWeight = defaultWeight) :
    (rakeLoop n hc).Stats.MinWeight = defaultWeight ∧
      (rakeLoop n hc).Stats.MaxWeight = defaultWeight := by
  induction n generalizing hc with
  | zero => exact h
  | succ n ih =>
    simp only [rakeLoop]
    split
    · exact rakeIteration_extremes hc
    · exact ih _ (rakeIteration_extremes hc)

theorem discover_Stats (hc : HyperCube) (rs : List Response) :
    (discover hc rs).Stats = hc.Stats := by
  unfold discover configureBlockSize
  simp only
  exact foldl_preserves analyzeDimensionsFromResponse HyperCube.Stats
    (fun s a => (analyze_frame s a).2.1) rs hc

theorem lowest_fin (m w : ℚ) : lowest (Flt.fin m) (Flt.fin w) = Flt.fin (min m w) := by
  unfold lowest
  by_cases h : w < m
  · simp [Flt.lt, h, min_eq_right (le_of_lt h)]
  · simp [Flt.lt, h, min_eq_left (not_lt.1 h)]

theorem highest_fin (m w : ℚ) : highest (Flt.fin m) (Flt.fin w) = Flt.fin (max m w) := by
  unfold highest
  by_cases h : m < w
  · simp [Flt.gt, Flt.lt, h, max_eq_right (le_of_lt h)]
  · simp [Flt.gt, Flt.lt, h, max_eq_left (not_lt.1 h)]

theorem foldl_lowest_fin (qs : List ℚ) (m : ℚ) :
    (qs.map Flt.fin).foldl lowest (Flt.fin m) = Flt.fin (qs.foldl min m) := by
  induction qs generalizing m with
  | nil => rfl
  | cons q qs ih => simp only [List.map_cons, List.foldl_cons, lowest_fin, ih]

theorem foldl_highest_fin (qs : List ℚ) (m : ℚ) :
    (qs.map Flt.fin).foldl highest (Flt.fin m) = Flt.fin (qs.foldl max m) := by
  induction qs generalizing m with
  | nil => rfl
  | cons q qs ih => simp only [List.map_cons, List.foldl_cons, highest_fin, ih]

theorem foldl_min_le (qs : List ℚ) (m : ℚ) :
    qs.foldl min m ≤ m ∧ ∀ q ∈ qs, qs.foldl min m ≤ q := by
  induction qs generalizing m with
  | nil => exact ⟨le_refl _, fun _ h => absurd h (List.not_mem_nil _)⟩
  | cons q qs ih =>
    simp only [List.foldl_cons]
    obtain ⟨h1, h2⟩ := ih (min m q)
    refine ⟨h1.trans (min_le_left _ _), ?_⟩
    intro x hx
    rcases List.mem_cons.1 hx with h | h
    · rw [h]; exact h1.trans (min_le_right _ _)
    · exact h2 x h

theorem foldl_le_max (qs : List ℚ) (m : ℚ) :
    m ≤ qs.foldl max m ∧ ∀ q ∈ qs, q ≤ qs.foldl max m := by
  induction qs generalizing m with
  | nil => exact ⟨le_refl _, fun _ h => absurd h (List.not_mem_nil _)⟩
  | cons q qs ih =>
    simp only [List.foldl_cons]
    obtain ⟨h1, h2⟩ := ih (max m q)
    refine ⟨(le_max_left _ _).trans h1, ?_⟩
    intro x hx
    rcases List.mem_cons.1 hx with h | h
    · rw [h]; exact (le_max_right _ _).trans h1
    · exact h2 x h

theorem foldl_min_of_le (qs : List ℚ) (m : ℚ) (h : ∀ q ∈ qs, m ≤ q) : qs.foldl min m = m := by
  induction qs generalizing m with
  | nil => rfl
  | cons q qs ih =>
    simp only [List.foldl_cons]
    rw [min_eq_left (h q (List.mem_cons_self _ _))]
    exact ih m (fun x hx => h x (List.mem_cons_of_mem _ hx))

theorem foldl_max_of_le (qs : List ℚ) (m : ℚ) (h : ∀ q ∈ qs, q ≤ m) : qs.foldl max m = m := by
  induction qs generalizing m with
  | nil => rfl
  | cons q qs ih =>
    simp only [List.foldl_cons]
    rw [max_eq_left (h q (List.mem_cons_self _ _))]
    exact ih m (fun x hx => h x (List.mem_cons_of_mem _ hx))

theorem rakeLoop_frame (n : Nat) (hc : HyperCube) : sameFrame hc (rakeLoop n hc) := by
  obtain ⟨k, _, hloop, _, _, _⟩ := rakeLoop_spec n hc
  rw [hloop]
  exact (iterate_frame k hc).1

/-- The engine after a successful ingestion on a fresh engine, and after the
raking loop: its registry is sound and its observed extremes are the default
weight. -/
theorem raked_state (ops : Options) (rs : List Response) (hc0 : HyperCube)
    (hadd : addRows rs (discover (NewGroupedWeighter ops) rs) = .ok hc0) :
    sameFrame (snapshot hc0) (rakeLoop hc0.Options.MaxIterations.toNat (snapshot hc0)) ∧
    RegistryOK (rakeLoop hc0.Options.MaxIterations.toNat (snapshot hc0)) ∧
    (rakeLoop hc0.Options.MaxIterations.toNat (snapshot hc0)).Stats.MinWeight = defaultWeight ∧
    (rakeLoop hc0.Options.MaxIterations.toNat (snapshot hc0)).Stats.MaxWeight = defaultWeight := by
  obtain ⟨hreg0, _⟩ := ingest_RegistryOK ops rs hc0 hadd
  have hregS : RegistryOK (snapshot hc0) := hreg0
  have hframe := rakeLoop_frame hc0.Options.MaxIterations.toNat (snapshot hc0)
  have hst := addRows_Stats hadd
  have hD := discover_Stats (NewGroupedWeighter ops) rs
  have h0 : (snapshot hc0).Stats.MinWeight = defaultWeight ∧
      (snapshot hc0).Stats.MaxWeight = defaultWeight := by
    show hc0.Stats.MinWeight = defaultWeight ∧ hc0.Stats.MaxWeight = defaultWeight
    rw [hst, hD]
    exact ⟨rfl, rfl⟩
  obtain ⟨e1, e2⟩ := rakeLoop_extremes hc0.Options.MaxIterations.toNat (snapshot hc0) h0
  exact ⟨hframe, RegistryOK_of_sameFrame hframe hregS, e1, e2⟩

theorem setEffectiveBaseSize_extremes (hc : HyperCube) (hreg : RegistryOK hc) :
    (setEffectiveBaseSize hc).Stats.MinWeight =
      ((mapKeys hc.WorkRows).map (rawWeight hc)).foldl lowest hc.Stats.MinWeight ∧
    (setEffectiveBaseSize hc).Stats.MaxWeight =
      ((mapKeys hc.WorkRows).map (rawWeight hc)).foldl highest hc.Stats.MaxWeight := by
  have h0 : sameCube hc
      { hc with Dimensions := resetWorkSums hc.Options.Columns hc.Dimensions } :=
    ⟨rfl, rfl, rfl, rfl, rfl, resetWorkSums_sameIndexing _ _, rfl, rfl, rfl, rfl⟩
  obtain ⟨h1, h2⟩ := accumulateRows_extremes (mapKeys hc.WorkRows)
    { hc := { hc with Dimensions := resetWorkSums hc.Options.Columns hc.Dimensions } }
    (RegistryOK_of_sameCube h0 hreg) (fun _ h => h)
  have hraw : rawWeight { hc with Dimensions := resetWorkSums hc.Options.Columns hc.Dimensions } =
      rawWeight hc := funext (fun r => (rawWeight_congr h0 r).symm)
  rw [hraw] at h1 h2
  unfold setEffectiveBaseSize
  exact ⟨h1, h2⟩

theorem radixOK_step (dims : List (String × Dimension)) (pre : List String) (a b : String)
    (post : List String) (x : Nat) (h : radixOK dims (pre ++ a :: b :: post) x) :
    (getDim dims b).BlockSize = (getDim dims a).BlockSize * (getDim dims a).Size := by
  induction pre generalizing x with
  | nil =>
    obtain ⟨h1, h2, _⟩ := h
    rw [h2, h1]
  | cons p pre ih => exact ih _ h.2

theorem insertNew_mem (seen : List String) (x y : String) :
    y ∈ insertNew seen x ↔ y ∈ seen ∨ y = x := by
  unfold insertNew
  split
  · constructor
    · exact Or.inl
    · rintro (h | h)
      · exact h
      · rw [h]; assumption
  · simp

theorem insertNew_nodup (seen : List String) (x : String) (h : seen.Nodup) :
    (insertNew seen x).Nodup := by
  unfold insertNew
  split
  · exact h
  · rename_i hx
    exact List.Nodup.append h (List.nodup_singleton x) (by
      intro a ha hb
      rw [List.mem_singleton] at hb
      exact hx (hb ▸ ha))

theorem foldl_insertNew (l acc : List String) :
    (∃ t, l.foldl insertNew acc = acc ++ t) ∧
    (∀ y, y ∈ l.foldl insertNew acc ↔ y ∈ acc ∨ y ∈ l) ∧
    (acc.Nodup → (l.foldl insertNew acc).Nodup) := by
  induction l generalizing acc with
  | nil => exact ⟨⟨[], by simp⟩, fun y => by simp, fun h => h⟩
  | cons x l ih =>
    simp only [List.foldl_cons]
    obtain ⟨⟨t, ht⟩, hm, hn⟩ := ih (insertNew acc x)
    refine ⟨?_, ?_, fun h => hn (insertNew_nodup acc x h)⟩
    · rw [ht]
      unfold insertNew
      split
      · exact ⟨t, rfl⟩
      · exact ⟨[x] ++ t, by simp⟩
    · intro y
      rw [hm, insertNew_mem, List.mem_cons]
      tauto

theorem firstSeen_card (l : List String) : (firstSeen l).length = l.toFinset.card := by
  obtain ⟨_, hm, hn⟩ := foldl_insertNew l []
  unfold firstSeen
  rw [← List.toFinset_card_of_nodup (hn List.nodup_nil)]
  congr 1
  apply List.toFinset.ext
  intro x
  rw [hm]
  simp

theorem registerValue_of_mem (dim : Dimension) (val : String)
    (h : val ∈ mapKeys dim.Values) : registerValue dim val = dim := by
  obtain ⟨d, hd⟩ := Option.isSome_iff_exists.1 ((mapGet?_isSome_iff _ _).2 h)
  unfold registerValue
  rw [hd]

theorem registerValue_new (dim : Dimension) (val : String) (h : val ∉ mapKeys dim.Values) :
    registerValue dim val =
      { dim with Values := dim.Values ++ [(val, NewDimensionValue dim.Size)]
                 Size := dim.Size + 1 } := by
  have hn := (mapGet?_eq_none_iff dim.Values val).2 h
  unfold registerValue
  rw [hn]
  simp only
  rw [mapSet_of_not_mem _ _ _ h]

/-- Registering a value: the keys grow by the value if it is new, and the
ordinals stay `0, 1, …, Size - 1` in the order of the list. -/
theorem registerValue_ordinals (dim : Dimension) (val : String)
    (h : ordinals dim = List.range dim.Size) :
    mapKeys (registerValue dim val).Values = insertNew (mapKeys dim.Values) val ∧
    ordinals (registerValue dim val) = List.range (registerValue dim val).Size := by
  by_cases hm : val ∈ mapKeys dim.Values
  · rw [registerValue_of_mem dim val hm]
    exact ⟨by unfold insertNew; rw [if_pos hm], h⟩
  · rw [registerValue_new dim val hm]
    constructor
    · unfold insertNew
      rw [if_neg hm]
      simp [mapKeys]
    · unfold ordinals at h ⊢
      simp only [List.map_append, List.map_cons, List.map_nil, h, List.range_succ]
      rfl

theorem registerValue_idem (dim : Dimension) (val : String) :
    registerValue (registerValue dim val) val = registerValue dim val :=
  registerValue_of_mem _ _ (registerValue_registered dim val)

theorem analyze_keys (hc : HyperCube) (r : Response) (k : String) :
    k ∈ mapKeys (analyzeDimensionsFromResponse hc r).Dimensions ↔ k ∈ mapKeys hc.Dimensions := by
  unfold analyzeDimensionsFromResponse
  refine foldl_invariant (fun s : HyperCube => k ∈ mapKeys s.Dimensions ↔ k ∈ mapKeys hc.Dimensions)
    _ _ hc Iff.rfl ?_
  intro s col _ hs
  cases hg : mapGet? s.Dimensions col with
  | none => simpa [hg] using hs
  | some dim =>
    simp only [hg]
    rw [mem_mapKeys_mapSet]
    constructor
    · rintro (h | h)
      · subst h
        exact hs.1 ((mapGet?_isSome_iff _ _).1 (by rw [hg]; rfl))
      · exact hs.1 h
    · exact fun h => Or.inr (hs.2 h)

/-- The discovery of one response registers, for every column of the engine for
which the response has an entry, the value of the response. -/
theorem analyze_getDim (hc : HyperCube) (r : Response) (c : String)
    (hc' : c ∈ mapKeys hc.Dimensions) :
    getDim (analyzeDimensionsFromResponse hc r).Dimensions c =
      if c ∈ mapKeys r.Values then registerValue (getDim hc.Dimensions c) (r.get c)
      else getDim hc.Dimensions c := by
  unfold analyzeDimensionsFromResponse
  have key : ∀ (ks : List String) (s : HyperCube), c ∈ mapKeys s.Dimensions →
      (getDim s.Dimensions c = getDim hc.Dimensions c ∨
        getDim s.Dimensions c = registerValue (getDim hc.Dimensions c) (r.get c)) →
      getDim (ks.foldl
        (fun hc col =>
          match mapGet? hc.Dimensions col with
          | none => hc
          | some dim =>
            { hc with Dimensions := mapSet hc.Dimensions col (registerValue dim (r.get col)) })
        s).Dimensions c =
        if c ∈ ks then registerValue (getDim hc.Dimensions c) (r.get c)
        else getDim s.Dimensions c := by
    intro ks
    induction ks with
    | nil => intro s _ _; simp
    | cons col ks ih =>
      intro s hs hcase
      simp only [List.foldl_cons, List.mem_cons]
      cases hg : mapGet? s.Dimensions col with
      | none =>
        have hne : c ≠ col := by
          intro e
          have := (mapGet?_isSome_iff _ _).2 hs
          rw [e, hg] at this
          cases this
        simp only [hg]
        rw [ih s hs hcase]
        simp [hne]
      | some dim =>
        simp only [hg]
        have hs1 : c ∈ mapKeys (mapSet s.Dimensions col (registerValue dim (r.get col))) :=
          (mem_mapKeys_mapSet _ _ _ _).2 (Or.inr hs)
        have hstep := analyze_step_getDim s.Dimensions col dim (r.get col) c hg
        by_cases hcc : col = c
        · subst hcc
          rw [if_pos rfl] at hstep
          have hval : getDim (mapSet s.Dimensions col (registerValue dim (r.get col))) col =
              registerValue (getDim hc.Dimensions col) (r.get col) := by
            rw [hstep]
            rcases hcase with h | h
            · rw [h]
            · rw [h, registerValue_idem]
          rw [ih { s with Dimensions := mapSet s.Dimensions col (registerValue dim (r.get col)) }
            hs1 (Or.inr hval)]
          simp only [true_or, if_true]
          split
          · rfl
          · exact hval
        · rw [if_neg hcc] at hstep
          rw [ih { s with Dimensions := mapSet s.Dimensions col (registerValue dim (r.get col)) }
            hs1 (by rw [hstep]; exact hcase)]
          have hne : ¬ c = col := fun e => hcc e.symm
          simp only [hne, false_or]
          split
          · rfl
          · exact hstep
  exact key (mapKeys r.Values) hc hc' (Or.inl rfl)

theorem carried_cons (r : Response) (rs : List Response) (c : String) :
    carried (r :: rs) c =
      if c ∈ mapKeys r.Values then r.get c :: carried rs c else carried rs c := by
  unfold carried
  by_cases h : c ∈ mapKeys r.Values
  · simp [List.filter_cons, h]
  · simp [List.filter_cons, h]

theorem carried_append (pre post : List Response) (c : String) :
    carried (pre ++ post) c = carried pre c ++ carried post c := by
  unfold carried
  rw [List.filter_append, List.map_append]

/-- The discovery pass on a column of the engine: the keys grow by the carried
values in first-seen order, and the ordinals stay `0, 1, …, Size - 1`. -/
theorem analyzeAll_ordinals (rs : List Response) (hc : HyperCube) (c : String)
    (hc' : c ∈ mapKeys hc.Dimensions)
    (hord : ordinals (getDim hc.Dimensions c) = List.range (getDim hc.Dimensions c).Size) :
    mapKeys (getDim (rs.foldl analyzeDimensionsFromResponse hc).Dimensions c).Values =
      (carried rs c).foldl insertNew (mapKeys (getDim hc.Dimensions c).Values) ∧
    ordinals (getDim (rs.foldl analyzeDimensionsFromResponse hc).Dimensions c) =
      List.range (getDim (rs.foldl analyzeDimensionsFromResponse hc).Dimensions c).Size := by
  induction rs generalizing hc with
  | nil => exact ⟨rfl, hord⟩
  | cons r rs ih =>
    simp only [List.foldl_cons]
    have hk := (analyze_keys hc r c).2 hc'
    have hg := analyze_getDim hc r c hc'
    rw [carried_cons]
    by_cases hm : c ∈ mapKeys r.Values
    · rw [if_pos hm] at hg ⊢
      obtain ⟨r1, r2⟩ := registerValue_ordinals (getDim hc.Dimensions c) (r.get c) hord
      obtain ⟨i1, i2⟩ := ih (analyzeDimensionsFromResponse hc r) hk (by rw [hg]; exact r2)
      refine ⟨?_, i2⟩
      rw [i1, hg, r1]
      rfl
    · rw [if_neg hm] at hg ⊢
      obtain ⟨i1, i2⟩ := ih (analyzeDimensionsFromResponse hc r) hk (by rw [hg]; exact hord)
      refine ⟨?_, i2⟩
      rw [i1, hg]

theorem mem_mapKeys_NewGroupedWeighter (ops : Options) (c : String) (h : c ∈ ops.Columns) :
    c ∈ mapKeys (NewGroupedWeighter ops).Dimensions := by
  show c ∈ mapKeys (ops.Columns.foldl (fun dims c => mapSet dims c NewDimension) [])
  have key : ∀ (cols : List String) (dims : List (String × Dimension)),
      c ∈ cols ∨ c ∈ mapKeys dims →
      c ∈ mapKeys (cols.foldl (fun dims c => mapSet dims c NewDimension) dims) := by
    intro cols
    induction cols with
    | nil =>
      intro dims h
      rcases h with h | h
      · cases h
      · exact h
    | cons a cols ih =>
      intro dims h
      simp only [List.foldl_cons]
      apply ih
      rcases h with h | h
      · rcases List.mem_cons.1 h with h | h
        · exact Or.inr ((mem_mapKeys_mapSet _ _ _ _).2 (Or.inl h))
        · exact Or.inl h
      · exact Or.inr ((mem_mapKeys_mapSet _ _ _ _).2 (Or.inr h))
  exact key _ _ (Or.inl h)

theorem getVal_Index_of_range (vals : List (String × DimensionValue)) (s : Nat) (k : String)
    (h : vals.map (fun kv => kv.2.Index) = List.range' s vals.length)
    (hk : k ∈ mapKeys vals) :
    (getVal vals k).Index = s + List.indexOf k (mapKeys vals) := by
  induction vals generalizing s with
  | nil => simp [mapKeys] at hk
  | cons p vals ih =>
    obtain ⟨k1, d1⟩ := p
    simp only [List.map_cons, List.length_cons, List.range'_succ, List.cons.injEq] at h
    obtain ⟨h1, h2⟩ := h
    by_cases hkk : k1 = k
    · subst hkk
      simp [getVal, mapGet?, mapKeys, h1]
    · have hk1 : k ∈ mapKeys vals := by
        simp only [mapKeys, List.map_cons, List.mem_cons] at hk
        rcases hk with hk | hk
        · exact absurd hk.symm hkk
        · exact hk
      have := ih (s + 1) h2 hk1
      simp only [getVal, mapGet?, hkk, if_false, mapKeys, List.map_cons] at this ⊢
      rw [this, List.indexOf_cons_ne _ hkk]
      omega

/-- C14. After the discovery pass, for every configured column: the values of
the dimension are the distinct values the column takes in the responses, in the
order in which they are first seen; the size is the number of those distinct
values; the ordinals are `0, 1, …, Size - 1` in that order (the ordinal of a
value is its position in first-seen order), so a value first seen in an earlier
response has a smaller ordinal than one first seen later; and registering a
value that is already registered changes nothing. -/
theorem discovery_assigns_first_seen_ordinals (ops : Options) (responses : List Response)
    (c : String) (hcol : c ∈ ops.Columns) :
    mapKeys (getDim (discover (NewGroupedWeighter ops) responses).Dimensions c).Values =
      firstSeen (carried responses c) ∧
    (getDim (discover (NewGroupedWeighter ops) responses).Dimensions c).Size =
      (carried responses c).toFinset.card ∧
    ordinals (getDim (discover (NewGroupedWeighter ops) responses).Dimensions c) =
      List.range (getDim (discover (NewGroupedWeighter ops) responses).Dimensions c).Size ∧
    (∀ k ∈ carried responses c,
      (getVal (getDim (discover (NewGroupedWeighter ops) responses).Dimensions c).Values k).Index =
        List.indexOf k (firstSeen (carried responses c))) ∧
    (∀ pre post a b, responses = pre ++ post → a ∈ carried pre c → b ∉ carried pre c →
      b ∈ carried post c →
      (getVal (getDim (discover (NewGroupedWeighter ops) responses).Dimensions c).Values a).Index <
        (getVal (getDim (discover (NewGroupedWeighter ops) responses).Dimensions c).Values b).Index) ∧
    (∀ (dim : Dimension) (val : String), val ∈ mapKeys dim.Values →
      registerValue dim val = dim) := by
  obtain ⟨hv, hs⟩ := discover_getDim (NewGroupedWeighter ops) responses c
  obtain ⟨a1, a2⟩ := analyzeAll_ordinals responses (NewGroupedWeighter ops) c
    (mem_mapKeys_NewGroupedWeighter ops c hcol) (by rw [getDim_NewGroupedWeighter]; rfl)
  rw [getDim_NewGroupedWeighter] at a1
  have hkeys : mapKeys (getDim (discover (NewGroupedWeighter ops) responses).Dimensions c).Values =
      firstSeen (carried responses c) := by
    rw [hv, a1]
    rfl
  have hord : ordinals (getDim (discover (NewGroupedWeighter ops) responses).Dimensions c) =
      List.range (getDim (discover (NewGroupedWeighter ops) responses).Dimensions c).Size := by
    unfold ordinals at a2 ⊢
    rw [hv, hs]
    exact a2
  have hlen : (getDim (discover (NewGroupedWeighter ops) responses).Dimensions c).Size =
      (firstSeen (carried responses c)).length := by
    have := congrArg List.length hord
    unfold ordinals at this
    rw [List.length_map, List.length_range] at this
    rw [← this, ← hkeys]
    simp [mapKeys]
  have hidx : ∀ k ∈ carried responses c,
      (getVal (getDim (discover (NewGroupedWeighter ops) responses).Dimensions c).Values k).Index =
        List.indexOf k (firstSeen (carried responses c)) := by
    intro k hk
    have hmem : k ∈ mapKeys
        (getDim (discover (NewGroupedWeighter ops) responses).Dimensions c).Values := by
      rw [hkeys]
      exact ((foldl_insertNew (carried responses c) []).2.1 k).2 (Or.inr hk)
    have hr : (getDim (discover (NewGroupedWeighter ops) responses).Dimensions c).Values.map
        (fun kv => kv.2.Index) = List.range' 0
          (getDim (discover (NewGroupedWeighter ops) responses).Dimensions c).Values.length := by
      have h1 : (getDim (discover (NewGroupedWeighter ops) responses).Dimensions c).Values.length =
          (getDim (discover (NewGroupedWeighter ops) responses).Dimensions c).Size := by
        rw [hlen, ← hkeys]
        simp [mapKeys]
      rw [h1, ← List.range_eq_range']
      exact hord
    rw [getVal_Index_of_range _ 0 k hr hmem, hkeys, Nat.zero_add]
  refine ⟨hkeys, ?_, hord, hidx, ?_, registerValue_of_mem⟩
  · rw [hlen, firstSeen_card]
  · intro pre post a b hsplit ha hb hb'
    have hca : a ∈ carried responses c := by
      rw [hsplit, carried_append]
      exact List.mem_append_left _ ha
    have hcb : b ∈ carried responses c := by
      rw [hsplit, carried_append]
      exact List.mem_append_right _ hb'
    rw [hidx a hca, hidx b hcb]
    have hfs : firstSeen (carried responses c) =
        (carried post c).foldl insertNew (firstSeen (carried pre c)) := by
      rw [hsplit, carried_append]
      unfold firstSeen
      rw [List.foldl_append]
    obtain ⟨⟨t, ht⟩, _, _⟩ := foldl_insertNew (carried post c) (firstSeen (carried pre c))
    have hma : a ∈ firstSeen (carried pre c) :=
      ((foldl_insertNew (carried pre c) []).2.1 a).2 (Or.inr ha)
    have hmb : b ∉ firstSeen (carried pre c) := by
      intro h
      rcases ((foldl_insertNew (carried pre c) []).2.1 b).1 h with h | h
      · cases h
      · exact hb h
    rw [hfs, ht, List.indexOf_append_of_mem hma, List.indexOf_append_of_not_mem hmb]
    have := List.indexOf_lt_length.2 hma
    omega

theorem discovery_assigns_first_seen_ordinals_witness :
    mapKeys (getDim (discover (NewGroupedWeighter opsAB) rs7).Dimensions "B").Values =
      firstSeen (carried rs7 "B") :=
  (discovery_assigns_first_seen_ordinals opsAB rs7 "B" (by decide)).1

/-! ## The snapshot of the cube -/

theorem sum_indicator_range (a L : Nat) :
    ((List.range L).map (fun i => if a = i then 1 else 0)).sum = if a < L then 1 else 0 := by
  induction L with
  | zero => simp
  | succ L ih =>
    rw [List.sum_range_succ, ih]
    by_cases h1 : a < L
    · have h2 : a ≠ L := by omega
      have h3 : a < L + 1 := by omega
      simp [h1, h2, h3]
    · by_cases h2 : a = L
      · simp [h2]
      · have h3 : ¬ a < L + 1 := by omega
        simp [h1, h2, h3]

/-- The counts of the rows per cell add up to the number of rows, when every
row has its cell below `L`. -/
theorem sum_countP_cells (p : Response → Bool) (idx : Response → Nat) (L : Nat)
    (rs : List Response) (h : ∀ r ∈ rs, p r = true → idx r < L) :
    ((List.range L).map (fun i => rs.countP (fun r => p r && decide (idx r = i)))).sum =
      rs.countP p := by
  induction rs with
  | nil => simp
  | cons r rs ih =>
    simp only [List.countP_cons]
    rw [List.sum_map_add, ih (fun r1 h1 => h r1 (List.mem_cons_of_mem _ h1))]
    congr 1
    by_cases hp : p r = true
    · have hlt := h r (List.mem_cons_self _ _) hp
      simp only [hp, Bool.true_and, decide_eq_true_eq, if_true]
      rw [sum_indicator_range, if_pos hlt]
    · simp [hp]

theorem list_eq_of_getD (ws : List Flt) (f : Nat → ℚ)
    (h : ∀ i, ws.getD i (Flt.fin 0) = Flt.fin (f i)) :
    ws = ((List.range ws.length).map f).map Flt.fin := by
  apply List.ext_getElem
  · simp
  · intro n h1 h2
    rw [← List.getD_eq_getElem ws (Flt.fin 0) h1, h n]
    simp

theorem cellIndex_of_sameCombination (dims : List (String × Dimension)) (cols : List String)
    (r r1 : Response) (h : ∀ c ∈ cols, r1.get c = r.get c) :
    cellIndex dims cols r1 = cellIndex dims cols r := by
  unfold cellIndex
  congr 1
  apply List.map_congr_left
  intro c hc
  rw [h c hc]

/-- The engine after a successful run keeps as `Initspace` the cube as the
ingestion left it. -/
theorem run_Initspace (ops : Options) (rs : List Response) (hc0 : HyperCube)
    (hadd : addRows rs (discover (NewGroupedWeighter ops) rs) = .ok hc0) :
    (rakeDimensions hc0).Initspace = hc0.Workspace ∧
    (rakeLoop hc0.Options.MaxIterations.toNat (snapshot hc0)).Initspace = hc0.Workspace := by
  obtain ⟨hframe, hregL, _, _⟩ := raked_state ops rs hc0 hadd
  have hsc := setEffectiveBaseSize_sameCube _ hregL
  have h1 : (rakeLoop hc0.Options.MaxIterations.toNat (snapshot hc0)).Initspace =
      hc0.Workspace := hframe.2.2.1.symm
  refine ⟨?_, h1⟩
  show (setEffectiveBaseSize (rakeLoop hc0.Options.MaxIterations.toNat (snapshot hc0))).Initspace = _
  rw [← hsc.2.2.2.1, h1]

/-- The cube after a successful ingestion with pairwise distinct columns: its
length is the product of the sizes, and every cell holds the number of work
rows of that cell. -/
theorem ingest_Workspace (ops : Options) (rs : List Response) (hc0 : HyperCube)
    (hnd : ops.Columns.Nodup)
    (hadd : addRows rs (discover (NewGroupedWeighter ops) rs) = .ok hc0) :
    hc0.Workspace.length = cubeSize (discover (NewGroupedWeighter ops) rs).Dimensions ops.Columns ∧
    (∀ i, hc0.Workspace.getD i (Flt.fin 0) =
      Flt.fin (occupancy ops (discover (NewGroupedWeighter ops) rs).Dimensions rs i : ℕ)) ∧
    (∀ r ∈ rs, cellIndex (discover (NewGroupedWeighter ops) rs).Dimensions ops.Columns r <
      hc0.Workspace.length) := by
  have hDops : (discover (NewGroupedWeighter ops) rs).Options = ops := discover_Options _ _
  have hreg := registered_of_ok ops rs hc0 hadd
  obtain ⟨hrad, hws⟩ := discover_radix ops rs hnd
  have hRegOK := discover_RegOK ops rs
  have hlt : ∀ r ∈ rs, cellIndex (discover (NewGroupedWeighter ops) rs).Dimensions
      ops.Columns r < (discover (NewGroupedWeighter ops) rs).Workspace.length := by
    intro r hr
    rw [hws, List.length_replicate]
    exact cellIndex_lt _ _ r hrad hRegOK (hreg r hr)
  obtain ⟨hlen, hcell⟩ := addRows_Workspace hadd
    (by intro r hr _; rw [hDops]; exact hlt r hr)
  rw [hDops] at hcell
  refine ⟨?_, ?_, ?_⟩
  · rw [hlen, hws, List.length_replicate]
  · intro i
    have := hcell i 0 (by rw [hws]; exact getD_replicate _ _ _)
    rw [this]
    unfold occupancy
    simp
  · intro r hr
    rw [hlen]
    exact hlt r hr

theorem rakeIteration_sweep (hc : HyperCube) :
    (rakeIteration hc).Dimensions =
        (hc.Options.Columns.foldl rakeColumn (sweepStart hc)).hc.Dimensions ∧
      (rakeIteration hc).Workspace =
        (hc.Options.Columns.foldl rakeColumn (sweepStart hc)).hc.Workspace := ⟨rfl, rfl⟩

theorem rakeColumn_recomputed (st : Sweep) (c : String) :
    (rakeColumn st c).dimAdjust = st.dimAdjust * (recomputed st c).Adjustment := rfl

theorem recomputePass_untouched (ops : Options) (ws : List Flt)
    (byVal : List (String × List Nat)) (ks : List String)
    (vals : List (String × DimensionValue)) (g w : Flt) (k : String) (hk : k ∉ ks) :
    getVal (recomputePass ops ws byVal ks vals g w).1 k = getVal vals k := by
  induction ks generalizing vals g w with
  | nil => rfl
  | cons k1 ks ih =>
    have hne : k1 ≠ k := fun e => hk (by simp [e])
    have hks : k ∉ ks := fun e => hk (List.mem_cons_of_mem _ e)
    simp only [recomputePass]
    cases mapGet? byVal k1 with
    | none => exact ih vals g w hks
    | some dv =>
      simp only
      rw [ih _ _ _ hks, getVal_mapSet, if_neg hne]

/-- The recompute pass over pairwise distinct values: the totals are the sums,
over the values that have a membership set, of the goal sums and of the work sums
the pass stores; the work sum stored for such a value is the sum of its cells. -/
theorem recomputePass_totals (ops : Options) (ws : List Flt) (byVal : List (String × List Nat))
    (ks : List String) (vals : List (String × DimensionValue)) (g w : Flt) (hnd : ks.Nodup) :
    (recomputePass ops ws byVal ks vals g w).2.1 =
      fltSum ((ks.filter (fun k => (mapGet? byVal k).isSome)).map
        (fun k => (getVal (recomputePass ops ws byVal ks vals g w).1 k).GoalSum)) g ∧
    (recomputePass ops ws byVal ks vals g w).2.2 =
      fltSum ((ks.filter (fun k => (mapGet? byVal k).isSome)).map
        (fun k => (getVal (recomputePass ops ws byVal ks vals g w).1 k).WorkSum)) w ∧
    (∀ k ∈ ks, ∀ dv, mapGet? byVal k = some dv →
      (getVal (recomputePass ops ws byVal ks vals g w).1 k).WorkSum = sumCells ws dv ∧
      (getVal (recomputePass ops ws byVal ks vals g w).1 k).GoalSum = (getVal vals k).GoalSum) := by
  induction ks generalizing vals g w with
  | nil => exact ⟨rfl, rfl, fun k hk => absurd hk (List.not_mem_nil _)⟩
  | cons k ks ih =>
    obtain ⟨hnot, hnd1⟩ := List.nodup_cons.1 hnd
    cases hbv : mapGet? byVal k with
    | none =>
      have hstep : recomputePass ops ws byVal (k :: ks) vals g w =
          recomputePass ops ws byVal ks vals g w := by
        simp only [recomputePass, hbv]
      rw [hstep]
      obtain ⟨i1, i2, i3⟩ := ih vals g w hnd1
      refine ⟨?_, ?_, ?_⟩
      · rw [List.filter_cons]; simp only [hbv, Option.isSome_none, Bool.false_eq_true, if_false]
        exact i1
      · rw [List.filter_cons]; simp only [hbv, Option.isSome_none, Bool.false_eq_true, if_false]
        exact i2
      · intro k1 hk1 dv hdv
        rcases List.mem_cons.1 hk1 with h | h
        · rw [h, hbv] at hdv; cases hdv
        · exact i3 k1 h dv hdv
    | some dvs =>
      have hstep : recomputePass ops ws byVal (k :: ks) vals g w =
          recomputePass ops ws byVal ks
            (mapSet vals k
              { getVal vals k with
                WorkSum := sumCells ws dvs
                Weight := (curbWeight ops ((getVal vals k).GoalSum / sumCells ws dvs)).1 })
            (g + (getVal vals k).GoalSum) (w + sumCells ws dvs) := by
        simp only [recomputePass, hbv]
      rw [hstep]
      obtain ⟨i1, i2, i3⟩ := ih (mapSet vals k
              { getVal vals k with
                WorkSum := sumCells ws dvs
                Weight := (curbWeight ops ((getVal vals k).GoalSum / sumCells ws dvs)).1 })
            (g + (getVal vals k).GoalSum) (w + sumCells ws dvs) hnd1
      have hun := recomputePass_untouched ops ws byVal ks (mapSet vals k
              { getVal vals k with
                WorkSum := sumCells ws dvs
                Weight := (curbWeight ops ((getVal vals k).GoalSum / sumCells ws dvs)).1 })
            (g + (getVal vals k).GoalSum) (w + sumCells ws dvs) k hnot
      rw [getVal_mapSet, if_pos rfl] at hun
      refine ⟨?_, ?_, ?_⟩
      · rw [List.filter_cons]
        simp only [hbv, Option.isSome_some, if_true, List.map_cons, fltSum, List.foldl_cons]
        rw [hun]
        exact i1
      · rw [List.filter_cons]
        simp only [hbv, Option.isSome_some, if_true, List.map_cons, fltSum, List.foldl_cons]
        rw [hun]
        exact i2
      · intro k1 hk1 dv hdv
        rcases List.mem_cons.1 hk1 with h | h
        · subst h
          rw [hbv] at hdv
          cases hdv
          rw [hun]
          exact ⟨rfl, rfl⟩
        · obtain ⟨j1, j2⟩ := i3 k1 h dv hdv
          refine ⟨j1, ?_⟩
          rw [j2, getVal_mapSet]
          split
          · rename_i hkk; subst hkk; rfl
          · rfl

theorem rakeColumns_GoalSum (cols : List String) (st : Sweep) (c1 k : String) :
    (getVal (getDim (cols.foldl rakeColumn st).hc.Dimensions c1).Values k).GoalSum =
      (getVal (getDim st.hc.Dimensions c1).Values k).GoalSum := by
  induction cols generalizing st with
  | nil => rfl
  | cons c cols ih =>
    simp only [List.foldl_cons]
    rw [ih, (rakeColumn_frame st c).2.2 c1 k]

theorem iterate_GoalSum (j : Nat) (hc : HyperCube) (c1 k : String) :
    (getVal (getDim (rakeIteration^[j] hc).Dimensions c1).Values k).GoalSum =
      (getVal (getDim hc.Dimensions c1).Values k).GoalSum := by
  induction j generalizing hc with
  | zero => rfl
  | succ j ih =>
    rw [Function.iterate_succ_apply, ih, (rakeIteration_sweep hc).1, rakeColumns_GoalSum]
    rfl

/-- The state of a sweep of the raking loop, after any number of iterations and
any columns of the sweep: the frame and the goal sums are those of the engine
the loop started from. -/
theorem sweep_state (hc : HyperCube) (j : Nat) (pre : List String) :
    sameFrame hc (pre.foldl rakeColumn (sweepStart (rakeIteration^[j] hc))).hc ∧
    ∀ c1 k, (getVal (getDim (pre.foldl rakeColumn
        (sweepStart (rakeIteration^[j] hc))).hc.Dimensions c1).Values k).GoalSum =
      (getVal (getDim hc.Dimensions c1).Values k).GoalSum := by
  have h1 := (iterate_frame j hc).1
  have h2 : sameFrame (rakeIteration^[j] hc) (sweepStart (rakeIteration^[j] hc)).hc :=
    ⟨rfl, rfl, rfl, rfl, sameIndexing_refl _, rfl, rfl, rfl⟩
  have h3 := (rakeColumns_frame pre (sweepStart (rakeIteration^[j] hc))).1
  refine ⟨sameFrame_trans h1 (sameFrame_trans h2 h3), ?_⟩
  intro c1 k
  rw [rakeColumns_GoalSum]
  exact iterate_GoalSum j hc c1 k

theorem sum_indicator_nodup (a : String) (ks : List String) (hnd : ks.Nodup) :
    (ks.map (fun k => if a = k then 1 else 0)).sum = if a ∈ ks then 1 else 0 := by
  induction ks with
  | nil => simp
  | cons k ks ih =>
    obtain ⟨hnot, hnd1⟩ := List.nodup_cons.1 hnd
    rw [List.map_cons, List.sum_cons, ih hnd1]
    by_cases h1 : a = k
    · subst h1
      simp [hnot]
    · by_cases h2 : a ∈ ks
      · simp [h1, h2]
      · simp [h1, h2]

/-- The counts of the rows per value add up to the number of rows, when the
values are pairwise distinct and every row has its value among them. -/
theorem sum_countP_values (p : Response → Bool) (f : Response → String) (ks : List String)
    (hnd : ks.Nodup) (rs : List Response) (h : ∀ r ∈ rs, p r = true → f r ∈ ks) :
    (ks.map (fun k => rs.countP (fun r => p r && decide (f r = k)))).sum = rs.countP p := by
  induction rs with
  | nil => simp
  | cons r rs ih =>
    simp only [List.countP_cons]
    rw [List.sum_map_add, ih (fun r1 h1 => h r1 (List.mem_cons_of_mem _ h1))]
    congr 1
    by_cases hp : p r = true
    · have hm := h r (List.mem_cons_self _ _) hp
      simp only [hp, Bool.true_and, decide_eq_true_eq, if_true]
      rw [sum_indicator_nodup _ _ hnd, if_pos hm]
    · simp [hp]

/-- After a successful ingestion with pairwise distinct columns the goal sum of a
value is the number of goal rows that carry it, and the goal sums of the values
of a configured column add up to the number of goal rows. -/
theorem ingest_GoalSum (ops : Options) (rs : List Response) (hc0 : HyperCube)
    (hnd : ops.Columns.Nodup)
    (hadd : addRows rs (discover (NewGroupedWeighter ops) rs) = .ok hc0)
    (c : String) (hc : c ∈ ops.Columns) :
    (∀ k, (getVal (getDim hc0.Dimensions c).Values k).GoalSum =
      Flt.fin (goalCount ops rs c k : ℕ)) ∧
    (mapKeys (getDim hc0.Dimensions c).Values).Nodup ∧
    (((mapKeys (getDim hc0.Dimensions c).Values).map
      (fun k => (goalCount ops rs c k : ℚ))).sum = (hc0.Stats.GoalRows : ℚ)) := by
  have hDops : (discover (NewGroupedWeighter ops) rs).Options = ops := discover_Options _ _
  have hsame := addRows_sameIndexing hadd
  have hkeys : mapKeys (getDim hc0.Dimensions c).Values =
      mapKeys (getDim (discover (NewGroupedWeighter ops) rs).Dimensions c).Values :=
    ((hsame c).2.2.1).symm
  have hknd : (mapKeys (getDim hc0.Dimensions c).Values).Nodup := by
    rw [hkeys]
    exact discover_keys_nodup ops rs c
  have hreg := registered_of_ok ops rs hc0 hadd
  refine ⟨?_, hknd, ?_⟩
  · intro k
    have := addRows_GoalSum hadd (by rw [hDops]; exact hnd) c k (by rw [hDops]; exact hc) 0
      (discover_GoalSum ops rs c k)
    rw [this, hDops]
    unfold goalCount
    simp
  · have hst := addRows_Stats hadd
    have hG : hc0.Stats.GoalRows = rs.countP (isGoalRow ops) := by
      rw [hst, hDops]
      simp only [(discover_frame ops rs).2.2.2.1, Nat.zero_add]
    rw [hG, ← sum_countP_values (isGoalRow ops) (fun r => r.get c)
      (mapKeys (getDim hc0.Dimensions c).Values) hknd rs
      (fun r hr _ => by rw [hkeys]; exact hreg r hr c hc)]
    unfold goalCount
    rw [Nat.cast_list_sum, List.map_map]
    rfl

/-- The dimension after the recompute pass of a column with pairwise distinct
values: the aggregates are the sums over the values that have a membership
set. -/
theorem recomputed_totals (st : Sweep) (c : String)
    (hnd : (mapKeys (getDim st.hc.Dimensions c).Values).Nodup) :
    mapKeys (recomputed st c).Values = mapKeys (getDim st.hc.Dimensions c).Values ∧
    (recomputed st c).GoalSum =
      fltSum ((valuesWithCells st.hc c (mapKeys (recomputed st c).Values)).map
        (fun k => (getVal (recomputed st c).Values k).GoalSum)) (Flt.fin 0) ∧
    (recomputed st c).WorkSum =
      fltSum ((valuesWithCells st.hc c (mapKeys (recomputed st c).Values)).map
        (fun k => (getVal (recomputed st c).Values k).WorkSum)) (Flt.fin 0) ∧
    (∀ k ∈ mapKeys (recomputed st c).Values, ∀ dv, cells st.hc.DimValues c k = some dv →
      (getVal (recomputed st c).Values k).WorkSum = sumCells st.hc.Workspace dv) ∧
    (∀ k, (getVal (recomputed st c).Values k).GoalSum =
      (getVal (getDim st.hc.Dimensions c).Values k).GoalSum) := by
  obtain ⟨r1, _, r3⟩ := recomputePass_frame st.hc.Options st.hc.Workspace
    ((mapGet? st.hc.DimValues c).getD []) (mapKeys (getDim st.hc.Dimensions c).Values)
    (getDim st.hc.Dimensions c).Values (Flt.fin 0) (Flt.fin 0) (fun _ h => h)
  obtain ⟨t1, t2, t3⟩ := recomputePass_totals st.hc.Options st.hc.Workspace
    ((mapGet? st.hc.DimValues c).getD []) (mapKeys (getDim st.hc.Dimensions c).Values)
    (getDim st.hc.Dimensions c).Values (Flt.fin 0) (Flt.fin 0) hnd
  have hk : mapKeys (recomputed st c).Values = mapKeys (getDim st.hc.Dimensions c).Values := r1
  refine ⟨hk, ?_, ?_, ?_, r3⟩
  · rw [hk]; exact t1
  · rw [hk]; exact t2
  · intro k hkm dv hdv
    rw [hk] at hkm
    exact (t3 k hkm dv hdv).1

theorem valuesWithCells_all (hc : HyperCube) (c : String) (ks : List String)
    (h : ∀ k ∈ ks, (cells hc.DimValues c k).isSome = true) : valuesWithCells hc c ks = ks := by
  unfold valuesWithCells
  exact List.filter_eq_self.2 h

/-- C16 (amended). In every iteration `j + 1` of the raking loop of a successful
run with pairwise distinct columns, and for every configured column `c`, after
the recompute pass of `c`: the aggregate `GoalSum` of the column is the sum of
the goal sums, and the aggregate `WorkSum` the sum of the freshly recomputed
work sums (each the sum of the cells of the membership set), of the values of
`c` that have a membership set, that is, that are carried by at least one work
row; a value carried by goal rows only is skipped.  When every value of the
column is carried by a work row, the aggregate `GoalSum` is the number of goal
rows.  `Dimension.Adjustment` is `GoalSum / WorkSum` when `WorkSum > 0` and
10.0 otherwise. -/
theorem recompute_pass_totals (ops : Options) (responses : List Response) (hc0 : HyperCube)
    (hnd : ops.Columns.Nodup)
    (hadd : addRows responses (discover (NewGroupedWeighter ops) responses) = .ok hc0)
    (j : Nat) (pre : List String) (c : String) (post : List String)
    (hcols : ops.Columns = pre ++ c :: post) (st : Sweep)
    (hst : st = pre.foldl rakeColumn (sweepStart (rakeIteration^[j] (snapshot hc0)))) :
    (recomputed st c).GoalSum =
      fltSum ((valuesWithCells st.hc c (mapKeys (recomputed st c).Values)).map
        (fun k => (getVal (recomputed st c).Values k).GoalSum)) (Flt.fin 0) ∧
    (recomputed st c).WorkSum =
      fltSum ((valuesWithCells st.hc c (mapKeys (recomputed st c).Values)).map
        (fun k => (getVal (recomputed st c).Values k).WorkSum)) (Flt.fin 0) ∧
    (∀ k ∈ mapKeys (recomputed st c).Values, ∀ dv, cells st.hc.DimValues c k = some dv →
      (getVal (recomputed st c).Values k).WorkSum = sumCells st.hc.Workspace dv) ∧
    (∀ k, (cells st.hc.DimValues c k).isSome = true ↔ 0 < workCount ops responses c k) ∧
    ((∀ k ∈ mapKeys (recomputed st c).Values, 0 < workCount ops responses c k) →
      (recomputed st c).GoalSum = Flt.ofNat hc0.Stats.GoalRows) ∧
    (recomputed st c).Adjustment =
      (if Flt.gt (recomputed st c).WorkSum (Flt.fin 0)
        then (recomputed st c).GoalSum / (recomputed st c).WorkSum else Flt.fin 10) := by
  have hcm : c ∈ ops.Columns := by rw [hcols]; simp
  obtain ⟨hframe, hgs⟩ := sweep_state (snapshot hc0) j pre
  rw [← hst] at hframe hgs
  obtain ⟨g1, g2, g3⟩ := ingest_GoalSum ops responses hc0 hnd hadd c hcm
  have hkeys : mapKeys (getDim st.hc.Dimensions c).Values =
      mapKeys (getDim hc0.Dimensions c).Values := ((hframe.2.2.2.2.1 c).2.2.1).symm
  obtain ⟨t0, t1, t2, t3, t4⟩ := recomputed_totals st c (by rw [hkeys]; exact g2)
  have hDV : st.hc.DimValues = hc0.DimValues := hframe.2.2.2.1.symm
  have hDops : (discover (NewGroupedWeighter ops) responses).Options = ops :=
    discover_Options _ _
  have hcells : ∀ k, (cells st.hc.DimValues c k).isSome = true ↔
      0 < workCount ops responses c k := by
    intro k
    rw [hDV, (addRows_cells hadd c k).2.1, (discover_frame ops responses).1, hDops]
    unfold workCount
    rw [List.countP_pos_iff]
    constructor
    · rintro (h | ⟨_, r, hr, hw, hk⟩)
      · simp [cells, mapGet?] at h
      · exact ⟨r, hr, by simp [hw, hk]⟩
    · rintro ⟨r, hr, hp⟩
      simp only [Bool.and_eq_true, decide_eq_true_eq] at hp
      exact Or.inr ⟨hcm, r, hr, hp.1, hp.2⟩
  refine ⟨t1, t2, t3, hcells, ?_, rfl⟩
  intro hall
  rw [t1, valuesWithCells_all st.hc c _ (fun k hk => (hcells k).2 (hall k hk)), t0, hkeys]
  have hfun : (fun k => (getVal (recomputed st c).Values k).GoalSum) =
      (fun k => Flt.fin (goalCount ops responses c k : ℕ)) := by
    funext k
    rw [t4 k, hgs c k]
    exact g1 k
  rw [hfun]
  have := fltSum_fin ((mapKeys (getDim hc0.Dimensions c).Values).map
    (fun k => (goalCount ops responses c k : ℚ))) 0
  rw [List.map_map] at this
  rw [show (fun k => Flt.fin (goalCount ops responses c k : ℕ)) =
    (Flt.fin ∘ fun k => (goalCount ops responses c k : ℚ)) from rfl, this, zero_add, g3]
  rfl

theorem recompute_pass_totals_witness :
    (recomputed (["A"].foldl rakeColumn (sweepStart (rakeIteration^[0] (snapshot ingested7))))
        "B").GoalSum = Flt.ofNat ingested7.Stats.GoalRows :=
  (recompute_pass_totals opsAB rs7 ingested7 (by decide) (by decide!) 0 ["A"] "B" []
    (by decide) _ rfl).2.2.2.2.1 (by decide!)

/-- C16, as stated, fails: with one work row (value `x`) and two goal rows
(values `x` and `y`), in the first iteration the aggregate `GoalSum` of the
column after the recompute pass is 1, while the goal sums of its two values add
up to 2, the number of goal rows: the value `y`, which no work row carries, has
no membership set and the pass skips it. -/
theorem recompute_pass_skips_values_without_work_rows :
    addRows rsXY (discover (NewGroupedWeighter ops1) rsXY) = .ok ingestedXY ∧
      (recomputed (sweepStart (snapshot ingestedXY)) "D1").GoalSum = Flt.fin 1 ∧
      fltSum ((recomputed (sweepStart (snapshot ingestedXY)) "D1").Values.map
        (fun kv => kv.2.GoalSum)) (Flt.fin 0) = Flt.fin 2 ∧
      ingestedXY.Stats.GoalRows = 2 := by
  refine ⟨by decide!, by decide!, by decide!, by decide!⟩

/-! ## The work sums of the statistics pass -/

theorem addWeightToSums_getDim (target : List (String × String)) (w : Flt) (cols : List String)
    (dims : List (String × Dimension)) (hnd : cols.Nodup) (c : String) :
    (getDim (addWeightToSums target w cols dims) c).WorkSum =
      (if c ∈ cols then (getDim dims c).WorkSum + w else (getDim dims c).WorkSum) ∧
    ∀ k, (getVal (getDim (addWeightToSums target w cols dims) c).Values k).WorkSum =
      (if c ∈ cols ∧ (mapGet? target c).getD "" = k
        then (getVal (getDim dims c).Values k).WorkSum + w
        else (getVal (getDim dims c).Values k).WorkSum) := by
  unfold addWeightToSums
  induction cols generalizing dims with
  | nil => exact ⟨by simp, fun k => by simp⟩
  | cons col cols ih =>
    obtain ⟨hnot, hnd1⟩ := List.nodup_cons.1 hnd
    simp only [List.foldl_cons]
    obtain ⟨i1, i2⟩ := ih (mapSet dims col
      { getDim dims col with
        WorkSum := (getDim dims col).WorkSum + w
        Values := mapSet (getDim dims col).Values ((mapGet? target col).getD "")
          { getVal (getDim dims col).Values ((mapGet? target col).getD "") with
            WorkSum := (getVal (getDim dims col).Values
              ((mapGet? target col).getD "")).WorkSum + w } }) hnd1
    by_cases hcc : col = c
    · subst hcc
      have hnc : ¬ col ∈ cols := hnot
      constructor
      · rw [i1, if_neg hnc, getDim_mapSet_same]
        simp
      · intro k
        rw [i2 k, getDim_mapSet_same]
        simp only [hnc, false_and, if_false, List.mem_cons, true_or, true_and]
        rw [getVal_mapSet]
        split
        · rename_i h; subst h; rfl
        · rfl
    · have hne : ¬ c = col := fun e => hcc e.symm
      constructor
      · rw [i1, getDim_mapSet_ne _ _ hcc]
        simp only [List.mem_cons, hne, false_or]
      · intro k
        rw [i2 k, getDim_mapSet_ne _ _ hcc]
        simp only [List.mem_cons, hne, false_or]

theorem getVal_map_WorkSum (vals : List (String × DimensionValue)) (k : String) :
    (getVal (vals.map (fun kv => (kv.1, { kv.2 with WorkSum := Flt.fin 0 }))) k).WorkSum =
      Flt.fin 0 := by
  unfold getVal
  rw [mapGet?_map_snd (fun d : DimensionValue => { d with WorkSum := Flt.fin 0 })]
  cases mapGet? vals k <;> rfl

theorem resetWorkSums_getDim (cols : List String) (dims : List (String × Dimension))
    (c : String)
    (h : c ∈ cols ∨ ((getDim dims c).WorkSum = Flt.fin 0 ∧
      ∀ k, (getVal (getDim dims c).Values k).WorkSum = Flt.fin 0)) :
    (getDim (resetWorkSums cols dims) c).WorkSum = Flt.fin 0 ∧
      ∀ k, (getVal (getDim (resetWorkSums cols dims) c).Values k).WorkSum = Flt.fin 0 := by
  unfold resetWorkSums
  induction cols generalizing dims with
  | nil =>
    rcases h with h | h
    · cases h
    · exact h
  | cons col cols ih =>
    simp only [List.foldl_cons]
    apply ih
    by_cases hcc : col = c
    · subst hcc
      right
      rw [getDim_mapSet_same]
      exact ⟨rfl, fun k => getVal_map_WorkSum _ k⟩
    · rw [getDim_mapSet_ne _ _ hcc]
      rcases h with h | h
      · rcases List.mem_cons.1 h with h | h
        · exact absurd h.symm hcc
        · exact Or.inl h
      · exact Or.inr h

theorem weight_Dimensions (hc : HyperCube) (rid : String) :
    (weight hc rid).2.2.2.Dimensions = hc.Dimensions ∧
      (weight hc rid).2.2.2.Stats.AverageWeight = hc.Stats.AverageWeight := by
  unfold weight
  cases mapGet? hc.WorkRows rid with
  | none => exact ⟨rfl, rfl⟩
  | some target =>
    refine ⟨rfl, ?_⟩
    simp only
    split <;> split <;> rfl

theorem getWeightsLoop_Dimensions (rids : List String) (hc : HyperCube)
    (results : List (String × Flt)) :
    (getWeightsLoop rids hc results).2.Dimensions = hc.Dimensions ∧
      (getWeightsLoop rids hc results).2.Stats.AverageWeight = hc.Stats.AverageWeight := by
  induction rids generalizing hc results with
  | nil => exact ⟨rfl, rfl⟩
  | cons rid rids ih =>
    simp only [getWeightsLoop]
    obtain ⟨i1, i2⟩ := ih (weight hc rid).2.2.2 (mapSet results rid (weight hc rid).2.2.1)
    obtain ⟨w1, w2⟩ := weight_Dimensions hc rid
    exact ⟨i1.trans w1, i2.trans w2⟩

theorem storedValue_congr {a b : HyperCube} (h : sameCube a b) (rid c : String) :
    storedValue a rid c = storedValue b rid c := by
  unfold storedValue
  rw [h.2.1]

theorem accumulateRow_Dimensions (t : Totals) (rid : String) :
    (accumulateRow t rid).hc.Dimensions =
      addWeightToSums ((mapGet? t.hc.WorkRows rid).getD []) (weightOf t.hc rid)
        t.hc.Options.Columns t.hc.Dimensions := by
  have hO := weight_Options t.hc rid
  have hD := (weight_Dimensions t.hc rid).1
  simp only [accumulateRow]
  split <;> simp only [hO, hD, weightOf]

/-- The second loop of `setEffectiveBaseSize` adds the final weight of every
respondent it visits to the work sum of every configured column and to the
work sum of the value the respondent has in that column. -/
theorem accumulateRows_sums (rids : List String) (t : Totals) (H : HyperCube)
    (hsc : sameCube H t.hc) (hreg : RegistryOK t.hc)
    (hrid : ∀ rid ∈ rids, rid ∈ mapKeys t.hc.WorkRows)
    (hnd : t.hc.Options.Columns.Nodup) (c : String) (hc : c ∈ t.hc.Options.Columns) :
    (getDim (rids.foldl accumulateRow t).hc.Dimensions c).WorkSum =
      fltSum (rids.map (weightOf H)) (getDim t.hc.Dimensions c).WorkSum ∧
    ∀ k, (getVal (getDim (rids.foldl accumulateRow t).hc.Dimensions c).Values k).WorkSum =
      fltSum ((rids.filter (fun rid => decide (storedValue H rid c = k))).map (weightOf H))
        (getVal (getDim t.hc.Dimensions c).Values k).WorkSum := by
  induction rids generalizing t with
  | nil => exact ⟨rfl, fun _ => rfl⟩
  | cons rid rids ih =>
    simp only [List.foldl_cons]
    have hmem := hrid rid (List.mem_cons_self _ _)
    have h1 := accumulateRow_sameCube t rid hreg hmem
    obtain ⟨i1, i2⟩ := ih (accumulateRow t rid) (sameCube_trans hsc h1)
      (RegistryOK_of_sameCube h1 hreg)
      (fun r hr => by rw [← h1.2.1]; exact hrid r (List.mem_cons_of_mem _ hr))
      (by rw [← h1.1]; exact hnd) (by rw [← h1.1]; exact hc)
    obtain ⟨a1, a2⟩ := addWeightToSums_getDim ((mapGet? t.hc.WorkRows rid).getD [])
      (weightOf t.hc rid) t.hc.Options.Columns t.hc.Dimensions hnd c
    have hw : weightOf t.hc rid = weightOf H rid := (weightOf_congr hsc rid).symm
    have hsv : (mapGet? ((mapGet? t.hc.WorkRows rid).getD []) c).getD "" =
        storedValue H rid c := (storedValue_congr hsc rid c).symm
    rw [accumulateRow_Dimensions] at i1 i2
    constructor
    · rw [i1, a1, if_pos hc, hw]
      rfl
    · intro k
      rw [i2 k, a2 k, hsv, hw, List.filter_cons]
      by_cases hk : storedValue H rid c = k
      · simp only [hk, hc, and_self, if_true, decide_True, List.map_cons]
        rfl
      · simp only [hk, and_false, if_false, decide_False, Bool.false_eq_true]

/-- With pairwise distinct identifiers the registry lists the work rows in the
order of the responses. -/
theorem addRows_WorkRows_list {rs : List Response} {hc hc1 : HyperCube}
    (h : addRows rs hc = .ok hc1)
    (hnd : (mapKeys hc.WorkRows ++
      (rs.filter (isWorkRow hc.Options)).map Response.RespondentID).Nodup) :
    mapKeys hc1.WorkRows =
      mapKeys hc.WorkRows ++ (rs.filter (isWorkRow hc.Options)).map Response.RespondentID := by
  induction rs generalizing hc with
  | nil => simp only [addRows] at h; cases h; simp
  | cons r rs ih =>
    simp only [addRows] at h
    split at h
    · cases h
    · rename_i hc2 h2
      have hops := addRow_Options h2
      rcases addRow_ok_cases h2 with ⟨hg, hb⟩ | ⟨hw, hb⟩
      · obtain ⟨dims, index, _, rfl⟩ := addRowBody_goal hb
        have hnw := isGoalRow_not_isWorkRow hg
        rw [List.filter_cons, hnw] at hnd ⊢
        simp only [Bool.false_eq_true, if_false] at hnd ⊢
        have := ih h hnd
        exact this
      · obtain ⟨dims, index, _, rfl⟩ := addRowBody_work hb
        rw [List.filter_cons, hw] at hnd ⊢
        simp only [if_true, List.map_cons] at hnd ⊢
        have hnot : r.RespondentID ∉ mapKeys hc.WorkRows := by
          intro hm
          have := (List.nodup_append.1 hnd).2.2
          exact this hm (List.mem_cons_self _ _)
        have hk : mapKeys (mapSet hc.WorkRows r.RespondentID
            (addRowMembership r index hc.Options.Columns hc.DimValues []).2) =
            mapKeys hc.WorkRows ++ [r.RespondentID] := by
          rw [mapSet_of_not_mem _ _ _ hnot]
          simp [mapKeys]
        have := ih h (by
          simp only
          rw [hk, List.append_assoc]
          exact hnd)
        simp only at this
        rw [this, hk, List.append_assoc]
        rfl

theorem mapGet?_map_pair (l : List String) (f : String → Flt) (k : String) (h : k ∈ l) :
    mapGet? (l.map (fun x => (x, f x))) k = some (f k) := by
  induction l with
  | nil => cases h
  | cons a l ih =>
    by_cases ha : a = k
    · subst ha
      simp [mapGet?]
    · rcases List.mem_cons.1 h with h1 | h1
      · exact absurd h1.symm ha
      · simp [mapGet?, ha, ih h1]

/-- The registry after a successful ingestion of responses with pairwise
distinct identifiers: its keys are the identifiers of the work rows in the order
of the responses, and it stores for each work row the values of the row. -/
theorem ingest_registry_list (ops : Options) (rs : List Response) (hc0 : HyperCube)
    (hid : (rs.map Response.RespondentID).Nodup)
    (hadd : addRows rs (discover (NewGroupedWeighter ops) rs) = .ok hc0) :
    mapKeys hc0.WorkRows = (rs.filter (isWorkRow ops)).map Response.RespondentID ∧
    ∀ r ∈ rs, isWorkRow ops r = true → ∀ c ∈ ops.Columns,
      storedValue hc0 r.RespondentID c = r.get c := by
  have hDops : (discover (NewGroupedWeighter ops) rs).Options = ops := discover_Options _ _
  have hW0 : (discover (NewGroupedWeighter ops) rs).WorkRows = [] := (discover_frame ops rs).2.1
  have hsub : ((rs.filter (isWorkRow ops)).map Response.RespondentID).Nodup :=
    List.Nodup.sublist (List.Sublist.map _ (List.filter_sublist rs)) hid
  have hlist := addRows_WorkRows_list hadd (by
    rw [hW0, hDops]
    simpa [mapKeys] using hsub)
  rw [hW0, hDops] at hlist
  refine ⟨by simpa [mapKeys] using hlist, ?_⟩
  intro r hr hw c hc
  have hmem : r.RespondentID ∈ mapKeys hc0.WorkRows := by
    rw [addRows_WorkRows_keys hadd, hDops]
    exact Or.inr ⟨r, hr, hw, rfl⟩
  obtain ⟨target, hget⟩ := Option.isSome_iff_exists.1 ((mapGet?_isSome_iff _ _).2 hmem)
  rcases addRows_registry hadd r.RespondentID target hget with h | ⟨r1, hr1, _, hid1, ht⟩
  · rw [hW0] at h
    simp [mapGet?] at h
  · have heq : r1 = r := List.inj_on_of_nodup_map hid hr1 hr hid1
    subst heq
    unfold storedValue
    rw [hget, Option.getD_some, ht c (by rw [hDops] at *; exact hc), Option.getD_some]

/-- C17. After a successful run of `Weight` with pairwise distinct columns and
pairwise distinct respondent identifiers, for every configured column the
`WorkSum` of the dimension is the sum of the final (capped) weights of the work
respondents, the `WorkSum` of every value of the column is the sum of the final
weights of the work respondents that carry the value (zero when none does), and
`Stats.AverageWeight` is the sum of the final weights divided by the number of
work respondents.  The sums run in the order of the responses. -/
theorem work_sums_are_sums_of_final_weights (ops : Options) (responses : List Response)
    (res : Result) (hc : HyperCube) (hnd : ops.Columns.Nodup)
    (hid : (responses.map Response.RespondentID).Nodup)
    (hrun : run (NewGroupedWeighter ops) responses = .ok hc)
    (hok : Weight (NewGroupedWeighter ops) responses = .ok res) :
    (∀ c ∈ ops.Columns,
      (getDim hc.Dimensions c).WorkSum =
        fltSum ((responses.filter (isWorkRow ops)).map
          (fun r => finalWeight res r.RespondentID)) (Flt.fin 0) ∧
      ∀ k, (getVal (getDim hc.Dimensions c).Values k).WorkSum =
        fltSum ((responses.filter (fun r => isWorkRow ops r && decide (r.get c = k))).map
          (fun r => finalWeight res r.RespondentID)) (Flt.fin 0)) ∧
    res.Stats.AverageWeight =
      fltSum ((responses.filter (isWorkRow ops)).map
        (fun r => finalWeight res r.RespondentID)) (Flt.fin 0) /
        Flt.ofNat (responses.countP (isWorkRow ops)) := by
  obtain ⟨hc1, hrun1, hresW, hresS⟩ := Weight_ok hok
  rw [hrun] at hrun1
  cases hrun1
  obtain ⟨hc0, hadd, hrd⟩ := run_ok hrun
  obtain ⟨hframe, hregL, _, _⟩ := raked_state ops responses hc0 hadd
  obtain ⟨hkeys0, hstored⟩ := ingest_registry_list ops responses hc0 hid hadd
  have hops0 : hc0.Options = ops := (addRows_Options hadd).trans (discover_Options _ _)
  generalize hL : rakeLoop hc0.Options.MaxIterations.toNat (snapshot hc0) = hcL at hframe hregL
  have hrd1 : hc = setEffectiveBaseSize hcL := by rw [hrd, ← hL]; rfl
  have hopsL : hcL.Options = ops := hframe.1.symm.trans hops0
  have hWL : hcL.WorkRows = hc0.WorkRows := hframe.2.1.symm
  have hsc := setEffectiveBaseSize_sameCube hcL hregL
  rw [← hrd1] at hsc
  have h0 : sameCube hcL
      { hcL with Dimensions := resetWorkSums hcL.Options.Columns hcL.Dimensions } :=
    ⟨rfl, rfl, rfl, rfl, rfl, resetWorkSums_sameIndexing _ _, rfl, rfl, rfl, rfl⟩
  have hreg0 := RegistryOK_of_sameCube h0 hregL
  -- the weights of the result
  have hkeysL : mapKeys hcL.WorkRows =
      (responses.filter (isWorkRow ops)).map Response.RespondentID := by rw [hWL, hkeys0]
  have hknd : (mapKeys hcL.WorkRows).Nodup := by
    rw [hkeysL]
    exact List.Nodup.sublist (List.Sublist.map _ (List.filter_sublist responses)) hid
  have hresW1 : res.Weights =
      (mapKeys hcL.WorkRows).map (fun rid => (rid, weightOf hcL rid)) := by
    rw [hresW, getWeights, ← hsc.2.1,
      getWeightsLoop_map _ _ _ hknd (fun _ _ h => by simp [mapKeys] at h), List.nil_append]
    apply List.map_congr_left
    intro rid _
    rw [weightOf_congr hsc rid]
  have hfw : ∀ r ∈ responses, isWorkRow ops r = true →
      weightOf hcL r.RespondentID = finalWeight res r.RespondentID := by
    intro r hr hw
    unfold finalWeight
    rw [hresW1, mapGet?_map_pair _ _ _ (by
      rw [hkeysL]
      exact List.mem_map.2 ⟨r, List.mem_filter.2 ⟨hr, hw⟩, rfl⟩), Option.getD_some]
  have hsumAll : fltSum ((mapKeys hcL.WorkRows).map (weightOf hcL)) (Flt.fin 0) =
      fltSum ((responses.filter (isWorkRow ops)).map
        (fun r => finalWeight res r.RespondentID)) (Flt.fin 0) := by
    rw [hkeysL, List.map_map]
    congr 1
    apply List.map_congr_left
    intro r hr
    obtain ⟨hr1, hr2⟩ := List.mem_filter.1 hr
    exact hfw r hr1 hr2
  have hD : hc.Dimensions = ((mapKeys hcL.WorkRows).foldl accumulateRow
      { hc := { hcL with
        Dimensions := resetWorkSums hcL.Options.Columns hcL.Dimensions } }).hc.Dimensions := by
    rw [hrd1]
    rfl
  refine ⟨?_, ?_⟩
  · intro c hcm
    obtain ⟨s1, s2⟩ := accumulateRows_sums (mapKeys hcL.WorkRows)
      { hc := { hcL with Dimensions := resetWorkSums hcL.Options.Columns hcL.Dimensions } }
      hcL h0 hreg0 (fun _ h => h) (by rw [hopsL]; exact hnd) c (by rw [hopsL]; exact hcm)
    obtain ⟨z1, z2⟩ := resetWorkSums_getDim hcL.Options.Columns hcL.Dimensions c
      (Or.inl (by rw [hopsL]; exact hcm))
    rw [hD]
    constructor
    · rw [s1, z1]
      exact hsumAll
    · intro k
      rw [s2 k, z2 k, hkeysL, List.filter_map, List.filter_filter, List.map_map]
      have hfilter : List.filter (fun a =>
          ((fun rid => decide (storedValue hcL rid c = k)) ∘ Response.RespondentID) a &&
            isWorkRow ops a) responses =
          List.filter (fun r => isWorkRow ops r && decide (r.get c = k)) responses := by
        apply List.filter_congr
        intro r hr
        by_cases hw : isWorkRow ops r = true
        · have : storedValue hcL r.RespondentID c = r.get c := by
            unfold storedValue
            rw [hWL]
            exact hstored r hr hw c hcm
          simp [hw, this]
        · simp [hw]
      rw [hfilter]
      congr 1
      apply List.map_congr_left
      intro r hr
      obtain ⟨hr1, hr2⟩ := List.mem_filter.1 hr
      simp only [Bool.and_eq_true] at hr2
      exact hfw r hr1 hr2.1
  · obtain ⟨t1, _, t3, _⟩ := accumulateRows_totals (mapKeys hcL.WorkRows)
      { hc := { hcL with Dimensions := resetWorkSums hcL.Options.Columns hcL.Dimensions } }
      hcL h0 hreg0 (fun _ h => h)
    have hA : hc.Stats.AverageWeight =
        ((mapKeys hcL.WorkRows).foldl accumulateRow
          { hc := { hcL with
            Dimensions := resetWorkSums hcL.Options.Columns hcL.Dimensions } }).totalSum /
        Flt.ofNat ((mapKeys hcL.WorkRows).foldl accumulateRow
          { hc := { hcL with
            Dimensions := resetWorkSums hcL.Options.Columns hcL.Dimensions } }).totalCount := by
      rw [hrd1]
      rfl
    rw [hresS, getWeights, (getWeightsLoop_Dimensions _ _ _).2, hA, t1, t3]
    simp only [Nat.zero_add]
    rw [hsumAll, hkeysL, List.length_map, ← List.countP_eq_length_filter]

theorem work_sums_are_sums_of_final_weights_witness :
    res7AB.Stats.AverageWeight =
      fltSum ((rs7.filter (isWorkRow opsAB)).map
        (fun r => finalWeight res7AB r.RespondentID)) (Flt.fin 0) /
        Flt.ofNat (rs7.countP (isWorkRow opsAB)) :=
  (work_sums_are_sums_of_final_weights opsAB rs7 res7AB (rakeDimensions ingested7)
    (by decide) (by decide) (by decide!) (by decide!)).2

/-! ## The closed form for one column -/

/-- C18. For a single configured column `c`, `MaxIterations ≥ 1`,
`LowerWeightCap ≤ 1 ≤ UpperWeightCap` and a response list on which `Weight`
succeeds and in which every value `v` carried by a work row is carried by
`g_v ≥ 1` goal rows with `LowerWeightCap ≤ g_v / c_v ≤ UpperWeightCap` (`c_v` the
number of work rows with `v`): every work respondent with value `v` (all the
work rows of its identifier carry `v`) gets the weight
`curb((g_v · WorkRows) / (c_v · GoalRows))`, whatever the threshold and the
number of iterations run. -/
theorem single_column_closed_form (ops : Options) (responses : List Response) (res : Result)
    (c : String) (hcols : ops.Columns = [c]) (hmax : 1 ≤ ops.MaxIterations)
    (hlo : ops.LowerWeightCap ≤ 1) (hhi : 1 ≤ ops.UpperWeightCap)
    (hratio : ∀ r ∈ responses, isWorkRow ops r = true →
      1 ≤ goalCount ops responses c (r.get c) ∧
      ops.LowerWeightCap ≤
        (goalCount ops responses c (r.get c) : ℚ) / (workCount ops responses c (r.get c) : ℚ) ∧
      (goalCount ops responses c (r.get c) : ℚ) / (workCount ops responses c (r.get c) : ℚ) ≤
        ops.UpperWeightCap)
    (hok : Weight (NewGroupedWeighter ops) responses = .ok res) :
    ∀ r ∈ responses, isWorkRow ops r = true →
      (∀ r1 ∈ responses, isWorkRow ops r1 = true → r1.RespondentID = r.RespondentID →
        r1.get c = r.get c) →
      mapGet? res.Weights r.RespondentID = some (curbWeight ops (Flt.fin
        (((goalCount ops responses c (r.get c) : ℚ) * (responses.countP (isWorkRow ops) : ℚ)) /
          ((workCount ops responses c (r.get c) : ℚ) *
            (responses.countP (isGoalRow ops) : ℚ))))).1 := by
  have hent := oneColumn_entries ops responses res c hcols hmax hlo hhi hratio hok
  intro r hr hwr hsame
  obtain ⟨hc1, hrun, hw, _⟩ := Weight_ok hok
  obtain ⟨hc0, hadd, rfl⟩ := run_ok hrun
  have hkey : r.RespondentID ∈ mapKeys res.Weights := by
    rw [hw, getWeights, getWeightsLoop_keys, rakeDimensions_WorkRows,
      addRows_WorkRows_keys hadd, discover_Options]
    exact Or.inl (Or.inr ⟨r, hr, hwr, rfl⟩)
  obtain ⟨b, hb⟩ := Option.isSome_iff_exists.1 ((mapGet?_isSome_iff _ _).2 hkey)
  obtain ⟨r1, hr1, hw1, hid1, hv⟩ := hent _ (mapGet?_mem _ _ _ hb)
  simp only at hid1 hv
  rw [hb, hv, hsame r1 hr1 hw1 hid1]

theorem single_column_closed_form_witness :
    mapGet? res2.Weights "a" = some (curbWeight ops1 (Flt.fin
      (((goalCount ops1 rs2 "D1" "x" : ℚ) * (rs2.countP (isWorkRow ops1) : ℚ)) /
        ((workCount ops1 rs2 "D1" "x" : ℚ) * (rs2.countP (isGoalRow ops1) : ℚ))))).1 :=
  single_column_closed_form ops1 rs2 res2 "D1" (by decide) (by decide) (by decide!)
    (by decide!) (by decide!) (by decide!) ⟨"a", [("D1", "x"), ("G", "2")]⟩ (by simp [rs2])
    (by decide) (by decide!)

/-! ## The cells the apply pass writes -/

theorem scaleCells_getD_mem (weight : Flt) (dv : List Nat) (ws : List Flt) (s : Flt) (j : Nat)
    (hnd : dv.Nodup) (hj : j ∈ dv) (hlt : j < ws.length) :
    (scaleCells weight dv ws s).1.getD j (Flt.fin 0) =
      rescale weight (ws.getD j (Flt.fin 0)) := by
  induction dv generalizing ws s with
  | nil => cases hj
  | cons i dv ih =>
    obtain ⟨hnot, hnd1⟩ := List.nodup_cons.1 hnd
    simp only [scaleCells]
    by_cases hij : i = j
    · subst hij
      rw [scaleCells_getD_frame _ _ _ _ _ hnot, getD_set]
      simp only [hlt, and_self, if_true]
      rfl
    · have hjd : j ∈ dv := by
        rcases List.mem_cons.1 hj with h | h
        · exact absurd h.symm hij
        · exact h
      rw [ih _ _ hnd1 hjd (by rw [List.length_set]; exact hlt), getD_set_ne _ _ _ hij]

/-- The apply pass leaves alone every cell that is in no membership set of the
values it visits. -/
theorem applyPass_getD_frame (ops : Options) (byVal : List (String × List Nat))
    (dimAdjust : Flt) (ks : List String) (ws : List Flt) (dim : Dimension) (rmse : Flt)
    (rmsn : Nat) (i : Nat)
    (h : ∀ k ∈ ks, ∀ dv, mapGet? byVal k = some dv → i ∉ dv) :
    (applyPass ops byVal dimAdjust ks ws dim rmse rmsn).1.getD i (Flt.fin 0) =
      ws.getD i (Flt.fin 0) := by
  induction ks generalizing ws dim rmse rmsn with
  | nil => rfl
  | cons k ks ih =>
    have hrest : ∀ k1 ∈ ks, ∀ dv, mapGet? byVal k1 = some dv → i ∉ dv :=
      fun k1 hk1 => h k1 (List.mem_cons_of_mem _ hk1)
    simp only [applyPass]
    cases hbv : mapGet? byVal k with
    | none => exact ih _ _ _ _ hrest
    | some dv =>
      simp only
      rw [ih _ _ _ _ hrest]
      exact scaleCells_getD_frame _ _ _ _ _ (h k (List.mem_cons_self _ _) dv hbv)

theorem applyPass_getVal_untouched (ops : Options) (byVal : List (String × List Nat))
    (dimAdjust : Flt) (ks : List String) (ws : List Flt) (dim : Dimension) (rmse : Flt)
    (rmsn : Nat) (k : String) (hk : k ∉ ks) :
    getVal (applyPass ops byVal dimAdjust ks ws dim rmse rmsn).2.1.Values k =
      getVal dim.Values k := by
  induction ks generalizing ws dim rmse rmsn with
  | nil => rfl
  | cons k1 ks ih =>
    have hne : k1 ≠ k := fun e => hk (by simp [e])
    have hks : k ∉ ks := fun e => hk (List.mem_cons_of_mem _ e)
    simp only [applyPass]
    cases mapGet? byVal k1 with
    | none => exact ih _ _ _ _ hks
    | some dv =>
      simp only
      rw [ih _ _ _ _ hks, getVal_mapSet, if_neg hne]

/-- The apply pass over pairwise distinct values with pairwise disjoint
membership sets rescales every cell of the set of a value once, by the weight
of that value. -/
theorem applyPass_getD_mem (ops : Options) (byVal : List (String × List Nat))
    (dimAdjust : Flt) (ks : List String) (ws : List Flt) (dim : Dimension) (rmse : Flt)
    (rmsn : Nat) (hnd : ks.Nodup)
    (hdisj : ∀ x y dvx dvy, x ≠ y → mapGet? byVal x = some dvx → mapGet? byVal y = some dvy →
      ∀ i ∈ dvx, i ∉ dvy)
    (k : String) (hk : k ∈ ks) (dv : List Nat) (hdv : mapGet? byVal k = some dv)
    (hdnd : dv.Nodup) (o : Nat) (ho : o ∈ dv) (hlt : o < ws.length) :
    (applyPass ops byVal dimAdjust ks ws dim rmse rmsn).1.getD o (Flt.fin 0) =
      rescale (getVal dim.Values k).Weight (ws.getD o (Flt.fin 0)) := by
  induction ks generalizing ws dim rmse rmsn with
  | nil => cases hk
  | cons k1 ks ih =>
    obtain ⟨hnot, hnd1⟩ := List.nodup_cons.1 hnd
    simp only [applyPass]
    by_cases hkk : k1 = k
    · subst hkk
      rw [hdv]
      simp only
      rw [applyPass_getD_frame _ _ _ _ _ _ _ _ _ (by
        intro k2 hk2 dv2 hdv2
        have hne : k1 ≠ k2 := fun e => hnot (e ▸ hk2)
        exact hdisj k1 k2 dv dv2 hne hdv hdv2 o ho)]
      exact scaleCells_getD_mem _ _ _ _ _ hdnd ho hlt
    · have hks : k ∈ ks := by
        rcases List.mem_cons.1 hk with h | h
        · exact absurd h.symm hkk
        · exact h
      cases hbv : mapGet? byVal k1 with
      | none => exact ih _ _ _ _ hnd1 hks hlt
      | some dv1 =>
        simp only
        rw [ih _ _ _ _ hnd1 hks (by rw [scaleCells_length]; exact hlt),
          scaleCells_getD_frame _ _ _ _ _ (fun hm => hdisj k1 k dv1 dv hkk hbv hdv o hm ho)]
        simp only [getVal_mapSet, if_neg hkk]

theorem rakeColumn_Workspace (st : Sweep) (c : String) :
    (rakeColumn st c).hc.Workspace =
      (applyPass st.hc.Options ((mapGet? st.hc.DimValues c).getD [])
        (st.dimAdjust * (recomputed st c).Adjustment) (mapKeys (recomputed st c).Values)
        st.hc.Workspace (recomputed st c) st.rmse st.rmsn).1 := rfl

/-- A column of a sweep leaves alone every cell that is in no membership set of
the column. -/
theorem rakeColumn_untouched (st : Sweep) (c : String) (i : Nat)
    (h : ∀ k dv, cells st.hc.DimValues c k = some dv → i ∉ dv) :
    (rakeColumn st c).hc.Workspace.getD i (Flt.fin 0) = st.hc.Workspace.getD i (Flt.fin 0) := by
  rw [rakeColumn_Workspace]
  exact applyPass_getD_frame _ _ _ _ _ _ _ _ i (fun k _ dv hdv => h k dv hdv)

/-- A cell that is in no membership set keeps its value through the raking
loop. -/
theorem rakeColumns_untouched (cols : List String) (st : Sweep) (i : Nat)
    (h : ∀ c k dv, cells st.hc.DimValues c k = some dv → i ∉ dv) :
    (cols.foldl rakeColumn st).hc.Workspace.getD i (Flt.fin 0) =
      st.hc.Workspace.getD i (Flt.fin 0) := by
  induction cols generalizing st with
  | nil => rfl
  | cons c cols ih =>
    simp only [List.foldl_cons]
    rw [ih (rakeColumn st c) (by
      rw [← (rakeColumn_frame st c).1.2.2.2.1]
      exact h), rakeColumn_untouched st c i (h c)]

theorem iterate_untouched (j : Nat) (hc : HyperCube) (i : Nat)
    (h : ∀ c k dv, cells hc.DimValues c k = some dv → i ∉ dv) :
    (rakeIteration^[j] hc).Workspace.getD i (Flt.fin 0) = hc.Workspace.getD i (Flt.fin 0) := by
  induction j generalizing hc with
  | zero => rfl
  | succ j ih =>
    rw [Function.iterate_succ_apply, ih (rakeIteration hc) (by
      rw [← (rakeIteration_frame hc).1.2.2.2.1]
      exact h), (rakeIteration_sweep hc).2]
    exact rakeColumns_untouched _ (sweepStart hc) i h

/-! ## The digits of a cell -/

theorem radix_stride_dvd (dims : List (String × Dimension)) (cols : List String) (b : Nat)
    (h : radixOK dims cols b) : ∀ c ∈ cols, b ∣ (getDim dims c).BlockSize := by
  induction cols generalizing b with
  | nil => intro c hc; cases hc
  | cons c0 rest ih =>
    intro c hc
    obtain ⟨h1, h2⟩ := h
    rcases List.mem_cons.1 hc with e | e
    · rw [e, h1]
    · exact Dvd.dvd.trans (Dvd.intro _ rfl) (ih _ h2 c e)

/-- The digit of a mixed-radix number for a column is the quotient by the
stride of the column, modulo its size. -/
theorem radix_digit (dims : List (String × Dimension)) (d : String → Nat) (cols : List String)
    (b : Nat) (hnd : cols.Nodup) (h : radixOK dims cols b) (hb : 0 < b)
    (hd : ∀ c ∈ cols, d c < (getDim dims c).Size) :
    ∀ c ∈ cols, ((cols.map (fun c => d c * (getDim dims c).BlockSize)).sum /
      (getDim dims c).BlockSize) % (getDim dims c).Size = d c := by
  induction cols generalizing b with
  | nil => intro c hc; cases hc
  | cons c0 rest ih =>
    intro c hc
    obtain ⟨hnot, hnd1⟩ := List.nodup_cons.1 hnd
    obtain ⟨h1, h2⟩ := h
    have hd0 := hd c0 (List.mem_cons_self _ _)
    have hs0 : 0 < (getDim dims c0).Size := by omega
    have hm : 0 < b * (getDim dims c0).Size := Nat.mul_pos hb hs0
    obtain ⟨t, ht⟩ := radix_dvd dims d rest _ h2
    simp only [List.map_cons, List.sum_cons]
    rw [ht, h1]
    rcases List.mem_cons.1 hc with e | e
    · subst e
      rw [h1]
      have key : (d c * b + b * (getDim dims c).Size * t) / b =
          d c + (getDim dims c).Size * t := by
        rw [Nat.mul_assoc, Nat.mul_comm (d c) b, ← Nat.mul_add, Nat.mul_div_cancel_left _ hb]
      rw [key, Nat.add_mul_mod_self_left, Nat.mod_eq_of_lt hd0]
    · obtain ⟨u, hu⟩ := radix_stride_dvd dims rest _ h2 c e
      have he : d c0 * b < b * (getDim dims c0).Size := by
        rw [Nat.mul_comm b]
        exact Nat.mul_lt_mul_of_pos_right hd0 hb
      have hI := ih _ hnd1 h2 hm (fun c1 hc1 => hd c1 (List.mem_cons_of_mem _ hc1)) c e
      rw [ht] at hI
      rw [← hI, hu]
      generalize b * (getDim dims c0).Size = m at hm he
      rw [← Nat.div_div_eq_div_mul, ← Nat.div_div_eq_div_mul,
        Nat.add_mul_div_left _ _ hm, Nat.div_eq_of_lt he, Nat.zero_add,
        Nat.mul_div_cancel_left _ hm]

/-- The cells of the cube after ingestion, whatever the columns: a cell of the
cube holds what it held plus the number of work rows of that cell. -/
theorem addRows_Workspace_cell {rs : List Response} {hc hc1 : HyperCube}
    (h : addRows rs hc = .ok hc1) :
    hc1.Workspace.length = hc.Workspace.length ∧
    ∀ i q, i < hc.Workspace.length → hc.Workspace.getD i (Flt.fin 0) = Flt.fin q →
      hc1.Workspace.getD i (Flt.fin 0) = Flt.fin (q + (rs.countP (fun r =>
        isWorkRow hc.Options r && decide (cellIndex hc.Dimensions hc.Options.Columns r = i)) :
          ℕ)) := by
  induction rs generalizing hc with
  | nil => simp only [addRows] at h; cases h; simp
  | cons r rs ih =>
    simp only [addRows] at h
    split at h
    · cases h
    · rename_i hc2 h2
      have hops := addRow_Options h2
      have hsame := addRow_sameIndexing h2
      have hci : ∀ r1, cellIndex hc2.Dimensions hc.Options.Columns r1 =
          cellIndex hc.Dimensions hc.Options.Columns r1 :=
        fun r1 => (cellIndex_congr hsame _ r1).symm
      rcases addRow_ok_cases h2 with ⟨hg, hb⟩ | ⟨hw, hb⟩
      · obtain ⟨dims, index, _, e⟩ := addRowBody_goal hb
        have hws : hc2.Workspace = hc.Workspace := by rw [e]
        obtain ⟨hl, hv⟩ := ih h
        refine ⟨by rw [hl, hws], ?_⟩
        intro i q hi hq
        rw [hv i q (by rw [hws]; exact hi) (by rw [hws]; exact hq)]
        simp only [List.countP_cons, isGoalRow_not_isWorkRow hg, hops, hci, Bool.false_and]
        simp
      · obtain ⟨dims, index, hcol, e⟩ := addRowBody_work hb
        have hidx := addRowColumns_index _ _ _ _ _ _ _ hcol
        simp only [if_true, Nat.zero_add] at hidx
        have hws : hc2.Workspace = hc.Workspace.set index
            (hc.Workspace.getD index (Flt.fin 0) + Flt.fin 1) := by rw [e]
        obtain ⟨hl, hv⟩ := ih h
        refine ⟨by rw [hl, hws, List.length_set], ?_⟩
        intro i q hi hq
        have hi2 : i < hc2.Workspace.length := by rw [hws, List.length_set]; exact hi
        by_cases hii : index = i
        · subst hii
          rw [hv index (q + 1) hi2 (by
            rw [hws, getD_set]
            simp only [hi, and_self, if_true, hq]
            rfl)]
          simp only [List.countP_cons, hw, hops, hci, hidx, Bool.true_and, decide_True,
            if_true]
          push_cast
          congr 1
          ring
        · rw [hv i q hi2 (by
            rw [hws, getD_set]
            simp only [hii, false_and, if_false]
            exact hq)]
          have hne : ¬ cellIndex hc.Dimensions hc.Options.Columns r = i := by
            rw [← hidx]; exact hii
          simp only [List.countP_cons, hops, hci, hne, decide_False, Bool.and_false]
          simp

theorem discover_Workspace_getD (hc : HyperCube) (rs : List Response) (i : Nat) :
    (discover hc rs).Workspace.getD i (Flt.fin 0) = Flt.fin 0 := by
  unfold discover configureBlockSize
  exact getD_replicate _ _ _

/-- C20. In a successful run, raking never writes the snapshot nor a cell that
no work row occupies: `Initspace` is the cube as ingestion left it, after any
number of iterations of the loop and after `rakeDimensions`; and every offset
`i` of the cube with `Initspace[i] = 0` is in no membership set (so no pass
visits it and the floor is never applied to it), and `Workspace[i]` is 0 after
any number of iterations and after `rakeDimensions`. -/
theorem raking_leaves_empty_cells_and_snapshot (ops : Options) (responses : List Response)
    (hc0 : HyperCube)
    (hadd : addRows responses (discover (NewGroupedWeighter ops) responses) = .ok hc0) :
    (rakeDimensions hc0).Initspace = hc0.Workspace ∧
    (∀ j, (rakeIteration^[j] (snapshot hc0)).Initspace = hc0.Workspace) ∧
    ∀ i, i < (rakeDimensions hc0).Initspace.length →
      (rakeDimensions hc0).Initspace.getD i (Flt.fin 0) = Flt.fin 0 →
      (∀ c k dv, cells hc0.DimValues c k = some dv → i ∉ dv) ∧
      (∀ j, (rakeIteration^[j] (snapshot hc0)).Workspace.getD i (Flt.fin 0) = Flt.fin 0) ∧
      (rakeDimensions hc0).Workspace.getD i (Flt.fin 0) = Flt.fin 0 := by
  obtain ⟨hinit, _⟩ := run_Initspace ops responses hc0 hadd
  have hDops : (discover (NewGroupedWeighter ops) responses).Options = ops :=
    discover_Options _ _
  obtain ⟨hlen, hcell⟩ := addRows_Workspace_cell hadd
  refine ⟨hinit, fun j => ((iterate_frame j (snapshot hc0)).1.2.2.1).symm, ?_⟩
  intro i hi hzero
  rw [hinit] at hi hzero
  have hcount := hcell i 0 (by rw [← hlen]; exact hi) (discover_Workspace_getD _ _ i)
  rw [hzero, hDops] at hcount
  have hc0' : responses.countP (fun r => isWorkRow ops r &&
      decide (cellIndex (discover (NewGroupedWeighter ops) responses).Dimensions
        ops.Columns r = i)) = 0 := by
    have := Flt.fin.inj hcount
    simp only [zero_add] at this
    exact_mod_cast this.symm
  have hno : ∀ c k dv, cells hc0.DimValues c k = some dv → i ∉ dv := by
    intro c k dv hdv hmem
    have := ((addRows_cells hadd c k).1 i).1 (by rw [hdv]; exact hmem)
    rw [(discover_frame ops responses).1, hDops] at this
    rcases this with h | ⟨_, r, hr, hw, _, hidx⟩
    · simp [cells, mapGet?] at h
    · have hpos : 0 < responses.countP (fun r => isWorkRow ops r &&
          decide (cellIndex (discover (NewGroupedWeighter ops) responses).Dimensions
            ops.Columns r = i)) :=
        List.countP_pos_iff.2 ⟨r, hr, by simp [hw, hidx]⟩
      omega
  have hiter : ∀ j, (rakeIteration^[j] (snapshot hc0)).Workspace.getD i (Flt.fin 0) =
      Flt.fin 0 := by
    intro j
    rw [iterate_untouched j (snapshot hc0) i hno]
    exact hzero
  refine ⟨hno, hiter, ?_⟩
  obtain ⟨_, hregL, _, _⟩ := raked_state ops responses hc0 hadd
  have hsc := setEffectiveBaseSize_sameCube _ hregL
  obtain ⟨k, _, hloop, _, _, _⟩ := rakeLoop_spec hc0.Options.MaxIterations.toNat (snapshot hc0)
  show (setEffectiveBaseSize (rakeLoop hc0.Options.MaxIterations.toNat
    (snapshot hc0))).Workspace.getD i (Flt.fin 0) = Flt.fin 0
  rw [← hsc.2.2.1, hloop]
  exact hiter k

theorem raking_leaves_empty_cells_and_snapshot_witness :
    (rakeDimensions ingested7).Workspace.getD 3 (Flt.fin 0) = Flt.fin 0 :=
  ((raking_leaves_empty_cells_and_snapshot opsAB rs7 ingested7 (by decide!)).2.2 3
    (by decide!) (by decide!)).2.2

end Weighting
